import Mathlib

/-!
FrameLabeler: interval codec, label seeding and the annotation session

A shallow embedding of `FrameLabeler.cpp`.

* `std::set<int>` is a strictly increasing `List ℤ` (`insertFrame`, `eraseFrame`),
  so that turning a set into a vector is the identity.
* A `double` is the rational number it denotes (`ℚ`); an operation on `double` values
  is the exact operation followed by `roundDouble`, the rounding to the nearest
  binary64 value. The decoder, the numbers read from a line and the lines written by
  the encoder (`writeIntervalLines`) are computed this way. `writeIntervals` gives the
  intervals that the time marks denote, with the quotients `mark / fps` kept exact.
* `int` values are integers, and the places where the code mixes `int` with the
  unsigned `size()` go through `toSizeT` / `toInt`; an `int` addition that can leave
  the 32-bit range goes through `wrapInt`.
* A frame held in a buffer is represented by its frame number.
* A call that may throw (`vector::at`, `throw -2`) or read `front()` of an empty
  vector returns `Option` / `Except`.
-/

namespace FrameLabeler

/-! ## `std::set<int>` -/

/-- Insertion `set<int>::insert`: ordered, without duplicates. -/
def insertFrame (x : ℤ) : List ℤ → List ℤ
  | [] => [x]
  | y :: ys =>
    if x < y then x :: y :: ys
    else if x = y then y :: ys
    else y :: insertFrame x ys

/-- Removal `set<int>::erase`. -/
def eraseFrame (x : ℤ) (s : List ℤ) : List ℤ :=
  s.filter (fun y => decide (y ≠ x))

/-! ## `double` arithmetic -/

/-- Rounding of `a / b` to the nearest natural number, ties to the even one. -/
def roundDiv (a b : ℕ) : ℕ :=
  if 2 * (a % b) < b then a / b
  else if b < 2 * (a % b) then a / b + 1
  else if (a / b) % 2 = 0 then a / b else a / b + 1

/-- The number of binary digits of `n`, less one, with a bound on the number of halvings
(`floorLog2 n n` is the integer part of the binary logarithm of `n`). -/
def floorLog2 : ℕ → ℕ → ℕ
  | 0, _ => 0
  | fuel + 1, n => if n < 2 then 0 else floorLog2 fuel (n / 2) + 1

/-- The binary exponent of `n / d`, for positive `n` and `d`: the `e` with
`2 ^ e ≤ n / d < 2 ^ (e + 1)`. -/
def binaryExponent (n d : ℕ) : ℤ :=
  let a := floorLog2 n n
  let b := floorLog2 d d
  if a ≥ b then
    (if d * 2 ^ (a - b) ≤ n then ((a - b : ℕ) : ℤ) else ((a - b : ℕ) : ℤ) - 1)
  else
    (if d ≤ n * 2 ^ (b - a) then -((b - a : ℕ) : ℤ) else -((b - a : ℕ) : ℤ) - 1)

/-- The `double` nearest to `x` (IEEE 754 binary64, rounding to nearest, ties to even):
`x` is rounded to a multiple of `2 ^ q`, where `q` leaves 53 significant bits and is at
least `-1074` (the subnormal range). A result of magnitude `2 ^ 1024` or more stands for
an infinite `double`; the places where this matters test `doubleOverflow`. -/
def roundDouble (x : ℚ) : ℚ :=
  if x = 0 then 0
  else
    let q := max (binaryExponent x.num.natAbs x.den - 52) (-1074)
    let m :=
      if q ≤ 0 then roundDiv (x.num.natAbs * 2 ^ (-q).toNat) x.den
      else roundDiv x.num.natAbs (x.den * 2 ^ q.toNat)
    (if x < 0 then -1 else 1) * (m : ℚ) * 2 ^ q

/-- The least magnitude that rounds to an infinite `double`: halfway between the largest
finite `double` and `2 ^ 1024`. -/
def doubleOverflow : ℚ := 2 ^ 1024 - 2 ^ 970

/-! ## The interval records of an ETF file -/

/-- The three fields of an ETF line that the program uses: begin time, duration
and the polarity flag (`"t"` positive, anything else negative). -/
structure ETFRecord where
  beginTime : ℚ
  duration : ℚ
  label : String
deriving DecidableEq

/-! ## `generateAndSaveETFFile` -/

/-- The `for (int i = 1; ...)` loop over the vector of the walked class.
`last` is `lastPositive` (resp. `lastNegative`), which always equals
`vector.at(i - 1)`. -/
def timeMarksLoop : ℤ → List ℤ → List ℤ
  | _, [] => []
  | last, x :: rest =>
    (if last + 1 ≠ x then [last + 1, x] else []) ++ timeMarksLoop x rest

/-- The marks pushed for the walked class: `front()`, the loop, `back() + 1`. -/
def classTimeMarks (front : ℤ) (v : List ℤ) : List ℤ :=
  front :: (timeMarksLoop front v.tail ++ [v.getLastD front + 1])

/-- The values of `beginsNegative` and `videoTimeMarks` in `generateAndSaveETFFile`;
`none` when `front()` is read from an empty vector. -/
def videoTimeMarks (totalFramesCount : ℤ) (positiveFrames negativeFrames : List ℤ) :
    Option (Bool × List ℤ) :=
  if positiveFrames.isEmpty && !negativeFrames.isEmpty then
    some (true, [0, totalFramesCount])
  else if !positiveFrames.isEmpty && negativeFrames.isEmpty then
    some (false, [0, totalFramesCount])
  else
    match negativeFrames.head?, positiveFrames.head? with
    | some nf, some pf =>
      if nf < pf then
        some (true, 0 :: (classTimeMarks pf positiveFrames ++ [totalFramesCount]))
      else
        some (false, 0 :: (classTimeMarks nf negativeFrames ++ [totalFramesCount]))
    | _, _ => none

/-- The flag character written for an interval. -/
def polarityFlag (beginsNegative : Bool) : String :=
  if beginsNegative then "f" else "t"

/-- The writing loop: one record per pair of consecutive marks with a positive
duration, the polarity flipping at every pair. -/
def writeIntervals (videoFPS : ℚ) : Bool → List ℤ → List ETFRecord
  | beginsNegative, m0 :: m1 :: rest =>
    (if 0 < (m1 : ℚ) / videoFPS - (m0 : ℚ) / videoFPS then
      [⟨(m0 : ℚ) / videoFPS, (m1 : ℚ) / videoFPS - (m0 : ℚ) / videoFPS,
        polarityFlag beginsNegative⟩]
    else []) ++ writeIntervals videoFPS (!beginsNegative) (m1 :: rest)
  | _, _ => []

/-- The interval records written by `generateAndSaveETFFile`. -/
def generateAndSaveETFFile (videoFPS : ℚ) (totalFramesCount : ℤ)
    (positiveFrames negativeFrames : List ℤ) : Option (List ETFRecord) :=
  (videoTimeMarks totalFramesCount positiveFrames negativeFrames).map
    (fun bm => writeIntervals videoFPS bm.1 bm.2)

/-! ## `readInputETFFile` -/

/-- C `round`: to the nearest integer, halves away from zero. -/
def cppRound (x : ℚ) : ℤ :=
  if 0 ≤ x then ⌊x + 1 / 2⌋ else ⌈x - 1 / 2⌉

/-- The loop `for (int i = ...; i < lastFrameNumber; i++) frames->insert(i)`,
with a bound on the number of iterations. -/
def insertFramesLoop (lastFrameNumber : ℚ) : ℕ → ℤ → List ℤ → List ℤ
  | 0, _, frames => frames
  | n + 1, i, frames =>
    if (i : ℚ) < lastFrameNumber then
      insertFramesLoop lastFrameNumber n (i + 1) (insertFrame i frames)
    else frames

/-- The frames `round(firstFrameNumber), ... < lastFrameNumber` inserted into a set. -/
def insertFrames (firstFrameNumber lastFrameNumber : ℚ) (frames : List ℤ) : List ℤ :=
  insertFramesLoop lastFrameNumber (⌈lastFrameNumber⌉ - cppRound firstFrameNumber).toNat
    (cppRound firstFrameNumber) frames

/-- The variable `firstFrameNumber = beginTime * videoFPS`, a `double` product. -/
def firstFrameNumber (videoFPS : ℚ) (r : ETFRecord) : ℚ :=
  roundDouble (r.beginTime * videoFPS)

/-- The variable `lastFrameNumber = firstFrameNumber + duration * videoFPS`, a `double`
product and a `double` sum. -/
def lastFrameNumber (videoFPS : ℚ) (r : ETFRecord) : ℚ :=
  roundDouble (firstFrameNumber videoFPS r + roundDouble (r.duration * videoFPS))

/-- What `readInputETFFile` does with one parsed line. -/
def labelFrames (videoFPS : ℚ) (r : ETFRecord) (sets : List ℤ × List ℤ) :
    List ℤ × List ℤ :=
  if r.label = "t" then
    (insertFrames (firstFrameNumber videoFPS r) (lastFrameNumber videoFPS r) sets.1, sets.2)
  else
    (sets.1, insertFrames (firstFrameNumber videoFPS r) (lastFrameNumber videoFPS r) sets.2)

/-- The effect of `readInputETFFile` on the two sets for the parsed lines of the
wanted video, in file order. -/
def readRecords (videoFPS : ℚ) (records : List ETFRecord) (sets : List ℤ × List ℤ) :
    List ℤ × List ℤ :=
  records.foldl (fun acc r => labelFrames videoFPS r acc) sets

/-- The frames covered by a record, as the decoding loop runs over them. -/
def recordSpan (videoFPS : ℚ) (r : ETFRecord) (i : ℤ) : Prop :=
  cppRound (firstFrameNumber videoFPS r) ≤ i ∧ (i : ℚ) < lastFrameNumber videoFPS r

/-- Frame numbers `a, a + 1, ...` of the frames whose label in the list is `c`. -/
def framesOfClass (c : Bool) : ℤ → List Bool → List ℤ
  | _, [] => []
  | a, l :: ls =>
    if l = c then a :: framesOfClass c (a + 1) ls else framesOfClass c (a + 1) ls

/-- The labels (`true` = positive) of the frames `0 .. N - 1` for a positive set. -/
def frameLabels (totalFramesCount : ℤ) (positiveFrames : List ℤ) : List Bool :=
  (List.range totalFramesCount.toNat).map (fun (i : ℕ) => decide ((i : ℤ) ∈ positiveFrames))

/-- Maximal runs of equally labelled consecutive frames, as `(a, b, c)` for a run
`[a, b)` of class `c`: the scan is at frame `a`, inside a run of class `c` that
started at frame `s`. -/
def maximalRunsFrom : ℤ → Bool → ℤ → List Bool → List (ℤ × ℤ × Bool)
  | s, c, a, [] => [(s, a, c)]
  | s, c, a, l :: ls =>
    if l = c then maximalRunsFrom s c (a + 1) ls
    else (s, a, c) :: maximalRunsFrom a l (a + 1) ls

/-- The maximal runs of a list of labels that starts at frame 0. -/
def maximalRuns : List Bool → List (ℤ × ℤ × Bool)
  | [] => []
  | l :: ls => maximalRunsFrom 0 l 1 ls

/-- The interval of a run `[a, b)` of class `c`:
start `a / fps`, duration `(b - a) / fps`, polarity `c`. -/
def runInterval (videoFPS : ℚ) (run : ℤ × ℤ × Bool) : ETFRecord :=
  ⟨(run.1 : ℚ) / videoFPS, ((run.2.1 : ℚ) - (run.1 : ℚ)) / videoFPS,
    if run.2.2 then "t" else "f"⟩

/-- Run-length encoding of a list of frame labels into intervals. -/
def runLengthIntervals (videoFPS : ℚ) (labels : List Bool) : List ETFRecord :=
  (maximalRuns labels).map (runInterval videoFPS)

/-! ## The text of an ETF line -/

/-- The test `isspace` in the classic locale: space and the characters 9 to 13. -/
def isSpace (c : Char) : Bool :=
  c.toNat = 32 || (9 ≤ c.toNat && c.toNat ≤ 13)

/-- The whitespace-separated fields of a character sequence, `cur` being the field
under construction. -/
def fieldsFrom : List Char → List Char → List (List Char)
  | cur, [] => if cur.isEmpty then [] else [cur]
  | cur, c :: cs =>
    if isSpace c then
      (if cur.isEmpty then fieldsFrom [] cs else cur :: fieldsFrom [] cs)
    else fieldsFrom (cur ++ [c]) cs

/-- The fields that the successive `>>` extractions on the line stream see. -/
def lineFields (etfLine : String) : List String :=
  (fieldsFrom [] etfLine.data).map String.mk

/-- The whitespace that a formatted extraction skips first. -/
def skipSpaces (stream : List Char) : List Char :=
  stream.dropWhile isSpace

/-- Extraction `stream >> string`: whitespace is skipped, then the characters up to the
next whitespace are taken; fails when nothing but whitespace is left. -/
def extractToken (stream : List Char) : Option (String × List Char) :=
  match (skipSpaces stream).span (fun c => !isSpace c) with
  | ([], _) => none
  | (token, rest) => some (String.mk token, rest)

/-- Extraction `stream >> double`: whitespace is skipped, then the library reader
`readDouble` (the facet `num_get`) takes the characters of a number from the front of
the stream and returns its value and the characters it left. -/
def extractDouble (readDouble : List Char → Option (ℚ × List Char)) (stream : List Char) :
    Option (ℚ × List Char) :=
  readDouble (skipSpaces stream)

/-- The nine extractions of `readInputETFFile` on one line; `none` when
`etfLineStream.fail()`. -/
def parseETFLine (readDouble : List Char → Option (ℚ × List Char)) (etfLine : String) :
    Option ETFRecord := do
  let s0 := etfLine.data
  let (_, s1) ← extractToken s0
  let (_, s2) ← extractToken s1
  let (beginTime, s3) ← extractDouble readDouble s2
  let (duration, s4) ← extractDouble readDouble s3
  let (_, s5) ← extractToken s4
  let (_, s6) ← extractToken s5
  let (_, s7) ← extractToken s6
  let (_, s8) ← extractToken s7
  let (label, _) ← extractToken s8
  pure ⟨beginTime, duration, label⟩

/-- The test `etfLine[0] != '#' && etfLine.find(videoFileName) != string::npos`. -/
def lineMatches (videoFileName etfLine : String) : Bool :=
  decide (etfLine.data.head? ≠ some (Char.ofNat 35))
    && decide (videoFileName.data <:+: etfLine.data)

/-- Equality of two results of a call that may throw is decidable. -/
instance decidableEqExcept {ε α : Type} [DecidableEq ε] [DecidableEq α] :
    DecidableEq (Except ε α)
  | Except.ok a, Except.ok b =>
    if h : a = b then isTrue (by rw [h]) else isFalse (fun h' => h (Except.ok.inj h'))
  | Except.error a, Except.error b =>
    if h : a = b then isTrue (by rw [h]) else isFalse (fun h' => h (Except.error.inj h'))
  | Except.ok _, Except.error _ => isFalse (fun h => Except.noConfusion h)
  | Except.error _, Except.ok _ => isFalse (fun h => Except.noConfusion h)

/-- The body of the `while (getline ...)` loop of `readInputETFFile`: the error
value is the thrown integer. -/
def readETFLine (readDouble : List Char → Option (ℚ × List Char)) (videoFileName : String)
    (videoFPS : ℚ) (etfLine : String) (sets : List ℤ × List ℤ) :
    Except ℤ (List ℤ × List ℤ) :=
  if lineMatches videoFileName etfLine then
    match parseETFLine readDouble etfLine with
    | none => Except.error (-2)
    | some r => Except.ok (labelFrames videoFPS r sets)
  else Except.ok sets

/-- The function `readInputETFFile` on the lines of an opened file. -/
def readInputETFFile (readDouble : List Char → Option (ℚ × List Char))
    (videoFileName : String) (videoFPS : ℚ) :
    List String → List ℤ × List ℤ → Except ℤ (List ℤ × List ℤ)
  | [], sets => Except.ok sets
  | etfLine :: rest, sets =>
    match readETFLine readDouble videoFileName videoFPS etfLine sets with
    | Except.error e => Except.error e
    | Except.ok sets' => readInputETFFile readDouble videoFileName videoFPS rest sets'

/-! ## The library reader of a `double` -/

/-- The value of a sequence of decimal digits. -/
def digitsValue (digits : List Char) : ℕ :=
  digits.foldl (fun n c => 10 * n + (c.toNat - 48)) 0

/-- An optional sign at the front of the stream: whether it is `-`, and what follows. -/
def readSign : List Char → Bool × List Char
  | [] => (false, [])
  | c :: cs =>
    if c = '-' then (true, cs) else if c = '+' then (false, cs) else (false, c :: cs)

/-- An optional decimal point followed by digits: the digits, and what follows. -/
def readFraction : List Char → List Char × List Char
  | [] => ([], [])
  | c :: cs => if c = '.' then cs.span Char.isDigit else ([], c :: cs)

/-- The conversion of the characters accumulated for a number of magnitude `x`: the
nearest `double`, and a failure when that is infinite. -/
def convertDouble (negative : Bool) (x : ℚ) (rest : List Char) : Option (ℚ × List Char) :=
  if x < doubleOverflow then some (roundDouble (if negative then -x else x), rest) else none

/-- The exponent that follows an `e`: an optional sign and digits, one at least. -/
def readExponent (negative : Bool) (mantissa : ℚ) (stream : List Char) :
    Option (ℚ × List Char) :=
  if ((readSign stream).2.span Char.isDigit).1 = [] then none
  else
    convertDouble negative
      (mantissa * 10 ^ (if (readSign stream).1
        then -(digitsValue ((readSign stream).2.span Char.isDigit).1 : ℤ)
        else (digitsValue ((readSign stream).2.span Char.isDigit).1 : ℤ)))
      ((readSign stream).2.span Char.isDigit).2

/-- What follows the digits of the mantissa: an exponent when the next character is `e`
or `E`, nothing otherwise. -/
def readTail (negative : Bool) (mantissa : ℚ) : List Char → Option (ℚ × List Char)
  | [] => convertDouble negative mantissa []
  | c :: rest =>
    if c = 'e' ∨ c = 'E' then readExponent negative mantissa rest
    else convertDouble negative mantissa (c :: rest)

/-- The mantissa and what follows it: digits, an optional point and digits; a failure
when there is no digit at all. -/
def readMantissa (negative : Bool) (stream : List Char) : Option (ℚ × List Char) :=
  if (stream.span Char.isDigit).1 ++ (readFraction (stream.span Char.isDigit).2).1 = []
  then none
  else
    readTail negative
      ((digitsValue ((stream.span Char.isDigit).1
          ++ (readFraction (stream.span Char.isDigit).2).1) : ℚ)
        / 10 ^ (readFraction (stream.span Char.isDigit).2).1.length)
      (readFraction (stream.span Char.isDigit).2).2

/-- The reader of a `double` of the GNU library in the classic locale, on a stream whose
leading whitespace has been skipped: an optional sign, digits, an optional point and
digits, then, if a digit has been read, an optional `e` or `E` with an optional sign and
digits. The reader stops at the first character that cannot go on with this form and
leaves it in the stream. It fails when no digit has been read, when an `e` is not
followed by a digit, and when the value is too large for a `double`; otherwise the value
is the `double` nearest to the decimal number read. -/
def streamReadDouble (stream : List Char) : Option (ℚ × List Char) :=
  readMantissa (readSign stream).1 (readSign stream).2

/-- A rest of the stream that is empty or begins with whitespace: what follows a
whitespace-separated field. -/
def EndsField (t : List Char) : Prop :=
  t = [] ∨ ∃ c r, t = c :: r ∧ isSpace c = true

/-! ## Initial label seeding (`runVideoAnnotationSupport`) -/

/-- The loop `for (int i = 0; i < frameFilePaths.size(); i++) negativeFrames.insert(i)`. -/
def allFramesNegative (frameCount : ℕ) : List ℤ :=
  (List.range frameCount).foldl (fun frames (i : ℕ) => insertFrame (i : ℤ) frames) []

/-- The positive and negative sets with which `showVideoFrames` is called:
read from the lines of the input ETF file when one is given, all negative otherwise. -/
def seedLabelSets (readDouble : List Char → Option (ℚ × List Char))
    (parsedVideoFileName : String)
    (videoFPS : ℚ) (frameCount : ℕ) (inputETFFile : Option (List String)) :
    Except ℤ (List ℤ × List ℤ) :=
  match inputETFFile with
  | some etfLines => readInputETFFile readDouble parsedVideoFileName videoFPS etfLines ([], [])
  | none => Except.ok ([], allFramesNegative frameCount)

/-! ## The annotation session (`showVideoFrames`, `treatKeyboardInput`) -/

/-- Size of each of the three frame buffers. -/
def VIDEO_FRAME_BUFFERS_SIZE : ℤ := 64

/-- Number of frames to jump with the `w` / `z` keys. -/
def FRAME_JUMP_SIZE : ℤ := 100

/-- Conversion of an `int` to the unsigned 64-bit `size_t`. -/
def toSizeT (x : ℤ) : ℕ := (x % 2 ^ 64).toNat

/-- Conversion of a `size_t` to a 32-bit `int`. -/
def toInt (n : ℕ) : ℤ :=
  if n % 2 ^ 32 < 2 ^ 31 then ((n % 2 ^ 32 : ℕ) : ℤ) else ((n % 2 ^ 32 : ℕ) : ℤ) - 2 ^ 32

/-- Subtraction of two `size_t` values. -/
def sizeSub (a b : ℕ) : ℕ := (2 ^ 64 + a - b % 2 ^ 64) % 2 ^ 64

/-- The value that an `int` holds after an addition whose exact result is `x`: `x`
itself when it fits in 32 bits, and `x` reduced modulo `2 ^ 32` into
`[-2 ^ 31, 2 ^ 31)` otherwise (the overflow of a signed addition as the usual targets
compile it). -/
def wrapInt (x : ℤ) : ℤ := (x + 2147483648) % 4294967296 - 2147483648

/-- The variables of `showVideoFrames`. `frameFilePathsSize` is
`frameFilePaths->size()`; a buffer holds the numbers of the frames loaded in it. -/
structure Session where
  frameFilePathsSize : ℕ
  currentVideoFrameNumber : ℤ
  refCurrentBufferedFrameNumber : ℤ
  videoShowingDelay : ℤ
  playReverse : Bool
  overwriteLabels : Bool
  currentLabel : ℤ
  currentVideoFrameBuffer : List ℤ
  previousVideoFrameBuffer : List ℤ
  nextVideoFrameBuffer : List ℤ
  positiveFrames : List ℤ
  negativeFrames : List ℤ
deriving DecidableEq

/-- The loop of `loadVideoFrames`, with a bound on the number of iterations;
`none` when `frameFilePaths->at(i)` throws. -/
def loadVideoFramesLoop (size : ℕ) (finalFrameNumber : ℤ) : ℕ → ℤ → List ℤ → Option (List ℤ)
  | 0, _, frameBuffer => some frameBuffer
  | n + 1, i, frameBuffer =>
    if i < finalFrameNumber then
      (if toSizeT i < size then
        loadVideoFramesLoop size finalFrameNumber n (i + 1) (frameBuffer ++ [i])
      else none)
    else some frameBuffer

/-- The function `loadVideoFrames`: appends the frames
`[initialFrameNumber, finalFrameNumber)`. -/
def loadVideoFrames (frameBuffer : List ℤ) (initialFrameNumber finalFrameNumber : ℤ)
    (size : ℕ) : Option (List ℤ) :=
  loadVideoFramesLoop size finalFrameNumber (finalFrameNumber - initialFrameNumber).toNat
    initialFrameNumber frameBuffer

/-- One pass of a thread of `loadVideoFrameBuffer` through its loop body: an empty
buffer is filled, a non-empty one is left alone. -/
def loadVideoFrameBuffer (next : Bool) (s : Session) : Option Session :=
  if s.frameFilePathsSize = 0 then some s
  else if next then
    if s.nextVideoFrameBuffer.isEmpty then
      let initial0 := s.refCurrentBufferedFrameNumber + VIDEO_FRAME_BUFFERS_SIZE
      let initialFrameNumber :=
        if toSizeT initial0 ≥ s.frameFilePathsSize then s.refCurrentBufferedFrameNumber
        else initial0
      let final0 := initialFrameNumber + VIDEO_FRAME_BUFFERS_SIZE
      let finalFrameNumber :=
        if toSizeT final0 ≥ s.frameFilePathsSize then toInt s.frameFilePathsSize else final0
      (loadVideoFrames s.nextVideoFrameBuffer initialFrameNumber finalFrameNumber
        s.frameFilePathsSize).map (fun b => { s with nextVideoFrameBuffer := b })
    else some s
  else
    if s.previousVideoFrameBuffer.isEmpty then
      let initial0 := s.refCurrentBufferedFrameNumber - VIDEO_FRAME_BUFFERS_SIZE
      let initialFrameNumber := if initial0 < 0 then 0 else initial0
      let final0 := initialFrameNumber + VIDEO_FRAME_BUFFERS_SIZE
      let finalFrameNumber :=
        if toSizeT final0 ≥ s.frameFilePathsSize then toInt s.frameFilePathsSize else final0
      (loadVideoFrames s.previousVideoFrameBuffer initialFrameNumber finalFrameNumber
        s.frameFilePathsSize).map (fun b => { s with previousVideoFrameBuffer := b })
    else some s

/-- The tail shared by the keys `w`, `z`, `b`, `e`, `j`, `k`: the three buffers are
cleared and the current one is loaded from the reference frame number. -/
def gatherCurrentBuffer (s : Session) : Option Session :=
  let finalFrameNumber : ℕ :=
    if toSizeT (s.refCurrentBufferedFrameNumber + VIDEO_FRAME_BUFFERS_SIZE)
        < s.frameFilePathsSize then
      toSizeT (s.refCurrentBufferedFrameNumber + VIDEO_FRAME_BUFFERS_SIZE)
    else s.frameFilePathsSize
  (loadVideoFrames [] s.refCurrentBufferedFrameNumber (toInt finalFrameNumber)
    s.frameFilePathsSize).map (fun b =>
      { s with currentVideoFrameBuffer := b, previousVideoFrameBuffer := [],
               nextVideoFrameBuffer := [] })

/-- The assignments common to the jump keys once the new frame number is known. -/
def jumpToFrame (s : Session) (frameNumber : ℤ) : Option Session :=
  gatherCurrentBuffer
    { s with overwriteLabels := false, videoShowingDelay := 0,
             currentVideoFrameNumber := frameNumber,
             refCurrentBufferedFrameNumber :=
               Int.tdiv frameNumber VIDEO_FRAME_BUFFERS_SIZE * VIDEO_FRAME_BUFFERS_SIZE }

/-- The buffers after the current frame number went below the reference number. -/
def rotateBackward (s : Session) : Session :=
  { s with nextVideoFrameBuffer := s.currentVideoFrameBuffer,
           currentVideoFrameBuffer := s.previousVideoFrameBuffer,
           previousVideoFrameBuffer := [],
           refCurrentBufferedFrameNumber :=
             if s.refCurrentBufferedFrameNumber - VIDEO_FRAME_BUFFERS_SIZE ≥ 0 then
               s.refCurrentBufferedFrameNumber - VIDEO_FRAME_BUFFERS_SIZE
             else s.refCurrentBufferedFrameNumber }

/-- The buffers after the current frame number went past the current buffer. -/
def rotateForward (s : Session) : Session :=
  { s with previousVideoFrameBuffer := s.currentVideoFrameBuffer,
           currentVideoFrameBuffer := s.nextVideoFrameBuffer,
           nextVideoFrameBuffer := [],
           refCurrentBufferedFrameNumber :=
             if toSizeT (s.refCurrentBufferedFrameNumber + VIDEO_FRAME_BUFFERS_SIZE)
                 < s.frameFilePathsSize then
               s.refCurrentBufferedFrameNumber + VIDEO_FRAME_BUFFERS_SIZE
             else s.refCurrentBufferedFrameNumber }

/-- The loop `while (frames->find(frameNumber) != frames->end()) frameNumber--`,
with a bound on the number of iterations. -/
def scanDown (frames : List ℤ) : ℕ → ℤ → ℤ
  | 0, frameNumber => frameNumber
  | n + 1, frameNumber =>
    if frameNumber ∈ frames then scanDown frames n (frameNumber - 1) else frameNumber

/-- The loop `while (frames->find(frameNumber) != frames->end()) frameNumber++`,
with a bound on the number of iterations. -/
def scanUp (frames : List ℤ) : ℕ → ℤ → ℤ
  | 0, frameNumber => frameNumber
  | n + 1, frameNumber =>
    if frameNumber ∈ frames then scanUp frames n (frameNumber + 1) else frameNumber

/-- The frame number computed by the key `j`. -/
def previousMark (s : Session) : ℤ :=
  if s.currentVideoFrameNumber > 0 then
    (if s.currentVideoFrameNumber - 1 ∈ s.positiveFrames then
      scanDown s.positiveFrames s.positiveFrames.length (s.currentVideoFrameNumber - 1)
    else
      scanDown s.negativeFrames s.negativeFrames.length (s.currentVideoFrameNumber - 1)) + 1
  else s.currentVideoFrameNumber

/-- The frame number computed by the key `k`, before the final clamp. -/
def nextMark (s : Session) : ℤ :=
  if toSizeT s.currentVideoFrameNumber < sizeSub s.frameFilePathsSize 1 then
    (if s.currentVideoFrameNumber + 1 ∈ s.positiveFrames then
      scanUp s.positiveFrames s.positiveFrames.length (s.currentVideoFrameNumber + 1)
    else
      scanUp s.negativeFrames s.negativeFrames.length (s.currentVideoFrameNumber + 1))
  else s.currentVideoFrameNumber

/-- The function `treatKeyboardInput`; `none` when a call of `loadVideoFrames` throws. -/
def treatKeyboardInput (key : Char) (s : Session) : Option Session :=
  if key = 'q' then some { s with frameFilePathsSize := 0 }
  else if key = '+' then
    some { s with videoShowingDelay :=
      if s.videoShowingDelay > 20 then s.videoShowingDelay - 20 else 1 }
  else if key = '-' then
    some { s with videoShowingDelay := wrapInt (s.videoShowingDelay + 20) }
  else if key = ' ' then
    (if s.videoShowingDelay > 0 then some { s with videoShowingDelay := 0 }
     else some { s with videoShowingDelay := 40, playReverse := false })
  else if key = 'r' then
    some { s with videoShowingDelay := 40, overwriteLabels := false, playReverse := true }
  else if key = 'l' then
    some { s with videoShowingDelay := 0, overwriteLabels := !s.overwriteLabels }
  else if key = '0' then
    some { s with overwriteLabels := true, videoShowingDelay := 0, currentLabel := 0 }
  else if key = '1' then
    some { s with overwriteLabels := true, videoShowingDelay := 0, currentLabel := 1 }
  else if key = 'a' then
    let s1 := { s with overwriteLabels := false, videoShowingDelay := 0,
                       currentVideoFrameNumber :=
                         if s.currentVideoFrameNumber > 0 then s.currentVideoFrameNumber - 1
                         else 0 }
    if s1.currentVideoFrameNumber < s1.refCurrentBufferedFrameNumber then
      some (rotateBackward s1)
    else some s1
  else if key = 's' then
    let s1 := { s with videoShowingDelay := 0,
                       currentVideoFrameNumber :=
                         if toSizeT s.currentVideoFrameNumber < sizeSub s.frameFilePathsSize 1
                         then s.currentVideoFrameNumber + 1
                         else toInt (sizeSub s.frameFilePathsSize 1) }
    if s1.currentVideoFrameNumber
        ≥ s1.refCurrentBufferedFrameNumber + VIDEO_FRAME_BUFFERS_SIZE then
      some (rotateForward s1)
    else some s1
  else if key = 'w' then
    jumpToFrame s
      (if toSizeT s.currentVideoFrameNumber
          < sizeSub s.frameFilePathsSize (toSizeT FRAME_JUMP_SIZE) then
        s.currentVideoFrameNumber + FRAME_JUMP_SIZE
      else toInt (sizeSub s.frameFilePathsSize 1))
  else if key = 'z' then
    jumpToFrame s
      (if s.currentVideoFrameNumber > FRAME_JUMP_SIZE then
        s.currentVideoFrameNumber - FRAME_JUMP_SIZE
      else 0)
  else if key = 'b' then
    gatherCurrentBuffer
      { s with overwriteLabels := false, videoShowingDelay := 0,
               currentVideoFrameNumber := 0, refCurrentBufferedFrameNumber := 0 }
  else if key = 'e' then jumpToFrame s (toInt (sizeSub s.frameFilePathsSize 1))
  else if key = 'j' then jumpToFrame s (previousMark s)
  else if key = 'k' then
    jumpToFrame s
      (toInt (if toSizeT (nextMark s) < s.frameFilePathsSize then toSizeT (nextMark s)
        else sizeSub s.frameFilePathsSize 1))
  else some s

/-- The body of the main loop of `showVideoFrames` up to the display of the frame:
the frame is fetched with `at(currentVideoFrameNumber % VIDEO_FRAME_BUFFERS_SIZE)`
(`none` when this throws), the label is overwritten, and playback moves one frame. -/
def renderTick (s : Session) : Option Session :=
  if s.currentVideoFrameNumber ≥ 0
      ∧ toSizeT s.currentVideoFrameNumber < s.frameFilePathsSize then
    if toSizeT (Int.tmod s.currentVideoFrameNumber VIDEO_FRAME_BUFFERS_SIZE)
        < s.currentVideoFrameBuffer.length then
      let s1 :=
        if s.currentLabel = 0 ∧ s.overwriteLabels = true then
          { s with positiveFrames := eraseFrame s.currentVideoFrameNumber s.positiveFrames,
                   negativeFrames := insertFrame s.currentVideoFrameNumber s.negativeFrames }
        else if s.currentLabel = 1 ∧ s.overwriteLabels = true then
          { s with positiveFrames := insertFrame s.currentVideoFrameNumber s.positiveFrames,
                   negativeFrames := eraseFrame s.currentVideoFrameNumber s.negativeFrames }
        else s
      if s1.videoShowingDelay > 0 then
        if s1.playReverse = false
            ∧ toSizeT s1.currentVideoFrameNumber < sizeSub s1.frameFilePathsSize 1
            ∧ s1.nextVideoFrameBuffer.isEmpty = false then
          let s2 := { s1 with currentVideoFrameNumber := s1.currentVideoFrameNumber + 1 }
          if s2.currentVideoFrameNumber
              ≥ s2.refCurrentBufferedFrameNumber + VIDEO_FRAME_BUFFERS_SIZE then
            some (rotateForward s2)
          else some s2
        else if s1.playReverse = true ∧ s1.currentVideoFrameNumber > 0
            ∧ s1.previousVideoFrameBuffer.isEmpty = false then
          let s2 := { s1 with currentVideoFrameNumber := s1.currentVideoFrameNumber - 1 }
          if s2.currentVideoFrameNumber < s2.refCurrentBufferedFrameNumber then
            some (rotateBackward s2)
          else some s2
        else some s1
      else some s1
    else none
  else some s

/-- The variables of `showVideoFrames` when its main loop is entered: the thread of
the previous buffer has filled it from frame 0 and the current buffer is a copy of it;
the next buffer is still empty. -/
def sessionStart (frameCount : ℕ) (positiveFrames negativeFrames : List ℤ) :
    Option Session :=
  (loadVideoFrameBuffer false
    { frameFilePathsSize := frameCount, currentVideoFrameNumber := 0,
      refCurrentBufferedFrameNumber := 0, videoShowingDelay := 0, playReverse := false,
      overwriteLabels := false, currentLabel := 0, currentVideoFrameBuffer := [],
      previousVideoFrameBuffer := [], nextVideoFrameBuffer := [],
      positiveFrames := positiveFrames, negativeFrames := negativeFrames }).map
    (fun s => { s with currentVideoFrameBuffer := s.previousVideoFrameBuffer })

/-- One turn of the main loop: the frame is rendered, then the pressed key is treated. -/
def loopTurn (key : Char) (s : Session) : Option Session :=
  (renderTick s).bind (treatKeyboardInput key)

/-- The frame numbers of the half-open range `[a, b)`, in increasing order. -/
def frameRange (a b : ℤ) : List ℤ :=
  (List.range (b - a).toNat).map (fun (k : ℕ) => a + (k : ℤ))

/-- What happens to a session, one step at a time: a key is treated, a frame is
rendered (with its label overwrite and playback move), or one of the two buffer
threads passes through its loop body. -/
inductive SessionEvent where
  | key (c : Char)
  | tick
  | fill (next : Bool)

/-- The effect of one event on the session. -/
def applyEvent : SessionEvent → Session → Option Session
  | SessionEvent.key c, s => treatKeyboardInput c s
  | SessionEvent.tick, s => renderTick s
  | SessionEvent.fill next, s => loadVideoFrameBuffer next s

/-- The effect of a sequence of events, in order; `none` as soon as one throws. -/
def runEvents : List SessionEvent → Session → Option Session
  | [], s => some s
  | e :: es, s => (applyEvent e s).bind (runEvents es)

/-- The label overwrite of the main loop (the `if (currentLabel == 0 && overwriteLabels)`
statement), as a function of the session. -/
def overwriteLabel (s : Session) : Session :=
  if s.currentLabel = 0 ∧ s.overwriteLabels = true then
    { s with positiveFrames := eraseFrame s.currentVideoFrameNumber s.positiveFrames,
             negativeFrames := insertFrame s.currentVideoFrameNumber s.negativeFrames }
  else if s.currentLabel = 1 ∧ s.overwriteLabels = true then
    { s with positiveFrames := insertFrame s.currentVideoFrameNumber s.positiveFrames,
             negativeFrames := eraseFrame s.currentVideoFrameNumber s.negativeFrames }
  else s

/-- The playback move of the main loop (the `if (videoShowingDelay > 0)` statement),
as a function of the session. -/
def playbackMove (s1 : Session) : Session :=
  if s1.videoShowingDelay > 0 then
    if s1.playReverse = false
        ∧ toSizeT s1.currentVideoFrameNumber < sizeSub s1.frameFilePathsSize 1
        ∧ s1.nextVideoFrameBuffer.isEmpty = false then
      (if s1.currentVideoFrameNumber + 1
          ≥ s1.refCurrentBufferedFrameNumber + VIDEO_FRAME_BUFFERS_SIZE then
        rotateForward { s1 with currentVideoFrameNumber := s1.currentVideoFrameNumber + 1 }
      else { s1 with currentVideoFrameNumber := s1.currentVideoFrameNumber + 1 })
    else if s1.playReverse = true ∧ s1.currentVideoFrameNumber > 0
        ∧ s1.previousVideoFrameBuffer.isEmpty = false then
      (if s1.currentVideoFrameNumber - 1 < s1.refCurrentBufferedFrameNumber then
        rotateBackward { s1 with currentVideoFrameNumber := s1.currentVideoFrameNumber - 1 }
      else { s1 with currentVideoFrameNumber := s1.currentVideoFrameNumber - 1 })
    else s1
  else s1

/-- The frame number that each of the jump keys `w`, `z`, `b`, `e`, `j`, `k` assigns to
`*currentVideoFrameNumber` (the current frame number for any other key). -/
def jumpTarget (key : Char) (s : Session) : ℤ :=
  if key = 'w' then
    (if toSizeT s.currentVideoFrameNumber
        < sizeSub s.frameFilePathsSize (toSizeT FRAME_JUMP_SIZE) then
      s.currentVideoFrameNumber + FRAME_JUMP_SIZE
    else toInt (sizeSub s.frameFilePathsSize 1))
  else if key = 'z' then
    (if s.currentVideoFrameNumber > FRAME_JUMP_SIZE then
      s.currentVideoFrameNumber - FRAME_JUMP_SIZE
    else 0)
  else if key = 'b' then 0
  else if key = 'e' then toInt (sizeSub s.frameFilePathsSize 1)
  else if key = 'j' then previousMark s
  else if key = 'k' then
    toInt (if toSizeT (nextMark s) < s.frameFilePathsSize then toSizeT (nextMark s)
      else sizeSub s.frameFilePathsSize 1)
  else s.currentVideoFrameNumber

/-- A stopped session of `frameCount` frames standing on `frameNumber`, with the given
label sets and empty buffers; used in examples. -/
def markSession (frameCount : ℕ) (frameNumber : ℤ) (positiveFrames negativeFrames : List ℤ) :
    Session :=
  { frameFilePathsSize := frameCount, currentVideoFrameNumber := frameNumber,
    refCurrentBufferedFrameNumber := 0, videoShowingDelay := 0, playReverse := false,
    overwriteLabels := false, currentLabel := 0, currentVideoFrameBuffer := [],
    previousVideoFrameBuffer := [], nextVideoFrameBuffer := [],
    positiveFrames := positiveFrames, negativeFrames := negativeFrames }

/-! ## The frame status drawn by `prepareToRenderFrameStatus` -/

/-- The two sets handed to `prepareToRenderFrameStatus`. -/
inductive LabelSetId where
  | positiveFrames
  | negativeFrames
deriving DecidableEq

/-- An iterator of a `set<int>`: the set it runs over and the element it points at,
`none` for the past-the-end iterator. Iterators of two different sets are never equal. -/
structure SetIterator where
  container : LabelSetId
  element : Option ℤ
deriving DecidableEq

/-- The call `frames->find(x)` on the set `container`, whose elements are `frames`. -/
def setFind (container : LabelSetId) (frames : List ℤ) (x : ℤ) : SetIterator :=
  ⟨container, if x ∈ frames then some x else none⟩

/-- The call `frames->end()` on the set `container`. -/
def setEnd (container : LabelSetId) : SetIterator :=
  ⟨container, none⟩

/-- The square drawn in the corner of the frame: red for a positive frame, green for a
negative one, none otherwise. -/
inductive FrameIndicator where
  | labeledPositive
  | labeledNegative
  | unlabeled
deriving DecidableEq

/-- The two tests at the end of `prepareToRenderFrameStatus`; the second one compares
`negativeFrames->find(frameNumber)` with `positiveFrames->end()`. -/
def frameIndicator (frameNumber : ℤ) (positiveFrames negativeFrames : List ℤ) :
    FrameIndicator :=
  if setFind LabelSetId.positiveFrames positiveFrames frameNumber
      ≠ setEnd LabelSetId.positiveFrames then
    FrameIndicator.labeledPositive
  else if setFind LabelSetId.negativeFrames negativeFrames frameNumber
      ≠ setEnd LabelSetId.positiveFrames then
    FrameIndicator.labeledNegative
  else FrameIndicator.unlabeled

/-- The indicator drawn at a tick: `prepareToRenderFrameStatus` is called with the sets
as the label overwrite of the tick left them. -/
def renderedIndicator (s : Session) : FrameIndicator :=
  frameIndicator s.currentVideoFrameNumber (overwriteLabel s).positiveFrames
    (overwriteLabel s).negativeFrames

/-- The second line of the footnote that `loadVideoFrames` draws on every frame. -/
def footnoteLine2 : String :=
  "[a] previous / [s] next / [w] previous 100 / [z] next 100 / [b]egin / [e]nd"

/-! ## Rotation of the buffers, stated from the specification -/

/-- The forward rotation: the next buffer has become the current one, the old current
buffer the previous one, the next buffer is empty and the reference number has grown by
the buffer size. -/
def RotatedForward (s s' : Session) : Prop :=
  s'.currentVideoFrameBuffer = s.nextVideoFrameBuffer
    ∧ s'.previousVideoFrameBuffer = s.currentVideoFrameBuffer
    ∧ s'.nextVideoFrameBuffer = []
    ∧ s'.refCurrentBufferedFrameNumber
        = s.refCurrentBufferedFrameNumber + VIDEO_FRAME_BUFFERS_SIZE

/-- The backward rotation: the previous buffer has become the current one, the old
current buffer the next one, the previous buffer is empty and the reference number has
gone down by the buffer size. -/
def RotatedBackward (s s' : Session) : Prop :=
  s'.currentVideoFrameBuffer = s.previousVideoFrameBuffer
    ∧ s'.nextVideoFrameBuffer = s.currentVideoFrameBuffer
    ∧ s'.previousVideoFrameBuffer = []
    ∧ s'.refCurrentBufferedFrameNumber
        = s.refCurrentBufferedFrameNumber - VIDEO_FRAME_BUFFERS_SIZE

/-- The reference number and the three buffers are those of `s`. -/
def WindowsKept (s s' : Session) : Prop :=
  s'.refCurrentBufferedFrameNumber = s.refCurrentBufferedFrameNumber
    ∧ s'.currentVideoFrameBuffer = s.currentVideoFrameBuffer
    ∧ s'.previousVideoFrameBuffer = s.previousVideoFrameBuffer
    ∧ s'.nextVideoFrameBuffer = s.nextVideoFrameBuffer

/-- The buffers of `s'` follow the frame number of `s'` out of the window
`[refIndex, refIndex + capacity)` of `s`: past its end they are rotated forward, before
its start they are rotated backward, and inside it they are kept. -/
def RotatesWithFrame (s s' : Session) : Prop :=
  (s.refCurrentBufferedFrameNumber + VIDEO_FRAME_BUFFERS_SIZE ≤ s'.currentVideoFrameNumber →
    RotatedForward s s') ∧
  (s'.currentVideoFrameNumber < s.refCurrentBufferedFrameNumber → RotatedBackward s s') ∧
  (s.refCurrentBufferedFrameNumber ≤ s'.currentVideoFrameNumber →
    s'.currentVideoFrameNumber < s.refCurrentBufferedFrameNumber + VIDEO_FRAME_BUFFERS_SIZE →
    WindowsKept s s')

/-! ## The text written by `generateAndSaveETFFile` -/

/-- The character of the decimal digit `d`. -/
def digitChar (d : ℕ) : Char := Char.ofNat (48 + d)

/-- The `k` lowest decimal digits of `n`, the highest first. -/
def decimalDigits : ℕ → ℕ → List Char
  | 0, _ => []
  | k + 1, n => digitChar (n / 10 ^ k % 10) :: decimalDigits k n

/-- The `w` lowest decimal digits of `f`, the highest first, without the trailing
zeros. -/
def fractionDigits : ℕ → ℕ → List Char
  | 0, _ => []
  | w + 1, f =>
    if f % 10 ^ (w + 1) = 0 then [] else digitChar (f / 10 ^ w % 10) :: fractionDigits w f

/-- The number of decimal digits of `n`, less one, with a bound on the number of
divisions (`floorLog10 n n` is the integer part of the decimal logarithm of `n`). -/
def floorLog10 : ℕ → ℕ → ℕ
  | 0, _ => 0
  | fuel + 1, n => if n < 10 then 0 else floorLog10 fuel (n / 10) + 1

/-- The first `k`, counting up from the given one, with `d ≤ n * 10 ^ k`, with a bound
on the number of steps. -/
def scaleUp (n d : ℕ) : ℕ → ℕ → ℕ
  | 0, k => k
  | fuel + 1, k => if d ≤ n * 10 ^ k then k else scaleUp n d fuel (k + 1)

/-- The decimal exponent of `n / d > 0`: the `e` with `10 ^ e ≤ n / d < 10 ^ (e + 1)`. -/
def decimalExponent (n d : ℕ) : ℤ :=
  if d ≤ n then (floorLog10 (n / d) (n / d) : ℤ) else -(scaleUp n d d 0 : ℤ)

/-- The value `n / d` scaled to six significant digits and rounded. -/
def significand (n d : ℕ) (e : ℤ) : ℕ :=
  if e ≤ 5 then roundDiv (n * 10 ^ (5 - e).toNat) d else roundDiv n (d * 10 ^ (e - 5).toNat)

/-- The six significant digits `m` and the decimal exponent `e` with which `n / d > 0`
is printed: `n / d` rounded to `m * 10 ^ (e - 5)`. -/
def sixDigits (n d : ℕ) : ℕ × ℤ :=
  if significand n d (decimalExponent n d) = 10 ^ 6 then (10 ^ 5, decimalExponent n d + 1)
  else (significand n d (decimalExponent n d), decimalExponent n d)

/-- The value that the six digits printed for `x` denote. -/
def sixDigitValue (x : ℚ) : ℚ :=
  if x = 0 then 0
  else
    (if x < 0 then -1 else 1) * ((sixDigits x.num.natAbs x.den).1 : ℚ)
      * 10 ^ ((sixDigits x.num.natAbs x.den).2 - 5)

/-- The decimal point and the `w` lowest digits of `f` without their trailing zeros;
nothing when these digits are all zero. -/
def pointAndFraction (w f : ℕ) : List Char :=
  if f % 10 ^ w = 0 then [] else '.' :: fractionDigits w f

/-- The digits of a decimal exponent: two at least. -/
def exponentDigits (k : ℕ) : List Char :=
  if k < 100 then decimalDigits 2 k else decimalDigits (floorLog10 k k + 1) k

/-- The text of `n / d ≥ 0` in the default floating-point notation of an output stream
(the conversion `%g` with precision 6): six significant digits, trailing zeros removed,
scientific notation when the decimal exponent is below -4 or at least 6. -/
def formatGeneral (n d : ℕ) : List Char :=
  if n = 0 then ['0']
  else if (sixDigits n d).2 < -4 ∨ 6 ≤ (sixDigits n d).2 then
    decimalDigits 1 ((sixDigits n d).1 / 10 ^ 5) ++ pointAndFraction 5 (sixDigits n d).1
      ++ ['e', if (sixDigits n d).2 < 0 then '-' else '+']
      ++ exponentDigits (sixDigits n d).2.natAbs
  else if 0 ≤ (sixDigits n d).2 then
    decimalDigits ((sixDigits n d).2.toNat + 1)
        ((sixDigits n d).1 / 10 ^ (5 - (sixDigits n d).2.toNat))
      ++ pointAndFraction (5 - (sixDigits n d).2.toNat) (sixDigits n d).1
  else
    '0' :: '.' :: (List.replicate (-(sixDigits n d).2 - 1).toNat '0'
      ++ fractionDigits 6 (sixDigits n d).1)

/-- The insertion `stream << x` of a finite `double` into an output stream with its
default settings. -/
def streamWriteDouble (x : ℚ) : String :=
  String.mk ((if x < 0 then ['-'] else []) ++ formatGeneral x.num.natAbs x.den)

/-- The record line written by
`etfFileWriter << videoFileName << " 1 " << time << " " << duration << " event - "
  << event << " - " << (beginsNegative ? 'f' : 't')`. -/
def recordLine (videoFileName event : String) (r : ETFRecord) : String :=
  videoFileName ++ " 1 " ++ streamWriteDouble r.beginTime ++ " "
    ++ streamWriteDouble r.duration ++ " event - " ++ event ++ " - " ++ r.label

/-- The writing loop as the program runs it: `time` and `duration` are `double` values,
the quotient of a mark by the rate and the difference of two such quotients, and a
line is written when `duration > 0`. -/
def writeIntervalLines (videoFileName event : String) (videoFPS : ℚ) :
    Bool → List ℤ → List String
  | beginsNegative, m0 :: m1 :: rest =>
    (if 0 < roundDouble (roundDouble ((m1 : ℚ) / videoFPS) - roundDouble ((m0 : ℚ) / videoFPS))
      then
        [recordLine videoFileName event
          ⟨roundDouble ((m0 : ℚ) / videoFPS),
            roundDouble (roundDouble ((m1 : ℚ) / videoFPS) - roundDouble ((m0 : ℚ) / videoFPS)),
            polarityFlag beginsNegative⟩]
      else [])
      ++ writeIntervalLines videoFileName event videoFPS (!beginsNegative) (m1 :: rest)
  | _, _ => []

/-- The comment lines that end the file: `# positive frames` and one line per positive
frame, when there is a positive frame. -/
def positiveFrameLines (positiveFrames : List ℤ) : List String :=
  if positiveFrames.isEmpty then []
  else "# positive frames" :: positiveFrames.map (fun i => "# " ++ toString i)

/-- The lines of the file written by `generateAndSaveETFFile`; `none` when `front()` is
read from an empty vector. -/
def etfFileLines (event : String) (videoFPS : ℚ) (videoFileName : String)
    (totalFramesCount : ℤ) (positiveFrames negativeFrames : List ℤ) : Option (List String) :=
  (videoTimeMarks totalFramesCount positiveFrames negativeFrames).map
    (fun bm => writeIntervalLines videoFileName event videoFPS bm.1 bm.2
      ++ positiveFrameLines positiveFrames)

/-- A non-empty character sequence without whitespace: what one `>>` extraction reads. -/
def IsToken (field : String) : Prop :=
  field.data ≠ [] ∧ ∀ c ∈ field.data, isSpace c = false

/-- Character sequences joined by single spaces. -/
def joinFields : List (List Char) → List Char
  | [] => []
  | [f] => f
  | f :: g :: rest => f ++ ' ' :: joinFields (g :: rest)

/-! ## Labels read off the negative set, stated from the specification -/

/-- A session that plays forward inside the last window of the video: the window
`[refIndex, refIndex + capacity)` reaches the end of the video, the current buffer holds
its frames `[refIndex, N)` and the next buffer has been filled. -/
def PlaysInLastWindow (s : Session) : Prop :=
  s.refCurrentBufferedFrameNumber % VIDEO_FRAME_BUFFERS_SIZE = 0
    ∧ 0 ≤ s.refCurrentBufferedFrameNumber
    ∧ s.refCurrentBufferedFrameNumber ≤ s.currentVideoFrameNumber
    ∧ s.currentVideoFrameNumber < (s.frameFilePathsSize : ℤ)
    ∧ (s.frameFilePathsSize : ℤ) ≤ s.refCurrentBufferedFrameNumber + VIDEO_FRAME_BUFFERS_SIZE
    ∧ s.currentVideoFrameBuffer
        = frameRange s.refCurrentBufferedFrameNumber (s.frameFilePathsSize : ℤ)
    ∧ s.nextVideoFrameBuffer ≠ []
    ∧ 0 < s.videoShowingDelay
    ∧ s.playReverse = false

/-- The relation that the specification states between the window and the frame number:
`refIndex = floor(currentIndex / capacity) * capacity`. -/
def WindowAligned (s : Session) : Prop :=
  s.refCurrentBufferedFrameNumber
    = s.currentVideoFrameNumber / VIDEO_FRAME_BUFFERS_SIZE * VIDEO_FRAME_BUFFERS_SIZE

/-- A session of `frameCount` frames that stands on a frame of the video with an aligned
window, every labelled frame being a frame of the video. -/
def SessionAligned (frameCount : ℕ) (s : Session) : Prop :=
  s.frameFilePathsSize = frameCount
    ∧ 0 ≤ s.currentVideoFrameNumber ∧ s.currentVideoFrameNumber < (frameCount : ℤ)
    ∧ WindowAligned s
    ∧ (∀ i ∈ s.positiveFrames, 0 ≤ i ∧ i < (frameCount : ℤ))
    ∧ (∀ i ∈ s.negativeFrames, 0 ≤ i ∧ i < (frameCount : ℤ))

/-- The two mutexes that `showVideoFrames` creates. -/
inductive BufferMutex where
  | loadFramesIntoPreviousBufferMutex
  | loadFramesIntoNextBufferMutex
deriving DecidableEq

/-- The three threads of a session: the main loop and the two threads that run
`loadVideoFrameBuffer`. -/
inductive SessionThread where
  | mainThread
  | previousBufferThread
  | nextBufferThread
deriving DecidableEq

/-- The statements of the regions of the source that take a mutex, one at a time:
`m->lock()`, `m->unlock()`, a statement that changes the variables (`none` when it
throws), and the test of an `if` or `while` whose body is the rest of the region. -/
inductive Statement where
  | lock (m : BufferMutex)
  | unlock (m : BufferMutex)
  | assign (f : Session → Option Session)
  | test (c : Session → Bool)

/-- The rotation of the key `a`, statement by statement (the body of
`if (*currentVideoFrameNumber < *refCurrentBufferedFrameNumber)`). -/
def rotateBackwardStatements : List Statement :=
  [ Statement.lock BufferMutex.loadFramesIntoNextBufferMutex,
    Statement.lock BufferMutex.loadFramesIntoPreviousBufferMutex,
    Statement.assign (fun s => some { s with nextVideoFrameBuffer := [] }),
    Statement.assign (fun s =>
      some { s with nextVideoFrameBuffer := s.currentVideoFrameBuffer }),
    Statement.assign (fun s => some { s with currentVideoFrameBuffer := [] }),
    Statement.assign (fun s =>
      some { s with currentVideoFrameBuffer := s.previousVideoFrameBuffer }),
    Statement.assign (fun s => some { s with previousVideoFrameBuffer := [] }),
    Statement.assign (fun s =>
      some
        { s with
          refCurrentBufferedFrameNumber :=
              if s.refCurrentBufferedFrameNumber - VIDEO_FRAME_BUFFERS_SIZE ≥ 0 then
                s.refCurrentBufferedFrameNumber - VIDEO_FRAME_BUFFERS_SIZE
              else s.refCurrentBufferedFrameNumber }),
    Statement.unlock BufferMutex.loadFramesIntoNextBufferMutex,
    Statement.unlock BufferMutex.loadFramesIntoPreviousBufferMutex ]

/-- The rotation of the key `s`, statement by statement (the body of
`if (*currentVideoFrameNumber >= *refCurrentBufferedFrameNumber + VIDEO_FRAME_BUFFERS_SIZE)`). -/
def rotateForwardStatements : List Statement :=
  [ Statement.lock BufferMutex.loadFramesIntoNextBufferMutex,
    Statement.lock BufferMutex.loadFramesIntoPreviousBufferMutex,
    Statement.assign (fun s => some { s with previousVideoFrameBuffer := [] }),
    Statement.assign (fun s =>
      some { s with previousVideoFrameBuffer := s.currentVideoFrameBuffer }),
    Statement.assign (fun s => some { s with currentVideoFrameBuffer := [] }),
    Statement.assign (fun s =>
      some { s with currentVideoFrameBuffer := s.nextVideoFrameBuffer }),
    Statement.assign (fun s => some { s with nextVideoFrameBuffer := [] }),
    Statement.assign (fun s =>
      some
        { s with
          refCurrentBufferedFrameNumber :=
              if toSizeT (s.refCurrentBufferedFrameNumber + VIDEO_FRAME_BUFFERS_SIZE)
                  < s.frameFilePathsSize then
                s.refCurrentBufferedFrameNumber + VIDEO_FRAME_BUFFERS_SIZE
              else s.refCurrentBufferedFrameNumber }),
    Statement.unlock BufferMutex.loadFramesIntoNextBufferMutex,
    Statement.unlock BufferMutex.loadFramesIntoPreviousBufferMutex ]

/-- The backward rotation of the main loop of `showVideoFrames`, statement by
statement. -/
def renderRotateBackwardStatements : List Statement :=
  [ Statement.lock BufferMutex.loadFramesIntoNextBufferMutex,
    Statement.lock BufferMutex.loadFramesIntoPreviousBufferMutex,
    Statement.assign (fun s => some { s with nextVideoFrameBuffer := [] }),
    Statement.assign (fun s =>
      some { s with nextVideoFrameBuffer := s.currentVideoFrameBuffer }),
    Statement.assign (fun s =>
      some { s with currentVideoFrameBuffer := s.previousVideoFrameBuffer }),
    Statement.assign (fun s => some { s with previousVideoFrameBuffer := [] }),
    Statement.assign (fun s =>
      some
        { s with
          refCurrentBufferedFrameNumber :=
              if s.refCurrentBufferedFrameNumber - VIDEO_FRAME_BUFFERS_SIZE ≥ 0 then
                s.refCurrentBufferedFrameNumber - VIDEO_FRAME_BUFFERS_SIZE
              else s.refCurrentBufferedFrameNumber }),
    Statement.unlock BufferMutex.loadFramesIntoNextBufferMutex,
    Statement.unlock BufferMutex.loadFramesIntoPreviousBufferMutex ]

/-- The forward rotation of the main loop of `showVideoFrames`, statement by
statement. -/
def renderRotateForwardStatements : List Statement :=
  [ Statement.lock BufferMutex.loadFramesIntoNextBufferMutex,
    Statement.lock BufferMutex.loadFramesIntoPreviousBufferMutex,
    Statement.assign (fun s => some { s with previousVideoFrameBuffer := [] }),
    Statement.assign (fun s =>
      some { s with previousVideoFrameBuffer := s.currentVideoFrameBuffer }),
    Statement.assign (fun s =>
      some { s with currentVideoFrameBuffer := s.nextVideoFrameBuffer }),
    Statement.assign (fun s => some { s with nextVideoFrameBuffer := [] }),
    Statement.assign (fun s =>
      some
        { s with
          refCurrentBufferedFrameNumber :=
              if toSizeT (s.refCurrentBufferedFrameNumber + VIDEO_FRAME_BUFFERS_SIZE)
                  < s.frameFilePathsSize then
                s.refCurrentBufferedFrameNumber + VIDEO_FRAME_BUFFERS_SIZE
              else s.refCurrentBufferedFrameNumber }),
    Statement.unlock BufferMutex.loadFramesIntoNextBufferMutex,
    Statement.unlock BufferMutex.loadFramesIntoPreviousBufferMutex ]

/-- The case of the key `a`, statement by statement. -/
def stepBackStatements : List Statement :=
  [ Statement.assign (fun s => some { s with overwriteLabels := false }),
    Statement.assign (fun s => some { s with videoShowingDelay := 0 }),
    Statement.assign (fun s =>
      some
        { s with
          currentVideoFrameNumber :=
              if s.currentVideoFrameNumber > 0 then s.currentVideoFrameNumber - 1 else 0 }),
    Statement.test (fun s =>
      decide (s.currentVideoFrameNumber < s.refCurrentBufferedFrameNumber)) ]
    ++ rotateBackwardStatements

/-- The case of the key `s`, statement by statement. -/
def stepForwardStatements : List Statement :=
  [ Statement.assign (fun s => some { s with videoShowingDelay := 0 }),
    Statement.assign (fun s =>
      some
        { s with
          currentVideoFrameNumber :=
              if toSizeT s.currentVideoFrameNumber < sizeSub s.frameFilePathsSize 1
              then s.currentVideoFrameNumber + 1
              else toInt (sizeSub s.frameFilePathsSize 1) }),
    Statement.test (fun s =>
      decide (s.currentVideoFrameNumber
        ≥ s.refCurrentBufferedFrameNumber + VIDEO_FRAME_BUFFERS_SIZE)) ]
    ++ rotateForwardStatements

/-- The case of a jump key (`w`, `z`, `b`, `e`, `j`, `k`), statement by statement: the
new frame number and the reference frame number are assigned and the three buffers are
cleared between the locks and the unlocks, the current buffer is loaded after them. -/
def jumpStatements (key : Char) : List Statement :=
  [ Statement.lock BufferMutex.loadFramesIntoNextBufferMutex,
    Statement.lock BufferMutex.loadFramesIntoPreviousBufferMutex,
    Statement.assign (fun s => some { s with overwriteLabels := false }),
    Statement.assign (fun s => some { s with videoShowingDelay := 0 }),
    Statement.assign (fun s => some { s with currentVideoFrameNumber := jumpTarget key s }),
    Statement.assign (fun s =>
      some
        { s with
          refCurrentBufferedFrameNumber :=
              Int.tdiv s.currentVideoFrameNumber VIDEO_FRAME_BUFFERS_SIZE
                * VIDEO_FRAME_BUFFERS_SIZE }),
    Statement.assign (fun s => some { s with currentVideoFrameBuffer := [] }),
    Statement.assign (fun s => some { s with previousVideoFrameBuffer := [] }),
    Statement.assign (fun s => some { s with nextVideoFrameBuffer := [] }),
    Statement.unlock BufferMutex.loadFramesIntoNextBufferMutex,
    Statement.unlock BufferMutex.loadFramesIntoPreviousBufferMutex,
    Statement.assign (fun s =>
      (loadVideoFrames s.currentVideoFrameBuffer s.refCurrentBufferedFrameNumber
        (toInt
          (if toSizeT (s.refCurrentBufferedFrameNumber + VIDEO_FRAME_BUFFERS_SIZE)
              < s.frameFilePathsSize then
            toSizeT (s.refCurrentBufferedFrameNumber + VIDEO_FRAME_BUFFERS_SIZE)
          else s.frameFilePathsSize))
        s.frameFilePathsSize).map (fun b => { s with currentVideoFrameBuffer := b })) ]

/-- The statements of `loadVideoFrameBuffer` between `loadVideoFramesMutex->lock()` and
`loadVideoFramesMutex->unlock()`: the bounds are computed from the reference frame
number and the frames are appended to the buffer. -/
def fillVideoFrameBuffer (next : Bool) (s : Session) : Option Session :=
  if next then
    let initial0 := s.refCurrentBufferedFrameNumber + VIDEO_FRAME_BUFFERS_SIZE
    let initialFrameNumber :=
      if toSizeT initial0 ≥ s.frameFilePathsSize then s.refCurrentBufferedFrameNumber
      else initial0
    let final0 := initialFrameNumber + VIDEO_FRAME_BUFFERS_SIZE
    let finalFrameNumber :=
      if toSizeT final0 ≥ s.frameFilePathsSize then toInt s.frameFilePathsSize else final0
    (loadVideoFrames s.nextVideoFrameBuffer initialFrameNumber finalFrameNumber
      s.frameFilePathsSize).map (fun b => { s with nextVideoFrameBuffer := b })
  else
    let initial0 := s.refCurrentBufferedFrameNumber - VIDEO_FRAME_BUFFERS_SIZE
    let initialFrameNumber := if initial0 < 0 then 0 else initial0
    let final0 := initialFrameNumber + VIDEO_FRAME_BUFFERS_SIZE
    let finalFrameNumber :=
      if toSizeT final0 ≥ s.frameFilePathsSize then toInt s.frameFilePathsSize else final0
    (loadVideoFrames s.previousVideoFrameBuffer initialFrameNumber finalFrameNumber
      s.frameFilePathsSize).map (fun b => { s with previousVideoFrameBuffer := b })

/-- One pass of a thread of `loadVideoFrameBuffer` through its loop, statement by
statement: the test of the `while`, the test `frameBuffer->empty()`, then the lock, the
filling and the unlock. -/
def loadVideoFrameBufferStatements (next : Bool) (loadVideoFramesMutex : BufferMutex) :
    List Statement :=
  [ Statement.test (fun s => decide (s.frameFilePathsSize ≠ 0)),
    Statement.test (fun s =>
      if next then s.nextVideoFrameBuffer.isEmpty else s.previousVideoFrameBuffer.isEmpty),
    Statement.lock loadVideoFramesMutex,
    Statement.assign (fillVideoFrameBuffer next),
    Statement.unlock loadVideoFramesMutex ]

/-- The statements of one thread run alone, from first to last; a test that fails skips
the rest. -/
def runStatements : List Statement → Session → Option Session
  | [], s => some s
  | Statement.lock _ :: rest, s => runStatements rest s
  | Statement.unlock _ :: rest, s => runStatements rest s
  | Statement.assign f :: rest, s => (f s).bind (runStatements rest)
  | Statement.test c :: rest, s => if c s then runStatements rest s else some s

/-- The mutexes held at each assignment and each test of a list of statements, in the
order of the statements. -/
def mutexesHeld : List BufferMutex → List Statement → List (List BufferMutex)
  | _, [] => []
  | held, Statement.lock m :: rest => mutexesHeld (held ++ [m]) rest
  | held, Statement.unlock m :: rest => mutexesHeld (held.erase m) rest
  | held, Statement.assign _ :: rest => held :: mutexesHeld held rest
  | held, Statement.test _ :: rest => held :: mutexesHeld held rest

/-- The mutexes that a list of statements locks, in the order of the calls of `lock`. -/
def lockOrder : List Statement → List BufferMutex
  | [] => []
  | Statement.lock m :: rest => m :: lockOrder rest
  | _ :: rest => lockOrder rest

/-- The three threads at some point of their execution: the shared variables, the
owner of each mutex, and the statements that each thread has still to execute. -/
structure SessionThreads where
  session : Session
  previousMutexOwner : Option SessionThread
  nextMutexOwner : Option SessionThread
  mainStatements : List Statement
  previousThreadStatements : List Statement
  nextThreadStatements : List Statement

/-- The owner of a mutex. -/
def SessionThreads.owner (st : SessionThreads) : BufferMutex → Option SessionThread
  | BufferMutex.loadFramesIntoPreviousBufferMutex => st.previousMutexOwner
  | BufferMutex.loadFramesIntoNextBufferMutex => st.nextMutexOwner

/-- The threads with a new owner of a mutex. -/
def SessionThreads.setOwner (st : SessionThreads) (o : Option SessionThread) :
    BufferMutex → SessionThreads
  | BufferMutex.loadFramesIntoPreviousBufferMutex => { st with previousMutexOwner := o }
  | BufferMutex.loadFramesIntoNextBufferMutex => { st with nextMutexOwner := o }

/-- The statements that a thread has still to execute. -/
def SessionThreads.statements (st : SessionThreads) : SessionThread → List Statement
  | SessionThread.mainThread => st.mainStatements
  | SessionThread.previousBufferThread => st.previousThreadStatements
  | SessionThread.nextBufferThread => st.nextThreadStatements

/-- The threads after one of them went on to other statements. -/
def SessionThreads.setStatements (st : SessionThreads) (rest : List Statement) :
    SessionThread → SessionThreads
  | SessionThread.mainThread => { st with mainStatements := rest }
  | SessionThread.previousBufferThread => { st with previousThreadStatements := rest }
  | SessionThread.nextBufferThread => { st with nextThreadStatements := rest }

/-- One statement of the thread `t`; `none` when the thread has nothing to execute, waits
for a mutex that another thread holds, or throws. -/
def stepThread (t : SessionThread) (st : SessionThreads) : Option SessionThreads :=
  match st.statements t with
  | [] => none
  | Statement.lock m :: rest =>
    if st.owner m = none then some ((st.setOwner (some t) m).setStatements rest t) else none
  | Statement.unlock m :: rest => some ((st.setOwner none m).setStatements rest t)
  | Statement.assign f :: rest =>
    (f st.session).map (fun s => { st with session := s }.setStatements rest t)
  | Statement.test c :: rest =>
    if c st.session then some (st.setStatements rest t) else some (st.setStatements [] t)

/-- The threads run one statement at a time in the order of a schedule. -/
def runSchedule : List SessionThread → SessionThreads → Option SessionThreads
  | [], st => some st
  | t :: ts, st => (stepThread t st).bind (runSchedule ts)

/-- The threads when the main loop starts treating the key `a`, each buffer thread being
at the start of a pass through its loop and no mutex being held. -/
def stepBackThreads (s : Session) : SessionThreads :=
  { session := s, previousMutexOwner := none, nextMutexOwner := none,
    mainStatements := stepBackStatements,
    previousThreadStatements :=
      loadVideoFrameBufferStatements false BufferMutex.loadFramesIntoPreviousBufferMutex,
    nextThreadStatements :=
      loadVideoFrameBufferStatements true BufferMutex.loadFramesIntoNextBufferMutex }

/-- What a buffer thread can see of the variables: the three buffers, the reference frame
number and the owners of the two mutexes. -/
def SessionThreads.windows (st : SessionThreads) :
    List ℤ × List ℤ × List ℤ × ℤ × Option SessionThread × Option SessionThread :=
  (st.session.previousVideoFrameBuffer, st.session.currentVideoFrameBuffer,
    st.session.nextVideoFrameBuffer, st.session.refCurrentBufferedFrameNumber,
    st.previousMutexOwner, st.nextMutexOwner)

/-- A session of 200 frames that stands on frame 64, the first frame of its window, with
the three buffers filled; used in examples. -/
def filledSession : Session :=
  { frameFilePathsSize := 200, currentVideoFrameNumber := 64,
    refCurrentBufferedFrameNumber := 64, videoShowingDelay := 0, playReverse := false,
    overwriteLabels := false, currentLabel := 0,
    currentVideoFrameBuffer := frameRange 64 128,
    previousVideoFrameBuffer := frameRange 0 64,
    nextVideoFrameBuffer := frameRange 128 192,
    positiveFrames := [], negativeFrames := frameRange 64 100 }

end FrameLabeler

namespace FrameLabeler

/-! ## Basic facts -/

theorem duration_pos {videoFPS : ℚ} (hf : 0 < videoFPS) {s a : ℤ} (h : s < a) :
    0 < (a : ℚ) / videoFPS - (s : ℚ) / videoFPS := by
  have h1 : (s : ℚ) < (a : ℚ) := by exact_mod_cast h
  have h2 := div_lt_div_of_pos_right h1 hf
  linarith

theorem writeIntervals_step {videoFPS : ℚ} (hf : 0 < videoFPS) {s a : ℤ} (h : s < a)
    (b : Bool) (rest : List ℤ) :
    writeIntervals videoFPS b (s :: a :: rest)
      = ⟨(s : ℚ) / videoFPS, (a : ℚ) / videoFPS - (s : ℚ) / videoFPS, polarityFlag b⟩
        :: writeIntervals videoFPS (!b) (a :: rest) := by
  simp [writeIntervals, duration_pos hf h]

theorem writeIntervals_same (videoFPS : ℚ) (m : ℤ) (b : Bool) (rest : List ℤ) :
    writeIntervals videoFPS b (m :: m :: rest) = writeIntervals videoFPS (!b) (m :: rest) := by
  simp [writeIntervals]

theorem le_of_mem_framesOfClass (c : Bool) (L : List Bool) :
    ∀ (a x : ℤ), x ∈ framesOfClass c a L → a ≤ x := by
  induction L with
  | nil => intro a x hx; simp [framesOfClass] at hx
  | cons l ls ih =>
    intro a x hx
    simp only [framesOfClass] at hx
    split at hx
    · rcases List.mem_cons.1 hx with h | h
      · omega
      · have := ih _ _ h; omega
    · have := ih _ _ hx; omega

theorem runInterval_eq (videoFPS : ℚ) (s a : ℤ) (c : Bool) :
    runInterval videoFPS (s, a, c)
      = ⟨(s : ℚ) / videoFPS, (a : ℚ) / videoFPS - (s : ℚ) / videoFPS, polarityFlag (!c)⟩ := by
  cases c <;> simp [runInterval, polarityFlag, sub_div]

/-- The walk of the encoder over the frames of class `t`, resumed at frame `a`,
produces the maximal runs: first inside a run of class `t` (the last walked frame
is `a - 1`), second inside a run of the other class. -/
theorem writeIntervals_walk {videoFPS : ℚ} (hf : 0 < videoFPS) (t : Bool) (L : List Bool) :
    ∀ (s a : ℤ), s < a →
      (∀ last, last + 1 = a →
        writeIntervals videoFPS (!t)
          (s :: (timeMarksLoop last (framesOfClass t a L)
            ++ [(framesOfClass t a L).getLastD last + 1, a + L.length]))
        = (maximalRunsFrom s t a L).map (runInterval videoFPS)) ∧
      (writeIntervals videoFPS t
          (s :: (match framesOfClass t a L with
            | [] => [a + L.length]
            | y :: ys => y :: (timeMarksLoop y ys ++ [ys.getLastD y + 1, a + L.length])))
        = (maximalRunsFrom s (!t) a L).map (runInterval videoFPS)) := by
  induction L with
  | nil =>
    intro s a hsa
    constructor
    · intro last hl
      subst hl
      simp only [framesOfClass, timeMarksLoop, List.getLastD_nil, List.nil_append,
        List.length_nil, Nat.cast_zero, add_zero, maximalRunsFrom, List.map_cons, List.map_nil,
        runInterval_eq]
      rw [writeIntervals_step hf hsa, writeIntervals_same]
      simp [writeIntervals]
    · simp only [framesOfClass, List.length_nil, Nat.cast_zero, add_zero, maximalRunsFrom,
        List.map_cons, List.map_nil, runInterval_eq, Bool.not_not]
      rw [writeIntervals_step hf hsa]
      simp [writeIntervals]
  | cons l ls ih =>
    intro s a hsa
    have hlen : a + ((l :: ls).length : ℤ) = (a + 1) + (ls.length : ℤ) := by
      simp only [List.length_cons, Nat.cast_add, Nat.cast_one]; ring
    have ih1 := ih s (a + 1) (by omega)
    have ih2 := ih a (a + 1) (by omega)
    by_cases hlt : l = t
    · -- frame `a` belongs to the walked class
      subst hlt
      constructor
      · intro last hl
        subst hl
        have := ih1.1 (last + 1) rfl
        simp only [framesOfClass, if_true, timeMarksLoop, ne_eq, not_true_eq_false,
          if_false, List.nil_append, List.getLastD_cons, maximalRunsFrom, hlen]
        exact this
      · have := ih2.1 a rfl
        simp only [framesOfClass, if_true, hlen, maximalRunsFrom, List.map_cons,
          runInterval_eq, Bool.not_not]
        have hne : ¬ (l = !l) := by cases l <;> simp
        simp only [hne, if_false, List.map_cons, runInterval_eq, Bool.not_not]
        rw [writeIntervals_step hf hsa]
        simp only [List.cons.injEq, true_and]
        exact this
    · -- frame `a` belongs to the other class
      have hl' : l = !t := by cases l <;> cases t <;> simp_all
      subst hl'
      constructor
      · intro last hl
        subst hl
        simp only [framesOfClass, hlt, if_false, maximalRunsFrom, List.map_cons,
          runInterval_eq, hlen]
        rw [← ih2.2]
        cases hF : framesOfClass t (last + 1 + 1) ls with
        | nil =>
          simp only [timeMarksLoop, List.getLastD_nil, List.nil_append]
          rw [writeIntervals_step hf hsa]
          simp
        | cons y ys =>
          have hy : last + 1 + 1 ≤ y :=
            le_of_mem_framesOfClass t ls _ y (by rw [hF]; exact List.mem_cons_self _ _)
          have hne : last + 1 ≠ y := by omega
          simp only [timeMarksLoop, ne_eq, hne, not_false_eq_true, if_true,
            List.getLastD_cons, List.cons_append, List.nil_append]
          rw [writeIntervals_step hf hsa]
          simp
      · have h1 := ih1.2
        simp only [framesOfClass, hlt, if_false, maximalRunsFrom, if_true, hlen]
        exact h1

/-! ## Sets and label lists -/

theorem mem_framesOfClass (c : Bool) (L : List Bool) :
    ∀ (a x : ℤ), x ∈ framesOfClass c a L ↔ ∃ k : ℕ, x = a + k ∧ L[k]? = some c := by
  induction L with
  | nil => intro a x; simp [framesOfClass]
  | cons l ls ih =>
    intro a x
    have step : (∃ k : ℕ, x = a + k ∧ (l :: ls)[k]? = some c)
        ↔ ((x = a ∧ l = c) ∨ ∃ k : ℕ, x = a + 1 + k ∧ ls[k]? = some c) := by
      constructor
      · rintro ⟨k, hk, hc⟩
        cases k with
        | zero => left; exact ⟨by simpa using hk, by simpa using hc⟩
        | succ k =>
          right
          refine ⟨k, ?_, by simpa using hc⟩
          rw [hk]; push_cast; ring
      · rintro (⟨hx, hc⟩ | ⟨k, hk, hc⟩)
        · exact ⟨0, by simpa using hx, by simpa using hc⟩
        · refine ⟨k + 1, ?_, by simpa using hc⟩
          rw [hk]; push_cast; ring
    rw [step]
    simp only [framesOfClass]
    split
    · rename_i hlc
      rw [List.mem_cons, ih]
      simp [hlc]
    · rename_i hlc
      rw [ih]
      simp [hlc]

theorem sorted_framesOfClass (c : Bool) (L : List Bool) :
    ∀ a : ℤ, (framesOfClass c a L).Sorted (· < ·) := by
  induction L with
  | nil => intro a; simp [framesOfClass]
  | cons l ls ih =>
    intro a
    simp only [framesOfClass]
    split
    · refine List.sorted_cons.2 ⟨?_, ih _⟩
      intro b hb
      have := le_of_mem_framesOfClass c ls _ _ hb
      omega
    · exact ih _

theorem eq_of_sorted_of_mem_iff {l₁ l₂ : List ℤ} (h₁ : l₁.Sorted (· < ·))
    (h₂ : l₂.Sorted (· < ·)) (h : ∀ x, x ∈ l₁ ↔ x ∈ l₂) : l₁ = l₂ :=
  List.eq_of_perm_of_sorted ((List.perm_ext_iff_of_nodup h₁.nodup h₂.nodup).2 h) h₁ h₂

theorem frameLabels_getElem? (N : ℤ) (pos : List ℤ) (k : ℕ) (c : Bool) :
    (frameLabels N pos)[k]? = some c ↔ (k : ℤ) < N ∧ decide ((k : ℤ) ∈ pos) = c := by
  unfold frameLabels
  rw [List.getElem?_map]
  by_cases hk : k < N.toNat
  · rw [List.getElem?_range hk]
    have : (k : ℤ) < N := by omega
    simp [this]
  · have hk' : ¬ ((k : ℤ) < N) := by omega
    rw [List.getElem?_eq_none (by simpa using hk)]
    simp [hk']

theorem length_frameLabels (N : ℤ) (pos : List ℤ) :
    (frameLabels N pos).length = N.toNat := by
  simp [frameLabels]

/-- A label set that partitions `[0, N)`: the positive frames are the frames
labelled `true`, the negative ones those labelled `false`. -/
theorem framesOfClass_frameLabels {N : ℤ} {pos neg : List ℤ}
    (hps : pos.Sorted (· < ·)) (hns : neg.Sorted (· < ·))
    (hcover : ∀ i, (i ∈ pos ∨ i ∈ neg) ↔ (0 ≤ i ∧ i < N))
    (hdisj : ∀ i, i ∈ pos → i ∉ neg) :
    framesOfClass true 0 (frameLabels N pos) = pos
      ∧ framesOfClass false 0 (frameLabels N pos) = neg := by
  constructor
  · refine eq_of_sorted_of_mem_iff (sorted_framesOfClass _ _ _) hps (fun x => ?_)
    rw [mem_framesOfClass]
    constructor
    · rintro ⟨k, hk, hc⟩
      rw [frameLabels_getElem?] at hc
      have := hc.2
      simp only [decide_eq_true_eq] at this
      rw [hk]; simpa using this
    · intro hx
      have hr := (hcover x).1 (Or.inl hx)
      refine ⟨x.toNat, by omega, ?_⟩
      rw [frameLabels_getElem?]
      have hxx : ((x.toNat : ℕ) : ℤ) = x := by omega
      rw [hxx]
      exact ⟨hr.2, by simpa using hx⟩
  · refine eq_of_sorted_of_mem_iff (sorted_framesOfClass _ _ _) hns (fun x => ?_)
    rw [mem_framesOfClass]
    constructor
    · rintro ⟨k, hk, hc⟩
      rw [frameLabels_getElem?] at hc
      have hnp := hc.2
      simp only [decide_eq_false_iff_not] at hnp
      have hr : (k : ℤ) ∈ pos ∨ (k : ℤ) ∈ neg := (hcover k).2 ⟨by omega, hc.1⟩
      rw [hk]
      rcases hr with h | h
      · exact absurd h hnp
      · simpa using h
    · intro hx
      have hr := (hcover x).1 (Or.inr hx)
      refine ⟨x.toNat, by omega, ?_⟩
      rw [frameLabels_getElem?]
      have hxx : ((x.toNat : ℕ) : ℤ) = x := by omega
      rw [hxx]
      refine ⟨hr.2, ?_⟩
      simp only [decide_eq_false_iff_not]
      exact fun hp => hdisj x hp hx

theorem mem_insertFrame (x y : ℤ) (s : List ℤ) :
    x ∈ insertFrame y s ↔ x = y ∨ x ∈ s := by
  induction s with
  | nil => simp [insertFrame]
  | cons z zs ih =>
    simp only [insertFrame]
    split
    · simp
    · split
      · rename_i _ hyz
        subst hyz
        simp
      · simp only [List.mem_cons, ih]
        tauto

theorem sorted_insertFrame (y : ℤ) (s : List ℤ) (hs : s.Sorted (· < ·)) :
    (insertFrame y s).Sorted (· < ·) := by
  induction s with
  | nil => simp [insertFrame]
  | cons z zs ih =>
    have hz := List.sorted_cons.1 hs
    simp only [insertFrame]
    split
    · rename_i hyz
      refine List.sorted_cons.2 ⟨?_, hs⟩
      intro b hb
      rcases List.mem_cons.1 hb with h | h
      · omega
      · have := hz.1 b h; omega
    · split
      · exact hs
      · rename_i h1 h2
        refine List.sorted_cons.2 ⟨?_, ih hz.2⟩
        intro b hb
        rcases (mem_insertFrame b y zs).1 hb with h | h
        · omega
        · exact hz.1 b h

theorem mem_insertFramesLoop (last : ℚ) (x : ℤ) :
    ∀ (n : ℕ) (i : ℤ) (frames : List ℤ), (⌈last⌉ - i).toNat ≤ n →
      (x ∈ insertFramesLoop last n i frames ↔ x ∈ frames ∨ (i ≤ x ∧ (x : ℚ) < last)) := by
  intro n
  induction n with
  | zero =>
    intro i frames hfuel
    have h1 : ⌈last⌉ ≤ i := by omega
    have h2 : last ≤ (i : ℚ) := Int.ceil_le.1 h1
    simp only [insertFramesLoop]
    constructor
    · exact Or.inl
    · rintro (h | ⟨hx, hl⟩)
      · exact h
      · have : (i : ℚ) ≤ (x : ℚ) := by exact_mod_cast hx
        linarith
  | succ n ih =>
    intro i frames hfuel
    simp only [insertFramesLoop]
    split
    · rename_i hlt
      rw [ih (i + 1) _ (by omega), mem_insertFrame]
      constructor
      · rintro ((h | h) | ⟨h1, h2⟩)
        · right; subst h; exact ⟨le_refl _, hlt⟩
        · exact Or.inl h
        · right; exact ⟨by omega, h2⟩
      · rintro (h | ⟨h1, h2⟩)
        · exact Or.inl (Or.inr h)
        · by_cases hxi : x = i
          · exact Or.inl (Or.inl hxi)
          · right; exact ⟨by omega, h2⟩
    · rename_i hge
      constructor
      · exact Or.inl
      · rintro (h | ⟨hx, hl⟩)
        · exact h
        · have : (i : ℚ) ≤ (x : ℚ) := by exact_mod_cast hx
          exact absurd (lt_of_le_of_lt this hl) hge

theorem sorted_insertFramesLoop (last : ℚ) :
    ∀ (n : ℕ) (i : ℤ) (frames : List ℤ), frames.Sorted (· < ·) →
      (insertFramesLoop last n i frames).Sorted (· < ·) := by
  intro n
  induction n with
  | zero => intro i frames h; simpa [insertFramesLoop] using h
  | succ n ih =>
    intro i frames h
    simp only [insertFramesLoop]
    split
    · exact ih _ _ (sorted_insertFrame _ _ h)
    · exact h

/-- The loop of the decoder inserts exactly the integers from the rounded first
frame number up to, and excluding, the unrounded last frame number. -/
theorem mem_insertFrames (first last : ℚ) (frames : List ℤ) (x : ℤ) :
    x ∈ insertFrames first last frames
      ↔ x ∈ frames ∨ (cppRound first ≤ x ∧ (x : ℚ) < last) :=
  mem_insertFramesLoop last x _ _ frames (le_refl _)

theorem sorted_insertFrames (first last : ℚ) (frames : List ℤ)
    (h : frames.Sorted (· < ·)) : (insertFrames first last frames).Sorted (· < ·) :=
  sorted_insertFramesLoop last _ _ frames h

theorem mem_labelFrames_fst (videoFPS : ℚ) (r : ETFRecord) (sets : List ℤ × List ℤ) (i : ℤ) :
    i ∈ (labelFrames videoFPS r sets).1
      ↔ i ∈ sets.1 ∨ (r.label = "t" ∧ recordSpan videoFPS r i) := by
  unfold labelFrames recordSpan
  by_cases h : r.label = "t"
  · simp only [h, if_true, mem_insertFrames, true_and]
  · simp only [h, if_false, false_and, or_false]

theorem mem_labelFrames_snd (videoFPS : ℚ) (r : ETFRecord) (sets : List ℤ × List ℤ) (i : ℤ) :
    i ∈ (labelFrames videoFPS r sets).2
      ↔ i ∈ sets.2 ∨ (r.label ≠ "t" ∧ recordSpan videoFPS r i) := by
  unfold labelFrames recordSpan
  by_cases h : r.label = "t"
  · simp only [h, if_true, ne_eq, not_true_eq_false, false_and, or_false]
  · simp only [h, if_false, mem_insertFrames, ne_eq, not_false_eq_true, true_and]

theorem sorted_labelFrames (videoFPS : ℚ) (r : ETFRecord) (sets : List ℤ × List ℤ)
    (h1 : sets.1.Sorted (· < ·)) (h2 : sets.2.Sorted (· < ·)) :
    (labelFrames videoFPS r sets).1.Sorted (· < ·)
      ∧ (labelFrames videoFPS r sets).2.Sorted (· < ·) := by
  unfold labelFrames
  by_cases h : r.label = "t"
  · simp only [h, if_true]
    exact ⟨sorted_insertFrames _ _ _ h1, h2⟩
  · simp only [h, if_false]
    exact ⟨h1, sorted_insertFrames _ _ _ h2⟩

theorem mem_readRecords (videoFPS : ℚ) (records : List ETFRecord) :
    ∀ (sets : List ℤ × List ℤ) (i : ℤ),
      (i ∈ (readRecords videoFPS records sets).1
        ↔ i ∈ sets.1 ∨ ∃ r ∈ records, r.label = "t" ∧ recordSpan videoFPS r i) ∧
      (i ∈ (readRecords videoFPS records sets).2
        ↔ i ∈ sets.2 ∨ ∃ r ∈ records, r.label ≠ "t" ∧ recordSpan videoFPS r i) := by
  induction records with
  | nil => intro sets i; simp [readRecords]
  | cons r rs ih =>
    intro sets i
    have h := ih (labelFrames videoFPS r sets) i
    simp only [readRecords, List.foldl_cons] at h ⊢
    refine ⟨?_, ?_⟩
    · rw [h.1, mem_labelFrames_fst]
      simp only [List.mem_cons, exists_eq_or_imp, or_assoc]
    · rw [h.2, mem_labelFrames_snd]
      simp only [List.mem_cons, exists_eq_or_imp, or_assoc]

theorem sorted_readRecords (videoFPS : ℚ) (records : List ETFRecord) :
    ∀ (sets : List ℤ × List ℤ), sets.1.Sorted (· < ·) → sets.2.Sorted (· < ·) →
      (readRecords videoFPS records sets).1.Sorted (· < ·)
        ∧ (readRecords videoFPS records sets).2.Sorted (· < ·) := by
  induction records with
  | nil => intro sets h1 h2; exact ⟨h1, h2⟩
  | cons r rs ih =>
    intro sets h1 h2
    have h := sorted_labelFrames videoFPS r sets h1 h2
    exact ih _ h.1 h.2

/-! ## Decoding the intervals of the maximal runs -/

theorem label_runInterval (videoFPS : ℚ) (run : ℤ × ℤ × Bool) :
    (runInterval videoFPS run).label = "t" ↔ run.2.2 = true := by
  unfold runInterval
  cases run.2.2 <;> simp

/-- The runs of class `b` cover exactly the frames of class `b`. -/
theorem covered_maximalRunsFrom (b : Bool) (L : List Bool) :
    ∀ (s : ℤ) (c : Bool) (a i : ℤ), s ≤ a →
      ((∃ run ∈ maximalRunsFrom s c a L, run.2.2 = b ∧ run.1 ≤ i ∧ i < run.2.1)
        ↔ ((s ≤ i ∧ i < a ∧ c = b) ∨ i ∈ framesOfClass b a L)) := by
  induction L with
  | nil =>
    intro s c a i _
    simp only [maximalRunsFrom, List.mem_singleton, exists_eq_left, framesOfClass,
      List.not_mem_nil, or_false]
    tauto
  | cons l ls ih =>
    intro s c a i hsa
    have ih1 := fun c' => ih s c' (a + 1) i (by omega)
    have ih2 := fun c' => ih a c' (a + 1) i (by omega)
    by_cases hlc : l = c
    · subst hlc
      simp only [maximalRunsFrom, if_true, ih1, framesOfClass]
      by_cases hlb : l = b
      · simp only [hlb, if_true, List.mem_cons, and_true]
        constructor
        · rintro (⟨h1, h2⟩ | h)
          · by_cases hia : i = a
            · exact Or.inr (Or.inl hia)
            · exact Or.inl ⟨h1, by omega⟩
          · exact Or.inr (Or.inr h)
        · rintro (⟨h1, h2⟩ | h | h)
          · exact Or.inl ⟨h1, by omega⟩
          · exact Or.inl ⟨by omega, by omega⟩
          · exact Or.inr h
      · simp only [hlb, if_false, and_false, false_or]
    · simp only [maximalRunsFrom, hlc, if_false, List.mem_cons, exists_eq_or_imp, ih2,
        framesOfClass]
      by_cases hlb : l = b
      · simp only [hlb, if_true, List.mem_cons, and_true]
        constructor
        · rintro (⟨h1, h2, h3⟩ | ⟨h1, h2⟩ | h)
          · exact Or.inl ⟨h2, h3, h1⟩
          · exact Or.inr (Or.inl (by omega))
          · exact Or.inr (Or.inr h)
        · rintro (⟨h1, h2, h3⟩ | h | h)
          · exact Or.inl ⟨h3, h1, h2⟩
          · exact Or.inr (Or.inl ⟨by omega, by omega⟩)
          · exact Or.inr (Or.inr h)
      · simp only [hlb, if_false, and_false, false_or]
        constructor
        · rintro (⟨h1, h2, h3⟩ | h)
          · exact Or.inl ⟨h2, h3, h1⟩
          · exact Or.inr h
        · rintro (⟨h1, h2, h3⟩ | h)
          · exact Or.inl ⟨h3, h1, h2⟩
          · exact Or.inr h

theorem covered_maximalRuns (b : Bool) (L : List Bool) (i : ℤ) :
    (∃ run ∈ maximalRuns L, run.2.2 = b ∧ run.1 ≤ i ∧ i < run.2.1)
      ↔ i ∈ framesOfClass b 0 L := by
  cases L with
  | nil => simp [maximalRuns, framesOfClass]
  | cons l ls =>
    simp only [maximalRuns]
    rw [covered_maximalRunsFrom b ls 0 l 1 i (by norm_num)]
    simp only [framesOfClass, zero_add]
    have hge := le_of_mem_framesOfClass b ls 1 i
    by_cases hlb : l = b
    · simp only [hlb, if_true, List.mem_cons, and_true]
      constructor
      · rintro (h | h)
        · exact Or.inl (by omega)
        · exact Or.inr h
      · rintro (h | h)
        · exact Or.inl (by omega)
        · exact Or.inr h
    · simp only [hlb, if_false, and_false, false_or]

/-- The list `maximalRunsFrom s c a L` starts with a run beginning at `s` with class
`c`, ends at frame `a + L.length`, has only non-empty runs, and each run starts where
the previous one ends with the other class. -/
theorem maximalRunsFrom_chain (L : List Bool) :
    ∀ (s : ℤ) (c : Bool) (a : ℤ), s < a →
      (∃ b, (maximalRunsFrom s c a L).head? = some (s, b, c)) ∧
      (∃ s' c', (maximalRunsFrom s c a L).getLast? = some (s', a + (L.length : ℤ), c')) ∧
      (∀ run ∈ maximalRunsFrom s c a L, run.1 < run.2.1) ∧
      (maximalRunsFrom s c a L).Chain' (fun r r' => r'.1 = r.2.1 ∧ r'.2.2 ≠ r.2.2) := by
  induction L with
  | nil =>
    intro s c a hsa
    refine ⟨⟨a, rfl⟩, ⟨s, c, by simp [maximalRunsFrom]⟩, ?_, by simp [maximalRunsFrom]⟩
    intro run hrun
    simp only [maximalRunsFrom, List.mem_singleton] at hrun
    rw [hrun]
    exact hsa
  | cons l ls ih =>
    intro s c a hsa
    have hlen : a + (((l :: ls).length : ℕ) : ℤ) = (a + 1) + (ls.length : ℤ) := by
      simp only [List.length_cons, Nat.cast_add, Nat.cast_one]; ring
    rw [hlen]
    by_cases hlc : l = c
    · simp only [maximalRunsFrom, hlc, if_true]
      exact ih s c (a + 1) (by omega)
    · simp only [maximalRunsFrom, hlc, if_false]
      obtain ⟨⟨b, hb⟩, ⟨s', c', hlast⟩, hpos, hchain⟩ := ih a l (a + 1) (by omega)
      obtain ⟨tl, htl⟩ : ∃ tl, maximalRunsFrom a l (a + 1) ls = (a, b, l) :: tl := by
        cases hout : maximalRunsFrom a l (a + 1) ls with
        | nil => rw [hout] at hb; simp at hb
        | cons r tl =>
          rw [hout] at hb
          simp only [List.head?_cons, Option.some.injEq] at hb
          exact ⟨tl, by rw [hb]⟩
      rw [htl] at hlast hpos hchain ⊢
      refine ⟨⟨a, rfl⟩, ⟨s', c', ?_⟩, ?_, ?_⟩
      · rw [List.getLast?_cons_cons]; exact hlast
      · intro run hrun
        rcases List.mem_cons.1 hrun with h | h
        · rw [h]; exact hsa
        · exact hpos run h
      · exact List.chain'_cons.2 ⟨⟨rfl, hlc⟩, hchain⟩

/-- The definition `maximalRuns` meets the description of a run-length encoding: the
runs of a non-empty list of labels start at frame 0, end at its length, are non-empty,
each starts where the previous one ends with the other class, and every frame inside a
run has the class of the run. -/
theorem maximalRuns_spec (l : Bool) (ls : List Bool) :
    (∃ b, (maximalRuns (l :: ls)).head? = some (0, b, l)) ∧
    (∃ s' c', (maximalRuns (l :: ls)).getLast? = some (s', ((l :: ls).length : ℤ), c')) ∧
    (∀ run ∈ maximalRuns (l :: ls), run.1 < run.2.1) ∧
    (maximalRuns (l :: ls)).Chain' (fun r r' => r'.1 = r.2.1 ∧ r'.2.2 ≠ r.2.2) ∧
    (∀ run ∈ maximalRuns (l :: ls), ∀ k : ℕ, run.1 ≤ (k : ℤ) → (k : ℤ) < run.2.1 →
      (l :: ls)[k]? = some run.2.2) := by
  obtain ⟨h1, ⟨s', c', h2⟩, h3, h4⟩ := maximalRunsFrom_chain ls 0 l 1 (by norm_num)
  refine ⟨h1, ⟨s', c', ?_⟩, h3, h4, ?_⟩
  · rw [maximalRuns, h2]
    simp only [List.length_cons, Nat.cast_add, Nat.cast_one]
    rw [add_comm]
  · intro run hrun k hk1 hk2
    have hcov := (covered_maximalRuns run.2.2 (l :: ls) (k : ℤ)).1 ⟨run, hrun, rfl, hk1, hk2⟩
    obtain ⟨k', hk', hget⟩ := (mem_framesOfClass run.2.2 (l :: ls) 0 (k : ℤ)).1 hcov
    have : k = k' := by omega
    rw [this]
    exact hget

theorem getLastD_mem_cons : ∀ (vs : List ℤ) (x0 : ℤ), vs.getLastD x0 ∈ x0 :: vs := by
  intro vs
  induction vs with
  | nil => intro x0; simp
  | cons y ys ih =>
    intro x0
    rw [List.getLastD_cons]
    exact List.mem_cons_of_mem _ (ih y)

/-- C5 (no marks at all): with both sets empty the encoder reaches the branch for
"negative and positive marks" and reads `front()` of an empty vector; no interval is
produced. -/
theorem encode_noMarks (videoFPS : ℚ) (N : ℤ) :
    generateAndSaveETFFile videoFPS N [] [] = none := by
  simp [generateAndSaveETFFile, videoTimeMarks]

/-- C7 (union of spans, no fabrication, order independence): decoding a list of records
from empty sets, the positive set is exactly the union of the spans of the records
flagged `"t"`, the negative set exactly the union of the spans of the other records, and
every permutation of the records gives the same two sets. -/
theorem readRecords_union_perm (videoFPS : ℚ) (records : List ETFRecord) :
    (∀ i, i ∈ (readRecords videoFPS records ([], [])).1
      ↔ ∃ r ∈ records, r.label = "t" ∧ recordSpan videoFPS r i) ∧
    (∀ i, i ∈ (readRecords videoFPS records ([], [])).2
      ↔ ∃ r ∈ records, r.label ≠ "t" ∧ recordSpan videoFPS r i) ∧
    (∀ records', records'.Perm records →
      readRecords videoFPS records' ([], []) = readRecords videoFPS records ([], [])) := by
  refine ⟨fun i => ?_, fun i => ?_, fun records' hperm => ?_⟩
  · simpa using (mem_readRecords videoFPS records ([], []) i).1
  · simpa using (mem_readRecords videoFPS records ([], []) i).2
  · have hs := sorted_readRecords videoFPS records ([], []) List.sorted_nil List.sorted_nil
    have hs' := sorted_readRecords videoFPS records' ([], []) List.sorted_nil List.sorted_nil
    refine Prod.ext ?_ ?_
    · refine eq_of_sorted_of_mem_iff hs'.1 hs.1 (fun i => ?_)
      rw [(mem_readRecords videoFPS records' ([], []) i).1,
        (mem_readRecords videoFPS records ([], []) i).1]
      simp only [hperm.mem_iff]
    · refine eq_of_sorted_of_mem_iff hs'.2 hs.2 (fun i => ?_)
      rw [(mem_readRecords videoFPS records' ([], []) i).2,
        (mem_readRecords videoFPS records ([], []) i).2]
      simp only [hperm.mem_iff]

theorem readRecords_union_perm_witness :
    readRecords 1 [⟨1, 1, "f"⟩, ⟨0, 1, "t"⟩] ([], [])
      = readRecords 1 [⟨0, 1, "t"⟩, ⟨1, 1, "f"⟩] ([], []) :=
  (readRecords_union_perm 1 [⟨0, 1, "t"⟩, ⟨1, 1, "f"⟩]).2.2 _ (List.Perm.swap _ _ _)

/-! ## The fields of a stream -/

theorem isSpace_of_isDigit {c : Char} (h : c.isDigit = true) : isSpace c = false := by
  unfold Char.isDigit at h
  unfold isSpace
  simp only [Bool.and_eq_true, decide_eq_true_eq] at h
  have h1 : (48 : ℕ) ≤ c.toNat := by
    have := h.1
    exact this
  simp only [Bool.or_eq_false_iff, decide_eq_false_iff_not, Bool.and_eq_false_imp,
    decide_eq_true_eq]
  omega

theorem skipSpaces_nil : skipSpaces [] = [] := rfl

theorem skipSpaces_cons_space {c : Char} (cs : List Char) (h : isSpace c = true) :
    skipSpaces (c :: cs) = skipSpaces cs := by
  simp [skipSpaces, List.dropWhile, h]

theorem skipSpaces_cons_token {c : Char} (cs : List Char) (h : isSpace c = false) :
    skipSpaces (c :: cs) = c :: cs := by
  simp [skipSpaces, List.dropWhile, h]

/-- The fields of a stream are those of the stream without its leading whitespace. -/
theorem fieldsFrom_skipSpaces : ∀ (s : List Char), fieldsFrom [] (skipSpaces s) = fieldsFrom [] s := by
  intro s
  induction s with
  | nil => rfl
  | cons c cs ih =>
    by_cases hc : isSpace c = true
    · rw [skipSpaces_cons_space cs hc, ih]
      simp [fieldsFrom, hc]
    · rw [skipSpaces_cons_token cs (by simpa using hc)]

/-- What `span` returns: a prefix whose characters satisfy the test, and the rest,
which is empty or begins with a character that fails it. -/
theorem span_spec (p : Char → Bool) (l : List Char) :
    l = (l.span p).1 ++ (l.span p).2 ∧ (∀ c ∈ (l.span p).1, p c = true)
      ∧ ((l.span p).2 = [] ∨ ∃ c r, (l.span p).2 = c :: r ∧ p c = false) := by
  rw [List.span_eq_take_drop]
  refine ⟨(List.takeWhile_append_dropWhile p l).symm, fun c hc => List.mem_takeWhile_imp hc, ?_⟩
  induction l with
  | nil => exact Or.inl rfl
  | cons a l ih =>
    by_cases ha : p a = true
    · simpa [List.dropWhile_cons, ha] using ih
    · right
      exact ⟨a, l, by simp [List.dropWhile_cons, ha], by simpa using ha⟩

/-- The span of a sequence of characters that satisfy the test, followed by a rest that
is empty or begins with a character that fails it. -/
theorem span_append (p : Char → Bool) (a t : List Char) (ha : ∀ c ∈ a, p c = true)
    (ht : t = [] ∨ ∃ c r, t = c :: r ∧ p c = false) : (a ++ t).span p = (a, t) := by
  rw [List.span_eq_take_drop]
  induction a with
  | nil =>
    rcases ht with rfl | ⟨c, r, rfl, hc⟩
    · rfl
    · simp [List.takeWhile_cons, List.dropWhile_cons, hc]
  | cons x a ih =>
    have hx := ha x (List.mem_cons_self _ _)
    have := ih (fun c hc => ha c (List.mem_cons_of_mem _ hc))
    simp only [Prod.mk.injEq] at this
    simp [List.takeWhile_cons, List.dropWhile_cons, hx, this.1, this.2]

theorem skipSpaces_spec (s : List Char) :
    skipSpaces s = [] ∨ ∃ c r, skipSpaces s = c :: r ∧ isSpace c = false := by
  induction s with
  | nil => exact Or.inl rfl
  | cons a l ih =>
    by_cases ha : isSpace a = true
    · rw [skipSpaces_cons_space l ha]
      exact ih
    · right
      exact ⟨a, l, skipSpaces_cons_token l (by simpa using ha), by simpa using ha⟩

/-- The fields of a stream: the field under construction completed by the characters up
to the first whitespace, then the fields of the rest. -/
theorem fieldsFrom_span : ∀ (s cur : List Char),
    fieldsFrom cur s
      = if cur ++ (s.span (fun c => !isSpace c)).1 = [] then
          fieldsFrom [] (s.span (fun c => !isSpace c)).2
        else (cur ++ (s.span (fun c => !isSpace c)).1)
          :: fieldsFrom [] (s.span (fun c => !isSpace c)).2 := by
  intro s
  induction s with
  | nil =>
    intro cur
    cases cur <;> simp [fieldsFrom, List.span_eq_take_drop]
  | cons c cs ih =>
    intro cur
    by_cases hc : isSpace c = true
    · cases cur <;>
        simp [fieldsFrom, List.span_eq_take_drop, List.takeWhile_cons, List.dropWhile_cons, hc]
    · have hc' : isSpace c = false := by simpa using hc
      simp only [fieldsFrom, hc', Bool.false_eq_true, if_false]
      rw [ih (cur ++ [c])]
      simp [List.span_eq_take_drop, List.takeWhile_cons, List.dropWhile_cons, hc']

/-- A token extraction fails exactly on a stream without fields; otherwise it takes the
first field and leaves the stream just after it. -/
theorem extractToken_fields (s : List Char) :
    (extractToken s = none ∧ fieldsFrom [] s = []) ∨
    (∃ f t, extractToken s = some (String.mk f, t) ∧ skipSpaces s = f ++ t ∧ f ≠ []
      ∧ (∀ c ∈ f, isSpace c = false)
      ∧ (t = [] ∨ ∃ c r, t = c :: r ∧ isSpace c = true)
      ∧ fieldsFrom [] s = f :: fieldsFrom [] t) := by
  obtain ⟨happ, hall, hrest⟩ := span_spec (fun c => !isSpace c) (skipSpaces s)
  have hfields := fieldsFrom_span (skipSpaces s) []
  rw [fieldsFrom_skipSpaces] at hfields
  simp only [List.nil_append] at hfields
  cases hf : ((skipSpaces s).span (fun c => !isSpace c)).1 with
  | nil =>
    left
    rw [hf] at happ hfields
    have hnil : skipSpaces s = [] := by
      rcases skipSpaces_spec s with h | ⟨c, r, h, hc⟩
      · exact h
      · rcases hrest with h' | ⟨c', r', h', hc'⟩
        · rw [happ, h']; rfl
        · exfalso
          rw [List.nil_append] at happ
          rw [← happ, h] at h'
          simp only [List.cons.injEq] at h'
          rw [← h'.1, hc] at hc'
          simp at hc'
    refine ⟨?_, ?_⟩
    · unfold extractToken
      rw [hnil]
      rfl
    · rw [← fieldsFrom_skipSpaces, hnil]
      rfl
  | cons a f =>
    right
    rw [hf] at happ hall hfields
    refine ⟨a :: f, ((skipSpaces s).span (fun c => !isSpace c)).2, ?_, happ,
      List.cons_ne_nil _ _, fun c hc => by simpa using hall c hc, ?_, ?_⟩
    · unfold extractToken
      have : (skipSpaces s).span (fun c => !isSpace c)
          = (a :: f, ((skipSpaces s).span (fun c => !isSpace c)).2) := by
        rw [← hf]
      rw [this]
    · rcases hrest with h | ⟨c, r, h, hc⟩
      · exact Or.inl h
      · exact Or.inr ⟨c, r, h, by simpa using hc⟩
    · simpa using hfields

theorem fieldsFrom_append_token (tok : List Char) (htok : ∀ c ∈ tok, isSpace c = false) :
    ∀ (cur rest : List Char), fieldsFrom cur (tok ++ rest) = fieldsFrom (cur ++ tok) rest := by
  induction tok with
  | nil => intro cur rest; simp
  | cons c cs ih =>
    intro cur rest
    have hc : isSpace c = false := htok c (List.mem_cons_self _ _)
    simp only [List.cons_append, fieldsFrom, hc, Bool.false_eq_true, if_false]
    change fieldsFrom (cur ++ [c]) (cs ++ rest) = _
    rw [ih (fun c' hc' => htok c' (List.mem_cons_of_mem _ hc'))]
    simp

/-! ## The reader of a `double` -/

theorem isSpace_ne_of {c : Char} (h : isSpace c = true) :
    c ≠ '-' ∧ c ≠ '+' ∧ c ≠ '.' ∧ c ≠ 'e' ∧ c ≠ 'E' ∧ c.isDigit = false := by
  refine ⟨?_, ?_, ?_, ?_, ?_, ?_⟩
  · rintro rfl; exact absurd h (by decide)
  · rintro rfl; exact absurd h (by decide)
  · rintro rfl; exact absurd h (by decide)
  · rintro rfl; exact absurd h (by decide)
  · rintro rfl; exact absurd h (by decide)
  · cases hd : c.isDigit with
    | false => rfl
    | true => rw [isSpace_of_isDigit hd] at h; exact absurd h (by decide)

theorem EndsField.not_digit {t : List Char} (ht : EndsField t) :
    t = [] ∨ ∃ c r, t = c :: r ∧ Char.isDigit c = false := by
  rcases ht with h | ⟨c, r, h, hc⟩
  · exact Or.inl h
  · exact Or.inr ⟨c, r, h, (isSpace_ne_of hc).2.2.2.2.2⟩

/-- The span of a stream followed by a rest that stops it. -/
theorem span_append_rest (p : Char → Bool) (l t : List Char)
    (ht : t = [] ∨ ∃ c r, t = c :: r ∧ p c = false) :
    (l ++ t).span p = ((l.span p).1, (l.span p).2 ++ t) := by
  obtain ⟨happ, hall, hrest⟩ := span_spec p l
  have h : l ++ t = (l.span p).1 ++ ((l.span p).2 ++ t) := by
    rw [← List.append_assoc, ← happ]
  rw [h]
  apply span_append p _ _ hall
  rcases hrest with h2 | ⟨c, r, h2, hc⟩
  · rw [h2, List.nil_append]; exact ht
  · right; exact ⟨c, r ++ t, by rw [h2]; rfl, hc⟩

theorem readSign_append (s t : List Char) (hs : s ≠ []) :
    readSign (s ++ t) = ((readSign s).1, (readSign s).2 ++ t) := by
  cases s with
  | nil => exact absurd rfl hs
  | cons c cs =>
    simp only [List.cons_append, readSign]
    split_ifs <;> rfl

theorem readSign_spec (s : List Char) :
    ∃ p, s = p ++ (readSign s).2 ∧ ∀ c ∈ p, isSpace c = false := by
  cases s with
  | nil => exact ⟨[], rfl, fun c hc => absurd hc (List.not_mem_nil c)⟩
  | cons c cs =>
    simp only [readSign]
    split_ifs with h1 h2
    · refine ⟨[c], rfl, fun x hx => ?_⟩
      rw [List.mem_singleton] at hx
      rw [hx, h1]; decide
    · refine ⟨[c], rfl, fun x hx => ?_⟩
      rw [List.mem_singleton] at hx
      rw [hx, h2]; decide
    · exact ⟨[], rfl, fun c hc => absurd hc (List.not_mem_nil c)⟩

theorem readFraction_append (s t : List Char) (ht : EndsField t) :
    readFraction (s ++ t) = ((readFraction s).1, (readFraction s).2 ++ t) := by
  cases s with
  | nil =>
    rcases ht with h | ⟨c, r, h, hc⟩
    · rw [h]; rfl
    · rw [h]
      simp only [List.nil_append, readFraction, if_neg (isSpace_ne_of hc).2.2.1]
  | cons c cs =>
    simp only [List.cons_append, readFraction]
    split_ifs
    · exact span_append_rest _ cs t ht.not_digit
    · rfl

theorem readFraction_spec (s : List Char) :
    ∃ p, s = p ++ (readFraction s).2 ∧ (∀ c ∈ p, isSpace c = false)
      ∧ (∀ c ∈ (readFraction s).1, Char.isDigit c = true)
      ∧ ((readFraction s).1 ≠ [] → p ≠ []) := by
  cases s with
  | nil => exact ⟨[], rfl, fun c hc => absurd hc (List.not_mem_nil c),
      fun c hc => absurd hc (List.not_mem_nil c), fun h => absurd rfl h⟩
  | cons c cs =>
    simp only [readFraction]
    split_ifs with h1
    · obtain ⟨happ, hall, _⟩ := span_spec Char.isDigit cs
      refine ⟨c :: (cs.span Char.isDigit).1, by rw [List.cons_append, ← happ], ?_, hall,
        fun _ => List.cons_ne_nil _ _⟩
      intro x hx
      rcases List.mem_cons.1 hx with h | h
      · rw [h, h1]; decide
      · exact isSpace_of_isDigit (hall x h)
    · exact ⟨[], rfl, fun c hc => absurd hc (List.not_mem_nil c),
        fun c hc => absurd hc (List.not_mem_nil c), fun h => absurd rfl h⟩

theorem convertDouble_eq_some (negative : Bool) (v : ℚ) (rest : List Char) (x : ℚ)
    (r : List Char) :
    convertDouble negative v rest = some (x, r)
      ↔ v < doubleOverflow ∧ x = roundDouble (if negative then -v else v) ∧ r = rest := by
  unfold convertDouble
  by_cases h : v < doubleOverflow
  · rw [if_pos h]
    simp only [Option.some.injEq, Prod.mk.injEq, h, true_and]
    constructor
    · rintro ⟨h1, h2⟩; exact ⟨h1.symm, h2.symm⟩
    · rintro ⟨h1, h2⟩; exact ⟨h1.symm, h2.symm⟩
  · rw [if_neg h]
    simp [h]

theorem convertDouble_map (negative : Bool) (v : ℚ) (r t : List Char) :
    (convertDouble negative v r).map (fun xr => (xr.1, xr.2 ++ t))
      = convertDouble negative v (r ++ t) := by
  unfold convertDouble
  by_cases h : v < doubleOverflow
  · rw [if_pos h, if_pos h]; rfl
  · rw [if_neg h, if_neg h]; rfl

theorem readExponent_append (negative : Bool) (m : ℚ) (s t : List Char) (ht : EndsField t) :
    readExponent negative m (s ++ t)
      = (readExponent negative m s).map (fun xr => (xr.1, xr.2 ++ t)) := by
  by_cases hs : s = []
  · subst hs
    have h1 : readExponent negative m [] = none := by
      simp [readExponent, readSign, List.span_eq_take_drop]
    rw [h1, List.nil_append]
    rcases ht with rfl | ⟨c, r, rfl, hc⟩
    · exact h1
    · have hne := isSpace_ne_of hc
      unfold readExponent
      simp only [readSign, if_neg hne.1, if_neg hne.2.1]
      have hsp : (c :: r).span Char.isDigit = ([], c :: r) := by
        simp [List.span_eq_take_drop, List.takeWhile_cons, List.dropWhile_cons, hne.2.2.2.2.2]
      rw [hsp]
      simp
  unfold readExponent
  rw [readSign_append s t hs]
  simp only []
  rw [span_append_rest _ _ t ht.not_digit]
  simp only []
  by_cases hd : ((readSign s).2.span Char.isDigit).1 = []
  · rw [if_pos hd, if_pos hd]; rfl
  · rw [if_neg hd, if_neg hd, convertDouble_map]

theorem readExponent_spec (negative : Bool) (m : ℚ) (s : List Char) (x : ℚ) (r : List Char)
    (h : readExponent negative m s = some (x, r)) :
    ∃ p, s = p ++ r ∧ ∀ c ∈ p, isSpace c = false := by
  unfold readExponent at h
  by_cases hd : ((readSign s).2.span Char.isDigit).1 = []
  · rw [if_pos hd] at h
    exact absurd h (by simp)
  rw [if_neg hd, convertDouble_eq_some] at h
  obtain ⟨p1, hp1, hp1s⟩ := readSign_spec s
  obtain ⟨happ, hall, _⟩ := span_spec Char.isDigit (readSign s).2
  refine ⟨p1 ++ ((readSign s).2.span Char.isDigit).1, ?_, ?_⟩
  · rw [h.2.2, List.append_assoc, ← happ]
    exact hp1
  · intro c hc
    rcases List.mem_append.1 hc with h' | h'
    · exact hp1s c h'
    · exact isSpace_of_isDigit (hall c h')

theorem readTail_append (negative : Bool) (m : ℚ) (s t : List Char) (ht : EndsField t) :
    readTail negative m (s ++ t)
      = (readTail negative m s).map (fun xr => (xr.1, xr.2 ++ t)) := by
  cases s with
  | nil =>
    rcases ht with rfl | ⟨c, r', rfl, hc⟩
    · rw [List.append_nil]
      cases readTail negative m [] with
      | none => rfl
      | some xr => simp
    · have hne := isSpace_ne_of hc
      simp only [List.nil_append, readTail, if_neg (not_or.2 ⟨hne.2.2.2.1, hne.2.2.2.2.1⟩),
        convertDouble_map]
  | cons c cs =>
    simp only [List.cons_append, readTail]
    by_cases he : c = 'e' ∨ c = 'E'
    · rw [if_pos he, if_pos he]
      exact readExponent_append negative m cs t ht
    · rw [if_neg he, if_neg he, convertDouble_map]
      rfl

theorem readTail_spec (negative : Bool) (m : ℚ) (s : List Char) (x : ℚ) (r : List Char)
    (h : readTail negative m s = some (x, r)) :
    ∃ p, s = p ++ r ∧ ∀ c ∈ p, isSpace c = false := by
  cases s with
  | nil =>
    simp only [readTail, convertDouble_eq_some] at h
    exact ⟨[], by rw [h.2.2]; rfl, fun c hc => absurd hc (List.not_mem_nil c)⟩
  | cons c cs =>
    simp only [readTail] at h
    split_ifs at h with he
    · obtain ⟨p, hp, hps⟩ := readExponent_spec negative m cs x r h
      refine ⟨c :: p, by rw [hp]; rfl, fun y hy => ?_⟩
      rcases List.mem_cons.1 hy with h' | h'
      · rcases he with he | he <;> rw [h', he] <;> decide
      · exact hps y h'
    · rw [convertDouble_eq_some] at h
      exact ⟨[], by rw [h.2.2]; rfl, fun c hc => absurd hc (List.not_mem_nil c)⟩

theorem readMantissa_append (negative : Bool) (s t : List Char) (ht : EndsField t) :
    readMantissa negative (s ++ t)
      = (readMantissa negative s).map (fun xr => (xr.1, xr.2 ++ t)) := by
  unfold readMantissa
  rw [span_append_rest _ s t ht.not_digit]
  simp only []
  rw [readFraction_append _ t ht]
  simp only []
  by_cases hd : (s.span Char.isDigit).1 ++ (readFraction (s.span Char.isDigit).2).1 = []
  · rw [if_pos hd, if_pos hd]; rfl
  · rw [if_neg hd, if_neg hd]
    exact readTail_append negative _ _ t ht

theorem readMantissa_spec (negative : Bool) (s : List Char) (x : ℚ) (r : List Char)
    (h : readMantissa negative s = some (x, r)) :
    ∃ p, s = p ++ r ∧ p ≠ [] ∧ ∀ c ∈ p, isSpace c = false := by
  unfold readMantissa at h
  split_ifs at h with hd
  obtain ⟨happ, hall, _⟩ := span_spec Char.isDigit s
  obtain ⟨p2, hp2, hp2s, _, hp2n⟩ := readFraction_spec (s.span Char.isDigit).2
  obtain ⟨p3, hp3, hp3s⟩ := readTail_spec negative _ _ x r h
  refine ⟨(s.span Char.isDigit).1 ++ p2 ++ p3, ?_, ?_, ?_⟩
  · rw [List.append_assoc, List.append_assoc, ← hp3, ← hp2, ← happ]
  · intro hnil
    simp only [List.append_eq_nil] at hnil
    apply hd
    rw [hnil.1.1]
    by_contra hne
    exact hp2n (by simpa using hne) hnil.1.2
  · intro c hc
    simp only [List.mem_append] at hc
    rcases hc with (h' | h') | h'
    · exact isSpace_of_isDigit (hall c h')
    · exact hp2s c h'
    · exact hp3s c h'

/-- The reader takes a non-empty run of characters without whitespace from the front of
the stream and leaves the rest. -/
theorem streamReadDouble_spec (s : List Char) (x : ℚ) (r : List Char)
    (h : streamReadDouble s = some (x, r)) :
    ∃ p, s = p ++ r ∧ p ≠ [] ∧ ∀ c ∈ p, isSpace c = false := by
  unfold streamReadDouble at h
  obtain ⟨p1, hp1, hp1s⟩ := readSign_spec s
  obtain ⟨p2, hp2, hp2n, hp2s⟩ := readMantissa_spec _ _ x r h
  refine ⟨p1 ++ p2, by rw [List.append_assoc, ← hp2]; exact hp1, ?_, ?_⟩
  · intro hnil
    exact hp2n (List.append_eq_nil.1 hnil).2
  · intro c hc
    rcases List.mem_append.1 hc with h' | h'
    · exact hp1s c h'
    · exact hp2s c h'

theorem streamReadDouble_endsField (t : List Char) (ht : EndsField t) :
    streamReadDouble t = none := by
  rcases ht with rfl | ⟨c, r, rfl, hc⟩
  · simp [streamReadDouble, readSign, readMantissa, readFraction, List.span_eq_take_drop]
  · have hne := isSpace_ne_of hc
    have hsp : (c :: r).span Char.isDigit = ([], c :: r) := by
      simp [List.span_eq_take_drop, List.takeWhile_cons, List.dropWhile_cons, hne.2.2.2.2.2]
    unfold streamReadDouble
    simp only [readSign, if_neg hne.1, if_neg hne.2.1]
    unfold readMantissa
    rw [hsp]
    simp [readFraction, if_neg hne.2.2.1]

/-- What the reader makes of a stream followed by a rest that is empty or begins with
whitespace is what it makes of the stream, this rest being left in addition. -/
theorem streamReadDouble_append (s t : List Char) (ht : EndsField t) :
    streamReadDouble (s ++ t)
      = (streamReadDouble s).map (fun xr => (xr.1, xr.2 ++ t)) := by
  by_cases hs : s = []
  · subst hs
    rw [List.nil_append, streamReadDouble_endsField t ht, streamReadDouble_endsField [] (Or.inl rfl)]
    rfl
  unfold streamReadDouble
  rw [readSign_append s t hs]
  exact readMantissa_append _ _ t ht

/-! ## Parsing a line -/

theorem fieldsFrom_of_lineFields (etfLine : String) (fs : List String)
    (h : lineFields etfLine = fs) : fieldsFrom [] etfLine.data = fs.map String.data := by
  rw [← h]
  unfold lineFields
  rw [List.map_map]
  have hid : (String.data ∘ String.mk) = id := rfl
  rw [hid, List.map_id]

/-- A token extraction on a stream whose first field is `f` returns `f` and leaves the
other fields. -/
theorem extractToken_of_fields (s f : List Char) (fs : List (List Char))
    (h : fieldsFrom [] s = f :: fs) :
    ∃ t, extractToken s = some (String.mk f, t) ∧ fieldsFrom [] t = fs
      ∧ skipSpaces s = f ++ t ∧ EndsField t := by
  rcases extractToken_fields s with ⟨_, h0⟩ | ⟨f', t, h1, h2, _, _, h5, h6⟩
  · rw [h0] at h
    exact absurd h (by simp)
  · rw [h6] at h
    simp only [List.cons.injEq] at h
    exact ⟨t, by rw [h1, h.1], h.2, by rw [h2, h.1], h5⟩

/-- A numeric extraction on a stream whose first field is `f` is the reading of `f`
alone, the other fields being left after what the reader leaves of `f`. -/
theorem extractDouble_of_fields (s f : List Char) (fs : List (List Char))
    (h : fieldsFrom [] s = f :: fs) :
    ∃ t, EndsField t ∧ fieldsFrom [] t = fs
      ∧ extractDouble streamReadDouble s
          = (streamReadDouble f).map (fun xr => (xr.1, xr.2 ++ t)) := by
  obtain ⟨t, _, h2, h3, h4⟩ := extractToken_of_fields s f fs h
  refine ⟨t, h4, h2, ?_⟩
  unfold extractDouble
  rw [h3, streamReadDouble_append f t h4]

/-- A line with at least nine fields whose third and fourth fields are numbers is
parsed into the record of its third, fourth and ninth fields. -/
theorem parseETFLine_of_fields (etfLine : String)
    {v src b d e1 d1 ev d2 lab : String} {rest : List String} {bt du : ℚ}
    (hfields : lineFields etfLine = v :: src :: b :: d :: e1 :: d1 :: ev :: d2 :: lab :: rest)
    (hb : streamReadDouble b.data = some (bt, []))
    (hd : streamReadDouble d.data = some (du, [])) :
    parseETFLine streamReadDouble etfLine = some ⟨bt, du, lab⟩ := by
  have h0 := fieldsFrom_of_lineFields etfLine _ hfields
  simp only [List.map_cons] at h0
  obtain ⟨s1, h1, hf1, _, _⟩ := extractToken_of_fields _ _ _ h0
  obtain ⟨s2, h2, hf2, _, _⟩ := extractToken_of_fields _ _ _ hf1
  obtain ⟨s3, _, hf3, h3⟩ := extractDouble_of_fields _ _ _ hf2
  rw [hb] at h3
  simp only [Option.map_some', List.nil_append] at h3
  obtain ⟨s4, _, hf4, h4⟩ := extractDouble_of_fields _ _ _ hf3
  rw [hd] at h4
  simp only [Option.map_some', List.nil_append] at h4
  obtain ⟨s5, h5, hf5, _, _⟩ := extractToken_of_fields _ _ _ hf4
  obtain ⟨s6, h6, hf6, _, _⟩ := extractToken_of_fields _ _ _ hf5
  obtain ⟨s7, h7, hf7, _, _⟩ := extractToken_of_fields _ _ _ hf6
  obtain ⟨s8, h8, hf8, _, _⟩ := extractToken_of_fields _ _ _ hf7
  obtain ⟨s9, h9, _, _, _⟩ := extractToken_of_fields _ _ _ hf8
  simp [parseETFLine, h1, h2, h3, h4, h5, h6, h7, h8, h9]

/-- A line whose third field does not begin with a number is not parsed. -/
theorem parseETFLine_third_field (etfLine : String) {v src b : String} {rest : List String}
    (hfields : lineFields etfLine = v :: src :: b :: rest)
    (hb : streamReadDouble b.data = none) :
    parseETFLine streamReadDouble etfLine = none := by
  have h0 := fieldsFrom_of_lineFields etfLine _ hfields
  simp only [List.map_cons] at h0
  obtain ⟨s1, h1, hf1, _, _⟩ := extractToken_of_fields _ _ _ h0
  obtain ⟨s2, h2, hf2, _, _⟩ := extractToken_of_fields _ _ _ hf1
  obtain ⟨s3, _, hf3, h3⟩ := extractDouble_of_fields _ _ _ hf2
  rw [hb] at h3
  simp [parseETFLine, h1, h2, h3]

theorem length_fieldsFrom_le (s cur : List Char) :
    (fieldsFrom [] s).length ≤ (fieldsFrom cur s).length := by
  rw [fieldsFrom_span s cur, fieldsFrom_span s []]
  simp only [List.nil_append]
  by_cases h1 : (s.span (fun c => !isSpace c)).1 = []
  · rw [if_pos h1]
    by_cases h2 : cur ++ (s.span (fun c => !isSpace c)).1 = []
    · rw [if_pos h2]
    · rw [if_neg h2]
      exact Nat.le_succ _
  · rw [if_neg h1]
    have h2 : cur ++ (s.span (fun c => !isSpace c)).1 ≠ [] := by
      intro hnil
      exact h1 (List.append_eq_nil.1 hnil).2
    rw [if_neg h2]
    exact le_refl _

/-- A token extraction that succeeds takes one field off the stream. -/
theorem extractToken_length (s : List Char) (tok : String) (r : List Char)
    (h : extractToken s = some (tok, r)) :
    (fieldsFrom [] s).length = (fieldsFrom [] r).length + 1 := by
  rcases extractToken_fields s with ⟨h0, _⟩ | ⟨f, t, h1, _, _, _, _, h6⟩
  · rw [h0] at h
    exact absurd h (by simp)
  · rw [h1] at h
    simp only [Option.some.injEq, Prod.mk.injEq] at h
    rw [h6, ← h.2]
    rfl

/-- A numeric extraction that succeeds finds a field and leaves no more fields than it
found. -/
theorem extractDouble_length (s : List Char) (x : ℚ) (r : List Char)
    (h : extractDouble streamReadDouble s = some (x, r)) :
    (fieldsFrom [] r).length ≤ (fieldsFrom [] s).length ∧ 1 ≤ (fieldsFrom [] s).length := by
  unfold extractDouble at h
  obtain ⟨p, hp, hpn, hps⟩ := streamReadDouble_spec _ x r h
  have h1 : fieldsFrom [] s = fieldsFrom p r := by
    rw [← fieldsFrom_skipSpaces, hp, fieldsFrom_append_token p hps [] r]
    rfl
  rw [h1]
  refine ⟨length_fieldsFrom_le r p, ?_⟩
  rw [fieldsFrom_span r p]
  have : p ++ (r.span (fun c => !isSpace c)).1 ≠ [] := by
    intro hnil
    exact hpn (List.append_eq_nil.1 hnil).1
  rw [if_neg this]
  exact Nat.succ_le_succ (Nat.zero_le _)

/-- A line that is parsed has seven fields at least. -/
theorem parseETFLine_seven_fields (etfLine : String) (r : ETFRecord)
    (h : parseETFLine streamReadDouble etfLine = some r) : 7 ≤ (lineFields etfLine).length := by
  simp only [parseETFLine, bind, Option.bind_eq_some, Prod.exists, pure] at h
  obtain ⟨v, s1, h1, src, s2, h2, bt, s3, h3, du, s4, h4, e1, s5, h5, d1, s6, h6,
    ev, s7, h7, d2, s8, h8, lab, s9, h9, _⟩ := h
  have l1 := extractToken_length _ _ _ h1
  have l2 := extractToken_length _ _ _ h2
  have l3 := (extractDouble_length _ _ _ h3).1
  have l4 := (extractDouble_length _ _ _ h4).1
  have l5 := extractToken_length _ _ _ h5
  have l6 := extractToken_length _ _ _ h6
  have l7 := extractToken_length _ _ _ h7
  have l8 := extractToken_length _ _ _ h8
  have l9 := extractToken_length _ _ _ h9
  unfold lineFields
  rw [List.length_map]
  omega

/-- C8 (counterexample): the line `v 1 0 4 t` supplies a video name, a source id, a
numeric start time, a numeric duration and a polarity flag, and it matches the video
`v`, yet reading it throws `-2`: the sixth extraction finds the line exhausted. The line
`clip 1 0 2x event - e -`, whose fourth field `2x` is not a number, is accepted: the
extraction of the duration reads `2` and leaves `x` for the next extraction, and the
ninth extraction takes the last dash for the polarity flag. -/
theorem readETFLine_five_fields_rejected :
    lineFields "v 1 0 4 t" = ["v", "1", "0", "4", "t"]
      ∧ streamReadDouble "0".data = some (0, [])
      ∧ streamReadDouble "4".data = some (4, [])
      ∧ lineMatches "v" "v 1 0 4 t" = true
      ∧ readETFLine streamReadDouble "v" 25 "v 1 0 4 t" ([], []) = Except.error (-2)
      ∧ lineFields "clip 1 0 2x event - e -" = ["clip", "1", "0", "2x", "event", "-", "e", "-"]
      ∧ streamReadDouble "2x".data = some (2, ['x'])
      ∧ parseETFLine streamReadDouble "clip 1 0 2x event - e -" = some ⟨0, 2, "-"⟩
      ∧ readETFLine streamReadDouble "clip" 1 "clip 1 0 2x event - e -" ([], [])
        = Except.ok ([], [0, 1]) := by
  decide!

/-- C8 (amended): for a matching non-comment line, reading throws `-2` exactly when one
of the nine extractions fails. A line with nine (or more) whitespace-separated fields
whose third and fourth fields are numbers is accepted and labels the frames of the record
made of its third, fourth and ninth fields. A line with fewer than seven fields is
rejected, and so is a line whose third field does not begin with a number. -/
theorem readETFLine_malformed_spec (videoFileName : String) (videoFPS : ℚ)
    (etfLine : String) (sets : List ℤ × List ℤ)
    (hmatch : lineMatches videoFileName etfLine = true) :
    (readETFLine streamReadDouble videoFileName videoFPS etfLine sets = Except.error (-2)
      ↔ parseETFLine streamReadDouble etfLine = none) ∧
    (∀ v src b d e1 d1 ev d2 lab rest bt du,
      lineFields etfLine = v :: src :: b :: d :: e1 :: d1 :: ev :: d2 :: lab :: rest →
      streamReadDouble b.data = some (bt, []) → streamReadDouble d.data = some (du, []) →
      readETFLine streamReadDouble videoFileName videoFPS etfLine sets
        = Except.ok (labelFrames videoFPS ⟨bt, du, lab⟩ sets)) ∧
    ((lineFields etfLine).length < 7 →
      readETFLine streamReadDouble videoFileName videoFPS etfLine sets = Except.error (-2)) ∧
    (∀ v src b rest, lineFields etfLine = v :: src :: b :: rest →
      streamReadDouble b.data = none →
      readETFLine streamReadDouble videoFileName videoFPS etfLine sets = Except.error (-2)) := by
  have herr : readETFLine streamReadDouble videoFileName videoFPS etfLine sets
      = Except.error (-2) ↔ parseETFLine streamReadDouble etfLine = none := by
    unfold readETFLine
    cases hp : parseETFLine streamReadDouble etfLine with
    | none => simp [hmatch]
    | some r => simp [hmatch]
  refine ⟨herr, ?_, ?_, ?_⟩
  · intro v src b d e1 d1 ev d2 lab rest bt du hfields hb hd
    unfold readETFLine
    rw [parseETFLine_of_fields etfLine hfields hb hd]
    simp [hmatch]
  · intro hlen
    rw [herr]
    cases hp : parseETFLine streamReadDouble etfLine with
    | none => rfl
    | some r =>
      have := parseETFLine_seven_fields etfLine r hp
      omega
  · intro v src b rest hfields hb
    rw [herr]
    exact parseETFLine_third_field etfLine hfields hb

theorem readETFLine_malformed_spec_witness :
    readETFLine streamReadDouble "v" 1 "v 1 0 2 event - e - t" ([], [])
      = Except.ok (labelFrames 1 ⟨0, 2, "t"⟩ ([], [])) :=
  (readETFLine_malformed_spec "v" 1 "v 1 0 2 event - e - t" ([], [])
    (by decide)).2.1 "v" "1" "0" "2" "event" "-" "e" "-" "t" [] 0 2
    (by decide) (by decide!) (by decide!)

/-! ## Label seeding -/

theorem mem_foldl_insertFrame (x : ℤ) :
    ∀ (l : List ℕ) (init : List ℤ),
      x ∈ l.foldl (fun frames (i : ℕ) => insertFrame (i : ℤ) frames) init
        ↔ x ∈ init ∨ ∃ k ∈ l, x = (k : ℤ) := by
  intro l
  induction l with
  | nil => intro init; simp
  | cons a l ih =>
    intro init
    rw [List.foldl_cons, ih, mem_insertFrame]
    simp only [List.mem_cons, exists_eq_or_imp]
    constructor
    · rintro ((h | h) | h)
      · exact Or.inr (Or.inl h)
      · exact Or.inl h
      · exact Or.inr (Or.inr h)
    · rintro (h | h | h)
      · exact Or.inl (Or.inr h)
      · exact Or.inl (Or.inl h)
      · exact Or.inr h

theorem mem_allFramesNegative (frameCount : ℕ) (i : ℤ) :
    i ∈ allFramesNegative frameCount ↔ 0 ≤ i ∧ i < frameCount := by
  unfold allFramesNegative
  rw [mem_foldl_insertFrame]
  simp only [List.not_mem_nil, false_or, List.mem_range]
  constructor
  · rintro ⟨k, hk, rfl⟩
    omega
  · rintro ⟨h0, h1⟩
    exact ⟨i.toNat, by omega, by omega⟩

/-- The sets after reading a file without error: the given ones, plus the spans of the
records of the matching lines. -/
theorem mem_readInputETFFile (readDouble : List Char → Option (ℚ × List Char))
    (videoFileName : String) (videoFPS : ℚ) (i : ℤ) :
    ∀ (etfLines : List String) (sets sets' : List ℤ × List ℤ),
      readInputETFFile readDouble videoFileName videoFPS etfLines sets = Except.ok sets' →
      (i ∈ sets'.1 ↔ i ∈ sets.1 ∨ ∃ etfLine ∈ etfLines, ∃ r,
          lineMatches videoFileName etfLine = true
            ∧ parseETFLine readDouble etfLine = some r
            ∧ r.label = "t" ∧ recordSpan videoFPS r i) ∧
      (i ∈ sets'.2 ↔ i ∈ sets.2 ∨ ∃ etfLine ∈ etfLines, ∃ r,
          lineMatches videoFileName etfLine = true
            ∧ parseETFLine readDouble etfLine = some r
            ∧ r.label ≠ "t" ∧ recordSpan videoFPS r i) := by
  intro etfLines
  induction etfLines with
  | nil =>
    intro sets sets' h
    simp only [readInputETFFile, Except.ok.injEq] at h
    subst h
    simp
  | cons l ls ih =>
    intro sets sets' h
    simp only [readInputETFFile, readETFLine] at h
    by_cases hm : lineMatches videoFileName l = true
    · cases hp : parseETFLine readDouble l with
      | none => simp [hm, hp] at h
      | some r =>
        simp only [hm, hp, if_true] at h
        have := ih _ _ h
        refine ⟨?_, ?_⟩
        · rw [this.1, mem_labelFrames_fst]
          simp only [List.mem_cons, exists_eq_or_imp, hm, hp, Option.some.injEq, true_and,
            exists_eq_left', or_assoc]
        · rw [this.2, mem_labelFrames_snd]
          simp only [List.mem_cons, exists_eq_or_imp, hm, hp, Option.some.injEq, true_and,
            exists_eq_left', or_assoc]
    · simp only [hm, if_false, Bool.false_eq_true] at h
      have := ih _ _ h
      refine ⟨?_, ?_⟩
      · rw [this.1]
        simp only [List.mem_cons, exists_eq_or_imp, hm, Bool.false_eq_true, false_and,
          exists_false, false_or]
      · rw [this.2]
        simp only [List.mem_cons, exists_eq_or_imp, hm, Bool.false_eq_true, false_and,
          exists_false, false_or]

/-- Reading a file whose lines all match the video and parse into the given records
is decoding those records in order. -/
theorem readInputETFFile_eq_readRecords (readDouble : List Char → Option (ℚ × List Char))
    (videoFileName : String) (videoFPS : ℚ) :
    ∀ (etfLines : List String) (records : List ETFRecord) (sets : List ℤ × List ℤ),
      List.Forall₂ (fun etfLine r => lineMatches videoFileName etfLine = true
        ∧ parseETFLine readDouble etfLine = some r) etfLines records →
      readInputETFFile readDouble videoFileName videoFPS etfLines sets
        = Except.ok (readRecords videoFPS records sets) := by
  intro etfLines records sets h
  induction h generalizing sets with
  | nil => rfl
  | cons hhead _ ih =>
    simp only [readInputETFFile, readETFLine, hhead.1, hhead.2, if_true]
    rw [ih]
    rfl

/-- C9 (counterexample): seeding from an input file that has no line for the video
leaves frame 0 of a one-frame video in neither set. -/
theorem seedLabelSets_import_unlabelled :
    ¬ (∀ sets, seedLabelSets streamReadDouble "clip" 25 1 (some ["other 1 0 4 event - e - t"])
          = Except.ok sets →
        ∀ i : ℤ, 0 ≤ i ∧ i < 1 →
          (i ∈ sets.1 ∨ i ∈ sets.2) ∧ ¬ (i ∈ sets.1 ∧ i ∈ sets.2)) := by
  intro h
  have h0 := (h ([], []) (by decide!) 0 (by norm_num)).1
  simp at h0

/-- C9 (amended): without an input file every index of `[0, N)` is in the negative set
and the positive set is empty, so each index is in exactly one set; with an input file
read without error, an index is in the positive (negative) set exactly when it lies in
the span of a record of a matching line flagged `"t"` (flagged otherwise), and nothing
is added for the indices that no matching record covers. -/
theorem seedLabelSets_spec (readDouble : List Char → Option (ℚ × List Char))
    (parsedVideoFileName : String) (videoFPS : ℚ) (frameCount : ℕ) :
    (∃ negativeFrames,
      seedLabelSets readDouble parsedVideoFileName videoFPS frameCount none
        = Except.ok ([], negativeFrames)
      ∧ ∀ i : ℤ, i ∈ negativeFrames ↔ 0 ≤ i ∧ i < frameCount) ∧
    (∀ etfLines sets,
      seedLabelSets readDouble parsedVideoFileName videoFPS frameCount (some etfLines)
        = Except.ok sets →
      ∀ i : ℤ,
        (i ∈ sets.1 ↔ ∃ etfLine ∈ etfLines, ∃ r,
          lineMatches parsedVideoFileName etfLine = true
            ∧ parseETFLine readDouble etfLine = some r
            ∧ r.label = "t" ∧ recordSpan videoFPS r i) ∧
        (i ∈ sets.2 ↔ ∃ etfLine ∈ etfLines, ∃ r,
          lineMatches parsedVideoFileName etfLine = true
            ∧ parseETFLine readDouble etfLine = some r
            ∧ r.label ≠ "t" ∧ recordSpan videoFPS r i)) := by
  refine ⟨⟨allFramesNegative frameCount, rfl, mem_allFramesNegative frameCount⟩, ?_⟩
  intro etfLines sets h i
  have := mem_readInputETFFile readDouble parsedVideoFileName videoFPS i etfLines ([], [])
    sets h
  simpa using this

theorem seedLabelSets_spec_witness :
    ((1 : ℤ) ∈ ([0, 1] : List ℤ) ↔ ∃ etfLine ∈ ["v 1 0 2 event - e - t"], ∃ r,
          lineMatches "v" etfLine = true
            ∧ parseETFLine streamReadDouble etfLine = some r
            ∧ r.label = "t" ∧ recordSpan 1 r 1) :=
  ((seedLabelSets_spec streamReadDouble "v" 1 2).2 ["v 1 0 2 event - e - t"] ([0, 1], [])
    (by decide!) 1).1

/-! ## The session -/

/-- C10 (the code at the failing input): with 129 frames, all negative, the keys `e`
and then `a`, pressed before any buffer is refilled, leave the session on frame 127
with an empty current buffer (the step back takes the place of the emptied previous
buffer without testing it), and the next rendering throws at
`currentVideoFrameBuffer.at(127 % 64)`. -/
theorem step_back_onto_empty_buffer :
    ∃ s, ((sessionStart 129 [] (allFramesNegative 129)).bind (loopTurn 'e')).bind
          (loopTurn 'a') = some s
      ∧ s.frameFilePathsSize = 129
      ∧ s.currentVideoFrameNumber = 127
      ∧ s.refCurrentBufferedFrameNumber = 64
      ∧ s.currentVideoFrameBuffer = []
      ∧ renderTick s = none :=
  ⟨_, rfl, rfl, rfl, rfl, rfl, rfl⟩

/-! ## Machine integers -/

theorem toSizeT_of_nonneg {x : ℤ} (h0 : 0 ≤ x) (h1 : x < 2 ^ 64) :
    toSizeT x = x.toNat := by
  unfold toSizeT
  rw [Int.emod_eq_of_lt h0 h1]

theorem toSizeT_lt_iff {x : ℤ} {n : ℕ} (h0 : 0 ≤ x) (h1 : x < 2 ^ 64) :
    toSizeT x < n ↔ x < (n : ℤ) := by
  rw [toSizeT_of_nonneg h0 h1]; omega

theorem toInt_of_lt {n : ℕ} (h : n < 2 ^ 31) : toInt n = (n : ℤ) := by
  unfold toInt
  rw [Nat.mod_eq_of_lt (by omega), if_pos h]

theorem sizeSub_of_le {a b : ℕ} (hb : b ≤ a) (ha : a < 2 ^ 64) : sizeSub a b = a - b := by
  unfold sizeSub
  have h1 : b % 2 ^ 64 = b := Nat.mod_eq_of_lt (by omega)
  rw [h1]
  have h2 : 2 ^ 64 + a - b = (a - b) + 2 ^ 64 := by omega
  rw [h2, Nat.add_mod_right, Nat.mod_eq_of_lt (by omega)]

/-! ## Loading a buffer -/

theorem frameRange_of_le {a b : ℤ} (h : b ≤ a) : frameRange a b = [] := by
  unfold frameRange
  have : (b - a).toNat = 0 := by omega
  rw [this]; rfl

theorem frameRange_cons {a b : ℤ} (h : a < b) :
    frameRange a b = a :: frameRange (a + 1) b := by
  unfold frameRange
  have : (b - a).toNat = (b - (a + 1)).toNat + 1 := by omega
  rw [this, List.range_succ_eq_map, List.map_cons, List.map_map]
  simp only [Nat.cast_zero, add_zero, List.cons.injEq, true_and]
  apply List.map_congr_left
  intro k _
  simp only [Function.comp, Nat.succ_eq_add_one, Nat.cast_add, Nat.cast_one]
  ring

theorem mem_frameRange (a b x : ℤ) : x ∈ frameRange a b ↔ a ≤ x ∧ x < b := by
  unfold frameRange
  simp only [List.mem_map, List.mem_range]
  constructor
  · rintro ⟨k, hk, rfl⟩
    omega
  · rintro ⟨h1, h2⟩
    exact ⟨(x - a).toNat, by omega, by omega⟩

theorem length_frameRange (a b : ℤ) : (frameRange a b).length = (b - a).toNat := by
  simp [frameRange]

/-- With enough iterations and all the frames in `[0, size)`, the loading loop appends
the frames `[i, finalFrameNumber)` and does not throw. -/
theorem loadVideoFramesLoop_eq (size : ℕ) (hsize : (size : ℤ) < 2 ^ 64) (final : ℤ)
    (hfinal : final ≤ (size : ℤ)) :
    ∀ (n : ℕ) (i : ℤ) (buf : List ℤ), 0 ≤ i → (final - i).toNat ≤ n →
      loadVideoFramesLoop size final n i buf = some (buf ++ frameRange i final) := by
  intro n
  induction n with
  | zero =>
    intro i buf _ hn
    rw [frameRange_of_le (by omega)]
    simp [loadVideoFramesLoop]
  | succ n ih =>
    intro i buf hi hn
    simp only [loadVideoFramesLoop]
    by_cases hlt : i < final
    · have hsz : toSizeT i < size := (toSizeT_lt_iff hi (by omega)).2 (by omega)
      simp only [hlt, hsz, if_true]
      rw [ih (i + 1) _ (by omega) (by omega), frameRange_cons hlt]
      simp
    · simp only [hlt, if_false]
      rw [frameRange_of_le (by omega)]
      simp

theorem loadVideoFrames_eq (size : ℕ) (hsize : (size : ℤ) < 2 ^ 64) (buf : List ℤ)
    (initial final : ℤ) (hi : 0 ≤ initial) (hfinal : final ≤ (size : ℤ)) :
    loadVideoFrames buf initial final size = some (buf ++ frameRange initial final) :=
  loadVideoFramesLoop_eq size hsize final hfinal _ initial buf hi (le_refl _)

/-! ## The keys, one by one -/

theorem treatKeyboardInput_plus (s : Session) :
    treatKeyboardInput '+' s = some { s with videoShowingDelay :=
      if s.videoShowingDelay > 20 then s.videoShowingDelay - 20 else 1 } := rfl

theorem treatKeyboardInput_minus (s : Session) :
    treatKeyboardInput '-' s
      = some { s with videoShowingDelay := wrapInt (s.videoShowingDelay + 20) } := rfl

theorem wrapInt_of_range {x : ℤ} (h0 : -2147483648 ≤ x) (h1 : x ≤ 2147483647) :
    wrapInt x = x := by
  unfold wrapInt
  omega

theorem wrapInt_above {x : ℤ} (h0 : 2147483647 < x) (h1 : x ≤ 2147483647 + 4294967296) :
    wrapInt x = x - 4294967296 := by
  unfold wrapInt
  omega

theorem treatKeyboardInput_space (s : Session) :
    treatKeyboardInput ' ' s
      = if s.videoShowingDelay > 0 then some { s with videoShowingDelay := 0 }
        else some { s with videoShowingDelay := 40, playReverse := false } := rfl

theorem treatKeyboardInput_a (s : Session) :
    treatKeyboardInput 'a' s
      = if (if s.currentVideoFrameNumber > 0 then s.currentVideoFrameNumber - 1 else 0)
            < s.refCurrentBufferedFrameNumber then
          some (rotateBackward
            { s with overwriteLabels := false, videoShowingDelay := 0,
                     currentVideoFrameNumber :=
                       if s.currentVideoFrameNumber > 0 then s.currentVideoFrameNumber - 1
                       else 0 })
        else
          some
            { s with overwriteLabels := false, videoShowingDelay := 0,
                     currentVideoFrameNumber :=
                       if s.currentVideoFrameNumber > 0 then s.currentVideoFrameNumber - 1
                       else 0 } :=
  rfl

theorem treatKeyboardInput_s (s : Session) :
    treatKeyboardInput 's' s
      = if (if toSizeT s.currentVideoFrameNumber < sizeSub s.frameFilePathsSize 1
              then s.currentVideoFrameNumber + 1
              else toInt (sizeSub s.frameFilePathsSize 1))
            ≥ s.refCurrentBufferedFrameNumber + VIDEO_FRAME_BUFFERS_SIZE then
          some (rotateForward
            { s with videoShowingDelay := 0,
                     currentVideoFrameNumber :=
                       if toSizeT s.currentVideoFrameNumber < sizeSub s.frameFilePathsSize 1
                       then s.currentVideoFrameNumber + 1
                       else toInt (sizeSub s.frameFilePathsSize 1) })
        else
          some
            { s with videoShowingDelay := 0,
                     currentVideoFrameNumber :=
                       if toSizeT s.currentVideoFrameNumber < sizeSub s.frameFilePathsSize 1
                       then s.currentVideoFrameNumber + 1
                       else toInt (sizeSub s.frameFilePathsSize 1) } := by
  generalize hR : (if (if toSizeT s.currentVideoFrameNumber < sizeSub s.frameFilePathsSize 1
              then s.currentVideoFrameNumber + 1
              else toInt (sizeSub s.frameFilePathsSize 1))
            ≥ s.refCurrentBufferedFrameNumber + VIDEO_FRAME_BUFFERS_SIZE then
          some (rotateForward
            { s with videoShowingDelay := 0,
                     currentVideoFrameNumber :=
                       if toSizeT s.currentVideoFrameNumber < sizeSub s.frameFilePathsSize 1
                       then s.currentVideoFrameNumber + 1
                       else toInt (sizeSub s.frameFilePathsSize 1) })
        else
          some
            { s with videoShowingDelay := 0,
                     currentVideoFrameNumber :=
                       if toSizeT s.currentVideoFrameNumber < sizeSub s.frameFilePathsSize 1
                       then s.currentVideoFrameNumber + 1
                       else toInt (sizeSub s.frameFilePathsSize 1) }) = R
  unfold treatKeyboardInput
  rw [if_neg (show ¬ ('s' : Char) = 'q' by decide), if_neg (show ¬ ('s' : Char) = '+' by decide),
    if_neg (show ¬ ('s' : Char) = '-' by decide), if_neg (show ¬ ('s' : Char) = ' ' by decide),
    if_neg (show ¬ ('s' : Char) = 'r' by decide), if_neg (show ¬ ('s' : Char) = 'l' by decide),
    if_neg (show ¬ ('s' : Char) = '0' by decide), if_neg (show ¬ ('s' : Char) = '1' by decide),
    if_neg (show ¬ ('s' : Char) = 'a' by decide), if_pos rfl]
  dsimp only
  rw [hR]

theorem treatKeyboardInput_w (s : Session) :
    treatKeyboardInput 'w' s
      = jumpToFrame s
          (if toSizeT s.currentVideoFrameNumber
              < sizeSub s.frameFilePathsSize (toSizeT FRAME_JUMP_SIZE) then
            s.currentVideoFrameNumber + FRAME_JUMP_SIZE
          else toInt (sizeSub s.frameFilePathsSize 1)) := rfl

theorem treatKeyboardInput_z (s : Session) :
    treatKeyboardInput 'z' s
      = jumpToFrame s
          (if s.currentVideoFrameNumber > FRAME_JUMP_SIZE then
            s.currentVideoFrameNumber - FRAME_JUMP_SIZE
          else 0) := rfl

theorem treatKeyboardInput_b (s : Session) :
    treatKeyboardInput 'b' s = jumpToFrame s 0 := rfl

theorem treatKeyboardInput_e (s : Session) :
    treatKeyboardInput 'e' s = jumpToFrame s (toInt (sizeSub s.frameFilePathsSize 1)) := rfl

theorem treatKeyboardInput_j (s : Session) :
    treatKeyboardInput 'j' s = jumpToFrame s (previousMark s) := rfl

theorem treatKeyboardInput_k (s : Session) :
    treatKeyboardInput 'k' s
      = jumpToFrame s
          (toInt (if toSizeT (nextMark s) < s.frameFilePathsSize then toSizeT (nextMark s)
            else sizeSub s.frameFilePathsSize 1)) := rfl

/-! ## The render tick -/

theorem some_playbackMove (s1 : Session) :
    (if s1.videoShowingDelay > 0 then
        if s1.playReverse = false
            ∧ toSizeT s1.currentVideoFrameNumber < sizeSub s1.frameFilePathsSize 1
            ∧ s1.nextVideoFrameBuffer.isEmpty = false then
          (if s1.currentVideoFrameNumber + 1
              ≥ s1.refCurrentBufferedFrameNumber + VIDEO_FRAME_BUFFERS_SIZE then
            some (rotateForward
              { s1 with currentVideoFrameNumber := s1.currentVideoFrameNumber + 1 })
          else some { s1 with currentVideoFrameNumber := s1.currentVideoFrameNumber + 1 })
        else if s1.playReverse = true ∧ s1.currentVideoFrameNumber > 0
            ∧ s1.previousVideoFrameBuffer.isEmpty = false then
          (if s1.currentVideoFrameNumber - 1 < s1.refCurrentBufferedFrameNumber then
            some (rotateBackward
              { s1 with currentVideoFrameNumber := s1.currentVideoFrameNumber - 1 })
          else some { s1 with currentVideoFrameNumber := s1.currentVideoFrameNumber - 1 })
        else some s1
      else some s1) = some (playbackMove s1) := by
  unfold playbackMove
  split_ifs <;> rfl

theorem renderTick_eq (s : Session) :
    renderTick s
      = if s.currentVideoFrameNumber ≥ 0
            ∧ toSizeT s.currentVideoFrameNumber < s.frameFilePathsSize then
          if toSizeT (Int.tmod s.currentVideoFrameNumber VIDEO_FRAME_BUFFERS_SIZE)
              < s.currentVideoFrameBuffer.length then
            some (playbackMove (overwriteLabel s))
          else none
        else some s := by
  rw [← some_playbackMove]
  rfl

theorem toSizeT_lt_sizeSub_one {x : ℤ} {n : ℕ} (hn1 : 1 ≤ n) (hn : n ≤ 2 ^ 31)
    (h0 : 0 ≤ x) (h1 : x < (n : ℤ)) : toSizeT x < sizeSub n 1 ↔ x < (n : ℤ) - 1 := by
  rw [sizeSub_of_le hn1 (by omega), toSizeT_of_nonneg h0 (by omega)]
  omega

theorem toInt_sizeSub_one {n : ℕ} (hn1 : 1 ≤ n) (hn : n ≤ 2 ^ 31) :
    toInt (sizeSub n 1) = (n : ℤ) - 1 := by
  rw [sizeSub_of_le hn1 (by omega), toInt_of_lt (by omega)]
  omega

theorem isEmpty_eq_false_iff (l : List ℤ) : l.isEmpty = false ↔ l ≠ [] := by
  cases l <;> simp

/-- The label overwrite touches the two label sets only. -/
theorem overwriteLabel_eq (s : Session) :
    ∃ p n, overwriteLabel s = { s with positiveFrames := p, negativeFrames := n } := by
  unfold overwriteLabel
  split_ifs
  · exact ⟨_, _, rfl⟩
  · exact ⟨_, _, rfl⟩
  · exact ⟨s.positiveFrames, s.negativeFrames, rfl⟩

/-- The playback move: one frame forward, one frame backward, or nothing. -/
theorem playbackMove_spec (s1 : Session) (hn1 : 1 ≤ s1.frameFilePathsSize)
    (hn : s1.frameFilePathsSize ≤ 2 ^ 31) (h0 : 0 ≤ s1.currentVideoFrameNumber)
    (h1 : s1.currentVideoFrameNumber < (s1.frameFilePathsSize : ℤ)) :
    ((0 < s1.videoShowingDelay ∧ s1.playReverse = false ∧ s1.nextVideoFrameBuffer ≠ []
        ∧ s1.currentVideoFrameNumber < (s1.frameFilePathsSize : ℤ) - 1) →
      (playbackMove s1).currentVideoFrameNumber = s1.currentVideoFrameNumber + 1) ∧
    ((0 < s1.videoShowingDelay ∧ s1.playReverse = true ∧ s1.previousVideoFrameBuffer ≠ []
        ∧ 0 < s1.currentVideoFrameNumber) →
      (playbackMove s1).currentVideoFrameNumber = s1.currentVideoFrameNumber - 1) ∧
    (¬ (0 < s1.videoShowingDelay
        ∧ ((s1.playReverse = false ∧ s1.nextVideoFrameBuffer ≠ []
            ∧ s1.currentVideoFrameNumber < (s1.frameFilePathsSize : ℤ) - 1)
          ∨ (s1.playReverse = true ∧ s1.previousVideoFrameBuffer ≠ []
            ∧ 0 < s1.currentVideoFrameNumber))) →
      playbackMove s1 = s1) ∧
    (playbackMove s1).frameFilePathsSize = s1.frameFilePathsSize ∧
    (playbackMove s1).positiveFrames = s1.positiveFrames ∧
    (playbackMove s1).negativeFrames = s1.negativeFrames := by
  have hc := toSizeT_lt_sizeSub_one hn1 hn h0 h1
  have hnext := isEmpty_eq_false_iff s1.nextVideoFrameBuffer
  have hprev := isEmpty_eq_false_iff s1.previousVideoFrameBuffer
  unfold playbackMove
  by_cases hd : s1.videoShowingDelay > 0
  · rw [if_pos hd]
    by_cases hf : s1.playReverse = false
        ∧ toSizeT s1.currentVideoFrameNumber < sizeSub s1.frameFilePathsSize 1
        ∧ s1.nextVideoFrameBuffer.isEmpty = false
    · rw [if_pos hf]
      have hrev : ¬ s1.playReverse = true := by rw [hf.1]; decide
      refine ⟨fun _ => ?_, fun h => absurd h.2.1 hrev, fun h => ?_, ?_, ?_, ?_⟩
      · split_ifs <;> rfl
      · exact absurd ⟨hd, Or.inl ⟨hf.1, hnext.1 hf.2.2, hc.1 hf.2.1⟩⟩ h
      all_goals split_ifs <;> rfl
    · rw [if_neg hf]
      by_cases hr : s1.playReverse = true ∧ s1.currentVideoFrameNumber > 0
          ∧ s1.previousVideoFrameBuffer.isEmpty = false
      · rw [if_pos hr]
        refine ⟨fun h => ?_, fun _ => ?_, fun h => ?_, ?_, ?_, ?_⟩
        · exact absurd ⟨h.2.1, hc.2 h.2.2.2, hnext.2 h.2.2.1⟩ hf
        · split_ifs <;> rfl
        · exact absurd ⟨hd, Or.inr ⟨hr.1, hprev.1 hr.2.2, hr.2.1⟩⟩ h
        all_goals split_ifs <;> rfl
      · rw [if_neg hr]
        refine ⟨fun h => ?_, fun h => ?_, fun _ => rfl, rfl, rfl, rfl⟩
        · exact absurd ⟨h.2.1, hc.2 h.2.2.2, hnext.2 h.2.2.1⟩ hf
        · exact absurd ⟨h.2.1, h.2.2.2, hprev.2 h.2.2.1⟩ hr
  · rw [if_neg hd]
    refine ⟨fun h => absurd h.1 hd, fun h => absurd h.1 hd, fun _ => rfl, rfl, rfl, rfl⟩

/-- A tick on a frame of `[0, N)` that the current buffer holds does not throw. -/
theorem renderTick_some (s : Session) (hn : s.frameFilePathsSize ≤ 2 ^ 31)
    (h0 : 0 ≤ s.currentVideoFrameNumber)
    (h1 : s.currentVideoFrameNumber < (s.frameFilePathsSize : ℤ))
    (hat : toSizeT (Int.tmod s.currentVideoFrameNumber VIDEO_FRAME_BUFFERS_SIZE)
      < s.currentVideoFrameBuffer.length) :
    renderTick s = some (playbackMove (overwriteLabel s)) := by
  rw [renderTick_eq, if_pos ⟨h0, (toSizeT_lt_iff h0 (by omega)).2 h1⟩, if_pos hat]

/-- A tick that does not throw ends in the played session or leaves it as it is. -/
theorem renderTick_cases (s s' : Session) (h : renderTick s = some s') :
    s' = playbackMove (overwriteLabel s) ∨ s' = s := by
  rw [renderTick_eq] at h
  split_ifs at h
  · exact Or.inl (Option.some.inj h).symm
  · exact Or.inr (Option.some.inj h).symm

theorem renderTick_cur_cases (s s' : Session) (hn1 : 1 ≤ s.frameFilePathsSize)
    (hn : s.frameFilePathsSize ≤ 2 ^ 31) (h0 : 0 ≤ s.currentVideoFrameNumber)
    (h1 : s.currentVideoFrameNumber < (s.frameFilePathsSize : ℤ))
    (h : renderTick s = some s') :
    s'.frameFilePathsSize = s.frameFilePathsSize ∧
    (s'.currentVideoFrameNumber = s.currentVideoFrameNumber
      ∨ (s.playReverse = false ∧ s'.currentVideoFrameNumber = s.currentVideoFrameNumber + 1
          ∧ s.currentVideoFrameNumber < (s.frameFilePathsSize : ℤ) - 1)
      ∨ (s.playReverse = true ∧ s'.currentVideoFrameNumber = s.currentVideoFrameNumber - 1
          ∧ 0 < s.currentVideoFrameNumber)) := by
  rcases renderTick_cases s s' h with h' | h'
  · obtain ⟨p, n, hs1⟩ := overwriteLabel_eq s
    rw [hs1] at h'
    obtain ⟨hf, hr, hno, hsize, _, _⟩ := playbackMove_spec
      { s with positiveFrames := p, negativeFrames := n } hn1 hn h0 h1
    rw [← h'] at hf hr hno hsize
    refine ⟨hsize, ?_⟩
    by_cases hfw : 0 < s.videoShowingDelay ∧ s.playReverse = false
        ∧ s.nextVideoFrameBuffer ≠ []
        ∧ s.currentVideoFrameNumber < (s.frameFilePathsSize : ℤ) - 1
    · exact Or.inr (Or.inl ⟨hfw.2.1, hf hfw, hfw.2.2.2⟩)
    · by_cases hrv : 0 < s.videoShowingDelay ∧ s.playReverse = true
          ∧ s.previousVideoFrameBuffer ≠ [] ∧ 0 < s.currentVideoFrameNumber
      · exact Or.inr (Or.inr ⟨hrv.2.1, hr hrv, hrv.2.2.2⟩)
      · left
        have := hno (by
          rintro ⟨hd, h2 | h2⟩
          · exact hfw ⟨hd, h2⟩
          · exact hrv ⟨hd, h2⟩)
        rw [this]
  · rw [h']
    exact ⟨rfl, Or.inl rfl⟩

/-! ## Steps -/

/-- The key `a`: what it does to the fields other than the buffers. -/
theorem stepBack_fields (s : Session) :
    ∃ s', treatKeyboardInput 'a' s = some s'
      ∧ s'.currentVideoFrameNumber = max (s.currentVideoFrameNumber - 1) 0
      ∧ s'.frameFilePathsSize = s.frameFilePathsSize
      ∧ s'.videoShowingDelay = 0 ∧ s'.overwriteLabels = false
      ∧ s'.positiveFrames = s.positiveFrames ∧ s'.negativeFrames = s.negativeFrames := by
  have hmax : (if s.currentVideoFrameNumber > 0 then s.currentVideoFrameNumber - 1 else 0)
      = max (s.currentVideoFrameNumber - 1) 0 := by
    split_ifs <;> omega
  rw [treatKeyboardInput_a]
  by_cases hc : (if s.currentVideoFrameNumber > 0 then s.currentVideoFrameNumber - 1 else 0)
      < s.refCurrentBufferedFrameNumber
  · rw [if_pos hc]
    exact ⟨_, rfl, hmax, rfl, rfl, rfl, rfl, rfl⟩
  · rw [if_neg hc]
    exact ⟨_, rfl, hmax, rfl, rfl, rfl, rfl, rfl⟩

/-- The key `s`: what it does to the fields other than the buffers. -/
theorem stepForward_fields (s : Session) :
    ∃ s', treatKeyboardInput 's' s = some s'
      ∧ s'.currentVideoFrameNumber
          = (if toSizeT s.currentVideoFrameNumber < sizeSub s.frameFilePathsSize 1
              then s.currentVideoFrameNumber + 1
              else toInt (sizeSub s.frameFilePathsSize 1))
      ∧ s'.frameFilePathsSize = s.frameFilePathsSize
      ∧ s'.videoShowingDelay = 0 ∧ s'.overwriteLabels = s.overwriteLabels
      ∧ s'.positiveFrames = s.positiveFrames ∧ s'.negativeFrames = s.negativeFrames := by
  rw [treatKeyboardInput_s]
  by_cases hc : (if toSizeT s.currentVideoFrameNumber < sizeSub s.frameFilePathsSize 1
        then s.currentVideoFrameNumber + 1
        else toInt (sizeSub s.frameFilePathsSize 1))
      ≥ s.refCurrentBufferedFrameNumber + VIDEO_FRAME_BUFFERS_SIZE
  · rw [if_pos hc]
    exact ⟨_, rfl, rfl, rfl, rfl, rfl, rfl, rfl⟩
  · rw [if_neg hc]
    exact ⟨_, rfl, rfl, rfl, rfl, rfl, rfl, rfl⟩

theorem stepForward_frame (s : Session) (hn1 : 1 ≤ s.frameFilePathsSize)
    (hn : s.frameFilePathsSize ≤ 2 ^ 31) (h0 : 0 ≤ s.currentVideoFrameNumber)
    (h1 : s.currentVideoFrameNumber ≤ (s.frameFilePathsSize : ℤ) - 1) :
    (if toSizeT s.currentVideoFrameNumber < sizeSub s.frameFilePathsSize 1
      then s.currentVideoFrameNumber + 1
      else toInt (sizeSub s.frameFilePathsSize 1))
    = min (s.currentVideoFrameNumber + 1) ((s.frameFilePathsSize : ℤ) - 1) := by
  have hc := toSizeT_lt_sizeSub_one hn1 hn h0 (by omega)
  rw [toInt_sizeSub_one hn1 hn]
  by_cases h : toSizeT s.currentVideoFrameNumber < sizeSub s.frameFilePathsSize 1
  · rw [if_pos h]
    have := hc.1 h
    omega
  · rw [if_neg h]
    have : ¬ s.currentVideoFrameNumber < (s.frameFilePathsSize : ℤ) - 1 := fun h' => h (hc.2 h')
    omega

/-- The steps and the ticks keep the frame number in `[0, N - 1]`. -/
theorem runEvents_steps_inRange (N : ℕ) (hn1 : 1 ≤ N) (hn : N ≤ 2 ^ 31) :
    ∀ (events : List SessionEvent),
      (∀ e ∈ events, e = SessionEvent.key 's' ∨ e = SessionEvent.key 'a'
        ∨ e = SessionEvent.tick) →
      ∀ (s s' : Session), s.frameFilePathsSize = N → 0 ≤ s.currentVideoFrameNumber →
        s.currentVideoFrameNumber ≤ (N : ℤ) - 1 → runEvents events s = some s' →
        s'.frameFilePathsSize = N ∧ 0 ≤ s'.currentVideoFrameNumber
          ∧ s'.currentVideoFrameNumber ≤ (N : ℤ) - 1 := by
  intro events
  induction events with
  | nil =>
    intro _ s s' hN h0 h1 hrun
    simp only [runEvents, Option.some.injEq] at hrun
    subst hrun
    exact ⟨hN, h0, h1⟩
  | cons e es ih =>
    intro hev s s' hN h0 h1 hrun
    simp only [runEvents] at hrun
    cases hstep : applyEvent e s with
    | none => rw [hstep] at hrun; simp at hrun
    | some s1 =>
      rw [hstep] at hrun
      simp only [Option.some_bind] at hrun
      have hes : ∀ e' ∈ es, e' = SessionEvent.key 's' ∨ e' = SessionEvent.key 'a'
          ∨ e' = SessionEvent.tick := fun e' he' => hev e' (List.mem_cons_of_mem _ he')
      subst hN
      have key : s1.frameFilePathsSize = s.frameFilePathsSize
          ∧ 0 ≤ s1.currentVideoFrameNumber
          ∧ s1.currentVideoFrameNumber ≤ (s.frameFilePathsSize : ℤ) - 1 := by
        rcases hev e (List.mem_cons_self _ _) with he | he | he
        · subst he
          obtain ⟨s2, h2, hcur, hsize, _⟩ := stepForward_fields s
          simp only [applyEvent] at hstep
          rw [h2] at hstep
          have := Option.some.inj hstep
          subst this
          rw [stepForward_frame s hn1 hn h0 h1] at hcur
          exact ⟨hsize, by omega, by omega⟩
        · subst he
          obtain ⟨s2, h2, hcur, hsize, _⟩ := stepBack_fields s
          simp only [applyEvent] at hstep
          rw [h2] at hstep
          have := Option.some.inj hstep
          subst this
          exact ⟨hsize, by omega, by omega⟩
        · subst he
          simp only [applyEvent] at hstep
          obtain ⟨hsize, hcases⟩ := renderTick_cur_cases s s1 hn1 hn h0 (by omega) hstep
          refine ⟨hsize, ?_, ?_⟩ <;> rcases hcases with h | ⟨_, h, _⟩ | ⟨_, h, _⟩ <;> omega
      exact ih hes s1 s' key.1 key.2.1 key.2.2 hrun

theorem mem_eraseFrame (x y : ℤ) (l : List ℤ) : x ∈ eraseFrame y l ↔ x ∈ l ∧ x ≠ y := by
  simp [eraseFrame]

/-! ## The session: claims on steps, playback and labelling -/

/-- C11 (steps and ticks stay inside the video): for `1 ≤ N` (and `N ≤ 2^31`, the range
of `int`) and a frame number in `[0, N - 1]`, the key `s` yields `min(frame + 1, N - 1)`,
the key `a` yields `max(frame - 1, 0)`, a tick that returns changes the frame number by
at most one in the direction of play, and after any sequence of these step keys and
ticks the frame number is still in `[0, N - 1]`. -/
theorem step_and_tick_in_range (s : Session) (hn1 : 1 ≤ s.frameFilePathsSize)
    (hn : s.frameFilePathsSize ≤ 2 ^ 31) (h0 : 0 ≤ s.currentVideoFrameNumber)
    (h1 : s.currentVideoFrameNumber ≤ (s.frameFilePathsSize : ℤ) - 1) :
    (∃ s', treatKeyboardInput 's' s = some s'
      ∧ s'.currentVideoFrameNumber
          = min (s.currentVideoFrameNumber + 1) ((s.frameFilePathsSize : ℤ) - 1)) ∧
    (∃ s', treatKeyboardInput 'a' s = some s'
      ∧ s'.currentVideoFrameNumber = max (s.currentVideoFrameNumber - 1) 0) ∧
    (∀ s', renderTick s = some s' →
      s'.currentVideoFrameNumber = s.currentVideoFrameNumber
      ∨ (s.playReverse = false ∧ s'.currentVideoFrameNumber = s.currentVideoFrameNumber + 1
          ∧ s.currentVideoFrameNumber < (s.frameFilePathsSize : ℤ) - 1)
      ∨ (s.playReverse = true ∧ s'.currentVideoFrameNumber = s.currentVideoFrameNumber - 1
          ∧ 0 < s.currentVideoFrameNumber)) ∧
    (∀ (events : List SessionEvent) (s' : Session),
      (∀ e ∈ events, e = SessionEvent.key 's' ∨ e = SessionEvent.key 'a'
        ∨ e = SessionEvent.tick) →
      runEvents events s = some s' →
      0 ≤ s'.currentVideoFrameNumber
        ∧ s'.currentVideoFrameNumber ≤ (s.frameFilePathsSize : ℤ) - 1) := by
  refine ⟨?_, ?_, ?_, ?_⟩
  · obtain ⟨s', h, hcur, _⟩ := stepForward_fields s
    exact ⟨s', h, by rw [hcur, stepForward_frame s hn1 hn h0 h1]⟩
  · obtain ⟨s', h, hcur, _⟩ := stepBack_fields s
    exact ⟨s', h, hcur⟩
  · intro s' h
    exact (renderTick_cur_cases s s' hn1 hn h0 (by omega) h).2
  · intro events s' hev hrun
    exact (runEvents_steps_inRange s.frameFilePathsSize hn1 hn events hev s s' rfl h0 h1
      hrun).2

theorem step_and_tick_in_range_witness :
    ∃ s', treatKeyboardInput 's' (markSession 3 2 [] [0, 1, 2]) = some s'
      ∧ s'.currentVideoFrameNumber = min ((2 : ℤ) + 1) (((3 : ℕ) : ℤ) - 1) :=
  (step_and_tick_in_range (markSession 3 2 [] [0, 1, 2]) (by decide) (by decide)
    (by decide) (by decide)).1

/-- C13 (counterexample): a step forward taken in overwrite mode leaves the overwrite
mode on. -/
theorem stepForward_keeps_overwrite :
    ¬ (∀ s s', treatKeyboardInput 's' s = some s' →
        s'.videoShowingDelay = 0 ∧ s'.overwriteLabels = false) := by
  intro h
  obtain ⟨s', hs', _, _, _, hov, _⟩ := stepForward_fields
    { markSession 3 0 [] [0, 1, 2] with overwriteLabels := true }
  have := (h _ s' hs').2
  rw [hov] at this
  exact absurd this (by decide)

/-- C13 (amended): from every state the key `a` (step back) sets the delay to 0 and
clears the overwrite mode; the key `s` (step forward) sets the delay to 0 and leaves the
overwrite mode as it is. -/
theorem step_stops_playback (s : Session) :
    (∃ s', treatKeyboardInput 'a' s = some s'
      ∧ s'.videoShowingDelay = 0 ∧ s'.overwriteLabels = false) ∧
    (∃ s', treatKeyboardInput 's' s = some s'
      ∧ s'.videoShowingDelay = 0 ∧ s'.overwriteLabels = s.overwriteLabels) := by
  obtain ⟨sa, ha, _, _, hda, hoa, _⟩ := stepBack_fields s
  obtain ⟨ss, hs, _, _, hds, hos, _⟩ := stepForward_fields s
  exact ⟨⟨sa, ha, hda, hoa⟩, ⟨ss, hs, hds, hos⟩⟩

/-- C14 (counterexample): the key space pressed while stopped in overwrite mode starts
playing with the overwrite mode still on. -/
theorem togglePlay_keeps_overwrite :
    ¬ (∀ s s', s.videoShowingDelay = 0 → treatKeyboardInput ' ' s = some s' →
        s'.videoShowingDelay = 40 ∧ s'.playReverse = false ∧ s'.overwriteLabels = false) := by
  intro h
  have := (h { markSession 3 0 [] [0, 1, 2] with overwriteLabels := true } _ rfl rfl).2.2
  exact absurd this (by decide)

/-- C14 (amended): the key space pressed while stopped (delay 0) sets the delay to 40
and clears the reverse flag, leaving the overwrite mode as it is; pressed while playing
(delay > 0) it sets the delay to 0. -/
theorem togglePlay_spec (s : Session) :
    (s.videoShowingDelay = 0 →
      ∃ s', treatKeyboardInput ' ' s = some s' ∧ s'.videoShowingDelay = 40
        ∧ s'.playReverse = false ∧ s'.overwriteLabels = s.overwriteLabels) ∧
    (0 < s.videoShowingDelay →
      ∃ s', treatKeyboardInput ' ' s = some s' ∧ s'.videoShowingDelay = 0) := by
  rw [treatKeyboardInput_space]
  constructor
  · intro h
    rw [if_neg (by omega)]
    exact ⟨_, rfl, rfl, rfl, rfl⟩
  · intro h
    rw [if_pos h]
    exact ⟨_, rfl, rfl⟩

theorem togglePlay_spec_witness :
    ∃ s', treatKeyboardInput ' ' (markSession 3 0 [] [0, 1, 2]) = some s'
      ∧ s'.videoShowingDelay = 40 ∧ s'.playReverse = false
      ∧ s'.overwriteLabels = (markSession 3 0 [] [0, 1, 2]).overwriteLabels :=
  (togglePlay_spec (markSession 3 0 [] [0, 1, 2])).1 rfl

/-- C15 (counterexample): the key `+` pressed while stopped sets the delay to 1, so the
session is playing afterwards. -/
theorem speedUp_leaves_stopped :
    ¬ (∀ s s', s.videoShowingDelay = 0 → treatKeyboardInput '+' s = some s' →
        s'.videoShowingDelay = 0) := by
  intro h
  have := h (markSession 3 0 [] [0, 1, 2]) _ rfl rfl
  exact absurd this (by decide)

/-- C15 (amended): the key `+` sets the delay to `max(delay - 20, 1)`; the key `-` raises
it by 20 as long as the sum fits the 32-bit `int` that holds it (no ceiling is tested:
from a delay above `INT_MAX - 20` the addition overflows and leaves
`delay + 20 - 2 ^ 32`, a negative delay); neither key changes the reverse flag, so a
playing session keeps its direction; a stopped session (delay 0) does not stay stopped:
the key `+` gives it the delay 1 and the key `-` the delay 20. -/
theorem speed_keys_spec (s : Session) :
    (∃ s', treatKeyboardInput '+' s = some s'
      ∧ s'.videoShowingDelay = max (s.videoShowingDelay - 20) 1
      ∧ 0 < s'.videoShowingDelay ∧ s'.playReverse = s.playReverse) ∧
    (∃ s', treatKeyboardInput '-' s = some s'
      ∧ (-2147483648 ≤ s.videoShowingDelay → s.videoShowingDelay + 20 ≤ 2147483647 →
          s'.videoShowingDelay = s.videoShowingDelay + 20)
      ∧ (2147483647 < s.videoShowingDelay + 20 → s.videoShowingDelay ≤ 2147483647 →
          s'.videoShowingDelay = s.videoShowingDelay + 20 - 4294967296
            ∧ s'.videoShowingDelay < 0)
      ∧ (0 ≤ s.videoShowingDelay → s.videoShowingDelay + 20 ≤ 2147483647 →
          0 < s'.videoShowingDelay)
      ∧ s'.playReverse = s.playReverse) := by
  have hmax : (if s.videoShowingDelay > 20 then s.videoShowingDelay - 20 else 1)
      = max (s.videoShowingDelay - 20) 1 := by
    split_ifs <;> omega
  refine ⟨⟨_, treatKeyboardInput_plus s, hmax, ?_, rfl⟩,
    ⟨_, treatKeyboardInput_minus s, ?_, ?_, ?_, rfl⟩⟩
  · show 0 < (if s.videoShowingDelay > 20 then s.videoShowingDelay - 20 else 1)
    split_ifs <;> omega
  · intro h0 h1
    exact wrapInt_of_range (by omega) h1
  · intro h0 h1
    show wrapInt (s.videoShowingDelay + 20) = _ ∧ wrapInt (s.videoShowingDelay + 20) < 0
    rw [wrapInt_above h0 (by omega)]
    exact ⟨rfl, by omega⟩
  · intro h0 h1
    show 0 < wrapInt (s.videoShowingDelay + 20)
    rw [wrapInt_of_range (by omega) h1]
    omega

theorem speed_keys_spec_witness :
    ∃ s', treatKeyboardInput '-' (markSession 3 0 [] [0, 1, 2]) = some s'
      ∧ s'.videoShowingDelay = 20 ∧ 0 < s'.videoShowingDelay := by
  obtain ⟨s', h, hsum, _, hpos, _⟩ := (speed_keys_spec (markSession 3 0 [] [0, 1, 2])).2
  exact ⟨s', h, hsum (by decide) (by decide), hpos (by decide) (by decide)⟩

/-- C16 (label overwrite at a tick): on a tick with the frame number `f` in `[0, N)`
(the frame being held by the current buffer, so that the tick returns), in overwrite
mode `f` ends in the set of the current label and out of the other set while no other
index changes membership, and out of overwrite mode both sets are unchanged. -/
theorem tick_overwrites_label (s : Session) (hn1 : 1 ≤ s.frameFilePathsSize)
    (hn : s.frameFilePathsSize ≤ 2 ^ 31) (h0 : 0 ≤ s.currentVideoFrameNumber)
    (h1 : s.currentVideoFrameNumber < (s.frameFilePathsSize : ℤ))
    (hat : toSizeT (Int.tmod s.currentVideoFrameNumber VIDEO_FRAME_BUFFERS_SIZE)
      < s.currentVideoFrameBuffer.length) :
    ∃ s', renderTick s = some s' ∧
      (s.overwriteLabels = true → s.currentLabel = 1 →
        s.currentVideoFrameNumber ∈ s'.positiveFrames
        ∧ s.currentVideoFrameNumber ∉ s'.negativeFrames
        ∧ ∀ i, i ≠ s.currentVideoFrameNumber →
            ((i ∈ s'.positiveFrames ↔ i ∈ s.positiveFrames)
              ∧ (i ∈ s'.negativeFrames ↔ i ∈ s.negativeFrames))) ∧
      (s.overwriteLabels = true → s.currentLabel = 0 →
        s.currentVideoFrameNumber ∈ s'.negativeFrames
        ∧ s.currentVideoFrameNumber ∉ s'.positiveFrames
        ∧ ∀ i, i ≠ s.currentVideoFrameNumber →
            ((i ∈ s'.positiveFrames ↔ i ∈ s.positiveFrames)
              ∧ (i ∈ s'.negativeFrames ↔ i ∈ s.negativeFrames))) ∧
      (s.overwriteLabels = false →
        s'.positiveFrames = s.positiveFrames ∧ s'.negativeFrames = s.negativeFrames) := by
  refine ⟨_, renderTick_some s hn h0 h1 hat, ?_⟩
  obtain ⟨p, n, hs1⟩ := overwriteLabel_eq s
  have hspec := playbackMove_spec (overwriteLabel s)
    (by rw [hs1]; exact hn1) (by rw [hs1]; exact hn) (by rw [hs1]; exact h0)
    (by rw [hs1]; exact h1)
  rw [hspec.2.2.2.2.1, hspec.2.2.2.2.2]
  unfold overwriteLabel
  refine ⟨fun hov hlab => ?_, fun hov hlab => ?_, fun hov => ?_⟩
  · rw [if_neg (by rw [hlab]; simp), if_pos ⟨hlab, hov⟩]
    refine ⟨(mem_insertFrame _ _ _).2 (Or.inl rfl), fun h => ((mem_eraseFrame _ _ _).1 h).2 rfl,
      fun i hi => ⟨?_, ?_⟩⟩
    · show i ∈ insertFrame _ _ ↔ _
      rw [mem_insertFrame]
      exact ⟨fun h => h.resolve_left hi, Or.inr⟩
    · show i ∈ eraseFrame _ _ ↔ _
      rw [mem_eraseFrame]
      exact ⟨fun h => h.1, fun h => ⟨h, hi⟩⟩
  · rw [if_pos ⟨hlab, hov⟩]
    refine ⟨(mem_insertFrame _ _ _).2 (Or.inl rfl), fun h => ((mem_eraseFrame _ _ _).1 h).2 rfl,
      fun i hi => ⟨?_, ?_⟩⟩
    · show i ∈ eraseFrame _ _ ↔ _
      rw [mem_eraseFrame]
      exact ⟨fun h => h.1, fun h => ⟨h, hi⟩⟩
    · show i ∈ insertFrame _ _ ↔ _
      rw [mem_insertFrame]
      exact ⟨fun h => h.resolve_left hi, Or.inr⟩
  · rw [if_neg (by rw [hov]; simp), if_neg (by rw [hov]; simp)]
    exact ⟨rfl, rfl⟩

theorem tick_overwrites_label_witness :
    ∃ s', renderTick
        { markSession 3 1 [] [0, 1, 2] with
          overwriteLabels := true, currentLabel := 1, currentVideoFrameBuffer := [0, 1, 2] }
          = some s'
      ∧ (1 : ℤ) ∈ s'.positiveFrames ∧ (1 : ℤ) ∉ s'.negativeFrames := by
  obtain ⟨s', h, h1, _, _⟩ := tick_overwrites_label
    { markSession 3 1 [] [0, 1, 2] with
      overwriteLabels := true, currentLabel := 1, currentVideoFrameBuffer := [0, 1, 2] }
    (by decide) (by decide) (by decide) (by decide) (by decide)
  exact ⟨s', h, (h1 rfl rfl).1, (h1 rfl rfl).2.1⟩

/-- C19 (playback tick): on a tick with the frame number in `[0, N)` (the frame being held
by the current buffer, so that the tick returns), the frame number moves by one, forward
or backward, exactly when the delay is positive and either the session plays forward,
the next buffer is non-empty and the frame number is below `N - 1`, or it plays in
reverse, the previous buffer is non-empty and the frame number is above 0; otherwise the
frame number, the reference number and the three buffers are unchanged. -/
theorem tick_advance_iff (s : Session) (hn1 : 1 ≤ s.frameFilePathsSize)
    (hn : s.frameFilePathsSize ≤ 2 ^ 31) (h0 : 0 ≤ s.currentVideoFrameNumber)
    (h1 : s.currentVideoFrameNumber < (s.frameFilePathsSize : ℤ))
    (hat : toSizeT (Int.tmod s.currentVideoFrameNumber VIDEO_FRAME_BUFFERS_SIZE)
      < s.currentVideoFrameBuffer.length) :
    ∃ s', renderTick s = some s' ∧
      ((0 < s.videoShowingDelay ∧ s.playReverse = false ∧ s.nextVideoFrameBuffer ≠ []
          ∧ s.currentVideoFrameNumber < (s.frameFilePathsSize : ℤ) - 1) →
        s'.currentVideoFrameNumber = s.currentVideoFrameNumber + 1) ∧
      ((0 < s.videoShowingDelay ∧ s.playReverse = true ∧ s.previousVideoFrameBuffer ≠ []
          ∧ 0 < s.currentVideoFrameNumber) →
        s'.currentVideoFrameNumber = s.currentVideoFrameNumber - 1) ∧
      (¬ (0 < s.videoShowingDelay
          ∧ ((s.playReverse = false ∧ s.nextVideoFrameBuffer ≠ []
              ∧ s.currentVideoFrameNumber < (s.frameFilePathsSize : ℤ) - 1)
            ∨ (s.playReverse = true ∧ s.previousVideoFrameBuffer ≠ []
              ∧ 0 < s.currentVideoFrameNumber))) →
        s'.currentVideoFrameNumber = s.currentVideoFrameNumber
          ∧ s'.refCurrentBufferedFrameNumber = s.refCurrentBufferedFrameNumber
          ∧ s'.currentVideoFrameBuffer = s.currentVideoFrameBuffer
          ∧ s'.previousVideoFrameBuffer = s.previousVideoFrameBuffer
          ∧ s'.nextVideoFrameBuffer = s.nextVideoFrameBuffer) := by
  refine ⟨_, renderTick_some s hn h0 h1 hat, ?_⟩
  obtain ⟨p, n, hs1⟩ := overwriteLabel_eq s
  rw [hs1]
  obtain ⟨hf, hr, hno, _⟩ := playbackMove_spec
    { s with positiveFrames := p, negativeFrames := n } hn1 hn h0 h1
  refine ⟨hf, hr, fun h => ?_⟩
  rw [hno h]
  exact ⟨rfl, rfl, rfl, rfl, rfl⟩

theorem tick_advance_iff_witness :
    ∃ s', renderTick
        { markSession 3 1 [] [0, 1, 2] with
          videoShowingDelay := 40, currentVideoFrameBuffer := [0, 1, 2],
          nextVideoFrameBuffer := [0, 1, 2] } = some s'
      ∧ s'.currentVideoFrameNumber = 1 + 1 := by
  obtain ⟨s', h, h1, _, _⟩ := tick_advance_iff
    { markSession 3 1 [] [0, 1, 2] with
      videoShowingDelay := 40, currentVideoFrameBuffer := [0, 1, 2],
      nextVideoFrameBuffer := [0, 1, 2] }
    (by decide) (by decide) (by decide) (by decide) (by decide)
  exact ⟨s', h, h1 (by decide)⟩

/-! ## Jumps -/

/-- A jump to a frame `t` of `[0, N)`: the reference number is the multiple of the
buffer size below `t`, the previous and next buffers are empty and the current buffer
holds the frames from the reference number up to the end of its window or of the video. -/
theorem jumpToFrame_spec (s : Session) (t : ℤ) (hn : s.frameFilePathsSize < 2 ^ 31)
    (ht0 : 0 ≤ t) (ht1 : t < (s.frameFilePathsSize : ℤ)) :
    ∃ s', jumpToFrame s t = some s'
      ∧ s'.currentVideoFrameNumber = t
      ∧ s'.refCurrentBufferedFrameNumber
          = t / VIDEO_FRAME_BUFFERS_SIZE * VIDEO_FRAME_BUFFERS_SIZE
      ∧ s'.previousVideoFrameBuffer = [] ∧ s'.nextVideoFrameBuffer = []
      ∧ s'.currentVideoFrameBuffer
          = frameRange (t / VIDEO_FRAME_BUFFERS_SIZE * VIDEO_FRAME_BUFFERS_SIZE)
              (min (t / VIDEO_FRAME_BUFFERS_SIZE * VIDEO_FRAME_BUFFERS_SIZE
                + VIDEO_FRAME_BUFFERS_SIZE) (s.frameFilePathsSize : ℤ))
      ∧ s'.frameFilePathsSize = s.frameFilePathsSize
      ∧ s'.overwriteLabels = false ∧ s'.videoShowingDelay = 0
      ∧ s'.positiveFrames = s.positiveFrames ∧ s'.negativeFrames = s.negativeFrames := by
  have hr : Int.tdiv t VIDEO_FRAME_BUFFERS_SIZE * VIDEO_FRAME_BUFFERS_SIZE
      = t / VIDEO_FRAME_BUFFERS_SIZE * VIDEO_FRAME_BUFFERS_SIZE := by
    rw [Int.tdiv_eq_ediv ht0 (by decide)]
  have hr0 : 0 ≤ t / VIDEO_FRAME_BUFFERS_SIZE * VIDEO_FRAME_BUFFERS_SIZE := by
    unfold VIDEO_FRAME_BUFFERS_SIZE; omega
  have hrt : t / VIDEO_FRAME_BUFFERS_SIZE * VIDEO_FRAME_BUFFERS_SIZE ≤ t := by
    unfold VIDEO_FRAME_BUFFERS_SIZE; omega
  have h64 : VIDEO_FRAME_BUFFERS_SIZE = 64 := rfl
  generalize hrdef : t / VIDEO_FRAME_BUFFERS_SIZE * VIDEO_FRAME_BUFFERS_SIZE = r at hr hr0 hrt ⊢
  have hfin : toInt (if toSizeT (r + VIDEO_FRAME_BUFFERS_SIZE) < s.frameFilePathsSize then
        toSizeT (r + VIDEO_FRAME_BUFFERS_SIZE) else s.frameFilePathsSize)
      = min (r + VIDEO_FRAME_BUFFERS_SIZE) (s.frameFilePathsSize : ℤ) := by
    have hlt := @toSizeT_lt_iff (r + VIDEO_FRAME_BUFFERS_SIZE) s.frameFilePathsSize
      (by omega) (by omega)
    by_cases hc : toSizeT (r + VIDEO_FRAME_BUFFERS_SIZE) < s.frameFilePathsSize
    · rw [if_pos hc, toInt_of_lt (by omega), toSizeT_of_nonneg (by omega) (by omega)]
      have := hlt.1 hc
      omega
    · rw [if_neg hc, toInt_of_lt (by omega)]
      have : ¬ r + VIDEO_FRAME_BUFFERS_SIZE < (s.frameFilePathsSize : ℤ) :=
        fun h => hc (hlt.2 h)
      omega
  unfold jumpToFrame gatherCurrentBuffer
  dsimp only
  rw [hr, hfin, loadVideoFrames_eq _ (by omega) _ _ _ hr0 (min_le_right _ _)]
  exact ⟨_, rfl, rfl, rfl, rfl, rfl, rfl, rfl, rfl, rfl, rfl, rfl⟩

/-- A jump that returns lands on the frame it was given. -/
theorem jumpToFrame_frame (s s' : Session) (t : ℤ) (h : jumpToFrame s t = some s') :
    s'.currentVideoFrameNumber = t := by
  unfold jumpToFrame gatherCurrentBuffer at h
  dsimp only at h
  obtain ⟨b, _, hb⟩ := Option.map_eq_some'.1 h
  rw [← hb]

/-- The six jump keys end in `jumpToFrame` on their target frame. -/
theorem jumpKey_eq_jumpToFrame (key : Char)
    (hkey : key = 'w' ∨ key = 'z' ∨ key = 'b' ∨ key = 'e' ∨ key = 'j' ∨ key = 'k')
    (s : Session) : treatKeyboardInput key s = jumpToFrame s (jumpTarget key s) := by
  rcases hkey with h | h | h | h | h | h <;> subst h
  · exact treatKeyboardInput_w s
  · exact treatKeyboardInput_z s
  · exact treatKeyboardInput_b s
  · exact treatKeyboardInput_e s
  · exact treatKeyboardInput_j s
  · exact treatKeyboardInput_k s

/-- C12 (the code at the failing input): with 50 frames, the key `w` pressed on frame 0
moves the session to frame 100, past the last frame 49, with the reference number 64
and an empty current buffer: `0 < size() - 100` holds in unsigned arithmetic. -/
theorem jumpForward_past_end :
    ∃ s, (sessionStart 50 [] (allFramesNegative 50)).bind (treatKeyboardInput 'w') = some s
      ∧ s.frameFilePathsSize = 50
      ∧ s.currentVideoFrameNumber = 100
      ∧ s.refCurrentBufferedFrameNumber = 64
      ∧ s.currentVideoFrameBuffer = [] :=
  ⟨_, rfl, rfl, rfl, rfl, rfl⟩

/-- C20 (jumps reload the current window): when the target frame `t` of one of the keys
`w`, `z`, `b`, `e`, `j`, `k` is in `[0, N)`, the key returns with the frame number `t`,
the reference number `floor(t / capacity) * capacity`, empty previous and next buffers,
and a current buffer holding exactly the frames of
`[refIndex, min(refIndex + capacity, N))`, among them `t`. -/
theorem jump_reloads_current (key : Char)
    (hkey : key = 'w' ∨ key = 'z' ∨ key = 'b' ∨ key = 'e' ∨ key = 'j' ∨ key = 'k')
    (s : Session) (hn : s.frameFilePathsSize < 2 ^ 31)
    (ht0 : 0 ≤ jumpTarget key s) (ht1 : jumpTarget key s < (s.frameFilePathsSize : ℤ)) :
    ∃ s', treatKeyboardInput key s = some s'
      ∧ s'.currentVideoFrameNumber = jumpTarget key s
      ∧ s'.refCurrentBufferedFrameNumber
          = jumpTarget key s / VIDEO_FRAME_BUFFERS_SIZE * VIDEO_FRAME_BUFFERS_SIZE
      ∧ s'.previousVideoFrameBuffer = [] ∧ s'.nextVideoFrameBuffer = []
      ∧ s'.currentVideoFrameBuffer
          = frameRange s'.refCurrentBufferedFrameNumber
              (min (s'.refCurrentBufferedFrameNumber + VIDEO_FRAME_BUFFERS_SIZE)
                (s.frameFilePathsSize : ℤ))
      ∧ jumpTarget key s ∈ s'.currentVideoFrameBuffer := by
  obtain ⟨s', h, hcur, href, hprev, hnext, hbuf, _⟩ :=
    jumpToFrame_spec s (jumpTarget key s) hn ht0 ht1
  refine ⟨s', by rw [jumpKey_eq_jumpToFrame key hkey s]; exact h, hcur, href, hprev, hnext,
    by rw [href]; exact hbuf, ?_⟩
  rw [hbuf, mem_frameRange]
  unfold VIDEO_FRAME_BUFFERS_SIZE
  omega

theorem jump_reloads_current_witness :
    ∃ s', treatKeyboardInput 'e' (markSession 129 0 [] (allFramesNegative 129)) = some s'
      ∧ s'.currentVideoFrameNumber = 128
      ∧ s'.refCurrentBufferedFrameNumber = 128
      ∧ s'.currentVideoFrameBuffer = [128] := by
  obtain ⟨s', h, hcur, href, _, _, hbuf, _⟩ :=
    jump_reloads_current 'e' (by decide) (markSession 129 0 [] (allFramesNegative 129))
      (by decide) (by decide) (by decide)
  have ht : jumpTarget 'e' (markSession 129 0 [] (allFramesNegative 129)) = 128 := by decide
  rw [ht] at hcur href
  have href' : s'.refCurrentBufferedFrameNumber = 128 := by rw [href]; decide
  refine ⟨s', h, hcur, href', ?_⟩
  rw [hbuf, href']
  decide

/-! ## Seeking marks -/

theorem scanDown_spec (frames : List ℤ) :
    ∀ (n : ℕ) (f : ℤ),
      scanDown frames n f ≤ f
        ∧ (∀ i, scanDown frames n f < i → i ≤ f → i ∈ frames)
        ∧ (scanDown frames n f ∉ frames ∨ f - scanDown frames n f = (n : ℤ)) := by
  intro n
  induction n with
  | zero =>
    intro f
    simp only [scanDown]
    exact ⟨le_refl _, fun i h1 h2 => absurd h1 (by omega), Or.inr (by simp)⟩
  | succ n ih =>
    intro f
    simp only [scanDown]
    by_cases hf : f ∈ frames
    · rw [if_pos hf]
      obtain ⟨h1, h2, h3⟩ := ih (f - 1)
      refine ⟨by omega, fun i hi1 hi2 => ?_, ?_⟩
      · by_cases hif : i = f
        · rw [hif]; exact hf
        · exact h2 i hi1 (by omega)
      · rcases h3 with h3 | h3
        · exact Or.inl h3
        · right; push_cast; omega
    · rw [if_neg hf]
      exact ⟨le_refl _, fun i h1 h2 => absurd h1 (by omega), Or.inl hf⟩

theorem scanUp_spec (frames : List ℤ) :
    ∀ (n : ℕ) (f : ℤ),
      f ≤ scanUp frames n f
        ∧ (∀ i, f ≤ i → i < scanUp frames n f → i ∈ frames)
        ∧ (scanUp frames n f ∉ frames ∨ scanUp frames n f - f = (n : ℤ)) := by
  intro n
  induction n with
  | zero =>
    intro f
    simp only [scanUp]
    exact ⟨le_refl _, fun i h1 h2 => absurd h2 (by omega), Or.inr (by simp)⟩
  | succ n ih =>
    intro f
    simp only [scanUp]
    by_cases hf : f ∈ frames
    · rw [if_pos hf]
      obtain ⟨h1, h2, h3⟩ := ih (f + 1)
      refine ⟨by omega, fun i hi1 hi2 => ?_, ?_⟩
      · by_cases hif : i = f
        · rw [hif]; exact hf
        · exact h2 i (by omega) hi2
      · rcases h3 with h3 | h3
        · exact Or.inl h3
        · right; push_cast; omega
    · rw [if_neg hf]
      exact ⟨le_refl _, fun i h1 h2 => absurd h2 (by omega), Or.inl hf⟩

/-- A list cannot hold all the integers of a range longer than itself. -/
theorem not_all_mem_of_length_lt (frames : List ℤ) (a b : ℤ)
    (hlen : (frames.length : ℤ) < b + 1 - a) (hall : ∀ i, a ≤ i → i ≤ b → i ∈ frames) :
    False := by
  have hsub : Finset.Icc a b ⊆ frames.toFinset := by
    intro i hi
    rw [Finset.mem_Icc] at hi
    exact List.mem_toFinset.2 (hall i hi.1 hi.2)
  have h1 := Finset.card_le_card hsub
  rw [Int.card_Icc] at h1
  have h2 := List.toFinset_card_le frames
  omega

/-- The bound `frames.length` is enough for the downward scan: it stops on a frame that
is not in the set. -/
theorem scanDown_stops (frames : List ℤ) (f : ℤ) :
    scanDown frames frames.length f ≤ f
      ∧ (∀ i, scanDown frames frames.length f < i → i ≤ f → i ∈ frames)
      ∧ scanDown frames frames.length f ∉ frames := by
  obtain ⟨h1, h2, h3⟩ := scanDown_spec frames frames.length f
  refine ⟨h1, h2, ?_⟩
  rcases h3 with h3 | h3
  · exact h3
  · intro hmem
    refine not_all_mem_of_length_lt frames (scanDown frames frames.length f) f (by omega) ?_
    intro i hi1 hi2
    by_cases hig : i = scanDown frames frames.length f
    · rw [hig]; exact hmem
    · exact h2 i (by omega) hi2

/-- The bound `frames.length` is enough for the upward scan. -/
theorem scanUp_stops (frames : List ℤ) (f : ℤ) :
    f ≤ scanUp frames frames.length f
      ∧ (∀ i, f ≤ i → i < scanUp frames frames.length f → i ∈ frames)
      ∧ scanUp frames frames.length f ∉ frames := by
  obtain ⟨h1, h2, h3⟩ := scanUp_spec frames frames.length f
  refine ⟨h1, h2, ?_⟩
  rcases h3 with h3 | h3
  · exact h3
  · intro hmem
    refine not_all_mem_of_length_lt frames f (scanUp frames frames.length f) (by omega) ?_
    intro i hi1 hi2
    by_cases hig : i = scanUp frames frames.length f
    · rw [hig]; exact hmem
    · exact h2 i hi1 (by omega)

/-- The frame computed by the key `j` when the label sets partition `[0, N)`: the first
frame of the run of equally labelled frames that holds the frame before the current one. -/
theorem previousMark_run (s : Session)
    (hcover : ∀ i, (i ∈ s.positiveFrames ∨ i ∈ s.negativeFrames)
      ↔ (0 ≤ i ∧ i < (s.frameFilePathsSize : ℤ)))
    (hdisj : ∀ i, i ∈ s.positiveFrames → i ∉ s.negativeFrames)
    (h0 : 0 < s.currentVideoFrameNumber)
    (h1 : s.currentVideoFrameNumber ≤ (s.frameFilePathsSize : ℤ)) :
    0 ≤ previousMark s ∧ previousMark s ≤ s.currentVideoFrameNumber - 1
      ∧ (∀ i, previousMark s ≤ i → i ≤ s.currentVideoFrameNumber - 1 →
          (i ∈ s.positiveFrames ↔ s.currentVideoFrameNumber - 1 ∈ s.positiveFrames))
      ∧ (previousMark s = 0
          ∨ ¬ (previousMark s - 1 ∈ s.positiveFrames
                ↔ s.currentVideoFrameNumber - 1 ∈ s.positiveFrames)) := by
  unfold previousMark
  rw [if_pos h0]
  have hadj := (hcover (s.currentVideoFrameNumber - 1)).2 ⟨by omega, by omega⟩
  by_cases hp : s.currentVideoFrameNumber - 1 ∈ s.positiveFrames
  · rw [if_pos hp]
    obtain ⟨hle, hall, hstop⟩ :=
      scanDown_stops s.positiveFrames (s.currentVideoFrameNumber - 1)
    generalize scanDown s.positiveFrames s.positiveFrames.length
      (s.currentVideoFrameNumber - 1) = g at hle hall hstop ⊢
    have hne : g ≠ s.currentVideoFrameNumber - 1 := fun h => hstop (h ▸ hp)
    have hr : g + 1 ∈ s.positiveFrames := hall (g + 1) (by omega) (by omega)
    have hr0 := ((hcover (g + 1)).1 (Or.inl hr)).1
    refine ⟨hr0, by omega, fun i hi1 hi2 => ?_, Or.inr ?_⟩
    · exact ⟨fun _ => hp, fun _ => hall i (by omega) hi2⟩
    · rw [add_sub_cancel_right]
      exact fun h => hstop (h.2 hp)
  · rw [if_neg hp]
    have hneg : s.currentVideoFrameNumber - 1 ∈ s.negativeFrames := hadj.resolve_left hp
    obtain ⟨hle, hall, hstop⟩ :=
      scanDown_stops s.negativeFrames (s.currentVideoFrameNumber - 1)
    generalize scanDown s.negativeFrames s.negativeFrames.length
      (s.currentVideoFrameNumber - 1) = g at hle hall hstop ⊢
    have hne : g ≠ s.currentVideoFrameNumber - 1 := fun h => hstop (h ▸ hneg)
    have hr : g + 1 ∈ s.negativeFrames := hall (g + 1) (by omega) (by omega)
    have hr0 := ((hcover (g + 1)).1 (Or.inr hr)).1
    refine ⟨hr0, by omega, fun i hi1 hi2 => ?_, ?_⟩
    · have hin : i ∈ s.negativeFrames := hall i (by omega) hi2
      exact ⟨fun h => absurd hin (hdisj i h), fun h => absurd h hp⟩
    · by_cases hg0 : g + 1 = 0
      · exact Or.inl hg0
      · right
        rw [add_sub_cancel_right]
        have hg : g ∈ s.positiveFrames :=
          ((hcover g).2 ⟨by omega, by omega⟩).resolve_right hstop
        exact fun h => hp (h.1 hg)

/-- The frame computed by the key `k`, before the clamp, when the label sets partition
`[0, N)`: the first frame after the run of equally labelled frames that holds the frame
after the current one. -/
theorem nextMark_run (s : Session) (hn1 : 1 ≤ s.frameFilePathsSize)
    (hn : s.frameFilePathsSize ≤ 2 ^ 31)
    (hcover : ∀ i, (i ∈ s.positiveFrames ∨ i ∈ s.negativeFrames)
      ↔ (0 ≤ i ∧ i < (s.frameFilePathsSize : ℤ)))
    (hdisj : ∀ i, i ∈ s.positiveFrames → i ∉ s.negativeFrames)
    (h0 : 0 ≤ s.currentVideoFrameNumber)
    (h1 : s.currentVideoFrameNumber < (s.frameFilePathsSize : ℤ) - 1) :
    s.currentVideoFrameNumber + 1 < nextMark s
      ∧ nextMark s ≤ (s.frameFilePathsSize : ℤ)
      ∧ (∀ i, s.currentVideoFrameNumber + 1 ≤ i → i < nextMark s →
          (i ∈ s.positiveFrames ↔ s.currentVideoFrameNumber + 1 ∈ s.positiveFrames))
      ∧ (nextMark s = (s.frameFilePathsSize : ℤ)
          ∨ ¬ (nextMark s ∈ s.positiveFrames
                ↔ s.currentVideoFrameNumber + 1 ∈ s.positiveFrames)) := by
  unfold nextMark
  rw [if_pos ((toSizeT_lt_sizeSub_one hn1 hn h0 (by omega)).2 h1)]
  have hadj := (hcover (s.currentVideoFrameNumber + 1)).2 ⟨by omega, by omega⟩
  by_cases hp : s.currentVideoFrameNumber + 1 ∈ s.positiveFrames
  · rw [if_pos hp]
    obtain ⟨hle, hall, hstop⟩ :=
      scanUp_stops s.positiveFrames (s.currentVideoFrameNumber + 1)
    generalize scanUp s.positiveFrames s.positiveFrames.length
      (s.currentVideoFrameNumber + 1) = e at hle hall hstop ⊢
    have hne : e ≠ s.currentVideoFrameNumber + 1 := fun h => hstop (h ▸ hp)
    have hr : e - 1 ∈ s.positiveFrames := hall (e - 1) (by omega) (by omega)
    have hr1 := ((hcover (e - 1)).1 (Or.inl hr)).2
    refine ⟨by omega, by omega, fun i hi1 hi2 => ?_, Or.inr ?_⟩
    · exact ⟨fun _ => hp, fun _ => hall i hi1 hi2⟩
    · exact fun h => hstop (h.2 hp)
  · rw [if_neg hp]
    have hneg : s.currentVideoFrameNumber + 1 ∈ s.negativeFrames := hadj.resolve_left hp
    obtain ⟨hle, hall, hstop⟩ :=
      scanUp_stops s.negativeFrames (s.currentVideoFrameNumber + 1)
    generalize scanUp s.negativeFrames s.negativeFrames.length
      (s.currentVideoFrameNumber + 1) = e at hle hall hstop ⊢
    have hne : e ≠ s.currentVideoFrameNumber + 1 := fun h => hstop (h ▸ hneg)
    have hr : e - 1 ∈ s.negativeFrames := hall (e - 1) (by omega) (by omega)
    have hr1 := ((hcover (e - 1)).1 (Or.inr hr)).2
    refine ⟨by omega, by omega, fun i hi1 hi2 => ?_, ?_⟩
    · have hin : i ∈ s.negativeFrames := hall i hi1 hi2
      exact ⟨fun h => absurd hin (hdisj i h), fun h => absurd h hp⟩
    · by_cases heN : e = (s.frameFilePathsSize : ℤ)
      · exact Or.inl heN
      · right
        have he : e ∈ s.positiveFrames :=
          ((hcover e).2 ⟨by omega, by omega⟩).resolve_right hstop
        exact fun h => hp (h.1 he)

/-- The clamp of the key `k` on a frame number of `[0, N]`. -/
theorem nextMark_clamp (n : ℕ) (hn1 : 1 ≤ n) (hn : n ≤ 2 ^ 31) (e : ℤ) (he0 : 0 ≤ e)
    (he1 : e ≤ (n : ℤ)) :
    toInt (if toSizeT e < n then toSizeT e else sizeSub n 1)
      = if e < (n : ℤ) then e else (n : ℤ) - 1 := by
  have hlt := @toSizeT_lt_iff e n he0 (by omega)
  by_cases hc : e < (n : ℤ)
  · rw [if_pos (hlt.2 hc), if_pos hc, toSizeT_of_nonneg he0 (by omega), toInt_of_lt (by omega)]
    omega
  · rw [if_neg (fun h => hc (hlt.1 h)), if_neg hc, toInt_sizeSub_one hn1 hn]

/-- The label sets positive `{10, 11, 12}`, negative `{0..9, 13..20}` cover the 21 frames. -/
theorem markExample_cover (f : ℤ) :
    ∀ i, (i ∈ (markSession 21 f [10, 11, 12]
              [0, 1, 2, 3, 4, 5, 6, 7, 8, 9, 13, 14, 15, 16, 17, 18, 19, 20]).positiveFrames
          ∨ i ∈ (markSession 21 f [10, 11, 12]
              [0, 1, 2, 3, 4, 5, 6, 7, 8, 9, 13, 14, 15, 16, 17, 18, 19, 20]).negativeFrames)
      ↔ (0 ≤ i ∧ i < (((markSession 21 f [10, 11, 12]
              [0, 1, 2, 3, 4, 5, 6, 7, 8, 9, 13, 14, 15, 16, 17, 18, 19, 20]).frameFilePathsSize
                : ℕ) : ℤ)) := by
  intro i
  show (i ∈ ([10, 11, 12] : List ℤ)
      ∨ i ∈ ([0, 1, 2, 3, 4, 5, 6, 7, 8, 9, 13, 14, 15, 16, 17, 18, 19, 20] : List ℤ))
    ↔ (0 ≤ i ∧ i < ((21 : ℕ) : ℤ))
  have hp : ∀ x ∈ ([10, 11, 12] : List ℤ), 0 ≤ x ∧ x < ((21 : ℕ) : ℤ) := by decide
  have hq : ∀ x ∈ ([0, 1, 2, 3, 4, 5, 6, 7, 8, 9, 13, 14, 15, 16, 17, 18, 19, 20] : List ℤ),
      0 ≤ x ∧ x < ((21 : ℕ) : ℤ) := by decide
  constructor
  · rintro (h | h)
    · exact hp i h
    · exact hq i h
  · rintro ⟨h0, h1⟩
    have h21 : i < 21 := h1
    interval_cases i <;> decide

theorem markExample_disjoint (f : ℤ) :
    ∀ i, i ∈ (markSession 21 f [10, 11, 12]
              [0, 1, 2, 3, 4, 5, 6, 7, 8, 9, 13, 14, 15, 16, 17, 18, 19, 20]).positiveFrames
      → i ∉ (markSession 21 f [10, 11, 12]
              [0, 1, 2, 3, 4, 5, 6, 7, 8, 9, 13, 14, 15, 16, 17, 18, 19, 20]).negativeFrames := by
  show ∀ i ∈ ([10, 11, 12] : List ℤ),
    i ∉ ([0, 1, 2, 3, 4, 5, 6, 7, 8, 9, 13, 14, 15, 16, 17, 18, 19, 20] : List ℤ)
  decide

/-- C17 (seeking marks on a partition): when the label sets partition `[0, N)`, the key
`j` pressed on a frame `f > 0` returns and lands on the first frame of the maximal run of
equally labelled frames that holds `f - 1`, and the key `k` pressed on a frame `f < N - 1`
returns and lands on the first frame `e` after the maximal run of equally labelled frames
that holds `f + 1`, or on `N - 1` when that run reaches the end. -/
theorem seek_mark_run_boundary (s : Session) (hn1 : 1 ≤ s.frameFilePathsSize)
    (hn : s.frameFilePathsSize < 2 ^ 31)
    (hcover : ∀ i, (i ∈ s.positiveFrames ∨ i ∈ s.negativeFrames)
      ↔ (0 ≤ i ∧ i < (s.frameFilePathsSize : ℤ)))
    (hdisj : ∀ i, i ∈ s.positiveFrames → i ∉ s.negativeFrames)
    (h0 : 0 ≤ s.currentVideoFrameNumber)
    (h1 : s.currentVideoFrameNumber < (s.frameFilePathsSize : ℤ)) :
    (0 < s.currentVideoFrameNumber →
      ∃ s', treatKeyboardInput 'j' s = some s'
        ∧ 0 ≤ s'.currentVideoFrameNumber
        ∧ s'.currentVideoFrameNumber ≤ s.currentVideoFrameNumber - 1
        ∧ (∀ i, s'.currentVideoFrameNumber ≤ i → i ≤ s.currentVideoFrameNumber - 1 →
            (i ∈ s.positiveFrames ↔ s.currentVideoFrameNumber - 1 ∈ s.positiveFrames))
        ∧ (s'.currentVideoFrameNumber = 0
            ∨ ¬ (s'.currentVideoFrameNumber - 1 ∈ s.positiveFrames
                  ↔ s.currentVideoFrameNumber - 1 ∈ s.positiveFrames)))
    ∧ (s.currentVideoFrameNumber < (s.frameFilePathsSize : ℤ) - 1 →
      ∃ s' e, treatKeyboardInput 'k' s = some s'
        ∧ s.currentVideoFrameNumber + 1 < e ∧ e ≤ (s.frameFilePathsSize : ℤ)
        ∧ (∀ i, s.currentVideoFrameNumber + 1 ≤ i → i < e →
            (i ∈ s.positiveFrames ↔ s.currentVideoFrameNumber + 1 ∈ s.positiveFrames))
        ∧ (e = (s.frameFilePathsSize : ℤ)
            ∨ ¬ (e ∈ s.positiveFrames ↔ s.currentVideoFrameNumber + 1 ∈ s.positiveFrames))
        ∧ s'.currentVideoFrameNumber
            = if e < (s.frameFilePathsSize : ℤ) then e else (s.frameFilePathsSize : ℤ) - 1) := by
  constructor
  · intro hpos
    obtain ⟨hr0, hr1, hrun, hstart⟩ := previousMark_run s hcover hdisj hpos (by omega)
    obtain ⟨s', h, hcur, _⟩ := jumpToFrame_spec s (previousMark s) hn hr0 (by omega)
    refine ⟨s', by rw [treatKeyboardInput_j]; exact h, ?_⟩
    rw [hcur]
    exact ⟨hr0, hr1, hrun, hstart⟩
  · intro hlt
    obtain ⟨he0, he1, hrun, hstop⟩ := nextMark_run s hn1 hn.le hcover hdisj h0 hlt
    have hclamp := nextMark_clamp s.frameFilePathsSize hn1 hn.le (nextMark s) (by omega) he1
    obtain ⟨s', h, hcur, _⟩ :=
      jumpToFrame_spec s
        (toInt (if toSizeT (nextMark s) < s.frameFilePathsSize then toSizeT (nextMark s)
          else sizeSub s.frameFilePathsSize 1)) hn
        (by rw [hclamp]; split_ifs <;> omega) (by rw [hclamp]; split_ifs <;> omega)
    refine ⟨s', nextMark s, by rw [treatKeyboardInput_k]; exact h, he0, he1, hrun, hstop, ?_⟩
    rw [hcur, hclamp]

theorem seek_mark_run_boundary_witness :
    (∃ s', treatKeyboardInput 'j' (markSession 21 15 [10, 11, 12]
              [0, 1, 2, 3, 4, 5, 6, 7, 8, 9, 13, 14, 15, 16, 17, 18, 19, 20]) = some s'
        ∧ s'.currentVideoFrameNumber = 13)
    ∧ (∃ s', treatKeyboardInput 'k' (markSession 21 5 [10, 11, 12]
              [0, 1, 2, 3, 4, 5, 6, 7, 8, 9, 13, 14, 15, 16, 17, 18, 19, 20]) = some s'
        ∧ s'.currentVideoFrameNumber = 10) := by
  constructor
  · obtain ⟨s', h, hr0, hr1, hrun, hstart⟩ :=
      (seek_mark_run_boundary (markSession 21 15 [10, 11, 12]
          [0, 1, 2, 3, 4, 5, 6, 7, 8, 9, 13, 14, 15, 16, 17, 18, 19, 20])
        (by decide) (by decide) (markExample_cover 15) (markExample_disjoint 15)
        (by decide) (by decide)).1 (by decide)
    refine ⟨s', h, ?_⟩
    generalize s'.currentVideoFrameNumber = r at hr0 hr1 hrun hstart ⊢
    change r ≤ 15 - 1 at hr1
    change ∀ i, r ≤ i → i ≤ 15 - 1 →
      (i ∈ ([10, 11, 12] : List ℤ) ↔ (15 : ℤ) - 1 ∈ ([10, 11, 12] : List ℤ)) at hrun
    change r = 0 ∨ ¬ (r - 1 ∈ ([10, 11, 12] : List ℤ)
      ↔ (15 : ℤ) - 1 ∈ ([10, 11, 12] : List ℤ)) at hstart
    have h13 : 13 ≤ r := by
      by_contra hlt
      exact absurd (hrun 12 (by omega) (by omega)) (by decide)
    rcases (by omega : r = 13 ∨ r = 14) with h | h
    · exact h
    · rw [h] at hstart
      exact absurd hstart (by decide)
  · obtain ⟨s', e, h, he0, he1, hrun, hstop, hcur⟩ :=
      (seek_mark_run_boundary (markSession 21 5 [10, 11, 12]
          [0, 1, 2, 3, 4, 5, 6, 7, 8, 9, 13, 14, 15, 16, 17, 18, 19, 20])
        (by decide) (by decide) (markExample_cover 5) (markExample_disjoint 5)
        (by decide) (by decide)).2 (by decide)
    refine ⟨s', h, ?_⟩
    change (5 : ℤ) + 1 < e at he0
    change ∀ i, (5 : ℤ) + 1 ≤ i → i < e →
      (i ∈ ([10, 11, 12] : List ℤ) ↔ (5 : ℤ) + 1 ∈ ([10, 11, 12] : List ℤ)) at hrun
    change e = ((21 : ℕ) : ℤ) ∨ ¬ (e ∈ ([10, 11, 12] : List ℤ)
      ↔ (5 : ℤ) + 1 ∈ ([10, 11, 12] : List ℤ)) at hstop
    change s'.currentVideoFrameNumber
      = if e < ((21 : ℕ) : ℤ) then e else ((21 : ℕ) : ℤ) - 1 at hcur
    have h10 : e ≤ 10 := by
      by_contra hlt
      exact absurd (hrun 10 (by omega) (by omega)) (by decide)
    have h7 : 7 ≤ e := by omega
    rw [hcur]
    interval_cases e
    · exact absurd hstop (by decide)
    · exact absurd hstop (by decide)
    · exact absurd hstop (by decide)
    · decide

/-- C18 (the code against the claim): with positive `{10, 11, 12}` and negative
`{0..9, 13..20}`, the key `j` pressed on frame 13 lands on frame 10, not on the adjacent
frame 12, although frame 12 (positive) and frame 13 (negative) have different classes;
the key `k` pressed on frame 9 lands on frame 13, not on the adjacent frame 10. -/
theorem seek_scans_adjacent_class :
    (12 : ℤ) ∈ ([10, 11, 12] : List ℤ) ∧ (13 : ℤ) ∉ ([10, 11, 12] : List ℤ)
    ∧ (∃ s', treatKeyboardInput 'j' (markSession 21 13 [10, 11, 12]
              [0, 1, 2, 3, 4, 5, 6, 7, 8, 9, 13, 14, 15, 16, 17, 18, 19, 20]) = some s'
        ∧ s'.currentVideoFrameNumber = 10)
    ∧ (9 : ℤ) ∉ ([10, 11, 12] : List ℤ) ∧ (10 : ℤ) ∈ ([10, 11, 12] : List ℤ)
    ∧ (∃ s', treatKeyboardInput 'k' (markSession 21 9 [10, 11, 12]
              [0, 1, 2, 3, 4, 5, 6, 7, 8, 9, 13, 14, 15, 16, 17, 18, 19, 20]) = some s'
        ∧ s'.currentVideoFrameNumber = 13) :=
  ⟨by decide, by decide, ⟨_, rfl, rfl⟩, by decide, by decide, ⟨_, rfl, rfl⟩⟩

/-- C18 (amended): when the label sets partition `[0, N)`, the scan of the keys `j` and
`k` runs through the class of the adjacent frame whatever the class of the current frame
`f`: the key `j` pressed on `f > 0` lands on the adjacent frame `f - 1` exactly when
`f - 1 = 0` or the frame `f - 2` has a class different from that of `f - 1`, and the key
`k` pressed on `f < N - 1` lands beyond `f + 1` unless `f + 1` is the last frame. -/
theorem seek_lands_adjacent_iff (s : Session) (hn1 : 1 ≤ s.frameFilePathsSize)
    (hn : s.frameFilePathsSize < 2 ^ 31)
    (hcover : ∀ i, (i ∈ s.positiveFrames ∨ i ∈ s.negativeFrames)
      ↔ (0 ≤ i ∧ i < (s.frameFilePathsSize : ℤ)))
    (hdisj : ∀ i, i ∈ s.positiveFrames → i ∉ s.negativeFrames)
    (h0 : 0 ≤ s.currentVideoFrameNumber)
    (h1 : s.currentVideoFrameNumber < (s.frameFilePathsSize : ℤ)) :
    (0 < s.currentVideoFrameNumber →
      ∃ s', treatKeyboardInput 'j' s = some s'
        ∧ (s'.currentVideoFrameNumber = s.currentVideoFrameNumber - 1
            ↔ (s.currentVideoFrameNumber - 1 = 0
                ∨ ¬ (s.currentVideoFrameNumber - 2 ∈ s.positiveFrames
                      ↔ s.currentVideoFrameNumber - 1 ∈ s.positiveFrames))))
    ∧ (s.currentVideoFrameNumber < (s.frameFilePathsSize : ℤ) - 1 →
      ∃ s', treatKeyboardInput 'k' s = some s'
        ∧ s.currentVideoFrameNumber + 1 ≤ s'.currentVideoFrameNumber
        ∧ (s'.currentVideoFrameNumber = s.currentVideoFrameNumber + 1
            ↔ s.currentVideoFrameNumber + 1 = (s.frameFilePathsSize : ℤ) - 1)) := by
  constructor
  · intro hpos
    obtain ⟨hr0, hr1, hrun, hstart⟩ := previousMark_run s hcover hdisj hpos (by omega)
    obtain ⟨s', h, hcur, _⟩ := jumpToFrame_spec s (previousMark s) hn hr0 (by omega)
    refine ⟨s', by rw [treatKeyboardInput_j]; exact h, ?_⟩
    rw [hcur]
    constructor
    · intro heq
      rw [heq] at hstart
      rcases hstart with h | h
      · exact Or.inl h
      · right
        rw [show s.currentVideoFrameNumber - 2 = s.currentVideoFrameNumber - 1 - 1 by ring]
        exact h
    · rintro (h | h)
      · omega
      · by_contra hne
        exact h (hrun (s.currentVideoFrameNumber - 2) (by omega) (by omega))
  · intro hlt
    obtain ⟨he0, he1, hrun, hstop⟩ := nextMark_run s hn1 hn.le hcover hdisj h0 hlt
    have hclamp := nextMark_clamp s.frameFilePathsSize hn1 hn.le (nextMark s) (by omega) he1
    obtain ⟨s', h, hcur, _⟩ :=
      jumpToFrame_spec s
        (toInt (if toSizeT (nextMark s) < s.frameFilePathsSize then toSizeT (nextMark s)
          else sizeSub s.frameFilePathsSize 1)) hn
        (by rw [hclamp]; split_ifs <;> omega) (by rw [hclamp]; split_ifs <;> omega)
    refine ⟨s', by rw [treatKeyboardInput_k]; exact h, ?_⟩
    rw [hcur, hclamp]
    split_ifs <;> constructor <;> omega

theorem seek_lands_adjacent_iff_witness :
    (∃ s', treatKeyboardInput 'j' (markSession 21 11 [10, 11, 12]
              [0, 1, 2, 3, 4, 5, 6, 7, 8, 9, 13, 14, 15, 16, 17, 18, 19, 20]) = some s'
        ∧ s'.currentVideoFrameNumber = 10)
    ∧ (∃ s', treatKeyboardInput 'k' (markSession 21 19 [10, 11, 12]
              [0, 1, 2, 3, 4, 5, 6, 7, 8, 9, 13, 14, 15, 16, 17, 18, 19, 20]) = some s'
        ∧ s'.currentVideoFrameNumber = 20) := by
  constructor
  · obtain ⟨s', h, hiff⟩ :=
      (seek_lands_adjacent_iff (markSession 21 11 [10, 11, 12]
          [0, 1, 2, 3, 4, 5, 6, 7, 8, 9, 13, 14, 15, 16, 17, 18, 19, 20])
        (by decide) (by decide) (markExample_cover 11) (markExample_disjoint 11)
        (by decide) (by decide)).1 (by decide)
    exact ⟨s', h, hiff.2 (by decide)⟩
  · obtain ⟨s', h, _, hiff⟩ :=
      (seek_lands_adjacent_iff (markSession 21 19 [10, 11, 12]
          [0, 1, 2, 3, 4, 5, 6, 7, 8, 9, 13, 14, 15, 16, 17, 18, 19, 20])
        (by decide) (by decide) (markExample_cover 19) (markExample_disjoint 19)
        (by decide) (by decide)).2 (by decide)
    exact ⟨s', h, hiff.2 (by decide)⟩

/-! ## Labels, indicator and jump keys -/

/-- C29 (keys `0` and `1`): from every state the key sets the current label to 0
(resp. 1), turns the overwrite mode on and sets the delay to 0; the frame number, the
reference number, the reverse flag, the three buffers and both label sets are unchanged. -/
theorem setLabel_spec (s : Session) :
    (∃ s', treatKeyboardInput '0' s = some s'
      ∧ s'.currentLabel = 0 ∧ s'.overwriteLabels = true ∧ s'.videoShowingDelay = 0
      ∧ s'.currentVideoFrameNumber = s.currentVideoFrameNumber
      ∧ s'.refCurrentBufferedFrameNumber = s.refCurrentBufferedFrameNumber
      ∧ s'.playReverse = s.playReverse
      ∧ s'.currentVideoFrameBuffer = s.currentVideoFrameBuffer
      ∧ s'.previousVideoFrameBuffer = s.previousVideoFrameBuffer
      ∧ s'.nextVideoFrameBuffer = s.nextVideoFrameBuffer
      ∧ s'.positiveFrames = s.positiveFrames ∧ s'.negativeFrames = s.negativeFrames
      ∧ s'.frameFilePathsSize = s.frameFilePathsSize) ∧
    (∃ s', treatKeyboardInput '1' s = some s'
      ∧ s'.currentLabel = 1 ∧ s'.overwriteLabels = true ∧ s'.videoShowingDelay = 0
      ∧ s'.currentVideoFrameNumber = s.currentVideoFrameNumber
      ∧ s'.refCurrentBufferedFrameNumber = s.refCurrentBufferedFrameNumber
      ∧ s'.playReverse = s.playReverse
      ∧ s'.currentVideoFrameBuffer = s.currentVideoFrameBuffer
      ∧ s'.previousVideoFrameBuffer = s.previousVideoFrameBuffer
      ∧ s'.nextVideoFrameBuffer = s.nextVideoFrameBuffer
      ∧ s'.positiveFrames = s.positiveFrames ∧ s'.negativeFrames = s.negativeFrames
      ∧ s'.frameFilePathsSize = s.frameFilePathsSize) :=
  ⟨⟨_, rfl, rfl, rfl, rfl, rfl, rfl, rfl, rfl, rfl, rfl, rfl, rfl, rfl⟩,
   ⟨_, rfl, rfl, rfl, rfl, rfl, rfl, rfl, rfl, rfl, rfl, rfl, rfl, rfl⟩⟩

/-- The indicator never is `unlabeled`: a frame out of the positive set is drawn as a
negative one, whether the negative set holds it or not. -/
theorem frameIndicator_eq (frameNumber : ℤ) (positiveFrames negativeFrames : List ℤ) :
    frameIndicator frameNumber positiveFrames negativeFrames
      = if frameNumber ∈ positiveFrames then FrameIndicator.labeledPositive
        else FrameIndicator.labeledNegative := by
  unfold frameIndicator setFind setEnd
  by_cases h : frameNumber ∈ positiveFrames
  · simp [h]
  · simp [h]

/-- C24 (the code at the failing input): on frame 1 of a three-frame video with positive
set `{0}` and negative set `{2}`, out of overwrite mode, frame 1 is in neither set and the
indicator drawn is the one of a negative frame. -/
theorem unlabeled_frame_drawn_negative :
    (1 : ℤ) ∉ (overwriteLabel (markSession 3 1 [0] [2])).positiveFrames
      ∧ (1 : ℤ) ∉ (overwriteLabel (markSession 3 1 [0] [2])).negativeFrames
      ∧ renderedIndicator (markSession 3 1 [0] [2]) = FrameIndicator.labeledNegative :=
  ⟨by decide, by decide, by decide⟩

/-- C30 (the code against its footnote): the footnote announces `w` as the previous 100
frames and `z` as the next 100, while on frame 150 of a 300-frame video the key `w`
moves to frame 250 and the key `z` to frame 50. -/
theorem jump_keys_against_footnote :
    "[w] previous 100".data <:+: footnoteLine2.data
      ∧ "[z] next 100".data <:+: footnoteLine2.data
      ∧ (∃ s', treatKeyboardInput 'w' (markSession 300 150 [] []) = some s'
          ∧ s'.currentVideoFrameNumber = 250)
      ∧ (∃ s', treatKeyboardInput 'z' (markSession 300 150 [] []) = some s'
          ∧ s'.currentVideoFrameNumber = 50) := by
  obtain ⟨sw, hw, hwcur, _⟩ :=
    jumpToFrame_spec (markSession 300 150 [] []) 250 (by decide) (by decide) (by decide)
  obtain ⟨sz, hz, hzcur, _⟩ :=
    jumpToFrame_spec (markSession 300 150 [] []) 50 (by decide) (by decide) (by decide)
  refine ⟨⟨"[a] previous / [s] next / ".data, " / [z] next 100 / [b]egin / [e]nd".data, rfl⟩,
    ⟨"[a] previous / [s] next / [w] previous 100 / ".data, " / [b]egin / [e]nd".data, rfl⟩,
    ⟨sw, ?_, hwcur⟩, ⟨sz, ?_, hzcur⟩⟩
  · rw [treatKeyboardInput_w]
    exact hw
  · rw [treatKeyboardInput_z]
    exact hz

/-! ## Lines of the input file: the video name and the comments -/

/-- C25 (counterexample): for the video `clip`, the line
`other 1 0 1 event - clip - t`, whose first field is the name of another video, puts
frame 0 in the positive set: the name `clip` occurs further in the line. -/
theorem foreign_line_contributes :
    lineFields "other 1 0 1 event - clip - t"
        = ["other", "1", "0", "1", "event", "-", "clip", "-", "t"]
      ∧ ∃ sets, readETFLine streamReadDouble "clip" 1 "other 1 0 1 event - clip - t" ([], [])
            = Except.ok sets
          ∧ (0 : ℤ) ∈ sets.1 :=
  ⟨by decide, ([0], []), by decide!, by decide⟩

/-- C25 (amended): a line in which the name of the video occurs nowhere contributes
nothing, and a line that does not begin with `#` and in which the name occurs somewhere,
as its first field or not, contributes the frames of its record. -/
theorem readETFLine_matches_anywhere (readDouble : List Char → Option (ℚ × List Char))
    (videoFileName : String) (videoFPS : ℚ) (etfLine : String) (sets : List ℤ × List ℤ) :
    (¬ videoFileName.data <:+: etfLine.data →
      readETFLine readDouble videoFileName videoFPS etfLine sets = Except.ok sets) ∧
    (∀ r, etfLine.data.head? ≠ some (Char.ofNat 35) →
      videoFileName.data <:+: etfLine.data →
      parseETFLine readDouble etfLine = some r →
      readETFLine readDouble videoFileName videoFPS etfLine sets
        = Except.ok (labelFrames videoFPS r sets)) := by
  constructor
  · intro h
    simp [readETFLine, lineMatches, h]
  · intro r h1 h2 hp
    simp [readETFLine, lineMatches, h1, h2, hp]

theorem readETFLine_matches_anywhere_witness :
    readETFLine streamReadDouble "clip" 1 "other 1 0 4 event - e - t" ([], [])
        = Except.ok ([], [])
      ∧ readETFLine streamReadDouble "clip" 1 "a/clip.avi 1 0 2 event - e - t" ([], [])
          = Except.ok (labelFrames 1 ⟨0, 2, "t"⟩ ([], [])) :=
  ⟨(readETFLine_matches_anywhere streamReadDouble "clip" 1 "other 1 0 4 event - e - t"
      ([], [])).1 (by decide),
   (readETFLine_matches_anywhere streamReadDouble "clip" 1 "a/clip.avi 1 0 2 event - e - t"
      ([], [])).2 ⟨0, 2, "t"⟩ (by decide) (by decide) (by decide!)⟩

/-- A line that begins with `#` leaves the sets as they are. -/
theorem readETFLine_comment (readDouble : List Char → Option (ℚ × List Char))
    (videoFileName : String) (videoFPS : ℚ) (etfLine : String) (sets : List ℤ × List ℤ)
    (h : etfLine.data.head? = some (Char.ofNat 35)) :
    readETFLine readDouble videoFileName videoFPS etfLine sets = Except.ok sets := by
  simp [readETFLine, lineMatches, h]

/-- C26 (comment lines): a line that begins with `#` is read without error and leaves
both sets as they are, whatever follows the `#`; a file reads the same, error or sets,
with the line as without it. -/
theorem comment_line_ignored (readDouble : List Char → Option (ℚ × List Char))
    (videoFileName : String) (videoFPS : ℚ) (etfLine : String)
    (h : etfLine.data.head? = some (Char.ofNat 35)) :
    (∀ sets, readETFLine readDouble videoFileName videoFPS etfLine sets = Except.ok sets) ∧
    (∀ (before after : List String) (sets : List ℤ × List ℤ),
      readInputETFFile readDouble videoFileName videoFPS (before ++ etfLine :: after) sets
        = readInputETFFile readDouble videoFileName videoFPS (before ++ after) sets) := by
  refine ⟨fun sets => readETFLine_comment readDouble videoFileName videoFPS etfLine sets h, ?_⟩
  intro before
  induction before with
  | nil =>
    intro after sets
    simp only [List.nil_append, readInputETFFile]
    rw [readETFLine_comment readDouble videoFileName videoFPS etfLine sets h]
  | cons l ls ih =>
    intro after sets
    simp only [List.cons_append, readInputETFFile]
    cases readETFLine readDouble videoFileName videoFPS l sets with
    | error e => rfl
    | ok sets' => exact ih after sets'

theorem comment_line_ignored_witness :
    readETFLine streamReadDouble "clip" 25 "# positive frames" ([], [7]) = Except.ok ([], [7])
      ∧ readInputETFFile streamReadDouble "clip" 25 (["# positive frames"] ++ "# 12" :: [])
            ([], [7])
          = readInputETFFile streamReadDouble "clip" 25 (["# positive frames"] ++ []) ([], [7]) :=
  ⟨(comment_line_ignored streamReadDouble "clip" 25 "# positive frames" (by decide)).1
      ([], [7]),
   (comment_line_ignored streamReadDouble "clip" 25 "# 12" (by decide)).2
     ["# positive frames"] [] ([], [7])⟩

/-! ## The polarity of the first interval -/

/-- The first mark pushed after the front of the walked class is positive. -/
theorem timeMarks_head_pos (y : ℤ) (hy : 0 ≤ y) :
    ∀ (v : List ℤ) (last : ℤ), 0 ≤ last →
      ∃ m rest, timeMarksLoop last v ++ [y + 1] = m :: rest ∧ 0 < m := by
  intro v
  induction v with
  | nil =>
    intro last _
    exact ⟨y + 1, [], rfl, by omega⟩
  | cons x v ih =>
    intro last h0
    by_cases hx : last + 1 ≠ x
    · refine ⟨last + 1, x :: (timeMarksLoop x v ++ [y + 1]), ?_, by omega⟩
      simp [timeMarksLoop, hx]
    · obtain ⟨m, rest, hm, hpos⟩ := ih x (by omega)
      refine ⟨m, rest, ?_, hpos⟩
      simp only [timeMarksLoop, hx, if_false, List.nil_append]
      exact hm

/-- The records written when both classes are non-empty, by the branch taken. -/
theorem encode_first_record (videoFPS : ℚ) (N : ℤ) (pf nf : ℤ) (pt nt : List ℤ)
    (hf : 0 < videoFPS) (hneg : ∀ x ∈ nf :: nt, 0 ≤ x) :
    (nf < pf → 0 < pf →
      (writeIntervals videoFPS true
          (0 :: (classTimeMarks pf (pf :: pt) ++ [N]))).head?
        = some ⟨0, (pf : ℚ) / videoFPS, "f"⟩) ∧
    (¬ nf < pf → 0 < nf →
      (writeIntervals videoFPS false
          (0 :: (classTimeMarks nf (nf :: nt) ++ [N]))).head?
        = some ⟨0, (nf : ℚ) / videoFPS, "t"⟩) ∧
    (nf = 0 →
      ∃ r, (writeIntervals videoFPS false
          (0 :: (classTimeMarks nf (nf :: nt) ++ [N]))).head? = some r
        ∧ r.beginTime = 0 ∧ 0 < r.duration ∧ r.label = "f") := by
  refine ⟨fun _ hp => ?_, fun _ hn => ?_, fun hn => ?_⟩
  · unfold classTimeMarks
    rw [List.cons_append, writeIntervals_step hf hp]
    simp [polarityFlag]
  · unfold classTimeMarks
    rw [List.cons_append, writeIntervals_step hf hn]
    simp [polarityFlag]
  · subst hn
    have hlast : 0 ≤ ((0 : ℤ) :: nt).getLastD 0 := by
      have hmem := getLastD_mem_cons ((0 : ℤ) :: nt) 0
      rcases List.mem_cons.1 hmem with h | h
      · omega
      · exact hneg _ h
    obtain ⟨m, rest, hm, hpos⟩ := timeMarks_head_pos _ hlast nt 0 (le_refl 0)
    unfold classTimeMarks
    rw [List.tail_cons, hm, List.cons_append, writeIntervals_same, List.cons_append,
      writeIntervals_step hf hpos]
    refine ⟨_, rfl, ?_, ?_, ?_⟩
    · simp
    · simp only [Int.cast_zero, zero_div, sub_zero]
      exact div_pos (by exact_mod_cast hpos) hf
    · simp [polarityFlag]

/-- C28 (counterexample): with the positive set `{3}` and the negative set `{3}` the two
minimum indices are equal and the first record written is positive. -/
theorem encode_tie_begins_positive :
    ∃ records, generateAndSaveETFFile 1 5 [3] [3] = some records
      ∧ records.head? = some ⟨0, 3, "t"⟩ := by
  refine ⟨_, rfl, ?_⟩
  have h := (encode_first_record 1 5 3 3 [] [] (by norm_num) (by decide)).2.1
    (by decide) (by decide)
  simpa using h

/-- C28 (amended): with both classes non-empty, frames numbered from 0 and `fps > 0`,
the first record written is negative when the minimum negative index is strictly below
the minimum positive one, and positive when the minimum positive index is below or
equal to a minimum negative index above 0; when the minimum negative index is 0 and the
positive one is not above it, the empty positive interval `[0, 0)` is not written and
the first record is negative. -/
theorem encode_first_polarity (videoFPS : ℚ) (N : ℤ) (pf nf : ℤ) (pt nt : List ℤ)
    (hf : 0 < videoFPS) (hpos : 0 ≤ pf) (hneg : ∀ x ∈ nf :: nt, 0 ≤ x) :
    ∃ records, generateAndSaveETFFile videoFPS N (pf :: pt) (nf :: nt) = some records ∧
      (nf < pf → records.head? = some ⟨0, (pf : ℚ) / videoFPS, "f"⟩) ∧
      (pf ≤ nf → 0 < nf → records.head? = some ⟨0, (nf : ℚ) / videoFPS, "t"⟩) ∧
      (pf ≤ nf → nf = 0 →
        ∃ r, records.head? = some r ∧ r.beginTime = 0 ∧ 0 < r.duration ∧ r.label = "f") := by
  have hnf0 : 0 ≤ nf := hneg nf (List.mem_cons_self _ _)
  obtain ⟨h1, h2, h3⟩ := encode_first_record videoFPS N pf nf pt nt hf hneg
  by_cases hlt : nf < pf
  · refine ⟨_, by simp [generateAndSaveETFFile, videoTimeMarks, hlt]; rfl, fun _ => ?_,
      fun h => absurd hlt (by omega), fun h => absurd hlt (by omega)⟩
    exact h1 hlt (by omega)
  · refine ⟨_, by simp [generateAndSaveETFFile, videoTimeMarks, hlt]; rfl,
      fun h => absurd h hlt, fun _ hn => ?_, fun _ hn => ?_⟩
    · exact h2 hlt hn
    · exact h3 hn

theorem encode_first_polarity_witness :
    ∃ records, generateAndSaveETFFile 1 5 [2, 3] [0, 1, 4] = some records
      ∧ records.head? = some ⟨0, ((2 : ℤ) : ℚ) / 1, "f"⟩ := by
  obtain ⟨records, h, h1, _⟩ :=
    encode_first_polarity 1 5 2 0 [3] [1, 4] (by norm_num) (by decide) (by decide)
  exact ⟨records, h, h1 (by decide)⟩

/-! ## Filling and rotating the buffers -/

theorem getElem?_frameRange (a b : ℤ) (i : ℕ) (h : i < (frameRange a b).length) :
    (frameRange a b)[i]? = some (a + (i : ℤ)) := by
  rw [length_frameRange] at h
  simp [frameRange, h]

theorem head?_frameRange {a b : ℤ} (h : a < b) : (frameRange a b).head? = some a := by
  rw [frameRange_cons h]
  rfl

/-- The bound `finalFrameNumber` computed by `loadVideoFrameBuffer` from the start `a`
of the buffer. -/
theorem finalFrameNumber_eq (n : ℕ) (hn : n < 2 ^ 31) (a : ℤ) (ha : 0 ≤ a)
    (ha1 : a < (n : ℤ)) :
    (if toSizeT (a + VIDEO_FRAME_BUFFERS_SIZE) ≥ n then toInt n
      else a + VIDEO_FRAME_BUFFERS_SIZE)
      = min (a + VIDEO_FRAME_BUFFERS_SIZE) (n : ℤ) := by
  have h64 : VIDEO_FRAME_BUFFERS_SIZE = 64 := rfl
  have hlt := @toSizeT_lt_iff (a + VIDEO_FRAME_BUFFERS_SIZE) n (by omega) (by omega)
  by_cases hc : toSizeT (a + VIDEO_FRAME_BUFFERS_SIZE) ≥ n
  · rw [if_pos hc, toInt_of_lt hn]
    have : ¬ a + VIDEO_FRAME_BUFFERS_SIZE < (n : ℤ) := fun h => absurd (hlt.2 h) (by omega)
    omega
  · rw [if_neg hc]
    have := hlt.1 (by omega)
    omega

/-- A pass of the thread of the next buffer over an empty buffer: the buffer is loaded
from `refIndex + capacity` when that is a frame of the video, from `refIndex` itself
otherwise. -/
theorem loadNextBuffer_spec (s : Session) (hn1 : 1 ≤ s.frameFilePathsSize)
    (hn : s.frameFilePathsSize < 2 ^ 31) (hr0 : 0 ≤ s.refCurrentBufferedFrameNumber)
    (hr1 : s.refCurrentBufferedFrameNumber < (s.frameFilePathsSize : ℤ))
    (hempty : s.nextVideoFrameBuffer = []) :
    loadVideoFrameBuffer true s
      = some
        { s with
          nextVideoFrameBuffer :=
            frameRange
              (if s.refCurrentBufferedFrameNumber + VIDEO_FRAME_BUFFERS_SIZE
                  < (s.frameFilePathsSize : ℤ) then
                s.refCurrentBufferedFrameNumber + VIDEO_FRAME_BUFFERS_SIZE
              else s.refCurrentBufferedFrameNumber)
              (min ((if s.refCurrentBufferedFrameNumber + VIDEO_FRAME_BUFFERS_SIZE
                  < (s.frameFilePathsSize : ℤ) then
                s.refCurrentBufferedFrameNumber + VIDEO_FRAME_BUFFERS_SIZE
              else s.refCurrentBufferedFrameNumber) + VIDEO_FRAME_BUFFERS_SIZE)
                (s.frameFilePathsSize : ℤ)) } := by
  have h64 : VIDEO_FRAME_BUFFERS_SIZE = 64 := rfl
  have hlt := @toSizeT_lt_iff (s.refCurrentBufferedFrameNumber + VIDEO_FRAME_BUFFERS_SIZE)
    s.frameFilePathsSize (by omega) (by omega)
  have hstart : (if toSizeT (s.refCurrentBufferedFrameNumber + VIDEO_FRAME_BUFFERS_SIZE)
        ≥ s.frameFilePathsSize then s.refCurrentBufferedFrameNumber
      else s.refCurrentBufferedFrameNumber + VIDEO_FRAME_BUFFERS_SIZE)
      = (if s.refCurrentBufferedFrameNumber + VIDEO_FRAME_BUFFERS_SIZE
            < (s.frameFilePathsSize : ℤ) then
          s.refCurrentBufferedFrameNumber + VIDEO_FRAME_BUFFERS_SIZE
        else s.refCurrentBufferedFrameNumber) := by
    by_cases hc : s.refCurrentBufferedFrameNumber + VIDEO_FRAME_BUFFERS_SIZE
        < (s.frameFilePathsSize : ℤ)
    · rw [if_pos hc, if_neg (by have := hlt.2 hc; omega)]
    · rw [if_neg hc, if_pos (by
        by_contra h
        exact hc (hlt.1 (by omega)))]
  unfold loadVideoFrameBuffer
  rw [if_neg (by omega), if_pos rfl, hempty, if_pos List.isEmpty_nil]
  dsimp only
  rw [hstart]
  generalize (if s.refCurrentBufferedFrameNumber + VIDEO_FRAME_BUFFERS_SIZE
        < (s.frameFilePathsSize : ℤ) then
      s.refCurrentBufferedFrameNumber + VIDEO_FRAME_BUFFERS_SIZE
    else s.refCurrentBufferedFrameNumber) = a at *
  have ha : 0 ≤ a ∧ a < (s.frameFilePathsSize : ℤ) := by
    rw [← hstart]
    split_ifs <;> omega
  rw [finalFrameNumber_eq _ hn a ha.1 ha.2,
    loadVideoFrames_eq _ (by omega) _ _ _ ha.1 (min_le_right _ _)]
  rfl

/-- A pass of the thread of the previous buffer over an empty buffer: the buffer is
loaded from `max(refIndex - capacity, 0)`. -/
theorem loadPreviousBuffer_spec (s : Session) (hn1 : 1 ≤ s.frameFilePathsSize)
    (hn : s.frameFilePathsSize < 2 ^ 31)
    (hr1 : s.refCurrentBufferedFrameNumber < (s.frameFilePathsSize : ℤ))
    (hempty : s.previousVideoFrameBuffer = []) :
    loadVideoFrameBuffer false s
      = some
        { s with
          previousVideoFrameBuffer :=
            frameRange (max (s.refCurrentBufferedFrameNumber - VIDEO_FRAME_BUFFERS_SIZE) 0)
              (min (max (s.refCurrentBufferedFrameNumber - VIDEO_FRAME_BUFFERS_SIZE) 0
                + VIDEO_FRAME_BUFFERS_SIZE) (s.frameFilePathsSize : ℤ)) } := by
  have h64 : VIDEO_FRAME_BUFFERS_SIZE = 64 := rfl
  have hstart : (if s.refCurrentBufferedFrameNumber - VIDEO_FRAME_BUFFERS_SIZE < 0 then 0
      else s.refCurrentBufferedFrameNumber - VIDEO_FRAME_BUFFERS_SIZE)
      = max (s.refCurrentBufferedFrameNumber - VIDEO_FRAME_BUFFERS_SIZE) 0 := by
    split_ifs <;> omega
  unfold loadVideoFrameBuffer
  rw [if_neg (by omega), if_neg (by decide), hempty, if_pos List.isEmpty_nil]
  dsimp only
  rw [hstart]
  have ha : 0 ≤ max (s.refCurrentBufferedFrameNumber - VIDEO_FRAME_BUFFERS_SIZE) 0
      ∧ max (s.refCurrentBufferedFrameNumber - VIDEO_FRAME_BUFFERS_SIZE) 0
          < (s.frameFilePathsSize : ℤ) := by
    constructor <;> omega
  rw [finalFrameNumber_eq _ hn _ ha.1 ha.2,
    loadVideoFrames_eq _ (by omega) _ _ _ ha.1 (min_le_right _ _)]
  rfl

theorem rotateForward_ref (s : Session) (hn : s.frameFilePathsSize ≤ 2 ^ 31)
    (hr0 : 0 ≤ s.refCurrentBufferedFrameNumber)
    (hlt : s.refCurrentBufferedFrameNumber + VIDEO_FRAME_BUFFERS_SIZE
      < (s.frameFilePathsSize : ℤ)) :
    (rotateForward s).refCurrentBufferedFrameNumber
      = s.refCurrentBufferedFrameNumber + VIDEO_FRAME_BUFFERS_SIZE := by
  have h64 : VIDEO_FRAME_BUFFERS_SIZE = 64 := rfl
  show (if toSizeT (s.refCurrentBufferedFrameNumber + VIDEO_FRAME_BUFFERS_SIZE)
      < s.frameFilePathsSize then
    s.refCurrentBufferedFrameNumber + VIDEO_FRAME_BUFFERS_SIZE
    else s.refCurrentBufferedFrameNumber) = _
  rw [if_pos ((toSizeT_lt_iff (by omega) (by omega)).2 hlt)]

theorem rotateBackward_ref (s : Session)
    (hge : VIDEO_FRAME_BUFFERS_SIZE ≤ s.refCurrentBufferedFrameNumber) :
    (rotateBackward s).refCurrentBufferedFrameNumber
      = s.refCurrentBufferedFrameNumber - VIDEO_FRAME_BUFFERS_SIZE := by
  show (if s.refCurrentBufferedFrameNumber - VIDEO_FRAME_BUFFERS_SIZE ≥ 0 then
    s.refCurrentBufferedFrameNumber - VIDEO_FRAME_BUFFERS_SIZE
    else s.refCurrentBufferedFrameNumber) = _
  rw [if_pos (by omega)]

/-- A session whose frame number `f` replaces that of `s` and whose buffers are rotated
forward, `f` being a frame of the video past the window of `s`. -/
theorem rotatesWithFrame_forward (s s1 : Session) (hn : s.frameFilePathsSize ≤ 2 ^ 31)
    (hr0 : 0 ≤ s.refCurrentBufferedFrameNumber)
    (hsize : s1.frameFilePathsSize = s.frameFilePathsSize)
    (href : s1.refCurrentBufferedFrameNumber = s.refCurrentBufferedFrameNumber)
    (hcur : s1.currentVideoFrameBuffer = s.currentVideoFrameBuffer)
    (hnext : s1.nextVideoFrameBuffer = s.nextVideoFrameBuffer)
    (hf0 : s.refCurrentBufferedFrameNumber + VIDEO_FRAME_BUFFERS_SIZE
      ≤ s1.currentVideoFrameNumber)
    (hf1 : s1.currentVideoFrameNumber < (s.frameFilePathsSize : ℤ)) :
    RotatesWithFrame s (rotateForward s1)
      ∧ (rotateForward s1).refCurrentBufferedFrameNumber
          = s.refCurrentBufferedFrameNumber + VIDEO_FRAME_BUFFERS_SIZE := by
  have h64 : VIDEO_FRAME_BUFFERS_SIZE = 64 := rfl
  have hr := rotateForward_ref s1 (by rw [hsize]; exact hn) (by rw [href]; exact hr0)
    (by rw [href, hsize]; omega)
  rw [href] at hr
  have hframe : (rotateForward s1).currentVideoFrameNumber = s1.currentVideoFrameNumber := rfl
  refine ⟨⟨fun _ => ⟨hnext, hcur, rfl, hr⟩, fun h => ?_, fun _ h => ?_⟩, hr⟩
  · rw [hframe] at h
    omega
  · rw [hframe] at h
    omega

/-- A session whose frame number `f` replaces that of `s` and whose buffers are rotated
backward, `f` being before the window of `s`, which starts at `capacity` or later. -/
theorem rotatesWithFrame_backward (s s1 : Session)
    (hge : VIDEO_FRAME_BUFFERS_SIZE ≤ s.refCurrentBufferedFrameNumber)
    (href : s1.refCurrentBufferedFrameNumber = s.refCurrentBufferedFrameNumber)
    (hcur : s1.currentVideoFrameBuffer = s.currentVideoFrameBuffer)
    (hprev : s1.previousVideoFrameBuffer = s.previousVideoFrameBuffer)
    (hf : s1.currentVideoFrameNumber < s.refCurrentBufferedFrameNumber) :
    RotatesWithFrame s (rotateBackward s1)
      ∧ (rotateBackward s1).refCurrentBufferedFrameNumber
          = s.refCurrentBufferedFrameNumber - VIDEO_FRAME_BUFFERS_SIZE := by
  have h64 : VIDEO_FRAME_BUFFERS_SIZE = 64 := rfl
  have hr := rotateBackward_ref s1 (by rw [href]; exact hge)
  rw [href] at hr
  have hframe : (rotateBackward s1).currentVideoFrameNumber = s1.currentVideoFrameNumber := rfl
  refine ⟨⟨fun h => ?_, fun _ => ⟨hprev, hcur, rfl, hr⟩, fun h _ => ?_⟩, hr⟩
  · rw [hframe] at h
    omega
  · rw [hframe] at h
    omega

/-- A session with the reference number and the buffers of `s` and a frame number
inside the window of `s`. -/
theorem rotatesWithFrame_kept (s s1 : Session)
    (href : s1.refCurrentBufferedFrameNumber = s.refCurrentBufferedFrameNumber)
    (hcur : s1.currentVideoFrameBuffer = s.currentVideoFrameBuffer)
    (hprev : s1.previousVideoFrameBuffer = s.previousVideoFrameBuffer)
    (hnext : s1.nextVideoFrameBuffer = s.nextVideoFrameBuffer)
    (hf0 : s.refCurrentBufferedFrameNumber ≤ s1.currentVideoFrameNumber)
    (hf1 : s1.currentVideoFrameNumber
      < s.refCurrentBufferedFrameNumber + VIDEO_FRAME_BUFFERS_SIZE) :
    RotatesWithFrame s s1 :=
  ⟨fun h => absurd h (by omega), fun h => absurd h (by omega),
    fun _ _ => ⟨href, hcur, hprev, hnext⟩⟩

/-- The playback move rotates the buffers with the frame number. -/
theorem playbackMove_rotates (s : Session) (hn1 : 1 ≤ s.frameFilePathsSize)
    (hn : s.frameFilePathsSize ≤ 2 ^ 31) (h0 : 0 ≤ s.currentVideoFrameNumber)
    (h1 : s.currentVideoFrameNumber < (s.frameFilePathsSize : ℤ))
    (hr0 : 0 ≤ s.refCurrentBufferedFrameNumber)
    (hdiv : s.refCurrentBufferedFrameNumber % VIDEO_FRAME_BUFFERS_SIZE = 0)
    (hw0 : s.refCurrentBufferedFrameNumber ≤ s.currentVideoFrameNumber)
    (hw1 : s.currentVideoFrameNumber
      < s.refCurrentBufferedFrameNumber + VIDEO_FRAME_BUFFERS_SIZE) :
    RotatesWithFrame s (playbackMove s)
      ∧ 0 ≤ (playbackMove s).refCurrentBufferedFrameNumber
      ∧ (playbackMove s).refCurrentBufferedFrameNumber ≤ (s.frameFilePathsSize : ℤ) - 1 := by
  have h64 : VIDEO_FRAME_BUFFERS_SIZE = 64 := rfl
  rw [h64] at hdiv
  have hc := toSizeT_lt_sizeSub_one hn1 hn h0 h1
  have hkept : RotatesWithFrame s s
      ∧ 0 ≤ s.refCurrentBufferedFrameNumber
      ∧ s.refCurrentBufferedFrameNumber ≤ (s.frameFilePathsSize : ℤ) - 1 :=
    ⟨rotatesWithFrame_kept s s rfl rfl rfl rfl hw0 hw1, hr0, by omega⟩
  unfold playbackMove
  by_cases hd : s.videoShowingDelay > 0
  · rw [if_pos hd]
    by_cases hf : s.playReverse = false
        ∧ toSizeT s.currentVideoFrameNumber < sizeSub s.frameFilePathsSize 1
        ∧ s.nextVideoFrameBuffer.isEmpty = false
    · rw [if_pos hf]
      have hlast := hc.1 hf.2.1
      by_cases hout : s.currentVideoFrameNumber + 1
          ≥ s.refCurrentBufferedFrameNumber + VIDEO_FRAME_BUFFERS_SIZE
      · rw [if_pos hout]
        obtain ⟨hrot, hr⟩ := rotatesWithFrame_forward s
          { s with currentVideoFrameNumber := s.currentVideoFrameNumber + 1 }
          hn hr0 rfl rfl rfl rfl hout (show s.currentVideoFrameNumber + 1 < _ by omega)
        exact ⟨hrot, by rw [hr]; omega, by rw [hr]; omega⟩
      · rw [if_neg hout]
        exact ⟨rotatesWithFrame_kept s
          { s with currentVideoFrameNumber := s.currentVideoFrameNumber + 1 }
          rfl rfl rfl rfl (show _ ≤ s.currentVideoFrameNumber + 1 by omega)
          (show s.currentVideoFrameNumber + 1 < _ by omega), hr0,
          (show s.refCurrentBufferedFrameNumber ≤ _ by omega)⟩
    · rw [if_neg hf]
      by_cases hr : s.playReverse = true ∧ s.currentVideoFrameNumber > 0
          ∧ s.previousVideoFrameBuffer.isEmpty = false
      · rw [if_pos hr]
        by_cases hout : s.currentVideoFrameNumber - 1 < s.refCurrentBufferedFrameNumber
        · rw [if_pos hout]
          obtain ⟨hrot, hr'⟩ := rotatesWithFrame_backward s
            { s with currentVideoFrameNumber := s.currentVideoFrameNumber - 1 }
            (by omega) rfl rfl rfl hout
          exact ⟨hrot, by rw [hr']; omega, by rw [hr']; omega⟩
        · rw [if_neg hout]
          exact ⟨rotatesWithFrame_kept s
            { s with currentVideoFrameNumber := s.currentVideoFrameNumber - 1 }
            rfl rfl rfl rfl (show _ ≤ s.currentVideoFrameNumber - 1 by omega)
            (show s.currentVideoFrameNumber - 1 < _ by omega), hr0,
            (show s.refCurrentBufferedFrameNumber ≤ _ by omega)⟩
      · rw [if_neg hr]
        exact hkept
  · rw [if_neg hd]
    exact hkept

/-- C21 (counterexample): in a video of 129 frames, a step forward from frame 127 with
the reference number 64 rotates the buffers and moves the reference number to 128, which
is above `N - capacity = 65`. -/
theorem rotation_ref_above_bound :
    ∃ s', treatKeyboardInput 's'
        { markSession 129 127 [] [] with
          refCurrentBufferedFrameNumber := 64,
          currentVideoFrameBuffer := frameRange 64 128,
          nextVideoFrameBuffer := frameRange 128 129 } = some s'
      ∧ s'.currentVideoFrameNumber = 128
      ∧ s'.refCurrentBufferedFrameNumber = 128
      ∧ s'.currentVideoFrameBuffer = frameRange 128 129
      ∧ ¬ s'.refCurrentBufferedFrameNumber ≤ 129 - VIDEO_FRAME_BUFFERS_SIZE :=
  ⟨_, rfl, rfl, rfl, rfl, by decide⟩

/-- C21 (amended): from a session standing on a frame of `[0, N)` inside its window
`[refIndex, refIndex + capacity)`, with `refIndex` a multiple of the capacity, a step
forward, a step back and a tick that returns rotate the buffers with the frame number:
past the end of the window the buffers are rotated forward and `refIndex` grows by
exactly the capacity, before its start they are rotated backward and `refIndex` goes
down by exactly the capacity, inside it nothing changes; the new `refIndex` is never
below 0 nor above `N - 1`. -/
theorem rotation_follows_frame (s : Session) (hn1 : 1 ≤ s.frameFilePathsSize)
    (hn : s.frameFilePathsSize ≤ 2 ^ 31) (h0 : 0 ≤ s.currentVideoFrameNumber)
    (h1 : s.currentVideoFrameNumber < (s.frameFilePathsSize : ℤ))
    (hr0 : 0 ≤ s.refCurrentBufferedFrameNumber)
    (hdiv : s.refCurrentBufferedFrameNumber % VIDEO_FRAME_BUFFERS_SIZE = 0)
    (hw0 : s.refCurrentBufferedFrameNumber ≤ s.currentVideoFrameNumber)
    (hw1 : s.currentVideoFrameNumber
      < s.refCurrentBufferedFrameNumber + VIDEO_FRAME_BUFFERS_SIZE) :
    (∃ s', treatKeyboardInput 's' s = some s' ∧ RotatesWithFrame s s'
      ∧ 0 ≤ s'.refCurrentBufferedFrameNumber
      ∧ s'.refCurrentBufferedFrameNumber ≤ (s.frameFilePathsSize : ℤ) - 1) ∧
    (∃ s', treatKeyboardInput 'a' s = some s' ∧ RotatesWithFrame s s'
      ∧ 0 ≤ s'.refCurrentBufferedFrameNumber
      ∧ s'.refCurrentBufferedFrameNumber ≤ (s.frameFilePathsSize : ℤ) - 1) ∧
    (∀ s', renderTick s = some s' → RotatesWithFrame s s'
      ∧ 0 ≤ s'.refCurrentBufferedFrameNumber
      ∧ s'.refCurrentBufferedFrameNumber ≤ (s.frameFilePathsSize : ℤ) - 1) := by
  have h64 : VIDEO_FRAME_BUFFERS_SIZE = 64 := rfl
  have hdiv' : s.refCurrentBufferedFrameNumber % 64 = 0 := hdiv
  refine ⟨?_, ?_, ?_⟩
  · rw [treatKeyboardInput_s, stepForward_frame s hn1 hn h0 (by omega)]
    by_cases hout : min (s.currentVideoFrameNumber + 1) ((s.frameFilePathsSize : ℤ) - 1)
        ≥ s.refCurrentBufferedFrameNumber + VIDEO_FRAME_BUFFERS_SIZE
    · rw [if_pos hout]
      obtain ⟨hrot, hr⟩ := rotatesWithFrame_forward s
        { s with videoShowingDelay := 0,
                 currentVideoFrameNumber :=
                   min (s.currentVideoFrameNumber + 1) ((s.frameFilePathsSize : ℤ) - 1) }
        hn hr0 rfl rfl rfl rfl hout
        (show min (s.currentVideoFrameNumber + 1) ((s.frameFilePathsSize : ℤ) - 1) < _ by
          omega)
      exact ⟨_, rfl, hrot, by rw [hr]; omega, by rw [hr]; omega⟩
    · rw [if_neg hout]
      exact ⟨_, rfl, rotatesWithFrame_kept s
        { s with videoShowingDelay := 0,
                 currentVideoFrameNumber :=
                   min (s.currentVideoFrameNumber + 1) ((s.frameFilePathsSize : ℤ) - 1) }
        rfl rfl rfl rfl
        (show _ ≤ min (s.currentVideoFrameNumber + 1) ((s.frameFilePathsSize : ℤ) - 1) by
          omega)
        (show min (s.currentVideoFrameNumber + 1) ((s.frameFilePathsSize : ℤ) - 1) < _ by
          omega), hr0, (show s.refCurrentBufferedFrameNumber ≤ _ by omega)⟩
  · have hmax : (if s.currentVideoFrameNumber > 0 then s.currentVideoFrameNumber - 1 else 0)
        = max (s.currentVideoFrameNumber - 1) 0 := by
      split_ifs <;> omega
    rw [treatKeyboardInput_a, hmax]
    by_cases hout : max (s.currentVideoFrameNumber - 1) 0 < s.refCurrentBufferedFrameNumber
    · rw [if_pos hout]
      obtain ⟨hrot, hr⟩ := rotatesWithFrame_backward s
        { s with overwriteLabels := false, videoShowingDelay := 0,
                 currentVideoFrameNumber := max (s.currentVideoFrameNumber - 1) 0 }
        (by omega) rfl rfl rfl hout
      exact ⟨_, rfl, hrot, by rw [hr]; omega, by rw [hr]; omega⟩
    · rw [if_neg hout]
      exact ⟨_, rfl, rotatesWithFrame_kept s
        { s with overwriteLabels := false, videoShowingDelay := 0,
                 currentVideoFrameNumber := max (s.currentVideoFrameNumber - 1) 0 }
        rfl rfl rfl rfl (show _ ≤ max (s.currentVideoFrameNumber - 1) 0 by omega)
        (show max (s.currentVideoFrameNumber - 1) 0 < _ by omega), hr0,
        (show s.refCurrentBufferedFrameNumber ≤ _ by omega)⟩
  · intro s' h
    rcases renderTick_cases s s' h with rfl | rfl
    · obtain ⟨p, n, hs1⟩ := overwriteLabel_eq s
      rw [hs1]
      exact playbackMove_rotates { s with positiveFrames := p, negativeFrames := n }
        hn1 hn h0 h1 hr0 hdiv hw0 hw1
    · exact ⟨rotatesWithFrame_kept s' s' rfl rfl rfl rfl hw0 hw1, hr0, by omega⟩

theorem rotation_follows_frame_witness :
    ∃ s', treatKeyboardInput 's'
        { markSession 129 127 [] [] with
          refCurrentBufferedFrameNumber := 64,
          currentVideoFrameBuffer := frameRange 64 128,
          nextVideoFrameBuffer := frameRange 128 129 } = some s'
      ∧ RotatedForward
          { markSession 129 127 [] [] with
            refCurrentBufferedFrameNumber := 64,
            currentVideoFrameBuffer := frameRange 64 128,
            nextVideoFrameBuffer := frameRange 128 129 } s'
      ∧ s'.refCurrentBufferedFrameNumber ≤ ((129 : ℕ) : ℤ) - 1 := by
  obtain ⟨s', h, hrot, _, hle⟩ :=
    (rotation_follows_frame
      { markSession 129 127 [] [] with
        refCurrentBufferedFrameNumber := 64,
        currentVideoFrameBuffer := frameRange 64 128,
        nextVideoFrameBuffer := frameRange 128 129 }
      (by decide) (by decide) (by decide) (by decide) (by decide) (by decide) (by decide)
      (by decide)).1
  have hs : treatKeyboardInput 's'
      { markSession 129 127 [] [] with
        refCurrentBufferedFrameNumber := 64,
        currentVideoFrameBuffer := frameRange 64 128,
        nextVideoFrameBuffer := frameRange 128 129 }
      = some
        { markSession 129 128 [] [] with
          refCurrentBufferedFrameNumber := 128,
          currentVideoFrameBuffer := frameRange 128 129,
          previousVideoFrameBuffer := frameRange 64 128 } := rfl
  rw [hs] at h
  have hs' := Option.some.inj h
  subst hs'
  exact ⟨_, hs, hrot.1 (by decide), hle⟩

/-- C22 (counterexample): in a video of 100 frames with the reference number 64, the
thread of the next buffer fills it from frame 64, the reference number itself, and not
from `min(64 + 64, 100) = 100`. -/
theorem next_buffer_restarts_at_ref :
    ∃ s', loadVideoFrameBuffer true
        { markSession 100 99 [] [] with
          refCurrentBufferedFrameNumber := 64,
          currentVideoFrameBuffer := frameRange 64 100 } = some s'
      ∧ s'.refCurrentBufferedFrameNumber = 64
      ∧ s'.nextVideoFrameBuffer.head? = some 64
      ∧ min (s'.refCurrentBufferedFrameNumber + VIDEO_FRAME_BUFFERS_SIZE) 100 = 100 := by
  have h := loadNextBuffer_spec
    { markSession 100 99 [] [] with
      refCurrentBufferedFrameNumber := 64,
      currentVideoFrameBuffer := frameRange 64 100 }
    (by decide) (by decide) (by decide) (by decide) rfl
  refine ⟨_, h, rfl, ?_, by decide⟩
  exact head?_frameRange (by decide)

/-- C22 (amended): with `refIndex` in `[0, N)`, the thread of the previous buffer fills
its empty buffer from `max(refIndex - capacity, 0)`, and the thread of the next buffer
fills its empty buffer from `refIndex + capacity` when that is below `N` and from
`refIndex` itself otherwise; so the previous buffer starts at or before `refIndex` and
the next buffer at or after it. Neither changes `refIndex`. -/
theorem prefetch_start (s : Session) (hn1 : 1 ≤ s.frameFilePathsSize)
    (hn : s.frameFilePathsSize < 2 ^ 31) (hr0 : 0 ≤ s.refCurrentBufferedFrameNumber)
    (hr1 : s.refCurrentBufferedFrameNumber < (s.frameFilePathsSize : ℤ)) :
    (s.previousVideoFrameBuffer = [] →
      ∃ s', loadVideoFrameBuffer false s = some s'
        ∧ s'.previousVideoFrameBuffer.head?
            = some (max (s.refCurrentBufferedFrameNumber - VIDEO_FRAME_BUFFERS_SIZE) 0)
        ∧ max (s.refCurrentBufferedFrameNumber - VIDEO_FRAME_BUFFERS_SIZE) 0
            ≤ s.refCurrentBufferedFrameNumber
        ∧ s'.refCurrentBufferedFrameNumber = s.refCurrentBufferedFrameNumber) ∧
    (s.nextVideoFrameBuffer = [] →
      ∃ s', loadVideoFrameBuffer true s = some s'
        ∧ s'.nextVideoFrameBuffer.head?
            = some (if s.refCurrentBufferedFrameNumber + VIDEO_FRAME_BUFFERS_SIZE
                  < (s.frameFilePathsSize : ℤ) then
                s.refCurrentBufferedFrameNumber + VIDEO_FRAME_BUFFERS_SIZE
              else s.refCurrentBufferedFrameNumber)
        ∧ s.refCurrentBufferedFrameNumber
            ≤ (if s.refCurrentBufferedFrameNumber + VIDEO_FRAME_BUFFERS_SIZE
                  < (s.frameFilePathsSize : ℤ) then
                s.refCurrentBufferedFrameNumber + VIDEO_FRAME_BUFFERS_SIZE
              else s.refCurrentBufferedFrameNumber)
        ∧ s'.refCurrentBufferedFrameNumber = s.refCurrentBufferedFrameNumber) := by
  have h64 : VIDEO_FRAME_BUFFERS_SIZE = 64 := rfl
  constructor
  · intro hempty
    refine ⟨_, loadPreviousBuffer_spec s hn1 hn hr1 hempty, ?_, by omega, rfl⟩
    exact head?_frameRange (by omega)
  · intro hempty
    refine ⟨_, loadNextBuffer_spec s hn1 hn hr0 hr1 hempty, ?_, by split_ifs <;> omega, rfl⟩
    apply head?_frameRange
    split_ifs <;> omega

theorem prefetch_start_witness :
    ∃ s', loadVideoFrameBuffer true (markSession 200 0 [] []) = some s'
      ∧ s'.nextVideoFrameBuffer.head? = some 64 := by
  obtain ⟨s', h, hhead, _⟩ :=
    (prefetch_start (markSession 200 0 [] []) (by decide) (by decide) (by decide)
      (by decide)).2 rfl
  exact ⟨s', h, hhead⟩

/-- The frames of a window that starts at the frame `a` of `[0, N)`. -/
theorem frameRange_window (n : ℕ) (a : ℤ) (ha1 : a < (n : ℤ)) :
    ((frameRange a (min (a + VIDEO_FRAME_BUFFERS_SIZE) (n : ℤ))).length : ℤ)
        = min VIDEO_FRAME_BUFFERS_SIZE ((n : ℤ) - a)
      ∧ ∀ i : ℕ, i < (frameRange a (min (a + VIDEO_FRAME_BUFFERS_SIZE) (n : ℤ))).length →
          (frameRange a (min (a + VIDEO_FRAME_BUFFERS_SIZE) (n : ℤ)))[i]? = some (a + (i : ℤ)) := by
  have h64 : VIDEO_FRAME_BUFFERS_SIZE = 64 := rfl
  refine ⟨?_, fun i hi => getElem?_frameRange _ _ i hi⟩
  rw [length_frameRange]
  omega

/-- C23 (length and content of a filled window): a buffer filled by one of the two
threads (which fill an empty buffer only) or by one of the jump keys (which clear the
buffers first), from a start frame `a` of `[0, N)`, holds exactly `min(capacity, N - a)`
frames, the `i`-th being frame `a + i`. -/
theorem window_fill (s : Session) (hn1 : 1 ≤ s.frameFilePathsSize)
    (hn : s.frameFilePathsSize < 2 ^ 31) :
    (0 ≤ s.refCurrentBufferedFrameNumber →
      s.refCurrentBufferedFrameNumber < (s.frameFilePathsSize : ℤ) →
      s.previousVideoFrameBuffer = [] →
      ∃ s' a, loadVideoFrameBuffer false s = some s'
        ∧ 0 ≤ a ∧ a < (s.frameFilePathsSize : ℤ)
        ∧ (s'.previousVideoFrameBuffer.length : ℤ)
            = min VIDEO_FRAME_BUFFERS_SIZE ((s.frameFilePathsSize : ℤ) - a)
        ∧ ∀ i : ℕ, i < s'.previousVideoFrameBuffer.length →
            s'.previousVideoFrameBuffer[i]? = some (a + (i : ℤ))) ∧
    (0 ≤ s.refCurrentBufferedFrameNumber →
      s.refCurrentBufferedFrameNumber < (s.frameFilePathsSize : ℤ) →
      s.nextVideoFrameBuffer = [] →
      ∃ s' a, loadVideoFrameBuffer true s = some s'
        ∧ 0 ≤ a ∧ a < (s.frameFilePathsSize : ℤ)
        ∧ (s'.nextVideoFrameBuffer.length : ℤ)
            = min VIDEO_FRAME_BUFFERS_SIZE ((s.frameFilePathsSize : ℤ) - a)
        ∧ ∀ i : ℕ, i < s'.nextVideoFrameBuffer.length →
            s'.nextVideoFrameBuffer[i]? = some (a + (i : ℤ))) ∧
    (∀ key : Char,
      key = 'w' ∨ key = 'z' ∨ key = 'b' ∨ key = 'e' ∨ key = 'j' ∨ key = 'k' →
      0 ≤ jumpTarget key s → jumpTarget key s < (s.frameFilePathsSize : ℤ) →
      ∃ s', treatKeyboardInput key s = some s'
        ∧ 0 ≤ s'.refCurrentBufferedFrameNumber
        ∧ s'.refCurrentBufferedFrameNumber < (s.frameFilePathsSize : ℤ)
        ∧ (s'.currentVideoFrameBuffer.length : ℤ)
            = min VIDEO_FRAME_BUFFERS_SIZE
                ((s.frameFilePathsSize : ℤ) - s'.refCurrentBufferedFrameNumber)
        ∧ ∀ i : ℕ, i < s'.currentVideoFrameBuffer.length →
            s'.currentVideoFrameBuffer[i]?
              = some (s'.refCurrentBufferedFrameNumber + (i : ℤ))) := by
  have h64 : VIDEO_FRAME_BUFFERS_SIZE = 64 := rfl
  refine ⟨fun hr0 hr1 hempty => ?_, fun hr0 hr1 hempty => ?_, fun key hkey ht0 ht1 => ?_⟩
  · have ha : 0 ≤ max (s.refCurrentBufferedFrameNumber - VIDEO_FRAME_BUFFERS_SIZE) 0
        ∧ max (s.refCurrentBufferedFrameNumber - VIDEO_FRAME_BUFFERS_SIZE) 0
            < (s.frameFilePathsSize : ℤ) := by
      constructor <;> omega
    obtain ⟨hlen, hget⟩ := frameRange_window s.frameFilePathsSize _ ha.2
    exact ⟨_, _, loadPreviousBuffer_spec s hn1 hn hr1 hempty, ha.1, ha.2, hlen, hget⟩
  · have ha : 0 ≤ (if s.refCurrentBufferedFrameNumber + VIDEO_FRAME_BUFFERS_SIZE
            < (s.frameFilePathsSize : ℤ) then
          s.refCurrentBufferedFrameNumber + VIDEO_FRAME_BUFFERS_SIZE
        else s.refCurrentBufferedFrameNumber)
        ∧ (if s.refCurrentBufferedFrameNumber + VIDEO_FRAME_BUFFERS_SIZE
            < (s.frameFilePathsSize : ℤ) then
          s.refCurrentBufferedFrameNumber + VIDEO_FRAME_BUFFERS_SIZE
        else s.refCurrentBufferedFrameNumber) < (s.frameFilePathsSize : ℤ) := by
      constructor <;> split_ifs <;> omega
    obtain ⟨hlen, hget⟩ := frameRange_window s.frameFilePathsSize _ ha.2
    exact ⟨_, _, loadNextBuffer_spec s hn1 hn hr0 hr1 hempty, ha.1, ha.2, hlen, hget⟩
  · obtain ⟨s', h, _, href, _, _, hbuf, _⟩ :=
      jumpToFrame_spec s (jumpTarget key s) hn ht0 ht1
    have ha : 0 ≤ s'.refCurrentBufferedFrameNumber
        ∧ s'.refCurrentBufferedFrameNumber < (s.frameFilePathsSize : ℤ) := by
      rw [href, h64]
      constructor <;> omega
    obtain ⟨hlen, hget⟩ := frameRange_window s.frameFilePathsSize _ ha.2
    rw [← href] at hbuf
    rw [← hbuf] at hlen hget
    exact ⟨s', by rw [jumpKey_eq_jumpToFrame key hkey s]; exact h, ha.1, ha.2, hlen, hget⟩

theorem window_fill_witness :
    ∃ s' a, loadVideoFrameBuffer true (markSession 70 0 [] []) = some s'
      ∧ 0 ≤ a ∧ a < (((70 : ℕ) : ℤ))
      ∧ (s'.nextVideoFrameBuffer.length : ℤ)
          = min VIDEO_FRAME_BUFFERS_SIZE ((((70 : ℕ) : ℤ)) - a)
      ∧ ∀ i : ℕ, i < s'.nextVideoFrameBuffer.length →
          s'.nextVideoFrameBuffer[i]? = some (a + (i : ℤ)) :=
  (window_fill (markSession 70 0 [] []) (by decide) (by decide)).2.1
    (by decide) (by decide) rfl

/-! ## Decimal digits -/

theorem digitChar_isDigit {d : ℕ} (h : d < 10) : (digitChar d).isDigit = true := by
  interval_cases d <;> rfl

theorem digitChar_toNat {d : ℕ} (h : d < 10) : (digitChar d).toNat - 48 = d := by
  interval_cases d <;> rfl

theorem digitsValue_foldl (l : List Char) :
    ∀ acc : ℕ, l.foldl (fun n c => 10 * n + (c.toNat - 48)) acc
      = acc * 10 ^ l.length + digitsValue l := by
  unfold digitsValue
  induction l with
  | nil => intro acc; simp
  | cons c cs ih =>
    intro acc
    rw [List.foldl_cons, ih, List.foldl_cons, ih (10 * 0 + (c.toNat - 48)), List.length_cons]
    ring

theorem digitsValue_cons (c : Char) (l : List Char) :
    digitsValue (c :: l) = (c.toNat - 48) * 10 ^ l.length + digitsValue l := by
  have h := digitsValue_foldl l (10 * 0 + (c.toNat - 48))
  unfold digitsValue at h ⊢
  rw [List.foldl_cons, h]
  ring

theorem digitsValue_append (a b : List Char) :
    digitsValue (a ++ b) = digitsValue a * 10 ^ b.length + digitsValue b := by
  have h := digitsValue_foldl b (digitsValue a)
  unfold digitsValue at h ⊢
  rw [List.foldl_append, h]

theorem length_decimalDigits (k n : ℕ) : (decimalDigits k n).length = k := by
  induction k with
  | zero => rfl
  | succ k ih => simp [decimalDigits, ih]

theorem isDigit_decimalDigits (k n : ℕ) : ∀ c ∈ decimalDigits k n, Char.isDigit c = true := by
  induction k with
  | zero => intro c hc; exact absurd hc (List.not_mem_nil c)
  | succ k ih =>
    intro c hc
    simp only [decimalDigits, List.mem_cons] at hc
    rcases hc with h | h
    · rw [h]; exact digitChar_isDigit (Nat.mod_lt _ (by norm_num))
    · exact ih c h

theorem digitsValue_decimalDigits (k n : ℕ) : digitsValue (decimalDigits k n) = n % 10 ^ k := by
  induction k with
  | zero => simp [decimalDigits, digitsValue, Nat.mod_one]
  | succ k ih =>
    rw [decimalDigits, digitsValue_cons, ih, length_decimalDigits,
      digitChar_toNat (Nat.mod_lt _ (by norm_num)), Nat.mod_pow_succ]
    ring

theorem isDigit_fractionDigits (w f : ℕ) : ∀ c ∈ fractionDigits w f, Char.isDigit c = true := by
  induction w with
  | zero => intro c hc; exact absurd hc (List.not_mem_nil c)
  | succ w ih =>
    intro c hc
    simp only [fractionDigits] at hc
    split_ifs at hc with h0
    · exact absurd hc (List.not_mem_nil c)
    · rcases List.mem_cons.1 hc with h | h
      · rw [h]; exact digitChar_isDigit (Nat.mod_lt _ (by norm_num))
      · exact ih c h

/-- The fraction digits of `f` denote `f % 10 ^ w` once the stripped zeros are put
back. -/
theorem digitsValue_fractionDigits (w f : ℕ) :
    (fractionDigits w f).length ≤ w
      ∧ digitsValue (fractionDigits w f) * 10 ^ (w - (fractionDigits w f).length)
          = f % 10 ^ w := by
  induction w with
  | zero => simp [fractionDigits, digitsValue, Nat.mod_one]
  | succ w ih =>
    simp only [fractionDigits]
    by_cases h0 : f % 10 ^ (w + 1) = 0
    · rw [if_pos h0]
      simp [digitsValue, h0]
    · rw [if_neg h0]
      obtain ⟨hl, hv⟩ := ih
      refine ⟨by rw [List.length_cons]; omega, ?_⟩
      rw [digitsValue_cons, digitChar_toNat (Nat.mod_lt _ (by norm_num)), List.length_cons,
        Nat.mod_pow_succ, ← hv]
      have h1 : w + 1 - ((fractionDigits w f).length + 1) = w - (fractionDigits w f).length := by
        omega
      have h2 : (10 : ℕ) ^ w
          = 10 ^ (fractionDigits w f).length * 10 ^ (w - (fractionDigits w f).length) := by
        rw [← pow_add]
        congr 1
        omega
      rw [h1]
      nth_rewrite 2 [h2]
      ring

theorem fractionDigits_ne_nil (w f : ℕ) (h : f % 10 ^ w ≠ 0) : fractionDigits w f ≠ [] := by
  cases w with
  | zero => simp [Nat.mod_one] at h
  | succ w =>
    simp only [fractionDigits, if_neg h]
    exact List.cons_ne_nil _ _

/-- The value of the fraction digits, as a fraction. -/
theorem fractionDigits_value (w f : ℕ) :
    (digitsValue (fractionDigits w f) : ℚ) / 10 ^ (fractionDigits w f).length
      = ((f % 10 ^ w : ℕ) : ℚ) / 10 ^ w := by
  obtain ⟨hl, hv⟩ := digitsValue_fractionDigits w f
  rw [← hv]
  have h2 : (10 : ℚ) ^ w
      = 10 ^ (fractionDigits w f).length * 10 ^ (w - (fractionDigits w f).length) := by
    rw [← pow_add]
    congr 1
    omega
  rw [h2]
  push_cast
  field_simp
  ring

theorem digitsValue_replicate_zero (z : ℕ) : digitsValue (List.replicate z '0') = 0 := by
  induction z with
  | zero => rfl
  | succ z ih =>
    rw [List.replicate_succ, digitsValue_cons, ih]
    have h0 : '0'.toNat - 48 = 0 := rfl
    rw [h0]
    simp

theorem isDigit_replicate_zero (z : ℕ) : ∀ c ∈ List.replicate z '0', Char.isDigit c = true := by
  intro c hc
  rw [(List.mem_replicate.1 hc).2]
  rfl

/-! ## The decimal exponent and the six digits -/

theorem floorLog10_spec : ∀ (fuel n : ℕ), n ≤ fuel →
    (1 ≤ n → 10 ^ floorLog10 fuel n ≤ n) ∧ n < 10 ^ (floorLog10 fuel n + 1) := by
  intro fuel
  induction fuel with
  | zero =>
    intro n hn
    have : n = 0 := by omega
    subst this
    exact ⟨fun h => absurd h (by decide), by simp [floorLog10]⟩
  | succ fuel ih =>
    intro n hn
    simp only [floorLog10]
    by_cases h10 : n < 10
    · rw [if_pos h10]
      exact ⟨fun h => by simpa using h, by simpa using h10⟩
    · rw [if_neg h10]
      have hle : n / 10 ≤ fuel := by omega
      obtain ⟨h1, h2⟩ := ih (n / 10) hle
      have h1' := h1 (by omega)
      refine ⟨fun _ => ?_, ?_⟩
      · rw [pow_succ]
        have := Nat.div_mul_le_self n 10
        calc 10 ^ floorLog10 fuel (n / 10) * 10 ≤ n / 10 * 10 := Nat.mul_le_mul_right _ h1'
          _ ≤ n := this
      · rw [pow_succ]
        have := (Nat.div_lt_iff_lt_mul (by norm_num : 0 < 10)).1 h2
        exact this

theorem scaleUp_spec (n d : ℕ) : ∀ (fuel k : ℕ), d ≤ n * 10 ^ (k + fuel) →
    d ≤ n * 10 ^ scaleUp n d fuel k ∧ k ≤ scaleUp n d fuel k
      ∧ ∀ j, k ≤ j → j < scaleUp n d fuel k → n * 10 ^ j < d := by
  intro fuel
  induction fuel with
  | zero =>
    intro k h
    simp only [scaleUp]
    exact ⟨by simpa using h, le_refl _, fun j h1 h2 => absurd h2 (by omega)⟩
  | succ fuel ih =>
    intro k h
    simp only [scaleUp]
    by_cases hk : d ≤ n * 10 ^ k
    · rw [if_pos hk]
      exact ⟨hk, le_refl _, fun j h1 h2 => absurd h2 (by omega)⟩
    · rw [if_neg hk]
      obtain ⟨h1, h2, h3⟩ := ih (k + 1) (by
        have : k + 1 + fuel = k + (fuel + 1) := by omega
        rw [this]; exact h)
      refine ⟨h1, by omega, fun j hj1 hj2 => ?_⟩
      by_cases hjk : j = k
      · subst hjk; omega
      · exact h3 j (by omega) hj2

/-- The decimal exponent `e` of `n / d`: `10 ^ e ≤ n / d < 10 ^ (e + 1)`. -/
theorem decimalExponent_spec (n d : ℕ) (hn : 1 ≤ n) (hd : 1 ≤ d) :
    (10 : ℚ) ^ decimalExponent n d ≤ (n : ℚ) / d
      ∧ (n : ℚ) / d < 10 ^ (decimalExponent n d + 1) := by
  have hdq : (0 : ℚ) < d := by exact_mod_cast hd
  unfold decimalExponent
  by_cases hdn : d ≤ n
  · rw [if_pos hdn]
    have hq1 : 1 ≤ n / d := (Nat.one_le_div_iff (by omega)).2 hdn
    obtain ⟨h1, h2⟩ := floorLog10_spec (n / d) (n / d) (le_refl _)
    have h1' := h1 hq1
    constructor
    · rw [zpow_natCast, le_div_iff₀ hdq]
      have : 10 ^ floorLog10 (n / d) (n / d) * d ≤ n :=
        le_trans (Nat.mul_le_mul_right _ h1') (Nat.div_mul_le_self n d)
      exact_mod_cast this
    · have he : ((floorLog10 (n / d) (n / d) : ℕ) : ℤ) + 1
          = ((floorLog10 (n / d) (n / d) + 1 : ℕ) : ℤ) := by push_cast; ring
      rw [he, zpow_natCast, div_lt_iff₀ hdq]
      have h3 : n < (n / d + 1) * d := by
        have := Nat.lt_succ_self (n / d)
        exact (Nat.div_lt_iff_lt_mul (by omega)).1 this
      have h4 : (n / d + 1) * d ≤ 10 ^ (floorLog10 (n / d) (n / d) + 1) * d :=
        Nat.mul_le_mul_right _ h2
      have := lt_of_lt_of_le h3 h4
      exact_mod_cast this
  · rw [if_neg hdn]
    have hfuel : d ≤ n * 10 ^ (0 + d) := by
      rw [Nat.zero_add]
      calc d ≤ 10 ^ d := (Nat.lt_pow_self (by norm_num) d).le
        _ ≤ n * 10 ^ d := Nat.le_mul_of_pos_left _ (by omega)
    obtain ⟨h1, _, h3⟩ := scaleUp_spec n d d 0 hfuel
    have hk1 : 1 ≤ scaleUp n d d 0 := by
      by_contra hlt
      have h0 : scaleUp n d d 0 = 0 := by omega
      rw [h0] at h1
      simp only [pow_zero, mul_one] at h1
      exact hdn h1
    have hp : ∀ j : ℕ, (0 : ℚ) < 10 ^ j := fun j => by positivity
    constructor
    · rw [zpow_neg, zpow_natCast, inv_eq_one_div, div_le_div_iff (hp _) hdq, one_mul]
      exact_mod_cast h1
    · have he : -((scaleUp n d d 0 : ℕ) : ℤ) + 1 = -((scaleUp n d d 0 - 1 : ℕ) : ℤ) := by
        omega
      rw [he, zpow_neg, zpow_natCast, inv_eq_one_div, div_lt_div_iff hdq (hp _), one_mul]
      have := h3 (scaleUp n d d 0 - 1) (Nat.zero_le _) (by omega)
      exact_mod_cast this

theorem roundDiv_le (a b K : ℕ) (hb : 0 < b) (h : a < K * b) : roundDiv a b ≤ K := by
  have h1 : a / b < K := (Nat.div_lt_iff_lt_mul hb).2 h
  unfold roundDiv
  split_ifs <;> omega

/-- The significand of `n / d` at its decimal exponent has six digits at most, or is
`10 ^ 6`. -/
theorem significand_le (n d : ℕ) (hn : 1 ≤ n) (hd : 1 ≤ d) :
    significand n d (decimalExponent n d) ≤ 10 ^ 6 := by
  obtain ⟨_, h2⟩ := decimalExponent_spec n d hn hd
  have hdq : (0 : ℚ) < d := by exact_mod_cast hd
  rw [div_lt_iff₀ hdq] at h2
  unfold significand
  by_cases he : decimalExponent n d ≤ 5
  · rw [if_pos he]
    apply roundDiv_le _ _ _ (by omega)
    have hz : decimalExponent n d + 1 = 6 - ((5 - decimalExponent n d).toNat : ℤ) := by omega
    rw [hz, zpow_sub₀ (by norm_num), zpow_natCast, div_mul_eq_mul_div,
      lt_div_iff₀ (by positivity)] at h2
    have h3 : ((n * 10 ^ (5 - decimalExponent n d).toNat : ℕ) : ℚ)
        < ((10 ^ 6 * d : ℕ) : ℚ) := by
      push_cast
      have h6 : (10 : ℚ) ^ (6 : ℤ) = 10 ^ 6 := by norm_num
      rw [h6] at h2
      exact h2
    exact_mod_cast h3
  · rw [if_neg he]
    apply roundDiv_le _ _ _ (Nat.mul_pos (by omega) (by positivity))
    have hz : decimalExponent n d + 1 = 6 + ((decimalExponent n d - 5).toNat : ℤ) := by omega
    rw [hz, zpow_add₀ (by norm_num), zpow_natCast] at h2
    have h3 : ((n : ℕ) : ℚ) < ((10 ^ 6 * (d * 10 ^ (decimalExponent n d - 5).toNat) : ℕ) : ℚ) := by
      push_cast
      have h6 : (10 : ℚ) ^ (6 : ℤ) = 10 ^ 6 := by norm_num
      rw [h6] at h2
      linarith
    exact_mod_cast h3

/-- The six digits printed for `n / d` are below `10 ^ 6`, and their exponent is the
decimal exponent of `n / d` or the next integer. -/
theorem sixDigits_spec (n d : ℕ) (hn : 1 ≤ n) (hd : 1 ≤ d) :
    (sixDigits n d).1 < 10 ^ 6
      ∧ decimalExponent n d ≤ (sixDigits n d).2
      ∧ (sixDigits n d).2 ≤ decimalExponent n d + 1 := by
  have h := significand_le n d hn hd
  unfold sixDigits
  by_cases h6 : significand n d (decimalExponent n d) = 10 ^ 6
  · rw [if_pos h6]
    exact ⟨by norm_num, by omega, le_refl _⟩
  · rw [if_neg h6]
    exact ⟨lt_of_le_of_ne h h6, le_refl _, by omega⟩

/-! ## Reading back what the writer printed -/

theorem readTail_nil (negative : Bool) (m : ℚ) :
    readTail negative m [] = convertDouble negative m [] := rfl

/-- The exponent part `e`, a sign and digits, read to the end of the stream. -/
theorem readTail_exponent (negative : Bool) (m : ℚ) (minus : Bool) (digits : List Char)
    (hd : ∀ c ∈ digits, Char.isDigit c = true) (hne : digits ≠ []) :
    readTail negative m ('e' :: (if minus then '-' else '+') :: digits)
      = convertDouble negative
          (m * 10 ^ (if minus then -(digitsValue digits : ℤ) else (digitsValue digits : ℤ))) [] := by
  have hspan : digits.span Char.isDigit = (digits, []) := by
    have := span_append Char.isDigit digits [] hd (Or.inl rfl)
    rwa [List.append_nil] at this
  have hs : readSign ((if minus then '-' else '+') :: digits) = (minus, digits) := by
    cases minus <;> rfl
  simp only [readTail, true_or, if_true, readExponent, hs, hspan, if_neg hne]

theorem mantissa_value (a b : List Char) :
    (digitsValue (a ++ b) : ℚ) / 10 ^ b.length
      = (digitsValue a : ℚ) + (digitsValue b : ℚ) / 10 ^ b.length := by
  rw [digitsValue_append]
  push_cast
  field_simp

/-- Digits, a point and digits, then a rest that begins with no digit. -/
theorem readMantissa_point (negative : Bool) (a b rest : List Char)
    (ha : ∀ c ∈ a, Char.isDigit c = true) (hb : ∀ c ∈ b, Char.isDigit c = true)
    (hne : a ++ b ≠ [])
    (hrest : rest = [] ∨ ∃ c r, rest = c :: r ∧ Char.isDigit c = false) :
    readMantissa negative (a ++ '.' :: (b ++ rest))
      = readTail negative ((digitsValue (a ++ b) : ℚ) / 10 ^ b.length) rest := by
  have h1 : (a ++ '.' :: (b ++ rest)).span Char.isDigit = (a, '.' :: (b ++ rest)) :=
    span_append Char.isDigit a _ ha (Or.inr ⟨'.', b ++ rest, rfl, rfl⟩)
  have h2 : readFraction ('.' :: (b ++ rest)) = (b, rest) := by
    simp only [readFraction, if_true]
    exact span_append Char.isDigit b rest hb hrest
  unfold readMantissa
  rw [h1]
  simp only []
  rw [h2]
  simp only []
  rw [if_neg hne]

/-- Digits, then a rest that begins with neither a digit nor a point. -/
theorem readMantissa_integer (negative : Bool) (a rest : List Char)
    (ha : ∀ c ∈ a, Char.isDigit c = true) (hne : a ≠ [])
    (hrest : rest = [] ∨ ∃ c r, rest = c :: r ∧ Char.isDigit c = false ∧ c ≠ '.') :
    readMantissa negative (a ++ rest) = readTail negative (digitsValue a : ℚ) rest := by
  have h1 : (a ++ rest).span Char.isDigit = (a, rest) := by
    apply span_append Char.isDigit a _ ha
    rcases hrest with h | ⟨c, r, h, hc, _⟩
    · exact Or.inl h
    · exact Or.inr ⟨c, r, h, hc⟩
  have h2 : readFraction rest = ([], rest) := by
    rcases hrest with h | ⟨c, r, h, _, hc⟩
    · rw [h]; rfl
    · rw [h]
      simp only [readFraction, if_neg hc]
  unfold readMantissa
  rw [h1]
  simp only []
  rw [h2]
  simp only [List.append_nil, List.length_nil, pow_zero, div_one]
  rw [if_neg hne]

/-- Digits, then the point and the fraction digits that the writer prints for the `w`
lowest digits of `f`, then a rest that begins with neither a digit nor a point: the
mantissa is the integer of the digits plus `(f % 10 ^ w) / 10 ^ w`. -/
theorem readMantissa_pointAndFraction (negative : Bool) (a rest : List Char) (w f : ℕ)
    (ha : ∀ c ∈ a, Char.isDigit c = true) (hne : a ≠ [])
    (hrest : rest = [] ∨ ∃ c r, rest = c :: r ∧ Char.isDigit c = false ∧ c ≠ '.') :
    readMantissa negative (a ++ pointAndFraction w f ++ rest)
      = readTail negative ((digitsValue a : ℚ) + ((f % 10 ^ w : ℕ) : ℚ) / 10 ^ w) rest := by
  unfold pointAndFraction
  by_cases h0 : f % 10 ^ w = 0
  · rw [if_pos h0, List.append_nil, readMantissa_integer negative a rest ha hne hrest, h0]
    simp
  · rw [if_neg h0, List.append_assoc, List.cons_append,
      readMantissa_point negative a (fractionDigits w f) rest ha (isDigit_fractionDigits w f)
        (fun h => hne (List.append_eq_nil.1 h).1)
        (by
          rcases hrest with h | ⟨c, r, h, hc, _⟩
          · exact Or.inl h
          · exact Or.inr ⟨c, r, h, hc⟩),
      mantissa_value, fractionDigits_value]

theorem exponentDigits_spec (k : ℕ) :
    (∀ c ∈ exponentDigits k, Char.isDigit c = true) ∧ exponentDigits k ≠ []
      ∧ digitsValue (exponentDigits k) = k := by
  unfold exponentDigits
  by_cases h : k < 100
  · rw [if_pos h]
    refine ⟨isDigit_decimalDigits 2 k, by simp [decimalDigits], ?_⟩
    rw [digitsValue_decimalDigits]
    exact Nat.mod_eq_of_lt (by simpa using h)
  · rw [if_neg h]
    refine ⟨isDigit_decimalDigits _ k, by simp [decimalDigits], ?_⟩
    rw [digitsValue_decimalDigits]
    exact Nat.mod_eq_of_lt (floorLog10_spec k k (le_refl _)).2

theorem natCast_div_add_mod (m w : ℕ) :
    ((m / 10 ^ w : ℕ) : ℚ) + ((m % 10 ^ w : ℕ) : ℚ) / 10 ^ w = (m : ℚ) / 10 ^ w := by
  have h := Nat.div_add_mod m (10 ^ w)
  have h' : (m : ℚ) = (10 ^ w : ℚ) * ((m / 10 ^ w : ℕ) : ℚ) + ((m % 10 ^ w : ℕ) : ℚ) := by
    exact_mod_cast h.symm
  have hp : (10 : ℚ) ^ w ≠ 0 := by positivity
  field_simp
  linarith

/-- Read back, the text of `n / d` is the number that its six digits denote. -/
theorem readMantissa_formatGeneral (negative : Bool) (n d : ℕ) (hn : 1 ≤ n) (hd : 1 ≤ d) :
    readMantissa negative (formatGeneral n d)
      = convertDouble negative
          (((sixDigits n d).1 : ℚ) * 10 ^ ((sixDigits n d).2 - 5)) [] := by
  obtain ⟨hm, _, _⟩ := sixDigits_spec n d hn hd
  have hn0 : n ≠ 0 := by omega
  unfold formatGeneral
  rw [if_neg hn0]
  by_cases hsci : (sixDigits n d).2 < -4 ∨ 6 ≤ (sixDigits n d).2
  · rw [if_pos hsci]
    obtain ⟨he1, he2, he3⟩ := exponentDigits_spec (sixDigits n d).2.natAbs
    have hrest : ∀ (c : Char) (l : List Char),
        ['e', c] ++ l = [] ∨ ∃ c' r, ['e', c] ++ l = c' :: r ∧ Char.isDigit c' = false ∧ c' ≠ '.' :=
      fun c l => Or.inr ⟨'e', c :: l, rfl, rfl, by decide⟩
    rw [List.append_assoc,
      readMantissa_pointAndFraction negative _ _ 5 _ (isDigit_decimalDigits 1 _)
        (by simp [decimalDigits]) (hrest _ _)]
    have hsign : (if (sixDigits n d).2 < 0 then '-' else '+')
        = (if decide ((sixDigits n d).2 < 0) = true then '-' else '+') := by simp
    rw [hsign]
    show readTail negative _
        ('e' :: (if decide ((sixDigits n d).2 < 0) = true then '-' else '+')
          :: exponentDigits (sixDigits n d).2.natAbs) = _
    rw [readTail_exponent negative _ _ _ he1 he2, he3, digitsValue_decimalDigits,
      Nat.mod_eq_of_lt (show (sixDigits n d).1 / 10 ^ 5 < 10 ^ 1 from
        (Nat.div_lt_iff_lt_mul (by norm_num)).2 (by simpa using hm)),
      natCast_div_add_mod]
    have hexp : (if decide ((sixDigits n d).2 < 0) = true then -(((sixDigits n d).2.natAbs : ℕ) : ℤ)
        else (((sixDigits n d).2.natAbs : ℕ) : ℤ)) = (sixDigits n d).2 := by
      by_cases hneg : (sixDigits n d).2 < 0
      · simp only [hneg, decide_True, if_true]; omega
      · simp only [hneg, decide_False, Bool.false_eq_true, if_false]; omega
    rw [hexp, zpow_sub₀ (by norm_num : (10 : ℚ) ≠ 0)]
    congr 1
    have h5 : (10 : ℚ) ^ (5 : ℤ) = 10 ^ 5 := by norm_num
    rw [h5]
    ring
  · rw [if_neg hsci]
    have hrange : -4 ≤ (sixDigits n d).2 ∧ (sixDigits n d).2 < 6 := by
      constructor
      · by_contra h; exact hsci (Or.inl (by omega))
      · by_contra h; exact hsci (Or.inr (by omega))
    by_cases h0 : 0 ≤ (sixDigits n d).2
    · rw [if_pos h0]
      have happ : ∀ l : List Char, l = l ++ [] := fun l => (List.append_nil l).symm
      rw [happ (decimalDigits _ _ ++ pointAndFraction _ _),
        readMantissa_pointAndFraction negative _ [] _ _ (isDigit_decimalDigits _ _)
          (by simp [decimalDigits]) (Or.inl rfl),
        readTail_nil, digitsValue_decimalDigits]
      have hlt : (sixDigits n d).1 / 10 ^ (5 - (sixDigits n d).2.toNat)
          < 10 ^ ((sixDigits n d).2.toNat + 1) := by
        apply (Nat.div_lt_iff_lt_mul (by positivity)).2
        rw [← pow_add]
        have : (sixDigits n d).2.toNat + 1 + (5 - (sixDigits n d).2.toNat) = 6 := by omega
        rw [this]
        exact hm
      rw [Nat.mod_eq_of_lt hlt, natCast_div_add_mod]
      congr 1
      have hz : (sixDigits n d).2 - 5 = -((5 - (sixDigits n d).2.toNat : ℕ) : ℤ) := by omega
      rw [hz, zpow_neg, zpow_natCast]
      rfl
    · rw [if_neg h0]
      have hI : ∀ c ∈ ['0'], Char.isDigit c = true := by
        intro c hc
        rw [List.mem_singleton.1 hc]; rfl
      have hF : ∀ c ∈ List.replicate (-(sixDigits n d).2 - 1).toNat '0'
          ++ fractionDigits 6 (sixDigits n d).1, Char.isDigit c = true := by
        intro c hc
        rcases List.mem_append.1 hc with h | h
        · exact isDigit_replicate_zero _ c h
        · exact isDigit_fractionDigits _ _ c h
      have hform : '0' :: '.' :: (List.replicate (-(sixDigits n d).2 - 1).toNat '0'
            ++ fractionDigits 6 (sixDigits n d).1)
          = ['0'] ++ '.' :: ((List.replicate (-(sixDigits n d).2 - 1).toNat '0'
            ++ fractionDigits 6 (sixDigits n d).1) ++ []) := by
        simp
      rw [hform, readMantissa_point negative ['0'] _ [] hI hF (by simp) (Or.inl rfl),
        readTail_nil, mantissa_value, digitsValue_append, digitsValue_replicate_zero,
        List.length_append, List.length_replicate]
      congr 1
      have hfd := fractionDigits_value 6 (sixDigits n d).1
      rw [Nat.mod_eq_of_lt hm] at hfd
      have h00 : digitsValue ['0'] = 0 := rfl
      rw [h00]
      push_cast
      rw [zero_add, zero_mul, zero_add, pow_add, ← div_div, div_right_comm, hfd]
      have hz : (sixDigits n d).2 - 5
          = -(((-(sixDigits n d).2 - 1).toNat : ℕ) : ℤ) - 6 := by omega
      rw [hz, zpow_sub₀ (by norm_num : (10 : ℚ) ≠ 0), zpow_neg, zpow_natCast]
      have h6 : (10 : ℚ) ^ (6 : ℤ) = 10 ^ 6 := by norm_num
      rw [h6]
      field_simp
      exact Or.inl (mul_comm _ _)

theorem doubleOverflow_gt : (10 : ℚ) ^ 301 < doubleOverflow := by
  unfold doubleOverflow
  norm_num

theorem natAbs_num_div_den (x : ℚ) : ((x.num.natAbs : ℕ) : ℚ) / (x.den : ℚ) = |x| := by
  have h := Rat.num_div_den x
  have hd : (0 : ℚ) < x.den := by exact_mod_cast x.den_pos
  conv_rhs => rw [← h]
  rw [abs_div, abs_of_pos hd, Nat.cast_natAbs, Int.cast_abs]

theorem natAbs_num_pos {x : ℚ} (hx : x ≠ 0) : 1 ≤ x.num.natAbs :=
  Nat.one_le_iff_ne_zero.2 (fun h => hx (Rat.num_eq_zero.1 (Int.natAbs_eq_zero.1 h)))

/-- The number that six digits and a decimal exponent denote is below the overflow
threshold of a `double` when the number printed is below `10 ^ 300`. -/
theorem sixDigits_value_lt (n d : ℕ) (hn : 1 ≤ n) (hd : 1 ≤ d)
    (hx : (n : ℚ) / d < 10 ^ 300) :
    ((sixDigits n d).1 : ℚ) * 10 ^ ((sixDigits n d).2 - 5) < doubleOverflow := by
  obtain ⟨hm, _, hhi⟩ := sixDigits_spec n d hn hd
  obtain ⟨hlo, _⟩ := decimalExponent_spec n d hn hd
  have h1 : (10 : ℚ) ^ decimalExponent n d < 10 ^ (300 : ℤ) := by
    have h300 : (10 : ℚ) ^ (300 : ℤ) = 10 ^ 300 := by norm_cast
    rw [h300]
    exact lt_of_le_of_lt hlo hx
  have h2 : decimalExponent n d < 300 :=
    (zpow_lt_zpow_iff_right₀ (by norm_num : (1 : ℚ) < 10)).1 h1
  have h3 : (sixDigits n d).2 - 5 ≤ 295 := by omega
  have hmq : ((sixDigits n d).1 : ℚ) < 10 ^ 6 := by exact_mod_cast hm
  have hp : (0 : ℚ) < 10 ^ ((sixDigits n d).2 - 5) := by positivity
  have h4 : (10 : ℚ) ^ ((sixDigits n d).2 - 5) ≤ 10 ^ (295 : ℤ) :=
    zpow_le_zpow_right₀ (by norm_num) h3
  have h295 : (10 : ℚ) ^ (295 : ℤ) = 10 ^ 295 := by norm_cast
  rw [h295] at h4
  calc ((sixDigits n d).1 : ℚ) * 10 ^ ((sixDigits n d).2 - 5)
      < 10 ^ 6 * 10 ^ ((sixDigits n d).2 - 5) := mul_lt_mul_of_pos_right hmq hp
    _ ≤ 10 ^ 6 * 10 ^ 295 := mul_le_mul_of_nonneg_left h4 (by positivity)
    _ = 10 ^ 301 := by rw [← pow_add]
    _ < doubleOverflow := doubleOverflow_gt

theorem decimalDigits_succ_head (k n : ℕ) :
    ∃ c cs, decimalDigits (k + 1) n = c :: cs ∧ Char.isDigit c = true :=
  ⟨_, _, rfl, isDigit_decimalDigits (k + 1) n _ (by simp [decimalDigits])⟩

/-- The text of a number begins with a digit. -/
theorem formatGeneral_head (n d : ℕ) :
    ∃ c cs, formatGeneral n d = c :: cs ∧ Char.isDigit c = true := by
  unfold formatGeneral
  by_cases hn : n = 0
  · rw [if_pos hn]
    exact ⟨'0', [], rfl, rfl⟩
  · rw [if_neg hn]
    by_cases hsci : (sixDigits n d).2 < -4 ∨ 6 ≤ (sixDigits n d).2
    · rw [if_pos hsci]
      obtain ⟨c, cs, h, hc⟩ := decimalDigits_succ_head 0 ((sixDigits n d).1 / 10 ^ 5)
      rw [h]
      exact ⟨c, _, rfl, hc⟩
    · rw [if_neg hsci]
      by_cases h0 : 0 ≤ (sixDigits n d).2
      · rw [if_pos h0]
        obtain ⟨c, cs, h, hc⟩ := decimalDigits_succ_head (sixDigits n d).2.toNat
          ((sixDigits n d).1 / 10 ^ (5 - (sixDigits n d).2.toNat))
        rw [h]
        exact ⟨c, _, rfl, hc⟩
      · rw [if_neg h0]
        exact ⟨'0', _, rfl, rfl⟩

theorem pointAndFraction_not_space (w f : ℕ) :
    ∀ c ∈ pointAndFraction w f, isSpace c = false := by
  intro c hc
  unfold pointAndFraction at hc
  by_cases h : f % 10 ^ w = 0
  · rw [if_pos h] at hc
    exact absurd hc (List.not_mem_nil c)
  · rw [if_neg h] at hc
    rcases List.mem_cons.1 hc with h1 | h1
    · rw [h1]; rfl
    · exact isSpace_of_isDigit (isDigit_fractionDigits w f c h1)

/-- The text of a number has no whitespace. -/
theorem formatGeneral_not_space (n d : ℕ) : ∀ c ∈ formatGeneral n d, isSpace c = false := by
  intro c hc
  unfold formatGeneral at hc
  by_cases hn : n = 0
  · rw [if_pos hn] at hc
    rw [List.mem_singleton.1 hc]; rfl
  · rw [if_neg hn] at hc
    by_cases hsci : (sixDigits n d).2 < -4 ∨ 6 ≤ (sixDigits n d).2
    · rw [if_pos hsci] at hc
      rcases List.mem_append.1 hc with h | h
      · rcases List.mem_append.1 h with h | h
        · rcases List.mem_append.1 h with h | h
          · exact isSpace_of_isDigit (isDigit_decimalDigits _ _ c h)
          · exact pointAndFraction_not_space _ _ c h
        · rcases List.mem_cons.1 h with h1 | h1
          · rw [h1]; rfl
          · rw [List.mem_singleton.1 h1]
            by_cases hneg : (sixDigits n d).2 < 0
            · rw [if_pos hneg]; rfl
            · rw [if_neg hneg]; rfl
      · exact isSpace_of_isDigit ((exponentDigits_spec _).1 c h)
    · rw [if_neg hsci] at hc
      by_cases h0 : 0 ≤ (sixDigits n d).2
      · rw [if_pos h0] at hc
        rcases List.mem_append.1 hc with h | h
        · exact isSpace_of_isDigit (isDigit_decimalDigits _ _ c h)
        · exact pointAndFraction_not_space _ _ c h
      · rw [if_neg h0] at hc
        rcases List.mem_cons.1 hc with h1 | h1
        · rw [h1]; rfl
        · rcases List.mem_cons.1 h1 with h2 | h2
          · rw [h2]; rfl
          · rcases List.mem_append.1 h2 with h | h
            · exact isSpace_of_isDigit (isDigit_replicate_zero _ c h)
            · exact isSpace_of_isDigit (isDigit_fractionDigits _ _ c h)

/-- The text written for a number is one token. -/
theorem streamWriteDouble_token (x : ℚ) : IsToken (streamWriteDouble x) := by
  obtain ⟨c, cs, h, _⟩ := formatGeneral_head x.num.natAbs x.den
  constructor
  · show (if x < 0 then ['-'] else []) ++ formatGeneral x.num.natAbs x.den ≠ []
    rw [h]
    simp
  · intro a ha
    have ha' : a ∈ (if x < 0 then ['-'] else []) ++ formatGeneral x.num.natAbs x.den := ha
    rcases List.mem_append.1 ha' with h1 | h1
    · by_cases hx : x < 0
      · rw [if_pos hx] at h1
        rw [List.mem_singleton.1 h1]; rfl
      · rw [if_neg hx] at h1
        exact absurd h1 (List.not_mem_nil a)
    · exact formatGeneral_not_space _ _ a h1

/-- The `double` nearest to `10000.15` lies below it and is printed `10000.1`. -/
theorem streamWriteDouble_below_tie :
    streamWriteDouble (roundDouble (200003 / 20)) = "10000.1" := by
  decide!

theorem readSign_digit {c : Char} (cs : List Char) (h : Char.isDigit c = true) :
    readSign (c :: cs) = (false, c :: cs) := by
  have h1 : c ≠ '-' := by rintro rfl; exact absurd h (by decide)
  have h2 : c ≠ '+' := by rintro rfl; exact absurd h (by decide)
  simp only [readSign, if_neg h1, if_neg h2]

/-- Reading back the text written for a `double` `x` with `|x| < 10 ^ 300` takes the whole
text and gives the `double` nearest to the six-digit decimal number printed. -/
theorem streamReadDouble_streamWriteDouble (x : ℚ) (hx : |x| < 10 ^ 300) :
    streamReadDouble (streamWriteDouble x).data = some (roundDouble (sixDigitValue x), []) := by
  by_cases h0 : x = 0
  · subst h0
    decide!
  · have hn := natAbs_num_pos h0
    have hd : 1 ≤ x.den := x.den_pos
    have hlt := sixDigits_value_lt x.num.natAbs x.den hn hd (by rw [natAbs_num_div_den]; exact hx)
    have hr := readMantissa_formatGeneral
    obtain ⟨c, cs, hc, hdig⟩ := formatGeneral_head x.num.natAbs x.den
    by_cases hneg : x < 0
    · have hdata : (streamWriteDouble x).data = '-' :: formatGeneral x.num.natAbs x.den := by
        show (if x < 0 then ['-'] else []) ++ formatGeneral x.num.natAbs x.den = _
        rw [if_pos hneg]; rfl
      have hs : readSign ('-' :: formatGeneral x.num.natAbs x.den)
          = (true, formatGeneral x.num.natAbs x.den) := rfl
      unfold streamReadDouble
      rw [hdata, hs]
      simp only []
      rw [hr true _ _ hn hd]
      unfold convertDouble sixDigitValue
      rw [if_pos hlt, if_neg h0, if_pos hneg]
      simp
    · have hdata : (streamWriteDouble x).data = formatGeneral x.num.natAbs x.den := by
        show (if x < 0 then ['-'] else []) ++ formatGeneral x.num.natAbs x.den = _
        rw [if_neg hneg]; rfl
      unfold streamReadDouble
      rw [hdata]
      have hs : readSign (formatGeneral x.num.natAbs x.den)
          = (false, formatGeneral x.num.natAbs x.den) := by
        rw [hc]; exact readSign_digit cs hdig
      rw [hs]
      simp only []
      rw [hr false _ _ hn hd]
      unfold convertDouble sixDigitValue
      rw [if_pos hlt, if_neg h0, if_neg hneg]
      simp

/-! ## The record lines -/

/-- Fields joined by single spaces are split back into the same fields. -/
theorem fieldsFrom_joinFields :
    ∀ (fields : List (List Char)),
      (∀ f ∈ fields, f ≠ [] ∧ ∀ c ∈ f, isSpace c = false) →
      fieldsFrom [] (joinFields fields) = fields := by
  intro fields
  induction fields with
  | nil => intro _; rfl
  | cons f rest ih =>
    intro h
    have hf := h f (List.mem_cons_self _ _)
    have hfe : f.isEmpty = false := by
      cases f with
      | nil => exact absurd rfl hf.1
      | cons _ _ => rfl
    cases rest with
    | nil =>
      have h1 := fieldsFrom_append_token f hf.2 [] []
      simp only [List.append_nil, List.nil_append] at h1
      simp only [joinFields, h1, fieldsFrom, hfe, Bool.false_eq_true, if_false]
    | cons g rest' =>
      have h1 := fieldsFrom_append_token f hf.2 [] (' ' :: joinFields (g :: rest'))
      simp only [List.nil_append] at h1
      have hsp : isSpace ' ' = true := by decide
      simp only [joinFields, h1, fieldsFrom, hsp, if_true, hfe, Bool.false_eq_true, if_false]
      rw [ih (fun f' hf' => h f' (List.mem_cons_of_mem _ hf'))]

theorem recordLine_data (videoFileName event : String) (r : ETFRecord) :
    (recordLine videoFileName event r).data
      = joinFields [videoFileName.data, "1".data, (streamWriteDouble r.beginTime).data,
          (streamWriteDouble r.duration).data, "event".data, "-".data, event.data, "-".data,
          r.label.data] := by
  simp only [recordLine, String.data_append, joinFields, List.append_assoc]
  rfl

/-- The fields of a record line whose names are tokens. -/
theorem lineFields_recordLine (videoFileName event : String) (r : ETFRecord)
    (hv : IsToken videoFileName) (he : IsToken event) (hl : IsToken r.label) :
    lineFields (recordLine videoFileName event r)
      = [videoFileName, "1", streamWriteDouble r.beginTime, streamWriteDouble r.duration,
          "event", "-", event, "-", r.label] := by
  have h1 : IsToken "1" := by unfold IsToken; decide
  have h2 : IsToken "event" := by unfold IsToken; decide
  have h3 : IsToken "-" := by unfold IsToken; decide
  unfold lineFields
  rw [recordLine_data, fieldsFrom_joinFields]
  · rfl
  · intro f hf
    simp only [List.mem_cons, List.mem_singleton, List.not_mem_nil, or_false] at hf
    rcases hf with h | h | h | h | h | h | h | h | h <;> subst h
    · exact hv
    · exact h1
    · exact streamWriteDouble_token r.beginTime
    · exact streamWriteDouble_token r.duration
    · exact h2
    · exact h3
    · exact he
    · exact h3
    · exact hl

/-- A record line matches its video when the name is a token that does not begin
with `#`. -/
theorem lineMatches_recordLine (videoFileName event : String) (r : ETFRecord)
    (hv : IsToken videoFileName) (hv0 : videoFileName.data.head? ≠ some (Char.ofNat 35)) :
    lineMatches videoFileName (recordLine videoFileName event r) = true := by
  have hdata : (recordLine videoFileName event r).data
      = videoFileName.data ++ (" 1 " ++ streamWriteDouble r.beginTime ++ " "
          ++ streamWriteDouble r.duration ++ " event - " ++ event ++ " - " ++ r.label).data := by
    simp only [recordLine, String.data_append, List.append_assoc]
  have hpre : videoFileName.data <:+: (recordLine videoFileName event r).data := by
    rw [hdata]
    exact (List.prefix_append _ _).isInfix
  have hhead : (recordLine videoFileName event r).data.head? = videoFileName.data.head? := by
    rw [hdata]
    cases hvd : videoFileName.data with
    | nil => exact absurd hvd hv.1
    | cons c cs => rfl
  simp [lineMatches, hhead, hv0, hpre]

/-- Every line of the writing loop is the record line of a pair of consecutive marks,
the `k`-th pair say: the time and the duration are the `double` values computed from
the two marks, the duration is positive, and the flag is that of `beginsNegative` after
`k` flips. -/
theorem mem_writeIntervalLines (videoFileName event : String) (videoFPS : ℚ) :
    ∀ (marks : List ℤ) (beginsNegative : Bool) (etfLine : String),
      etfLine ∈ writeIntervalLines videoFileName event videoFPS beginsNegative marks →
      ∃ (k : ℕ) (m0 m1 : ℤ), marks[k]? = some m0 ∧ marks[k + 1]? = some m1
        ∧ 0 < roundDouble (roundDouble ((m1 : ℚ) / videoFPS)
            - roundDouble ((m0 : ℚ) / videoFPS))
        ∧ etfLine = recordLine videoFileName event
            ⟨roundDouble ((m0 : ℚ) / videoFPS),
              roundDouble (roundDouble ((m1 : ℚ) / videoFPS)
                - roundDouble ((m0 : ℚ) / videoFPS)),
              polarityFlag (if k % 2 = 0 then beginsNegative else !beginsNegative)⟩ := by
  intro marks
  induction marks with
  | nil => intro b l h; simp [writeIntervalLines] at h
  | cons m0 tl ih =>
    intro b l h
    cases tl with
    | nil => simp [writeIntervalLines] at h
    | cons m1 rest =>
      unfold writeIntervalLines at h
      rcases List.mem_append.1 h with h | h
      · by_cases hpos : 0 < roundDouble (roundDouble ((m1 : ℚ) / videoFPS)
            - roundDouble ((m0 : ℚ) / videoFPS))
        · rw [if_pos hpos] at h
          exact ⟨0, m0, m1, rfl, by simp, hpos, List.mem_singleton.1 h⟩
        · rw [if_neg hpos] at h
          exact absurd h (List.not_mem_nil l)
      · obtain ⟨k, a0, a1, h0, h1, hpos, hl⟩ := ih (!b) l h
        refine ⟨k + 1, a0, a1, by simpa using h0, by simpa using h1, hpos, ?_⟩
        rw [hl]
        by_cases hk : k % 2 = 0
        · have hk' : ¬ (k + 1) % 2 = 0 := by omega
          rw [if_pos hk, if_neg hk']
        · have hk' : (k + 1) % 2 = 0 := by omega
          rw [if_neg hk, if_pos hk', Bool.not_not]

/-- C27 (counterexample): at 3 frames per second, with frame 0 positive and frames 1
and 2 negative, the line of the frames `[1, 3)` carries `0.333333` and `0.666667`; the
decoder reads back the `double` values nearest to these decimals, which are not the
start time `1 / 3` and the duration `1 - 1 / 3` (as `double` values) that were written. -/
theorem recordLine_loses_digits :
    etfFileLines "ev" 3 "clip" 3 [0] [1, 2]
        = some ["clip 1 0 0.333333 event - ev - t",
            "clip 1 0.333333 0.666667 event - ev - f", "# positive frames", "# 0"]
      ∧ parseETFLine streamReadDouble "clip 1 0.333333 0.666667 event - ev - f"
          = some ⟨roundDouble (333333 / 1000000), roundDouble (666667 / 1000000), "f"⟩
      ∧ roundDouble (333333 / 1000000) ≠ roundDouble (1 / 3)
      ∧ roundDouble (666667 / 1000000)
          ≠ roundDouble (roundDouble (3 / 3) - roundDouble (1 / 3)) := by
  decide!

/-- C27 (amended): for a video name (not beginning with `#`) and an event name that are
tokens, and marks whose times and durations (as `double` values) are below `10 ^ 300`,
every line that the writing loop emits is the line of a record with a positive duration
whose flag is `t` or `f`, `f` exactly when `beginsNegative` holds at that pair of marks;
the line has exactly the nine fields video name, `1`, start time, duration, `event`, `-`,
event name, `-`, flag, the two numbers being printed with six significant digits; and
the decoder accepts the line and labels the frames of the record made of the flag and of
the two `double` values nearest to the six-digit decimals printed. -/
theorem recordLine_read_back (videoFileName event : String) (videoFPS : ℚ)
    (beginsNegative : Bool) (marks : List ℤ) (etfLine : String) (sets : List ℤ × List ℤ)
    (hv : IsToken videoFileName) (hv0 : videoFileName.data.head? ≠ some (Char.ofNat 35))
    (he : IsToken event)
    (hbound : ∀ m0 ∈ marks, ∀ m1 ∈ marks,
      |roundDouble ((m0 : ℚ) / videoFPS)| < 10 ^ 300
        ∧ |roundDouble (roundDouble ((m1 : ℚ) / videoFPS)
            - roundDouble ((m0 : ℚ) / videoFPS))| < 10 ^ 300)
    (hline : etfLine ∈ writeIntervalLines videoFileName event videoFPS beginsNegative marks) :
    ∃ (r : ETFRecord) (k : ℕ) (m0 m1 : ℤ),
      marks[k]? = some m0 ∧ marks[k + 1]? = some m1
      ∧ r.beginTime = roundDouble ((m0 : ℚ) / videoFPS)
      ∧ r.duration = roundDouble (roundDouble ((m1 : ℚ) / videoFPS) - r.beginTime)
      ∧ 0 < r.duration
      ∧ r.label = (if (if k % 2 = 0 then beginsNegative else !beginsNegative) then "f" else "t")
      ∧ etfLine = recordLine videoFileName event r
      ∧ lineFields etfLine
          = [videoFileName, "1", streamWriteDouble r.beginTime, streamWriteDouble r.duration,
              "event", "-", event, "-", r.label]
      ∧ readETFLine streamReadDouble videoFileName videoFPS etfLine sets
          = Except.ok (labelFrames videoFPS
              ⟨roundDouble (sixDigitValue r.beginTime), roundDouble (sixDigitValue r.duration),
                r.label⟩ sets) := by
  obtain ⟨k, m0, m1, h0, h1, hpos, hl⟩ :=
    mem_writeIntervalLines videoFileName event videoFPS marks beginsNegative etfLine hline
  obtain ⟨hb, hd⟩ := hbound m0 (List.getElem?_mem h0) m1 (List.getElem?_mem h1)
  have hfields := lineFields_recordLine videoFileName event
    (⟨roundDouble ((m0 : ℚ) / videoFPS),
        roundDouble (roundDouble ((m1 : ℚ) / videoFPS) - roundDouble ((m0 : ℚ) / videoFPS)),
        polarityFlag (if k % 2 = 0 then beginsNegative else !beginsNegative)⟩ : ETFRecord)
    hv he (by
      show IsToken (polarityFlag _)
      unfold polarityFlag
      split_ifs <;> (unfold IsToken; decide))
  refine ⟨_, k, m0, m1, h0, h1, rfl, rfl, hpos, rfl, hl, ?_, ?_⟩
  · rw [hl]
    exact hfields
  · rw [hl]
    unfold readETFLine
    rw [lineMatches_recordLine videoFileName event _ hv hv0, if_pos rfl,
      parseETFLine_of_fields _ hfields (streamReadDouble_streamWriteDouble _ hb)
        (streamReadDouble_streamWriteDouble _ hd)]

theorem recordLine_read_back_witness :
    ∃ (r : ETFRecord) (k : ℕ) (m0 m1 : ℤ),
      ([0, 1, 3] : List ℤ)[k]? = some m0 ∧ ([0, 1, 3] : List ℤ)[k + 1]? = some m1
      ∧ r.beginTime = roundDouble ((m0 : ℚ) / 3)
      ∧ r.duration = roundDouble (roundDouble ((m1 : ℚ) / 3) - r.beginTime)
      ∧ 0 < r.duration
      ∧ r.label = (if (if k % 2 = 0 then false else !false) then "f" else "t")
      ∧ "clip 1 0.333333 0.666667 event - ev - f" = recordLine "clip" "ev" r
      ∧ lineFields "clip 1 0.333333 0.666667 event - ev - f"
          = ["clip", "1", streamWriteDouble r.beginTime, streamWriteDouble r.duration,
              "event", "-", "ev", "-", r.label]
      ∧ readETFLine streamReadDouble "clip" 3 "clip 1 0.333333 0.666667 event - ev - f"
            ([], [])
          = Except.ok (labelFrames 3
              ⟨roundDouble (sixDigitValue r.beginTime), roundDouble (sixDigitValue r.duration),
                r.label⟩ ([], [])) :=
  recordLine_read_back "clip" "ev" 3 false [0, 1, 3]
    "clip 1 0.333333 0.666667 event - ev - f" ([], [])
    (by unfold IsToken; decide) (by decide) (by unfold IsToken; decide) (by decide!)
    (by decide!)

/-- C1 (the code at the failing input): at 25 frames per second, for the 10 frames of
which frame 7 alone is positive, the encoder writes the three record lines below (and
the comment lines that list frame 7 as the positive frame); the decoder, reading these
lines back for the same video, puts frame 7 in the positive set and in the negative set:
the first line, of duration `0.28`, ends at the `double` product `0.28 * 25`, which is
above 7, and the test `i < lastFrameNumber` lets frame 7 through. -/
theorem roundTrip_frame_in_both_sets :
    etfFileLines "event" 25 "v" 10 [7] [0, 1, 2, 3, 4, 5, 6, 8, 9]
        = some ["v 1 0 0.28 event - event - f", "v 1 0.28 0.04 event - event - t",
            "v 1 0.32 0.08 event - event - f", "# positive frames", "# 7"]
      ∧ readInputETFFile streamReadDouble "v" 25
          ["v 1 0 0.28 event - event - f", "v 1 0.28 0.04 event - event - t",
            "v 1 0.32 0.08 event - event - f", "# positive frames", "# 7"] ([], [])
        = Except.ok ([7], [0, 1, 2, 3, 4, 5, 6, 7, 8, 9])
      ∧ parseETFLine streamReadDouble "v 1 0 0.28 event - event - f"
        = some ⟨0, roundDouble (28 / 100), "f"⟩
      ∧ (7 : ℚ) < lastFrameNumber 25 ⟨0, roundDouble (28 / 100), "f"⟩ := by
  decide!

/-! ## The two walks of the encoder -/

/-- The walk of the encoder over the frames of class `t` of a list of labels, started
with the polarity of the other class, writes the intervals of the maximal runs, whichever
class the list starts with. -/
theorem writeIntervals_classWalk {videoFPS : ℚ} (hf : 0 < videoFPS) (t : Bool)
    (L : List Bool) (y : ℤ) (ys : List ℤ) (hF : framesOfClass t 0 L = y :: ys) :
    writeIntervals videoFPS t (0 :: (classTimeMarks y (y :: ys) ++ [(L.length : ℤ)]))
      = runLengthIntervals videoFPS L := by
  cases L with
  | nil => simp [framesOfClass] at hF
  | cons l ls =>
    have hlen : (((l :: ls).length : ℕ) : ℤ) = 1 + (ls.length : ℤ) := by
      simp only [List.length_cons, Nat.cast_add, Nat.cast_one]; ring
    by_cases hl : l = t
    · subst hl
      have hw := (writeIntervals_walk hf l ls 0 1 (by norm_num)).1 0 (by norm_num)
      simp only [framesOfClass, if_true, zero_add] at hF
      obtain ⟨hy, hys⟩ := List.cons.inj hF
      subst hy
      rw [hys] at hw
      simp only [classTimeMarks, List.tail_cons, List.getLastD_cons, hlen, runLengthIntervals,
        maximalRuns, List.cons_append]
      rw [writeIntervals_same]
      simpa using hw
    · have hw := (writeIntervals_walk hf t ls 0 1 (by norm_num)).2
      simp only [framesOfClass, hl, if_false, zero_add] at hF
      rw [hF] at hw
      have hnot : (!t) = l := by
        cases l <;> cases t <;> simp_all
      rw [hnot] at hw
      simp only [classTimeMarks, List.tail_cons, List.getLastD_cons, hlen, runLengthIntervals,
        maximalRuns, List.cons_append]
      simpa using hw

/-- The records written by the branch that walks the positive frames, and by the branch
that walks the negative frames. -/
theorem encode_branch (videoFPS : ℚ) (N : ℤ) (pf nf : ℤ) (pt nt : List ℤ) :
    (nf < pf →
      generateAndSaveETFFile videoFPS N (pf :: pt) (nf :: nt)
        = some (writeIntervals videoFPS true
            (0 :: (classTimeMarks pf (pf :: pt) ++ [N])))) ∧
    (¬ nf < pf →
      generateAndSaveETFFile videoFPS N (pf :: pt) (nf :: nt)
        = some (writeIntervals videoFPS false
            (0 :: (classTimeMarks nf (nf :: nt) ++ [N])))) := by
  constructor
  · intro h
    simp [generateAndSaveETFFile, videoTimeMarks, h]
  · intro h
    simp [generateAndSaveETFFile, videoTimeMarks, h]

/-- C32 (the two walks agree): for a rate `fps > 0` and a label set that partitions
`[0, N)` with both classes non-empty, the records written from the marks of the walk over
the positive frames, started negative, are those written from the marks of the walk over
the negative frames, started positive; both are the intervals of the maximal runs, and
the encoder writes them. -/
theorem encode_walks_agree (videoFPS : ℚ) (N : ℤ) (pf nf : ℤ) (pt nt : List ℤ)
    (hf : 0 < videoFPS) (hN : 0 < N)
    (hps : (pf :: pt).Sorted (· < ·)) (hns : (nf :: nt).Sorted (· < ·))
    (hcover : ∀ i, (i ∈ pf :: pt ∨ i ∈ nf :: nt) ↔ (0 ≤ i ∧ i < N))
    (hdisj : ∀ i, i ∈ pf :: pt → i ∉ nf :: nt) :
    writeIntervals videoFPS true (0 :: (classTimeMarks pf (pf :: pt) ++ [N]))
        = writeIntervals videoFPS false (0 :: (classTimeMarks nf (nf :: nt) ++ [N]))
      ∧ writeIntervals videoFPS true (0 :: (classTimeMarks pf (pf :: pt) ++ [N]))
        = runLengthIntervals videoFPS (frameLabels N (pf :: pt))
      ∧ generateAndSaveETFFile videoFPS N (pf :: pt) (nf :: nt)
        = some (writeIntervals videoFPS true (0 :: (classTimeMarks pf (pf :: pt) ++ [N]))) := by
  obtain ⟨h1, h2⟩ := framesOfClass_frameLabels hps hns hcover hdisj
  have hlen : (((frameLabels N (pf :: pt)).length : ℕ) : ℤ) = N := by
    rw [length_frameLabels]; omega
  have hwp := writeIntervals_classWalk hf true (frameLabels N (pf :: pt)) pf pt h1
  have hwn := writeIntervals_classWalk hf false (frameLabels N (pf :: pt)) nf nt h2
  rw [hlen] at hwp hwn
  refine ⟨by rw [hwp, hwn], hwp, ?_⟩
  by_cases h : nf < pf
  · exact (encode_branch videoFPS N pf nf pt nt).1 h
  · rw [(encode_branch videoFPS N pf nf pt nt).2 h, hwp, hwn]

theorem encode_walks_agree_witness :
    writeIntervals 1 true (0 :: (classTimeMarks 2 [2, 3] ++ [5]))
      = writeIntervals 1 false (0 :: (classTimeMarks 0 [0, 1, 4] ++ [5])) :=
  (encode_walks_agree 1 5 2 0 [3] [1, 4] (by norm_num) (by norm_num) (by decide) (by decide)
    (fun i => by
      simp only [List.mem_cons, List.mem_singleton, List.not_mem_nil, or_false]
      omega)
    (fun i => by
      simp only [List.mem_cons, List.mem_singleton, List.not_mem_nil, or_false]
      omega)).1

theorem gatherCurrentBuffer_sets (s s' : Session) (h : gatherCurrentBuffer s = some s') :
    s'.positiveFrames = s.positiveFrames ∧ s'.negativeFrames = s.negativeFrames := by
  unfold gatherCurrentBuffer at h
  dsimp only at h
  obtain ⟨b, _, hb⟩ := Option.map_eq_some'.1 h
  rw [← hb]
  exact ⟨rfl, rfl⟩

theorem jumpToFrame_sets (s s' : Session) (t : ℤ) (h : jumpToFrame s t = some s') :
    s'.positiveFrames = s.positiveFrames ∧ s'.negativeFrames = s.negativeFrames := by
  unfold jumpToFrame at h
  have h' := gatherCurrentBuffer_sets _ s' h
  exact h'

/-- No key changes the label sets. -/
theorem treatKeyboardInput_sets (key : Char) (s s' : Session)
    (h : treatKeyboardInput key s = some s') :
    s'.positiveFrames = s.positiveFrames ∧ s'.negativeFrames = s.negativeFrames := by
  by_cases hw : key = 'w'
  · subst hw; rw [treatKeyboardInput_w] at h; exact jumpToFrame_sets _ _ _ h
  by_cases hz : key = 'z'
  · subst hz; rw [treatKeyboardInput_z] at h; exact jumpToFrame_sets _ _ _ h
  by_cases hb : key = 'b'
  · subst hb; rw [treatKeyboardInput_b] at h; exact jumpToFrame_sets _ _ _ h
  by_cases he : key = 'e'
  · subst he; rw [treatKeyboardInput_e] at h; exact jumpToFrame_sets _ _ _ h
  by_cases hj : key = 'j'
  · subst hj; rw [treatKeyboardInput_j] at h; exact jumpToFrame_sets _ _ _ h
  by_cases hk : key = 'k'
  · subst hk; rw [treatKeyboardInput_k] at h; exact jumpToFrame_sets _ _ _ h
  by_cases ha : key = 'a'
  · subst ha
    obtain ⟨s2, h2, _, _, _, _, hp, hn⟩ := stepBack_fields s
    rw [h2] at h
    cases h
    exact ⟨hp, hn⟩
  by_cases hs : key = 's'
  · subst hs
    obtain ⟨s2, h2, _, _, _, _, hp, hn⟩ := stepForward_fields s
    rw [h2] at h
    cases h
    exact ⟨hp, hn⟩
  unfold treatKeyboardInput at h
  rw [if_neg ha, if_neg hs, if_neg hw, if_neg hz, if_neg hb, if_neg he, if_neg hj,
    if_neg hk] at h
  split_ifs at h <;> cases h <;> exact ⟨rfl, rfl⟩

/-- C37 (the keys leave the labels alone): whatever the key and the state, a key that
returns leaves the positive and the negative set as they were; a key outside the sixteen
commands returns the session unchanged; the key `q` returns the session with the list of
frame paths emptied and nothing else changed. -/
theorem keys_keep_labels :
    (∀ (key : Char) (s s' : Session), treatKeyboardInput key s = some s' →
      s'.positiveFrames = s.positiveFrames ∧ s'.negativeFrames = s.negativeFrames) ∧
    (∀ (key : Char) (s : Session),
      key ∉ ['q', '+', '-', ' ', 'r', 'l', '0', '1', 'a', 's', 'w', 'z', 'b', 'e', 'j', 'k'] →
      treatKeyboardInput key s = some s) ∧
    (∀ s : Session, treatKeyboardInput 'q' s = some { s with frameFilePathsSize := 0 }) := by
  refine ⟨treatKeyboardInput_sets, fun key s hkey => ?_, fun s => rfl⟩
  simp only [List.mem_cons, List.mem_singleton, List.not_mem_nil, or_false, not_or] at hkey
  obtain ⟨h1, h2, h3, h4, h5, h6, h7, h8, h9, h10, h11, h12, h13, h14, h15, h16⟩ := hkey
  unfold treatKeyboardInput
  rw [if_neg h1, if_neg h2, if_neg h3, if_neg h4, if_neg h5, if_neg h6, if_neg h7, if_neg h8,
    if_neg h9, if_neg h10, if_neg h11, if_neg h12, if_neg h13, if_neg h14, if_neg h15,
    if_neg h16]

theorem keys_keep_labels_witness :
    (∃ s', treatKeyboardInput '1' (markSession 3 1 [0] [1, 2]) = some s'
      ∧ s'.positiveFrames = [0] ∧ s'.negativeFrames = [1, 2])
    ∧ treatKeyboardInput 'x' (markSession 3 1 [0] [1, 2]) = some (markSession 3 1 [0] [1, 2]) :=
  ⟨⟨_, rfl, keys_keep_labels.1 '1' (markSession 3 1 [0] [1, 2]) _ rfl⟩,
   keys_keep_labels.2.1 'x' (markSession 3 1 [0] [1, 2]) (by decide)⟩

theorem playbackMove_sets (s : Session) :
    (playbackMove s).positiveFrames = s.positiveFrames
      ∧ (playbackMove s).negativeFrames = s.negativeFrames := by
  unfold playbackMove
  split_ifs <;> exact ⟨rfl, rfl⟩

theorem loadVideoFrameBuffer_sets (next : Bool) (s s' : Session)
    (h : loadVideoFrameBuffer next s = some s') :
    s'.positiveFrames = s.positiveFrames ∧ s'.negativeFrames = s.negativeFrames := by
  unfold loadVideoFrameBuffer at h
  dsimp only at h
  split_ifs at h
  all_goals first
    | (cases h; exact ⟨rfl, rfl⟩)
    | (obtain ⟨b, _, hb⟩ := Option.map_eq_some'.1 h
       rw [← hb]
       exact ⟨rfl, rfl⟩)

/-- The label overwrite keeps the two sets disjoint and loses no labelled frame. -/
theorem overwriteLabel_invariant (s : Session) :
    ((∀ i, i ∈ s.positiveFrames → i ∉ s.negativeFrames) →
      ∀ i, i ∈ (overwriteLabel s).positiveFrames → i ∉ (overwriteLabel s).negativeFrames) ∧
    (∀ i, i ∈ s.positiveFrames ∨ i ∈ s.negativeFrames →
      i ∈ (overwriteLabel s).positiveFrames ∨ i ∈ (overwriteLabel s).negativeFrames) := by
  unfold overwriteLabel
  split_ifs
  · refine ⟨fun hd i hi => ?_, fun i hi => ?_⟩
    · have hi' := (mem_eraseFrame _ _ _).1 hi
      show i ∉ insertFrame _ _
      rw [mem_insertFrame]
      rintro (h | h)
      · exact hi'.2 h
      · exact hd i hi'.1 h
    · show i ∈ eraseFrame _ _ ∨ i ∈ insertFrame _ _
      rw [mem_eraseFrame, mem_insertFrame]
      by_cases hc : i = s.currentVideoFrameNumber
      · exact Or.inr (Or.inl hc)
      · rcases hi with h | h
        · exact Or.inl ⟨h, hc⟩
        · exact Or.inr (Or.inr h)
  · refine ⟨fun hd i hi => ?_, fun i hi => ?_⟩
    · have hi' := (mem_insertFrame _ _ _).1 hi
      show i ∉ eraseFrame _ _
      rw [mem_eraseFrame]
      rintro ⟨h1, h2⟩
      rcases hi' with h | h
      · exact h2 h
      · exact hd i h h1
    · show i ∈ insertFrame _ _ ∨ i ∈ eraseFrame _ _
      rw [mem_eraseFrame, mem_insertFrame]
      by_cases hc : i = s.currentVideoFrameNumber
      · exact Or.inl (Or.inl hc)
      · rcases hi with h | h
        · exact Or.inl (Or.inr h)
        · exact Or.inr ⟨h, hc⟩
  · exact ⟨fun hd => hd, fun i hi => hi⟩

/-- One event keeps the two sets disjoint and loses no labelled frame. -/
theorem applyEvent_invariant (e : SessionEvent) (s s' : Session)
    (h : applyEvent e s = some s') :
    ((∀ i, i ∈ s.positiveFrames → i ∉ s.negativeFrames) →
      ∀ i, i ∈ s'.positiveFrames → i ∉ s'.negativeFrames) ∧
    (∀ i, i ∈ s.positiveFrames ∨ i ∈ s.negativeFrames →
      i ∈ s'.positiveFrames ∨ i ∈ s'.negativeFrames) := by
  cases e with
  | key c =>
    obtain ⟨hp, hn⟩ := treatKeyboardInput_sets c s s' h
    rw [hp, hn]
    exact ⟨fun hd => hd, fun i hi => hi⟩
  | fill next =>
    obtain ⟨hp, hn⟩ := loadVideoFrameBuffer_sets next s s' h
    rw [hp, hn]
    exact ⟨fun hd => hd, fun i hi => hi⟩
  | tick =>
    rcases renderTick_cases s s' h with rfl | rfl
    · obtain ⟨hp, hn⟩ := playbackMove_sets (overwriteLabel s)
      rw [hp, hn]
      exact overwriteLabel_invariant s
    · exact ⟨fun hd => hd, fun i hi => hi⟩

/-- C34 (the tick keeps the label-set invariant): a tick that returns leaves the two
sets disjoint if they were, and every frame that was in one of them is still in one of
them; the same holds after any sequence of keys, ticks and buffer fills, so a labelled
frame never becomes unlabelled during a session. -/
theorem tick_keeps_label_invariant :
    (∀ s s' : Session, renderTick s = some s' →
      ((∀ i, i ∈ s.positiveFrames → i ∉ s.negativeFrames) →
        ∀ i, i ∈ s'.positiveFrames → i ∉ s'.negativeFrames) ∧
      (∀ i, i ∈ s.positiveFrames ∨ i ∈ s.negativeFrames →
        i ∈ s'.positiveFrames ∨ i ∈ s'.negativeFrames)) ∧
    (∀ (events : List SessionEvent) (s s' : Session), runEvents events s = some s' →
      ((∀ i, i ∈ s.positiveFrames → i ∉ s.negativeFrames) →
        ∀ i, i ∈ s'.positiveFrames → i ∉ s'.negativeFrames) ∧
      (∀ i, i ∈ s.positiveFrames ∨ i ∈ s.negativeFrames →
        i ∈ s'.positiveFrames ∨ i ∈ s'.negativeFrames)) := by
  refine ⟨fun s s' h => applyEvent_invariant SessionEvent.tick s s' h, ?_⟩
  intro events
  induction events with
  | nil =>
    intro s s' h
    simp only [runEvents, Option.some.injEq] at h
    subst h
    exact ⟨fun hd => hd, fun i hi => hi⟩
  | cons e es ih =>
    intro s s' h
    simp only [runEvents] at h
    cases hstep : applyEvent e s with
    | none => rw [hstep] at h; simp at h
    | some s1 =>
      rw [hstep] at h
      simp only [Option.some_bind] at h
      obtain ⟨hd1, hl1⟩ := applyEvent_invariant e s s1 hstep
      obtain ⟨hd2, hl2⟩ := ih s1 s' h
      exact ⟨fun hd => hd2 (hd1 hd), fun i hi => hl2 i (hl1 i hi)⟩

theorem tick_keeps_label_invariant_witness :
    ∃ s', renderTick
        { markSession 3 1 [0] [1, 2] with
          overwriteLabels := true, currentLabel := 1, currentVideoFrameBuffer := [0, 1, 2] }
          = some s'
      ∧ ((1 : ℤ) ∈ s'.positiveFrames ∨ (1 : ℤ) ∈ s'.negativeFrames) :=
  ⟨_, rfl, (tick_keeps_label_invariant.1
    { markSession 3 1 [0] [1, 2] with
      overwriteLabels := true, currentLabel := 1, currentVideoFrameBuffer := [0, 1, 2] }
    _ rfl).2 1 (Or.inr (by decide))⟩

/-! ## Seeking marks: termination and range -/

theorem scanDown_of_not_mem (frames : List ℤ) (n : ℕ) (f : ℤ) (h : f ∉ frames) :
    scanDown frames n f = f := by
  cases n with
  | zero => rfl
  | succ n => simp [scanDown, h]

theorem scanUp_of_not_mem (frames : List ℤ) (n : ℕ) (f : ℤ) (h : f ∉ frames) :
    scanUp frames n f = f := by
  cases n with
  | zero => rfl
  | succ n => simp [scanUp, h]

/-- Once the downward scan has stopped on a frame out of the set, more iterations change
nothing. -/
theorem scanDown_more_fuel (frames : List ℤ) :
    ∀ (n : ℕ) (f : ℤ), scanDown frames n f ∉ frames →
      ∀ k : ℕ, scanDown frames (n + k) f = scanDown frames n f := by
  intro n
  induction n with
  | zero =>
    intro f h k
    simp only [scanDown] at h
    rw [Nat.zero_add, scanDown_of_not_mem frames k f h]
    rfl
  | succ n ih =>
    intro f h k
    rw [show n + 1 + k = (n + k) + 1 by omega]
    simp only [scanDown] at h ⊢
    by_cases hf : f ∈ frames
    · simp only [if_pos hf] at h ⊢
      exact ih (f - 1) h k
    · simp only [if_neg hf]

/-- Once the upward scan has stopped on a frame out of the set, more iterations change
nothing. -/
theorem scanUp_more_fuel (frames : List ℤ) :
    ∀ (n : ℕ) (f : ℤ), scanUp frames n f ∉ frames →
      ∀ k : ℕ, scanUp frames (n + k) f = scanUp frames n f := by
  intro n
  induction n with
  | zero =>
    intro f h k
    simp only [scanUp] at h
    rw [Nat.zero_add, scanUp_of_not_mem frames k f h]
    rfl
  | succ n ih =>
    intro f h k
    rw [show n + 1 + k = (n + k) + 1 by omega]
    simp only [scanUp] at h ⊢
    by_cases hf : f ∈ frames
    · simp only [if_pos hf] at h ⊢
      exact ih (f + 1) h k
    · simp only [if_neg hf]

/-- The frame computed by the key `j` for label sets of frames numbered from 0. -/
theorem previousMark_range (s : Session)
    (hpos : ∀ i ∈ s.positiveFrames, 0 ≤ i) (hneg : ∀ i ∈ s.negativeFrames, 0 ≤ i)
    (h0 : 0 ≤ s.currentVideoFrameNumber) :
    0 ≤ previousMark s ∧ previousMark s ≤ s.currentVideoFrameNumber
      ∧ (0 < s.currentVideoFrameNumber →
          s.currentVideoFrameNumber - 1 ∉ s.positiveFrames →
          s.currentVideoFrameNumber - 1 ∉ s.negativeFrames →
          previousMark s = s.currentVideoFrameNumber) := by
  unfold previousMark
  by_cases hc : s.currentVideoFrameNumber > 0
  · rw [if_pos hc]
    have key : ∀ frames : List ℤ, (∀ i ∈ frames, 0 ≤ i) →
        0 ≤ scanDown frames frames.length (s.currentVideoFrameNumber - 1) + 1
          ∧ scanDown frames frames.length (s.currentVideoFrameNumber - 1) + 1
              ≤ s.currentVideoFrameNumber := by
      intro frames hfr
      obtain ⟨hle, hall, _⟩ := scanDown_stops frames (s.currentVideoFrameNumber - 1)
      generalize scanDown frames frames.length (s.currentVideoFrameNumber - 1) = g at hle hall ⊢
      refine ⟨?_, by omega⟩
      by_cases hg : g = s.currentVideoFrameNumber - 1
      · omega
      · exact hfr _ (hall (g + 1) (by omega) (by omega))
    by_cases hp : s.currentVideoFrameNumber - 1 ∈ s.positiveFrames
    · rw [if_pos hp]
      exact ⟨(key _ hpos).1, (key _ hpos).2, fun _ h => absurd hp h⟩
    · rw [if_neg hp]
      refine ⟨(key _ hneg).1, (key _ hneg).2, fun _ _ hn => ?_⟩
      rw [scanDown_of_not_mem _ _ _ hn]
      omega
  · rw [if_neg hc]
    exact ⟨h0, le_refl _, fun h => absurd h hc⟩

/-- The frame computed by the key `k`, before the clamp, for label sets of frames below
`N`. -/
theorem nextMark_range (s : Session) (hn1 : 1 ≤ s.frameFilePathsSize)
    (hn : s.frameFilePathsSize ≤ 2 ^ 31)
    (hpos : ∀ i ∈ s.positiveFrames, i < (s.frameFilePathsSize : ℤ))
    (hneg : ∀ i ∈ s.negativeFrames, i < (s.frameFilePathsSize : ℤ))
    (h0 : 0 ≤ s.currentVideoFrameNumber)
    (h1 : s.currentVideoFrameNumber < (s.frameFilePathsSize : ℤ)) :
    s.currentVideoFrameNumber ≤ nextMark s ∧ nextMark s ≤ (s.frameFilePathsSize : ℤ)
      ∧ (s.currentVideoFrameNumber < (s.frameFilePathsSize : ℤ) - 1 →
          s.currentVideoFrameNumber + 1 ≤ nextMark s
          ∧ (s.currentVideoFrameNumber + 1 ∉ s.positiveFrames →
              s.currentVideoFrameNumber + 1 ∉ s.negativeFrames →
              nextMark s = s.currentVideoFrameNumber + 1)) := by
  have hcond := toSizeT_lt_sizeSub_one hn1 hn h0 h1
  unfold nextMark
  by_cases hc : s.currentVideoFrameNumber < (s.frameFilePathsSize : ℤ) - 1
  · rw [if_pos (hcond.2 hc)]
    have key : ∀ frames : List ℤ, (∀ i ∈ frames, i < (s.frameFilePathsSize : ℤ)) →
        s.currentVideoFrameNumber + 1
            ≤ scanUp frames frames.length (s.currentVideoFrameNumber + 1)
          ∧ scanUp frames frames.length (s.currentVideoFrameNumber + 1)
              ≤ (s.frameFilePathsSize : ℤ) := by
      intro frames hfr
      obtain ⟨hle, hall, _⟩ := scanUp_stops frames (s.currentVideoFrameNumber + 1)
      generalize scanUp frames frames.length (s.currentVideoFrameNumber + 1) = e at hle hall ⊢
      refine ⟨hle, ?_⟩
      by_cases he : e = s.currentVideoFrameNumber + 1
      · omega
      · have := hfr _ (hall (e - 1) (by omega) (by omega))
        omega
    by_cases hp : s.currentVideoFrameNumber + 1 ∈ s.positiveFrames
    · rw [if_pos hp]
      exact ⟨by have := (key _ hpos).1; omega, (key _ hpos).2,
        fun _ => ⟨(key _ hpos).1, fun h => absurd hp h⟩⟩
    · rw [if_neg hp]
      refine ⟨by have := (key _ hneg).1; omega, (key _ hneg).2,
        fun _ => ⟨(key _ hneg).1, fun _ hn' => ?_⟩⟩
      rw [scanUp_of_not_mem _ _ _ hn']
  · rw [if_neg (fun h => hc (hcond.1 h))]
    exact ⟨le_refl _, by omega, fun h => absurd h hc⟩

/-- C36 (the scans stop, and where): the scanning loops stop within as many iterations
as the scanned set has elements, on a frame out of the set, and more iterations change
nothing; for label sets inside `[0, N)` and a frame `f` of `[0, N)`, the key `j` returns
and lands in `[0, f]`, the key `k` returns and lands in `[f, N - 1]`, and when the
adjacent frame is in neither set the key `j` stays on `f` and the key `k` moves to
`f + 1`. -/
theorem seek_terminates_in_range (s : Session) (hn1 : 1 ≤ s.frameFilePathsSize)
    (hn : s.frameFilePathsSize < 2 ^ 31)
    (hpos : ∀ i ∈ s.positiveFrames, 0 ≤ i ∧ i < (s.frameFilePathsSize : ℤ))
    (hneg : ∀ i ∈ s.negativeFrames, 0 ≤ i ∧ i < (s.frameFilePathsSize : ℤ))
    (h0 : 0 ≤ s.currentVideoFrameNumber)
    (h1 : s.currentVideoFrameNumber < (s.frameFilePathsSize : ℤ)) :
    (∀ (frames : List ℤ) (g : ℤ) (n : ℕ), frames.length ≤ n →
      scanDown frames n g = scanDown frames frames.length g
        ∧ scanDown frames frames.length g ∉ frames
        ∧ scanUp frames n g = scanUp frames frames.length g
        ∧ scanUp frames frames.length g ∉ frames) ∧
    (∃ s', treatKeyboardInput 'j' s = some s'
      ∧ 0 ≤ s'.currentVideoFrameNumber
      ∧ s'.currentVideoFrameNumber ≤ s.currentVideoFrameNumber
      ∧ (0 < s.currentVideoFrameNumber →
          s.currentVideoFrameNumber - 1 ∉ s.positiveFrames →
          s.currentVideoFrameNumber - 1 ∉ s.negativeFrames →
          s'.currentVideoFrameNumber = s.currentVideoFrameNumber)) ∧
    (∃ s', treatKeyboardInput 'k' s = some s'
      ∧ s.currentVideoFrameNumber ≤ s'.currentVideoFrameNumber
      ∧ s'.currentVideoFrameNumber ≤ (s.frameFilePathsSize : ℤ) - 1
      ∧ (s.currentVideoFrameNumber < (s.frameFilePathsSize : ℤ) - 1 →
          s.currentVideoFrameNumber + 1 ∉ s.positiveFrames →
          s.currentVideoFrameNumber + 1 ∉ s.negativeFrames →
          s'.currentVideoFrameNumber = s.currentVideoFrameNumber + 1)) := by
  refine ⟨fun frames g n hlen => ?_, ?_, ?_⟩
  · obtain ⟨k, rfl⟩ := Nat.exists_eq_add_of_le hlen
    have hd := (scanDown_stops frames g).2.2
    have hu := (scanUp_stops frames g).2.2
    exact ⟨scanDown_more_fuel frames _ g hd k, hd, scanUp_more_fuel frames _ g hu k, hu⟩
  · obtain ⟨hr0, hr1, hun⟩ := previousMark_range s (fun i hi => (hpos i hi).1)
      (fun i hi => (hneg i hi).1) h0
    obtain ⟨s', h, hcur, _⟩ := jumpToFrame_spec s (previousMark s) hn hr0 (by omega)
    refine ⟨s', by rw [treatKeyboardInput_j]; exact h, ?_⟩
    rw [hcur]
    exact ⟨hr0, hr1, hun⟩
  · obtain ⟨he0, he1, hun⟩ := nextMark_range s hn1 hn.le (fun i hi => (hpos i hi).2)
      (fun i hi => (hneg i hi).2) h0 h1
    have hclamp := nextMark_clamp s.frameFilePathsSize hn1 hn.le (nextMark s) (by omega) he1
    obtain ⟨s', h, hcur, _⟩ :=
      jumpToFrame_spec s
        (toInt (if toSizeT (nextMark s) < s.frameFilePathsSize then toSizeT (nextMark s)
          else sizeSub s.frameFilePathsSize 1)) hn
        (by rw [hclamp]; split_ifs <;> omega) (by rw [hclamp]; split_ifs <;> omega)
    refine ⟨s', by rw [treatKeyboardInput_k]; exact h, ?_⟩
    rw [hcur, hclamp]
    refine ⟨by split_ifs <;> omega, by split_ifs <;> omega, fun hlt hp hn' => ?_⟩
    have he := (hun hlt).2 hp hn'
    rw [he, if_pos (by omega)]

theorem seek_terminates_in_range_witness :
    (∃ s', treatKeyboardInput 'j' (markSession 5 3 [0] [4]) = some s'
      ∧ s'.currentVideoFrameNumber = 3)
    ∧ (∃ s', treatKeyboardInput 'k' (markSession 5 1 [0] [4]) = some s'
      ∧ s'.currentVideoFrameNumber = 1 + 1) := by
  constructor
  · obtain ⟨s', h, _, _, hun⟩ :=
      (seek_terminates_in_range (markSession 5 3 [0] [4]) (by decide) (by decide)
        (by decide) (by decide) (by decide) (by decide)).2.1
    exact ⟨s', h, hun (by decide) (by decide) (by decide)⟩
  · obtain ⟨s', h, _, _, hun⟩ :=
      (seek_terminates_in_range (markSession 5 1 [0] [4]) (by decide) (by decide)
        (by decide) (by decide) (by decide) (by decide)).2.2
    exact ⟨s', h, hun (by decide) (by decide) (by decide)⟩

/-! ## The ends of the video -/

/-- A tick of a session that plays inside the last window, below the last frame: the
frame number grows by one and the session still plays inside the last window. -/
theorem tick_in_last_window (s : Session) (hn : s.frameFilePathsSize ≤ 2 ^ 31)
    (hinv : PlaysInLastWindow s)
    (hlt : s.currentVideoFrameNumber < (s.frameFilePathsSize : ℤ) - 1) :
    ∃ s', renderTick s = some s'
      ∧ s'.currentVideoFrameNumber = s.currentVideoFrameNumber + 1
      ∧ s'.frameFilePathsSize = s.frameFilePathsSize
      ∧ PlaysInLastWindow s' := by
  have h64 : VIDEO_FRAME_BUFFERS_SIZE = 64 := rfl
  obtain ⟨hdiv, hr0, hw0, h1, hend, hbuf, hnext, hdelay, hplay⟩ := hinv
  rw [h64] at hdiv
  have h0 : 0 ≤ s.currentVideoFrameNumber := by omega
  have hn1 : 1 ≤ s.frameFilePathsSize := by omega
  have hat : toSizeT (Int.tmod s.currentVideoFrameNumber VIDEO_FRAME_BUFFERS_SIZE)
      < s.currentVideoFrameBuffer.length := by
    rw [hbuf, length_frameRange, Int.tmod_eq_emod h0 (by decide), h64,
      toSizeT_of_nonneg (by omega) (by omega)]
    omega
  obtain ⟨p, n, hs1⟩ := overwriteLabel_eq s
  have hc := (toSizeT_lt_sizeSub_one hn1 hn h0 h1).2 hlt
  refine ⟨_, renderTick_some s hn h0 h1 hat, ?_⟩
  rw [hs1]
  unfold playbackMove
  rw [if_pos (show (0 : ℤ) < s.videoShowingDelay from hdelay),
    if_pos ⟨hplay, hc, (isEmpty_eq_false_iff _).2 hnext⟩,
    if_neg (show ¬ s.currentVideoFrameNumber + 1
      ≥ s.refCurrentBufferedFrameNumber + VIDEO_FRAME_BUFFERS_SIZE by omega)]
  exact ⟨rfl, rfl, hdiv, hr0,
    (show s.refCurrentBufferedFrameNumber ≤ s.currentVideoFrameNumber + 1 by omega),
    (show s.currentVideoFrameNumber + 1 < (s.frameFilePathsSize : ℤ) by omega),
    hend, hbuf, hnext, hdelay, hplay⟩

/-- Ticks of a session that plays inside the last window take it to the last frame. -/
theorem ticks_reach_last_frame :
    ∀ (k : ℕ) (s : Session), s.frameFilePathsSize ≤ 2 ^ 31 → PlaysInLastWindow s →
      (s.frameFilePathsSize : ℤ) - 1 - s.currentVideoFrameNumber = (k : ℤ) →
      ∃ s', runEvents (List.replicate k SessionEvent.tick) s = some s'
        ∧ s'.currentVideoFrameNumber = (s.frameFilePathsSize : ℤ) - 1 := by
  intro k
  induction k with
  | zero =>
    intro s _ _ hk
    exact ⟨s, rfl, by push_cast at hk; omega⟩
  | succ k ih =>
    intro s hn hinv hk
    obtain ⟨s1, h1, hcur, hsize, hinv1⟩ :=
      tick_in_last_window s hn hinv (by push_cast at hk; omega)
    obtain ⟨s', h', hlast⟩ := ih s1 (by rw [hsize]; exact hn) hinv1
      (by rw [hsize, hcur]; push_cast at hk; omega)
    refine ⟨s', ?_, by rw [hlast, hsize]⟩
    simp only [List.replicate_succ, runEvents, applyEvent, h1, Option.some_bind]
    exact h'

/-- C38 (the ends of the video): with `refIndex` in `[0, N)`, when
`refIndex + capacity >= N` the thread of the next buffer fills its empty buffer with the
frames `[refIndex, N)`, and when `refIndex = 0` the thread of the previous buffer fills
its empty buffer with the frames `[0, min(capacity, N))`; both are non-empty; and a
session that plays forward inside the last window with its next buffer filled reaches
the frame `N - 1` by ticks. -/
theorem prefetch_folds_back (s : Session) (hn1 : 1 ≤ s.frameFilePathsSize)
    (hn : s.frameFilePathsSize < 2 ^ 31) (hr0 : 0 ≤ s.refCurrentBufferedFrameNumber)
    (hr1 : s.refCurrentBufferedFrameNumber < (s.frameFilePathsSize : ℤ)) :
    ((s.frameFilePathsSize : ℤ) ≤ s.refCurrentBufferedFrameNumber + VIDEO_FRAME_BUFFERS_SIZE →
      s.nextVideoFrameBuffer = [] →
      ∃ s', loadVideoFrameBuffer true s = some s'
        ∧ s'.nextVideoFrameBuffer
            = frameRange s.refCurrentBufferedFrameNumber (s.frameFilePathsSize : ℤ)
        ∧ s'.nextVideoFrameBuffer ≠ []) ∧
    (s.refCurrentBufferedFrameNumber = 0 → s.previousVideoFrameBuffer = [] →
      ∃ s', loadVideoFrameBuffer false s = some s'
        ∧ s'.previousVideoFrameBuffer
            = frameRange 0 (min VIDEO_FRAME_BUFFERS_SIZE (s.frameFilePathsSize : ℤ))
        ∧ s'.previousVideoFrameBuffer ≠ []) ∧
    (PlaysInLastWindow s →
      ∃ s', runEvents
          (List.replicate ((s.frameFilePathsSize : ℤ) - 1 - s.currentVideoFrameNumber).toNat
            SessionEvent.tick) s = some s'
        ∧ s'.currentVideoFrameNumber = (s.frameFilePathsSize : ℤ) - 1) := by
  have h64 : VIDEO_FRAME_BUFFERS_SIZE = 64 := rfl
  have hne : ∀ a b : ℤ, a < b → frameRange a b ≠ [] := by
    intro a b hab h
    have := length_frameRange a b
    rw [h] at this
    simp only [List.length_nil] at this
    omega
  refine ⟨fun hend hempty => ?_, fun href hempty => ?_, fun hinv => ?_⟩
  · have h := loadNextBuffer_spec s hn1 hn hr0 hr1 hempty
    rw [if_neg (by omega), min_eq_right (by omega)] at h
    exact ⟨_, h, rfl, hne _ _ hr1⟩
  · have h := loadPreviousBuffer_spec s hn1 hn hr1 hempty
    rw [href, show max ((0 : ℤ) - VIDEO_FRAME_BUFFERS_SIZE) 0 = 0 by rw [h64]; decide,
      zero_add] at h
    exact ⟨_, h, rfl, hne _ _ (by rw [h64]; omega)⟩
  · have hcur := hinv.2.2.2.1
    exact ticks_reach_last_frame _ s hn.le hinv (by omega)

theorem prefetch_folds_back_witness :
    (∃ s', loadVideoFrameBuffer true
        { markSession 100 70 [] [] with refCurrentBufferedFrameNumber := 64 } = some s'
      ∧ s'.nextVideoFrameBuffer = frameRange 64 100)
    ∧ (∃ s', loadVideoFrameBuffer false (markSession 100 0 [] []) = some s'
      ∧ s'.previousVideoFrameBuffer = frameRange 0 (min VIDEO_FRAME_BUFFERS_SIZE 100))
    ∧ (∃ s', runEvents [SessionEvent.tick, SessionEvent.tick]
        { markSession 100 97 [] [] with
          refCurrentBufferedFrameNumber := 64, videoShowingDelay := 40,
          currentVideoFrameBuffer := frameRange 64 100,
          nextVideoFrameBuffer := frameRange 64 100 } = some s'
      ∧ s'.currentVideoFrameNumber = 99) := by
  refine ⟨?_, ?_, ?_⟩
  · obtain ⟨s', h, hbuf, _⟩ :=
      (prefetch_folds_back { markSession 100 70 [] [] with refCurrentBufferedFrameNumber := 64 }
        (by decide) (by decide) (by decide) (by decide)).1 (by decide) rfl
    exact ⟨s', h, hbuf⟩
  · obtain ⟨s', h, hbuf, _⟩ :=
      (prefetch_folds_back (markSession 100 0 [] [])
        (by decide) (by decide) (by decide) (by decide)).2.1 rfl rfl
    exact ⟨s', h, hbuf⟩
  · exact (prefetch_folds_back
      { markSession 100 97 [] [] with
        refCurrentBufferedFrameNumber := 64, videoShowingDelay := 40,
        currentVideoFrameBuffer := frameRange 64 100,
        nextVideoFrameBuffer := frameRange 64 100 }
      (by decide) (by decide) (by decide) (by decide)).2.2
      ⟨by decide, by decide, by decide, by decide, by decide, rfl, by decide, by decide, rfl⟩

/-- An aligned window is a window that starts on a multiple of the buffer size and holds
the frame number. -/
theorem windowAligned_iff (s : Session) :
    WindowAligned s ↔
      s.refCurrentBufferedFrameNumber % VIDEO_FRAME_BUFFERS_SIZE = 0
        ∧ s.refCurrentBufferedFrameNumber ≤ s.currentVideoFrameNumber
        ∧ s.currentVideoFrameNumber
            < s.refCurrentBufferedFrameNumber + VIDEO_FRAME_BUFFERS_SIZE := by
  unfold WindowAligned VIDEO_FRAME_BUFFERS_SIZE
  constructor
  · intro h
    omega
  · intro h
    omega

theorem sessionAligned_mk (N : ℕ) (s' : Session) (f r : ℤ)
    (hsz : s'.frameFilePathsSize = N) (hf : s'.currentVideoFrameNumber = f)
    (hr : s'.refCurrentBufferedFrameNumber = r) (h0 : 0 ≤ f) (h1 : f < (N : ℤ))
    (hal : r = f / 64 * 64)
    (hp : ∀ i ∈ s'.positiveFrames, 0 ≤ i ∧ i < (N : ℤ))
    (hn : ∀ i ∈ s'.negativeFrames, 0 ≤ i ∧ i < (N : ℤ)) : SessionAligned N s' := by
  refine ⟨hsz, by rw [hf]; exact h0, by rw [hf]; exact h1, ?_, hp, hn⟩
  unfold WindowAligned
  rw [hf, hr]
  exact hal

theorem rotateForward_ref_eq (s1 : Session) (N : ℕ) (r : ℤ)
    (hsz : s1.frameFilePathsSize = N) (hr : s1.refCurrentBufferedFrameNumber = r)
    (hn : N ≤ 2 ^ 31) (hr0 : 0 ≤ r) (hlt : r + 64 < (N : ℤ)) :
    (rotateForward s1).refCurrentBufferedFrameNumber = r + 64 := by
  subst hsz
  subst hr
  exact rotateForward_ref s1 hn hr0 hlt

theorem rotateBackward_ref_eq (s1 : Session) (r : ℤ)
    (hr : s1.refCurrentBufferedFrameNumber = r) (hge : 64 ≤ r) :
    (rotateBackward s1).refCurrentBufferedFrameNumber = r - 64 := by
  subst hr
  exact rotateBackward_ref s1 hge

/-- The key `a` keeps the session aligned. -/
theorem stepBack_aligned (N : ℕ) (s s' : Session) (hinv : SessionAligned N s)
    (h : treatKeyboardInput 'a' s = some s') : SessionAligned N s' := by
  obtain ⟨hsz, h0, h1, hal, hp, hng⟩ := hinv
  obtain ⟨hd, hw0, hw1⟩ := (windowAligned_iff s).1 hal
  have h64 : VIDEO_FRAME_BUFFERS_SIZE = 64 := rfl
  rw [h64] at hd hw1
  have hmax : (if s.currentVideoFrameNumber > 0 then s.currentVideoFrameNumber - 1 else 0)
      = max (s.currentVideoFrameNumber - 1) 0 := by
    split_ifs <;> omega
  rw [treatKeyboardInput_a, hmax] at h
  by_cases hc : max (s.currentVideoFrameNumber - 1) 0 < s.refCurrentBufferedFrameNumber
  · rw [if_pos hc] at h
    cases h
    exact sessionAligned_mk N _ (max (s.currentVideoFrameNumber - 1) 0)
      (s.refCurrentBufferedFrameNumber - 64) hsz rfl
      (rotateBackward_ref_eq _ s.refCurrentBufferedFrameNumber rfl (by omega))
      (by omega) (by omega) (by omega) hp hng
  · rw [if_neg hc] at h
    cases h
    exact sessionAligned_mk N _ (max (s.currentVideoFrameNumber - 1) 0)
      s.refCurrentBufferedFrameNumber hsz rfl rfl (by omega) (by omega) (by omega) hp hng

/-- The key `s` keeps the session aligned. -/
theorem stepForward_aligned (N : ℕ) (hn1 : 1 ≤ N) (hn : N ≤ 2 ^ 31) (s s' : Session)
    (hinv : SessionAligned N s) (h : treatKeyboardInput 's' s = some s') :
    SessionAligned N s' := by
  obtain ⟨hsz, h0, h1, hal, hp, hng⟩ := hinv
  subst hsz
  obtain ⟨hd, hw0, hw1⟩ := (windowAligned_iff s).1 hal
  have h64 : VIDEO_FRAME_BUFFERS_SIZE = 64 := rfl
  rw [h64] at hd hw1
  rw [treatKeyboardInput_s, stepForward_frame s hn1 hn h0 (by omega), h64] at h
  by_cases hc : min (s.currentVideoFrameNumber + 1) ((s.frameFilePathsSize : ℤ) - 1)
      ≥ s.refCurrentBufferedFrameNumber + 64
  · rw [if_pos hc] at h
    cases h
    exact sessionAligned_mk _ _
      (min (s.currentVideoFrameNumber + 1) ((s.frameFilePathsSize : ℤ) - 1))
      (s.refCurrentBufferedFrameNumber + 64) rfl rfl
      (rotateForward_ref_eq _ s.frameFilePathsSize s.refCurrentBufferedFrameNumber rfl rfl hn
        (by omega) (by omega))
      (by omega) (by omega) (by omega) hp hng
  · rw [if_neg hc] at h
    cases h
    exact sessionAligned_mk _ _
      (min (s.currentVideoFrameNumber + 1) ((s.frameFilePathsSize : ℤ) - 1))
      s.refCurrentBufferedFrameNumber rfl rfl rfl (by omega) (by omega) (by omega) hp hng

/-- With at least `FRAME_JUMP_SIZE` frames, the frame number that a jump key assigns in
an aligned session is a frame of the video. -/
theorem jumpTarget_range (N : ℕ) (hN : 100 ≤ N) (hn : N < 2 ^ 31) (key : Char)
    (hkey : key = 'w' ∨ key = 'z' ∨ key = 'b' ∨ key = 'e' ∨ key = 'j' ∨ key = 'k')
    (s : Session) (hinv : SessionAligned N s) :
    0 ≤ jumpTarget key s ∧ jumpTarget key s < (N : ℤ) := by
  obtain ⟨hsz, h0, h1, _, hp, hng⟩ := hinv
  subst hsz
  have hlast := @toInt_sizeSub_one s.frameFilePathsSize (by omega) hn.le
  rcases hkey with h | h | h | h | h | h <;> subst h
  · show 0 ≤ (if toSizeT s.currentVideoFrameNumber
          < sizeSub s.frameFilePathsSize (toSizeT FRAME_JUMP_SIZE) then
        s.currentVideoFrameNumber + FRAME_JUMP_SIZE
        else toInt (sizeSub s.frameFilePathsSize 1))
      ∧ (if toSizeT s.currentVideoFrameNumber
          < sizeSub s.frameFilePathsSize (toSizeT FRAME_JUMP_SIZE) then
        s.currentVideoFrameNumber + FRAME_JUMP_SIZE
        else toInt (sizeSub s.frameFilePathsSize 1)) < (s.frameFilePathsSize : ℤ)
    have h100 : toSizeT FRAME_JUMP_SIZE = 100 := by
      rw [toSizeT_of_nonneg (by decide) (by decide)]
      rfl
    have hjump : FRAME_JUMP_SIZE = 100 := rfl
    rw [h100, sizeSub_of_le hN (by omega), toSizeT_of_nonneg h0 (by omega), hlast, hjump]
    split_ifs with hc <;> omega
  · show 0 ≤ (if s.currentVideoFrameNumber > FRAME_JUMP_SIZE then
        s.currentVideoFrameNumber - FRAME_JUMP_SIZE else 0)
      ∧ (if s.currentVideoFrameNumber > FRAME_JUMP_SIZE then
        s.currentVideoFrameNumber - FRAME_JUMP_SIZE else 0) < (s.frameFilePathsSize : ℤ)
    have hjump : FRAME_JUMP_SIZE = 100 := rfl
    rw [hjump]
    split_ifs with hc <;> omega
  · show (0 : ℤ) ≤ 0 ∧ (0 : ℤ) < (s.frameFilePathsSize : ℤ)
    omega
  · show 0 ≤ toInt (sizeSub s.frameFilePathsSize 1)
      ∧ toInt (sizeSub s.frameFilePathsSize 1) < (s.frameFilePathsSize : ℤ)
    rw [hlast]
    omega
  · show 0 ≤ previousMark s ∧ previousMark s < (s.frameFilePathsSize : ℤ)
    obtain ⟨hr0, hr1, _⟩ := previousMark_range s (fun i hi => (hp i hi).1)
      (fun i hi => (hng i hi).1) h0
    omega
  · show 0 ≤ toInt (if toSizeT (nextMark s) < s.frameFilePathsSize then toSizeT (nextMark s)
          else sizeSub s.frameFilePathsSize 1)
      ∧ toInt (if toSizeT (nextMark s) < s.frameFilePathsSize then toSizeT (nextMark s)
          else sizeSub s.frameFilePathsSize 1) < (s.frameFilePathsSize : ℤ)
    obtain ⟨he0, he1, _⟩ := nextMark_range s (by omega) hn.le (fun i hi => (hp i hi).2)
      (fun i hi => (hng i hi).2) h0 h1
    rw [nextMark_clamp s.frameFilePathsSize (by omega) hn.le (nextMark s) (by omega) he1]
    split_ifs <;> omega

/-- With at least `FRAME_JUMP_SIZE` frames, the jump keys keep the session aligned. -/
theorem jumpKey_aligned (N : ℕ) (hN : 100 ≤ N) (hn : N < 2 ^ 31) (key : Char)
    (hkey : key = 'w' ∨ key = 'z' ∨ key = 'b' ∨ key = 'e' ∨ key = 'j' ∨ key = 'k')
    (s s' : Session) (hinv : SessionAligned N s)
    (h : treatKeyboardInput key s = some s') : SessionAligned N s' := by
  have ht := jumpTarget_range N hN hn key hkey s hinv
  obtain ⟨hsz, h0, h1, _, hp, hng⟩ := hinv
  subst hsz
  rw [jumpKey_eq_jumpToFrame key hkey] at h
  obtain ⟨s2, h2, hcur, href, _, _, _, hsz, _, _, hps, hns⟩ :=
    jumpToFrame_spec s (jumpTarget key s) hn ht.1 ht.2
  rw [h2] at h
  cases h
  exact sessionAligned_mk _ _ (jumpTarget key s) _ hsz hcur href ht.1 ht.2 rfl
    (by rw [hps]; exact hp) (by rw [hns]; exact hng)

/-- With at least `FRAME_JUMP_SIZE` frames, every key but the quit key keeps the session
aligned. -/
theorem key_aligned (N : ℕ) (hN : 100 ≤ N) (hn : N < 2 ^ 31) (key : Char)
    (hq : key ≠ 'q') (s s' : Session) (hinv : SessionAligned N s)
    (h : treatKeyboardInput key s = some s') : SessionAligned N s' := by
  by_cases hw : key = 'w'
  · exact jumpKey_aligned N hN hn key (Or.inl hw) s s' hinv h
  by_cases hz : key = 'z'
  · exact jumpKey_aligned N hN hn key (Or.inr (Or.inl hz)) s s' hinv h
  by_cases hb : key = 'b'
  · exact jumpKey_aligned N hN hn key (Or.inr (Or.inr (Or.inl hb))) s s' hinv h
  by_cases he : key = 'e'
  · exact jumpKey_aligned N hN hn key (Or.inr (Or.inr (Or.inr (Or.inl he)))) s s' hinv h
  by_cases hj : key = 'j'
  · exact jumpKey_aligned N hN hn key (Or.inr (Or.inr (Or.inr (Or.inr (Or.inl hj))))) s s'
      hinv h
  by_cases hk : key = 'k'
  · exact jumpKey_aligned N hN hn key (Or.inr (Or.inr (Or.inr (Or.inr (Or.inr hk))))) s s'
      hinv h
  by_cases ha : key = 'a'
  · subst ha
    exact stepBack_aligned N s s' hinv h
  by_cases hs : key = 's'
  · subst hs
    exact stepForward_aligned N (by omega) hn.le s s' hinv h
  unfold treatKeyboardInput at h
  rw [if_neg hq, if_neg ha, if_neg hs, if_neg hw, if_neg hz, if_neg hb, if_neg he, if_neg hj,
    if_neg hk] at h
  split_ifs at h <;> cases h <;> exact hinv

/-- The label overwrite keeps the session aligned. -/
theorem overwriteLabel_aligned (N : ℕ) (s : Session) (hinv : SessionAligned N s) :
    SessionAligned N (overwriteLabel s) := by
  obtain ⟨hsz, h0, h1, hal, hp, hng⟩ := hinv
  unfold overwriteLabel
  split_ifs
  · refine ⟨hsz, h0, h1, hal, fun i hi => ?_, fun i hi => ?_⟩
    · exact hp i ((mem_eraseFrame _ _ _).1 hi).1
    · rcases (mem_insertFrame _ _ _).1 hi with h | h
      · rw [h]; exact ⟨h0, h1⟩
      · exact hng i h
  · refine ⟨hsz, h0, h1, hal, fun i hi => ?_, fun i hi => ?_⟩
    · rcases (mem_insertFrame _ _ _).1 hi with h | h
      · rw [h]; exact ⟨h0, h1⟩
      · exact hp i h
    · exact hng i ((mem_eraseFrame _ _ _).1 hi).1
  · exact ⟨hsz, h0, h1, hal, hp, hng⟩

/-- The playback move keeps the session aligned. -/
theorem playbackMove_aligned (N : ℕ) (hn1 : 1 ≤ N) (hn : N ≤ 2 ^ 31) (s : Session)
    (hinv : SessionAligned N s) : SessionAligned N (playbackMove s) := by
  have hinv0 := hinv
  obtain ⟨hsz, h0, h1, hal, hp, hng⟩ := hinv
  subst hsz
  obtain ⟨hd, hw0, hw1⟩ := (windowAligned_iff s).1 hal
  have h64 : VIDEO_FRAME_BUFFERS_SIZE = 64 := rfl
  rw [h64] at hd hw1
  have hc := toSizeT_lt_sizeSub_one hn1 hn h0 h1
  unfold playbackMove
  rw [h64]
  by_cases hdel : s.videoShowingDelay > 0
  · rw [if_pos hdel]
    by_cases hf : s.playReverse = false
        ∧ toSizeT s.currentVideoFrameNumber < sizeSub s.frameFilePathsSize 1
        ∧ s.nextVideoFrameBuffer.isEmpty = false
    · rw [if_pos hf]
      have hlast := hc.1 hf.2.1
      by_cases hout : s.currentVideoFrameNumber + 1 ≥ s.refCurrentBufferedFrameNumber + 64
      · rw [if_pos hout]
        exact sessionAligned_mk _ _ (s.currentVideoFrameNumber + 1)
          (s.refCurrentBufferedFrameNumber + 64) rfl rfl
          (rotateForward_ref_eq _ s.frameFilePathsSize s.refCurrentBufferedFrameNumber rfl rfl
            hn (by omega) (by omega))
          (by omega) (by omega) (by omega) hp hng
      · rw [if_neg hout]
        exact sessionAligned_mk _ _ (s.currentVideoFrameNumber + 1)
          s.refCurrentBufferedFrameNumber rfl rfl rfl (by omega) (by omega) (by omega) hp hng
    · rw [if_neg hf]
      by_cases hr : s.playReverse = true ∧ s.currentVideoFrameNumber > 0
          ∧ s.previousVideoFrameBuffer.isEmpty = false
      · rw [if_pos hr]
        have hpos := hr.2.1
        by_cases hout : s.currentVideoFrameNumber - 1 < s.refCurrentBufferedFrameNumber
        · rw [if_pos hout]
          exact sessionAligned_mk _ _ (s.currentVideoFrameNumber - 1)
            (s.refCurrentBufferedFrameNumber - 64) rfl rfl
            (rotateBackward_ref_eq _ s.refCurrentBufferedFrameNumber rfl (by omega))
            (by omega) (by omega) (by omega) hp hng
        · rw [if_neg hout]
          exact sessionAligned_mk _ _ (s.currentVideoFrameNumber - 1)
            s.refCurrentBufferedFrameNumber rfl rfl rfl (by omega) (by omega) (by omega)
            hp hng
      · rw [if_neg hr]
        exact hinv0
  · rw [if_neg hdel]
    exact hinv0

/-- A pass of a buffer thread keeps the session aligned. -/
theorem loadVideoFrameBuffer_aligned (N : ℕ) (next : Bool) (s s' : Session)
    (hinv : SessionAligned N s) (h : loadVideoFrameBuffer next s = some s') :
    SessionAligned N s' := by
  unfold loadVideoFrameBuffer at h
  dsimp only at h
  split_ifs at h
  all_goals first
    | (cases h; exact hinv)
    | (obtain ⟨b, _, hb⟩ := Option.map_eq_some'.1 h
       rw [← hb]
       exact hinv)

/-- With at least `FRAME_JUMP_SIZE` frames, every event but the quit key keeps the session
aligned. -/
theorem applyEvent_aligned (N : ℕ) (hN : 100 ≤ N) (hn : N < 2 ^ 31) (e : SessionEvent)
    (hq : e ≠ SessionEvent.key 'q') (s s' : Session) (hinv : SessionAligned N s)
    (h : applyEvent e s = some s') : SessionAligned N s' := by
  cases e with
  | key c =>
    exact key_aligned N hN hn c (fun hc => hq (by rw [hc])) s s' hinv h
  | tick =>
    rcases renderTick_cases s s' h with h' | h'
    · rw [h']
      exact playbackMove_aligned N (by omega) hn.le _ (overwriteLabel_aligned N s hinv)
    · rw [h']
      exact hinv
  | fill next => exact loadVideoFrameBuffer_aligned N next s s' hinv h

/-- With at least `FRAME_JUMP_SIZE` frames, a sequence of events without the quit key
keeps the session aligned. -/
theorem runEvents_aligned (N : ℕ) (hN : 100 ≤ N) (hn : N < 2 ^ 31) :
    ∀ (events : List SessionEvent), (∀ e ∈ events, e ≠ SessionEvent.key 'q') →
      ∀ (s s' : Session), SessionAligned N s → runEvents events s = some s' →
        SessionAligned N s' := by
  intro events
  induction events with
  | nil =>
    intro _ s s' hinv hrun
    simp only [runEvents, Option.some.injEq] at hrun
    subst hrun
    exact hinv
  | cons e es ih =>
    intro hev s s' hinv hrun
    simp only [runEvents] at hrun
    cases hstep : applyEvent e s with
    | none => rw [hstep] at hrun; simp at hrun
    | some s1 =>
      rw [hstep] at hrun
      simp only [Option.some_bind] at hrun
      exact ih (fun e' he' => hev e' (List.mem_cons_of_mem _ he')) s1 s'
        (applyEvent_aligned N hN hn e (hev e (List.mem_cons_self _ _)) s s1 hinv hstep) hrun

/-- C33 (counterexample): at 25 frames per second the input line
`v 1 -0.04 0.08 event - e - f` seeds the negative set with the frames -1 and 0. The
session of a video of 100 frames that starts with these sets, on frame 0 with the
reference frame number 0, is taken by the keys `s` and `j` to the frame -1 with the
reference frame number 0: the frame number is below the reference frame number, and
`floor(-1 / 64) * 64 = -64` is not the reference frame number. -/
theorem window_alignment_negative_frame :
    seedLabelSets streamReadDouble "v" 25 100 (some ["v 1 -0.04 0.08 event - e - f"])
        = Except.ok ([], [-1, 0])
      ∧ (sessionStart 100 [] [-1, 0]).map
          (fun s => (s.frameFilePathsSize, s.currentVideoFrameNumber,
            s.refCurrentBufferedFrameNumber, s.positiveFrames, s.negativeFrames))
        = some (100, 0, 0, [], [-1, 0])
      ∧ ((sessionStart 100 [] [-1, 0]).bind
          (runEvents [SessionEvent.key 's', SessionEvent.key 'j'])).map
            (fun s => (s.currentVideoFrameNumber, s.refCurrentBufferedFrameNumber))
        = some (-1, 0)
      ∧ ¬ ((0 : ℤ) ≤ -1)
      ∧ ⌊((-1 : ℤ) : ℚ) / 64⌋ * 64 = -64 := by
  decide!

/-- C33 (alignment invariant): in a video of at least 100 frames whose labelled frames
are frames of the video, start on frame 0 with the reference frame number 0 and let any
sequence of keys other than the quit key, of rendered frames and of passes of the buffer
threads run to its end. Then the reference frame number is
`floor(currentVideoFrameNumber / 64) * 64`, the current frame number lies in the window
`[ref, ref + 64)` and in the video, the rotation that a step or a playback move out of the
window makes from there takes the branch that shifts the reference frame number by 64 and
never the one that maintains it, and the quit key leaves the window aligned. -/
theorem window_alignment_invariant (N : ℕ) (hN : 100 ≤ N) (hn : N < 2 ^ 31)
    (s0 : Session) (hsz : s0.frameFilePathsSize = N)
    (hc0 : s0.currentVideoFrameNumber = 0) (hr0 : s0.refCurrentBufferedFrameNumber = 0)
    (hpos : ∀ i ∈ s0.positiveFrames, 0 ≤ i ∧ i < (N : ℤ))
    (hneg : ∀ i ∈ s0.negativeFrames, 0 ≤ i ∧ i < (N : ℤ))
    (events : List SessionEvent) (hq : ∀ e ∈ events, e ≠ SessionEvent.key 'q')
    (s : Session) (hrun : runEvents events s0 = some s) :
    WindowAligned s
      ∧ s.refCurrentBufferedFrameNumber ≤ s.currentVideoFrameNumber
      ∧ s.currentVideoFrameNumber < s.refCurrentBufferedFrameNumber + VIDEO_FRAME_BUFFERS_SIZE
      ∧ 0 ≤ s.currentVideoFrameNumber ∧ s.currentVideoFrameNumber < (N : ℤ)
      ∧ (∀ s1 : Session, s1.frameFilePathsSize = s.frameFilePathsSize →
          s1.refCurrentBufferedFrameNumber = s.refCurrentBufferedFrameNumber →
          s.refCurrentBufferedFrameNumber + VIDEO_FRAME_BUFFERS_SIZE
            ≤ s.currentVideoFrameNumber + 1 →
          s.currentVideoFrameNumber + 1 < (N : ℤ) →
          (rotateForward s1).refCurrentBufferedFrameNumber
            = s.refCurrentBufferedFrameNumber + VIDEO_FRAME_BUFFERS_SIZE)
      ∧ (∀ s1 : Session,
          s1.refCurrentBufferedFrameNumber = s.refCurrentBufferedFrameNumber →
          s.currentVideoFrameNumber - 1 < s.refCurrentBufferedFrameNumber →
          0 < s.currentVideoFrameNumber →
          (rotateBackward s1).refCurrentBufferedFrameNumber
            = s.refCurrentBufferedFrameNumber - VIDEO_FRAME_BUFFERS_SIZE)
      ∧ (∀ s', treatKeyboardInput 'q' s = some s' → WindowAligned s') := by
  have hstart : SessionAligned N s0 :=
    sessionAligned_mk N s0 0 0 hsz hc0 hr0 le_rfl (by omega) (by norm_num) hpos hneg
  obtain ⟨hsz', h0, h1, hal, _, _⟩ := runEvents_aligned N hN hn events hq s0 s hstart hrun
  obtain ⟨hd, hw0, hw1⟩ := (windowAligned_iff s).1 hal
  have h64 : VIDEO_FRAME_BUFFERS_SIZE = 64 := rfl
  refine ⟨hal, hw0, hw1, h0, h1, fun s1 hs1 hr1 hout hlt => ?_, fun s1 hr1 hout hpos' => ?_,
    fun s' hs' => ?_⟩
  · rw [h64] at hd hw1 hout ⊢
    exact rotateForward_ref_eq s1 N s.refCurrentBufferedFrameNumber (by rw [hs1, hsz']) hr1
      hn.le (by omega) (by omega)
  · rw [h64] at hd hw1 ⊢
    exact rotateBackward_ref_eq s1 s.refCurrentBufferedFrameNumber hr1 (by omega)
  · cases hs'
    exact hal

theorem window_alignment_invariant_witness :
    runEvents [SessionEvent.key 'e'] (markSession 100 0 [] [])
        = some { frameFilePathsSize := 100, currentVideoFrameNumber := 99,
                 refCurrentBufferedFrameNumber := 64, videoShowingDelay := 0,
                 playReverse := false, overwriteLabels := false, currentLabel := 0,
                 currentVideoFrameBuffer := frameRange 64 100,
                 previousVideoFrameBuffer := [], nextVideoFrameBuffer := [],
                 positiveFrames := [], negativeFrames := [] }
      ∧ (64 : ℤ) = 99 / VIDEO_FRAME_BUFFERS_SIZE * VIDEO_FRAME_BUFFERS_SIZE :=
  ⟨rfl,
    (window_alignment_invariant 100 (by decide) (by decide) (markSession 100 0 [] [])
      rfl rfl rfl (fun i hi => absurd hi (List.not_mem_nil i))
      (fun i hi => absurd hi (List.not_mem_nil i))
      [SessionEvent.key 'e']
      (fun e he hc => by
        rw [List.mem_singleton] at he
        rw [he] at hc
        injection hc with hc'
        exact absurd hc' (by decide))
      { frameFilePathsSize := 100, currentVideoFrameNumber := 99,
        refCurrentBufferedFrameNumber := 64, videoShowingDelay := 0,
        playReverse := false, overwriteLabels := false, currentLabel := 0,
        currentVideoFrameBuffer := frameRange 64 100,
        previousVideoFrameBuffer := [], nextVideoFrameBuffer := [],
        positiveFrames := [], negativeFrames := [] } rfl).1⟩

/-! ## The threads and the mutexes -/

/-- Run alone, the statements of the rotation of the key `a` give `rotateBackward`. -/
theorem runStatements_rotateBackward (s : Session) :
    runStatements rotateBackwardStatements s = some (rotateBackward s) := rfl

/-- Run alone, the statements of the rotation of the key `s` give `rotateForward`. -/
theorem runStatements_rotateForward (s : Session) :
    runStatements rotateForwardStatements s = some (rotateForward s) := rfl

/-- Run alone, the statements of the backward rotation of the main loop give
`rotateBackward`. -/
theorem runStatements_renderRotateBackward (s : Session) :
    runStatements renderRotateBackwardStatements s = some (rotateBackward s) := rfl

/-- Run alone, the statements of the forward rotation of the main loop give
`rotateForward`. -/
theorem runStatements_renderRotateForward (s : Session) :
    runStatements renderRotateForwardStatements s = some (rotateForward s) := rfl

/-- Run alone, the statements of the key `a` give what `treatKeyboardInput` gives. -/
theorem runStatements_stepBack (s : Session) :
    runStatements stepBackStatements s = treatKeyboardInput 'a' s := by
  rw [treatKeyboardInput_a]
  by_cases hc : (if s.currentVideoFrameNumber > 0 then s.currentVideoFrameNumber - 1 else 0)
      < s.refCurrentBufferedFrameNumber
  · rw [if_pos hc]
    show (if decide ((if s.currentVideoFrameNumber > 0 then s.currentVideoFrameNumber - 1
        else 0) < s.refCurrentBufferedFrameNumber) = true then _ else _) = _
    rw [if_pos (decide_eq_true hc)]
    rfl
  · rw [if_neg hc]
    show (if decide ((if s.currentVideoFrameNumber > 0 then s.currentVideoFrameNumber - 1
        else 0) < s.refCurrentBufferedFrameNumber) = true then _ else _) = _
    rw [if_neg (by rw [decide_eq_true_eq]; exact hc)]

/-- Run alone, the statements of the key `s` give what `treatKeyboardInput` gives. -/
theorem runStatements_stepForward (s : Session) :
    runStatements stepForwardStatements s = treatKeyboardInput 's' s := by
  rw [treatKeyboardInput_s]
  by_cases hc : (if toSizeT s.currentVideoFrameNumber < sizeSub s.frameFilePathsSize 1
        then s.currentVideoFrameNumber + 1
        else toInt (sizeSub s.frameFilePathsSize 1))
      ≥ s.refCurrentBufferedFrameNumber + VIDEO_FRAME_BUFFERS_SIZE
  · rw [if_pos hc]
    show (if decide ((if toSizeT s.currentVideoFrameNumber < sizeSub s.frameFilePathsSize 1
        then s.currentVideoFrameNumber + 1
        else toInt (sizeSub s.frameFilePathsSize 1))
      ≥ s.refCurrentBufferedFrameNumber + VIDEO_FRAME_BUFFERS_SIZE) = true then _ else _) = _
    rw [if_pos (decide_eq_true hc)]
    rfl
  · rw [if_neg hc]
    show (if decide ((if toSizeT s.currentVideoFrameNumber < sizeSub s.frameFilePathsSize 1
        then s.currentVideoFrameNumber + 1
        else toInt (sizeSub s.frameFilePathsSize 1))
      ≥ s.refCurrentBufferedFrameNumber + VIDEO_FRAME_BUFFERS_SIZE) = true then _ else _) = _
    rw [if_neg (by rw [decide_eq_true_eq]; exact hc)]

/-- Run alone, the statements of a jump key give what `treatKeyboardInput` gives. -/
theorem runStatements_jump (key : Char)
    (hkey : key = 'w' ∨ key = 'z' ∨ key = 'b' ∨ key = 'e' ∨ key = 'j' ∨ key = 'k')
    (s : Session) : runStatements (jumpStatements key) s = treatKeyboardInput key s := by
  have hbind : ∀ o : Option Session, o.bind (runStatements []) = o := by
    intro o
    cases o <;> rfl
  rw [jumpKey_eq_jumpToFrame key hkey]
  show Option.bind _ (runStatements []) = _
  rw [hbind]
  rfl

/-- Run alone, the statements of a pass of a buffer thread give what
`loadVideoFrameBuffer` gives. -/
theorem runStatements_loadVideoFrameBuffer (next : Bool) (m : BufferMutex) (s : Session) :
    runStatements (loadVideoFrameBufferStatements next m) s = loadVideoFrameBuffer next s := by
  unfold loadVideoFrameBuffer
  by_cases hN : s.frameFilePathsSize = 0
  · rw [if_pos hN]
    show (if decide (s.frameFilePathsSize ≠ 0) = true then _ else _) = _
    rw [if_neg (by rw [decide_eq_true_eq]; exact not_not.2 hN)]
  · rw [if_neg hN]
    show (if decide (s.frameFilePathsSize ≠ 0) = true then _ else _) = _
    rw [if_pos (decide_eq_true hN)]
    cases next with
    | true =>
      show (if s.nextVideoFrameBuffer.isEmpty = true then _ else _) = _
      by_cases he : s.nextVideoFrameBuffer.isEmpty = true
      · rw [if_pos he]
        simp only [if_true, if_pos he]
        show (fillVideoFrameBuffer true s).bind _ = _
        cases hfill : fillVideoFrameBuffer true s with
        | none =>
          unfold fillVideoFrameBuffer at hfill
          simp only [if_true] at hfill
          rw [hfill]
          rfl
        | some s1 =>
          unfold fillVideoFrameBuffer at hfill
          simp only [if_true] at hfill
          rw [hfill]
          rfl
      · rw [if_neg he]
        simp only [if_true, if_neg he]
    | false =>
      show (if s.previousVideoFrameBuffer.isEmpty = true then _ else _) = _
      by_cases he : s.previousVideoFrameBuffer.isEmpty = true
      · rw [if_pos he]
        simp only [Bool.false_eq_true, if_false, if_pos he]
        show (fillVideoFrameBuffer false s).bind _ = _
        cases hfill : fillVideoFrameBuffer false s with
        | none =>
          unfold fillVideoFrameBuffer at hfill
          simp only [Bool.false_eq_true, if_false] at hfill
          rw [hfill]
          rfl
        | some s1 =>
          unfold fillVideoFrameBuffer at hfill
          simp only [Bool.false_eq_true, if_false] at hfill
          rw [hfill]
          rfl
      · rw [if_neg he]
        simp only [Bool.false_eq_true, if_false, if_neg he]

/-- C31 (the two mutexes): every rotation and every jump locks
`loadFramesIntoNextBufferMutex` first and `loadFramesIntoPreviousBufferMutex` second; a
rotation makes all its assignments with both held, a jump loads the current buffer after
both are released; a buffer thread tests `frameBuffer->empty()` with no mutex held. In a
session of 200 frames reached by the keys `w` and `j` and one pass of each buffer thread,
the key `a` on frame 64 rotates backward: after `nextVideoFrameBuffer->clear()`, with both
mutexes held by the main thread, the next buffer is empty while the reference frame number
is still 64; the thread of the next buffer passes its test there and then waits for its
mutex; when the rotation is over it appends the frames 64 to 127 to the next buffer, which
the rotation has filled with these very frames, so that the buffer ends with 128 frames.
Run without interleaving, the same statements leave 64 frames in it. -/
theorem prefetch_test_outside_lock :
    (lockOrder rotateBackwardStatements
        = [BufferMutex.loadFramesIntoNextBufferMutex,
            BufferMutex.loadFramesIntoPreviousBufferMutex]
      ∧ lockOrder rotateForwardStatements
        = [BufferMutex.loadFramesIntoNextBufferMutex,
            BufferMutex.loadFramesIntoPreviousBufferMutex]
      ∧ lockOrder renderRotateBackwardStatements
        = [BufferMutex.loadFramesIntoNextBufferMutex,
            BufferMutex.loadFramesIntoPreviousBufferMutex]
      ∧ lockOrder renderRotateForwardStatements
        = [BufferMutex.loadFramesIntoNextBufferMutex,
            BufferMutex.loadFramesIntoPreviousBufferMutex]
      ∧ ∀ key, lockOrder (jumpStatements key)
        = [BufferMutex.loadFramesIntoNextBufferMutex,
            BufferMutex.loadFramesIntoPreviousBufferMutex])
    ∧ (mutexesHeld [] rotateBackwardStatements
        = List.replicate 6 [BufferMutex.loadFramesIntoNextBufferMutex,
            BufferMutex.loadFramesIntoPreviousBufferMutex]
      ∧ mutexesHeld [] rotateForwardStatements
        = List.replicate 6 [BufferMutex.loadFramesIntoNextBufferMutex,
            BufferMutex.loadFramesIntoPreviousBufferMutex]
      ∧ (∀ key, mutexesHeld [] (jumpStatements key)
        = List.replicate 7 [BufferMutex.loadFramesIntoNextBufferMutex,
            BufferMutex.loadFramesIntoPreviousBufferMutex] ++ [[]])
      ∧ mutexesHeld []
          (loadVideoFrameBufferStatements true BufferMutex.loadFramesIntoNextBufferMutex)
        = [[], [], [BufferMutex.loadFramesIntoNextBufferMutex]])
    ∧ (sessionStart 200 [] (frameRange 64 100)).bind
        (runEvents [SessionEvent.key 'w', SessionEvent.key 'j', SessionEvent.fill false,
          SessionEvent.fill true]) = some filledSession
    ∧ (runSchedule (List.replicate 7 SessionThread.mainThread)
        (stepBackThreads filledSession)).map SessionThreads.windows
        = some (frameRange 0 64, frameRange 64 128, [], 64,
            some SessionThread.mainThread, some SessionThread.mainThread)
    ∧ (runSchedule (List.replicate 7 SessionThread.mainThread
          ++ List.replicate 2 SessionThread.nextBufferThread)
        (stepBackThreads filledSession)).map
          (fun st => (st.nextThreadStatements.length, st.windows))
        = some (3, frameRange 0 64, frameRange 64 128, [], 64,
            some SessionThread.mainThread, some SessionThread.mainThread)
    ∧ (runSchedule (List.replicate 7 SessionThread.mainThread
          ++ List.replicate 3 SessionThread.nextBufferThread)
        (stepBackThreads filledSession)).map SessionThreads.windows = none
    ∧ (runSchedule (List.replicate 7 SessionThread.mainThread
          ++ List.replicate 2 SessionThread.nextBufferThread
          ++ List.replicate 7 SessionThread.mainThread
          ++ List.replicate 3 SessionThread.nextBufferThread)
        (stepBackThreads filledSession)).map SessionThreads.windows
        = some ([], frameRange 0 64, frameRange 64 128 ++ frameRange 64 128, 0, none, none)
    ∧ ((treatKeyboardInput 'a' filledSession).bind (loadVideoFrameBuffer true)).map
          (fun s => (s.previousVideoFrameBuffer, s.currentVideoFrameBuffer,
            s.nextVideoFrameBuffer, s.refCurrentBufferedFrameNumber))
        = some ([], frameRange 0 64, frameRange 64 128, 0) :=
  ⟨⟨rfl, rfl, rfl, rfl, fun _ => rfl⟩, ⟨rfl, rfl, fun _ => rfl, rfl⟩, rfl, rfl, rfl, rfl,
    rfl, rfl⟩

end FrameLabeler
